import Mathlib

/-!
# Verification of the cc-glm proxy core

Shallow embedding of the cc-glm routing proxy (TypeScript) in Lean 4, together
with proofs and refutations of the specification's claims.

Embedded components, translated from the source:
* `src/proxy/signature-store.ts` — the LRU `SignatureStore` (Map-based variant:
  insertion-ordered map with delete-then-insert promotion and constructor
  validation, which is the variant exercised by the repository's unit tests).
* `src/proxy/router.ts` — `globToRegExp` and `selectRoute`.
* `src/proxy/server.ts` — `parseConnectionHeader` and `buildForwardHeaders`.
* `src/proxy/transform.ts` — `sanitizeContentBlocksWithStore` and its helpers,
  over a JSON value model with an executable parser and printer standing in for
  `JSON.parse` / `JSON.stringify`.
* `src/lifecycle/singleton.ts` — the signal-emission structure of `stop()`.
-/

namespace CcGlm

/-! ## JavaScript number arguments and the store constructor -/
/-- A JavaScript number as observed by `Number.isInteger` and `<`:
NaN, one of the two infinities, or a finite value (modelled exactly as a
rational; IEEE-754 rounding performs no role in the store constructor). -/
inductive JSNum where
  | nan
  | posInf
  | negInf
  | fin (q : ℚ)
deriving DecidableEq

/-- `Number.isInteger(x)`: `x` is finite with no fractional part. -/
def JSNum.isInteger : JSNum → Bool
  | .fin q => q.den == 1
  | _ => false

/-- The JS comparison `x < 1` (false for NaN and `+Infinity`). -/
def JSNum.ltOne : JSNum → Bool
  | .fin q => decide (q < 1)
  | .negInf => true
  | _ => false

/-- `DEFAULT_MAX_SIZE` from `signature-store.ts`. -/
def DEFAULT_MAX_SIZE : Nat := 1000

/-- The `SignatureStore` constructor's capacity validation:
`if (!Number.isInteger(maxSize) || maxSize < 1) { this.maxSize = DEFAULT_MAX_SIZE }
else { this.maxSize = maxSize }`. -/
def validateMaxSize (maxSize : JSNum) : Nat :=
  if !maxSize.isInteger || maxSize.ltOne then DEFAULT_MAX_SIZE
  else
    match maxSize with
    | .fin q => q.num.toNat
    | _ => DEFAULT_MAX_SIZE

/-! ## The signature store

`SignatureStore` uses a JS `Map` whose iteration order is insertion order;
deleting and re-inserting a key moves it to the end.  We model the map as the
list of its keys in insertion order: the head is the least recently used key. -/
structure SignatureStore where
  maxSize : Nat
  /-- Map keys in insertion order; the head is the least recently used. -/
  items : List String
deriving DecidableEq

/-- `new SignatureStore(maxSize)`. -/
def newSignatureStore (maxSize : JSNum) : SignatureStore :=
  { maxSize := validateMaxSize maxSize, items := [] }

/-- `SignatureStore.add`: ignore empty keys; re-adding an existing key promotes
it to most recent (delete then set); adding a fresh key at capacity first
evicts the least recently used key (the first key in map order). -/
def SignatureStore.add (st : SignatureStore) (signature : String) : SignatureStore :=
  if signature = "" then st
  else if signature ∈ st.items then
    { st with items := st.items.erase signature ++ [signature] }
  else if st.maxSize ≤ st.items.length then
    { st with items := st.items.drop 1 ++ [signature] }
  else
    { st with items := st.items ++ [signature] }

/-- `SignatureStore.has`: an empty key is never present; a hit promotes the key
to most recent (delete then set). Returns the answer and the updated store. -/
def SignatureStore.has (st : SignatureStore) (signature : String) : Bool × SignatureStore :=
  if signature = "" then (false, st)
  else if signature ∈ st.items then
    (true, { st with items := st.items.erase signature ++ [signature] })
  else (false, st)

/-- `SignatureStore.size` (the map's entry count). -/
def SignatureStore.size (st : SignatureStore) : Nat := st.items.length

/-- `SignatureStore.clear`. -/
def SignatureStore.clear (st : SignatureStore) : SignatureStore :=
  { st with items := [] }

/-- One externally visible store operation. -/
inductive StoreOp where
  | add (s : String)
  | has (s : String)

/-- Apply one operation to the store. -/
def SignatureStore.stepOp (st : SignatureStore) : StoreOp → SignatureStore
  | .add s => st.add s
  | .has s => (st.has s).2

/-- The keys *accessed* by one operation in state `st`, in the sense of the
LRU access-order relation: an `add` of a non-empty key accesses it (whether
fresh or a promotion), a `has` hit accesses (promotes) it, and a `has` miss or
an empty key accesses nothing. -/
def SignatureStore.opAccess (st : SignatureStore) : StoreOp → List String
  | .add s => if s = "" then [] else [s]
  | .has s => if s = "" then [] else if s ∈ st.items then [s] else []

/-- Run a sequence of operations, accumulating the chronological access list. -/
def runStoreJoint (st : SignatureStore) (acc : List String) :
    List StoreOp → SignatureStore × List String
  | [] => (st, acc)
  | op :: ops => runStoreJoint (st.stepOp op) (acc ++ st.opAccess op) ops

/-- Distinct elements of a list, keeping the first occurrence of each. -/
def dedupFirst : List String → List String
  | [] => []
  | a :: l => a :: (dedupFirst l).filter (fun b => b != a)

/-- The retained-set specification of an access-order LRU of capacity `m`:
the last `m` distinct accessed keys, most recent first. -/
def lruSpec (m : Nat) (accesses : List String) : List String :=
  (dedupFirst accesses.reverse).take m

/-! ### The LRU invariant and claim C4 -/
/-- The LRU invariant: the store's keys, most recent first, are exactly the
last `maxSize` distinct accessed keys. -/
def storeInv (st : SignatureStore) (acc : List String) : Prop :=
  st.items.reverse = lruSpec st.maxSize acc

/-! ### Claim C8: constructor capacity validation -/
/-- Plain run of store operations (without the access trace). -/
def SignatureStore.runOps (st : SignatureStore) (ops : List StoreOp) : SignatureStore :=
  ops.foldl SignatureStore.stepOp st

/-! ## Claim C9: `SingletonProxy.stop()` signals only verified PIDs

`stop()` (src/lifecycle/singleton.ts) is event-driven and effectful; we model
one execution as the trace of its externally visible events, driven by an
oracle for the PID file and the outcomes of the external checks.  Real-time
interleavings between a check and the following signal are outside the model. -/
/-- Events observable during one execution of `stop()`. -/
inductive StopEvent where
  | verify (pid : Int) (ok : Bool)
  | sigterm (pid : Int)
  | sigkill (pid : Int)
  | removePidFile
deriving DecidableEq

/-- Oracle for one execution of `stop()`: the PID file's parsed content and
the outcomes of the external checks, in the order the code performs them. -/
structure StopEnv where
  pidFile : Option Int
  portListening1 : Bool
  pidAlive1 : Bool
  lsofMatch1 : Bool
  aliveAfterPoll : Bool
  portListening2 : Bool
  pidAlive2 : Bool
  lsofMatch2 : Bool

/-- `verifyPidOwnsPort`: the port is listening, the PID is alive, and `lsof`
reports that specific PID as the listener — all three are required. -/
def verifyResult (portListening pidAlive lsofMatch : Bool) : Bool :=
  portListening && pidAlive && lsofMatch

/-- The event trace of `stop()`: read the PID; if it is `> 0`, verify port
ownership; on success send SIGTERM and poll for exit; if the process is still
alive, re-verify ownership before sending SIGKILL; always remove the PID
file. -/
def stopTrace (env : StopEnv) : List StopEvent :=
  match env.pidFile with
  | none => [.removePidFile]
  | some pid =>
    if pid > 0 then
      let v1 := verifyResult env.portListening1 env.pidAlive1 env.lsofMatch1
      StopEvent.verify pid v1 ::
        ((if v1 then
            StopEvent.sigterm pid ::
              (if env.aliveAfterPoll then
                let v2 := verifyResult env.portListening2 env.pidAlive2 env.lsofMatch2
                StopEvent.verify pid v2 :: (if v2 then [StopEvent.sigkill pid] else [])
              else [])
          else []) ++ [StopEvent.removePidFile])
    else [.removePidFile]

/-! ## Claim C5: `globToRegExp` versus whole-string glob matching

`globToRegExp` (src/proxy/router.ts) escapes `[.+^$\x7b\x7d()|[\]\\]`,
replaces `*` by `.*`, and anchors with `^`/`$`.  We embed the two replaces
literally, then give the produced regex fragment its JS semantics via a small
AST: an unescaped `?` in the pattern acts as the JS optional quantifier, `.`
does not match line terminators, and a quantifier with nothing to repeat is a
`SyntaxError` (`none`).  Lazy quantifiers (`*?`, `??`) accept the same
language as their greedy forms, which is all the fully anchored `test` can
observe. -/
/-- The characters escaped by `globToRegExp`'s first replace. -/
def regexEscapeSet : List Char :=
  ['.', '+', '^', '$', '\x7b', '\x7d', '(', ')', '|', '[', ']', '\\']

/-- One pattern character after both replaces: metacharacters are
backslash-escaped, `*` becomes `.*`, anything else is kept. -/
def globCharToRegexChars (c : Char) : List Char :=
  if c = '*' then ['.', '*']
  else if c ∈ regexEscapeSet then ['\\', c]
  else [c]

/-- The regex source built by `globToRegExp`, between the `^` and `$`. -/
def globRegexBody (pattern : String) : List Char :=
  pattern.data.flatMap globCharToRegexChars

/-- An atom of the regexes `globToRegExp` can produce: an (escaped or plain)
literal character, or `.`. -/
inductive RAtom where
  | lit (c : Char)
  | dot
deriving DecidableEq

/-- A quantifier on an atom: exactly once, `?` (at most once) or `*`. -/
inductive RQuant where
  | one
  | opt
  | star
deriving DecidableEq

/-- Parse one atom of the regex source.  `none` models the `SyntaxError`
`new RegExp` raises on a quantifier with nothing to repeat or a dangling
backslash. -/
def parseRAtom : List Char → Option (RAtom × List Char)
  | [] => none
  | c :: rest =>
    if c = '\\' then
      match rest with
      | c' :: rest' => some (.lit c', rest')
      | [] => none
    else if c = '.' then some (.dot, rest)
    else if c = '*' then none
    else if c = '?' then none
    else some (.lit c, rest)

/-- Parse the quantifier following an atom; the lazy forms `*?` and `??`
keep the same language. -/
def parseRQuant : List Char → RQuant × List Char
  | [] => (.one, [])
  | c :: rest =>
    if c = '*' then
      match rest with
      | '?' :: rest' => (.star, rest')
      | _ => (.star, rest)
    else if c = '?' then
      match rest with
      | '?' :: rest' => (.opt, rest')
      | _ => (.opt, rest)
    else (.one, c :: rest)

/-- Parse a sequence of quantified atoms (fuel-indexed; the fuel is at least
the input length at every top-level use). -/
def parseRItems : Nat → List Char → Option (List (RAtom × RQuant))
  | _, [] => some []
  | 0, _ :: _ => none
  | fuel + 1, c :: cs => do
    let (a, rest) ← parseRAtom (c :: cs)
    let (q, rest') := parseRQuant rest
    let items ← parseRItems fuel rest'
    some ((a, q) :: items)

/-- `globToRegExp(pattern)`: the compiled, fully anchored matcher, as its
item list; `none` models a thrown `SyntaxError`. -/
def globToRegExp (pattern : String) : Option (List (RAtom × RQuant)) :=
  parseRItems (globRegexBody pattern).length (globRegexBody pattern)

/-- JS line terminators, which `.` does not match. -/
def isLineTerminator (c : Char) : Bool :=
  c = '\n' || c = '\r' || c = '\u2028' || c = '\u2029'

/-- Does an atom match one character? -/
def ratomMatch : RAtom → Char → Bool
  | .lit c, x => x = c
  | .dot, x => !isLineTerminator x

/-- Whole-string matching of a quantified-atom sequence, fuel-indexed so that
it is structurally recursive (every step shortens `items` or the string, so
`items.length + s.length + 1` fuel always suffices; see `rmatch`). -/
def rmatchF : Nat → List (RAtom × RQuant) → List Char → Bool
  | 0, _, _ => false
  | _ + 1, [], s => s.isEmpty
  | fuel + 1, (a, .one) :: r, s =>
    match s with
    | [] => false
    | x :: s' => ratomMatch a x && rmatchF fuel r s'
  | fuel + 1, (a, .opt) :: r, s =>
    rmatchF fuel r s ||
      (match s with
        | [] => false
        | x :: s' => ratomMatch a x && rmatchF fuel r s')
  | fuel + 1, (a, .star) :: r, s =>
    rmatchF fuel r s ||
      (match s with
        | [] => false
        | x :: s' => ratomMatch a x && rmatchF fuel ((a, .star) :: r) s')

/-- Whole-string matching of a quantified-atom sequence (the anchored
`test`). -/
def rmatch (r : List (RAtom × RQuant)) (s : List Char) : Bool :=
  rmatchF (r.length + s.length + 1) r s

/-- `globToRegExp(pattern).test(s)` when compilation succeeds. -/
def regexTest (pattern s : String) : Bool :=
  match globToRegExp pattern with
  | some items => rmatch items s.data
  | none => false

/-- Whole-string glob matching as the specification defines it: a literal
character matches itself and `*` matches any characters including none; the
empty pattern matches only the empty string. -/
inductive GlobMatch : List Char → List Char → Prop
  | nil : GlobMatch [] []
  | lit {p s : List Char} {c : Char} (hc : c ≠ '*') (h : GlobMatch p s) :
      GlobMatch (c :: p) (c :: s)
  | star {p s : List Char} (w : List Char) (h : GlobMatch p s) :
      GlobMatch ('*' :: p) (w ++ s)

/-- The item list a `?`-free glob compiles to. -/
def globItemsL (p : List Char) : List (RAtom × RQuant) :=
  p.map fun c => if c = '*' then (RAtom.dot, RQuant.star) else (RAtom.lit c, RQuant.one)

/-! ## Claim C6: `selectRoute`

`selectRoute` (src/proxy/router.ts) walks the routing rules in order, skips
rules with an invalid upstream name, and tests each remaining rule's pattern
via `globToRegExp(...).test(...)`.  A pattern whose compilation throws (a
misplaced `?` quantifier) propagates as an exception, modelled as
`.error ()`. -/
/-- A routing rule (`config.routing.rules[]`).  The source field `match` is a
Lean keyword, so it is named `matchPat` here. -/
structure Rule where
  matchPat : String
  upstream : String
  model : Option String := none
deriving DecidableEq

/-- The slice of the configuration that `selectRoute` reads:
`routing.rules`, `routing.default`, and the two upstream entries. -/
structure Config where
  rules : List Rule
  routingDefault : String
  anthropicUrl : String
  zaiUrl : String
  zaiApiKey : Option String := none
deriving DecidableEq

/-- A route descriptor. -/
structure Route where
  name : String
  url : String
  apiKey : Option String := none
  model : Option String := none
deriving DecidableEq

/-- `isValidUpstream`: membership in `VALID_UPSTREAMS`. -/
def isValidUpstream (name : String) : Bool :=
  name = "anthropic" || name = "zai"

/-- The rule loop of `selectRoute`: first matching rule wins; invalid
upstream names are skipped; a pattern that fails to compile raises. -/
def selectRouteRules (modelToMatch : String) (cfg : Config) :
    List Rule → Except Unit (Option Route)
  | [] => .ok none
  | rule :: rest =>
    if isValidUpstream rule.upstream then
      match globToRegExp rule.matchPat with
      | none => .error ()
      | some items =>
        if rmatch items modelToMatch.data then
          if rule.upstream = "anthropic" then
            .ok (some { name := "anthropic", url := cfg.anthropicUrl,
                        model := rule.model })
          else
            .ok (some { name := "zai", url := cfg.zaiUrl,
                        apiKey := cfg.zaiApiKey, model := rule.model })
        else selectRouteRules modelToMatch cfg rest
    else selectRouteRules modelToMatch cfg rest

/-- `selectRoute(model, config)`: an absent model is matched as `""`; when no
rule matches, fall back to `routing.default`; an invalid default falls back
to anthropic's URL with no apiKey. -/
def selectRoute (model : Option String) (cfg : Config) : Except Unit Route :=
  match selectRouteRules (model.getD "") cfg cfg.rules with
  | .error e => .error e
  | .ok (some route) => .ok route
  | .ok none =>
    if !isValidUpstream cfg.routingDefault then
      .ok { name := "anthropic", url := cfg.anthropicUrl }
    else if cfg.routingDefault = "anthropic" then
      .ok { name := "anthropic", url := cfg.anthropicUrl }
    else
      .ok { name := "zai", url := cfg.zaiUrl, apiKey := cfg.zaiApiKey }

/-- The claim's rule predicate: valid upstream name and matching pattern. -/
def ruleMatches (modelToMatch : String) (r : Rule) : Bool :=
  isValidUpstream r.upstream && regexTest r.matchPat modelToMatch

/-- The route descriptor populated for an upstream name, per the claim:
anthropic's URL and no apiKey, or zai's URL and apiKey. -/
def routeForUpstream (cfg : Config) (name : String) (model : Option String) : Route :=
  if name = "anthropic" then
    { name := "anthropic", url := cfg.anthropicUrl, model := model }
  else
    { name := "zai", url := cfg.zaiUrl, apiKey := cfg.zaiApiKey, model := model }

/-- The claim's description of route selection: the first rule in declared
order with a valid upstream and a matching pattern; otherwise the configured
default with no model rewrite; an invalid default yields anthropic's URL with
no apiKey. -/
def selectRouteSpec (model : Option String) (cfg : Config) : Route :=
  match cfg.rules.find? (ruleMatches (model.getD "")) with
  | some r => routeForUpstream cfg r.upstream r.model
  | none =>
    if isValidUpstream cfg.routingDefault then
      routeForUpstream cfg cfg.routingDefault none
    else { name := "anthropic", url := cfg.anthropicUrl }

/-! ## Claim C3: forward-header policy

`buildForwardHeaders` (src/proxy/server.ts) copies the inbound headers,
dropping the closed hop-by-hop set, the names listed in the `Connection`
header, the forwarding/identity security set and `host`; it forces
`accept-encoding: identity`, recomputes `content-length` for rewritten
bodies, and for upstream zai deletes `authorization` and sets `x-api-key`.
Node lowercases incoming header names and joins duplicates, so lowercase,
duplicate-free keys are hypotheses of the claim theorem. -/
/-- A header value as Node delivers it: a string or a string array. -/
inductive HVal where
  | str (s : String)
  | arr (vs : List String)
deriving DecidableEq

/-- ASCII lowercasing (`toLowerCase` on the ASCII header names involved). -/
def lowerAscii (s : String) : String := String.mk (s.data.map Char.toLower)

/-- Whitespace trimmed by JS `trim` (ASCII subset). -/
def isJsWs (c : Char) : Bool :=
  c = ' ' || c = '\t' || c = '\n' || c = '\r' || c = '\x0b' || c = '\x0c'

/-- JS `String.prototype.trim` (ASCII whitespace). -/
def jsTrim (s : String) : String :=
  String.mk (((s.data.dropWhile isJsWs).reverse.dropWhile isJsWs).reverse)

/-- The closed hop-by-hop set (`HOP_BY_HOP_HEADERS`). -/
def HOP_BY_HOP_HEADERS : List String :=
  ["connection", "keep-alive", "proxy-authenticate", "proxy-authorization",
    "te", "trailers", "transfer-encoding", "upgrade", "proxy-connection"]

/-- The forwarding/identity spoofing set (`SECURITY_HEADERS_TO_REMOVE`). -/
def SECURITY_HEADERS_TO_REMOVE : List String :=
  ["x-forwarded-for", "x-forwarded-host", "x-forwarded-proto",
    "x-forwarded-port", "x-real-ip", "forwarded"]

/-- Property lookup on a JS object modelled as an ordered association list. -/
def hlookup : List (String × HVal) → String → Option HVal
  | [], _ => none
  | (k, v) :: rest, key => if k = key then some v else hlookup rest key

/-- `obj[k] = v`: replace in place when the key exists, else append. -/
def objSetH : List (String × HVal) → String → HVal → List (String × HVal)
  | [], k, v => [(k, v)]
  | (k', v') :: rest, k, v =>
    if k' = k then (k', v) :: rest else (k', v') :: objSetH rest k v

/-- `delete obj[k]`. -/
def objDelH : List (String × HVal) → String → List (String × HVal)
  | [], _ => []
  | (k', v') :: rest, k =>
    if k' = k then objDelH rest k else (k', v') :: objDelH rest k

/-- JS truthiness of a header value (`""` is falsy; arrays are truthy). -/
def hvalTruthy : HVal → Bool
  | .str s => s ≠ ""
  | .arr _ => true

/-- `parseConnectionHeader`: split each string value on commas, trim and
lowercase each name, keep the non-empty ones. -/
def splitOnComma : List Char → List (List Char)
  | [] => [[]]
  | c :: rest =>
    if c = ',' then [] :: splitOnComma rest
    else match splitOnComma rest with
      | [] => [[c]]
      | g :: gs => (c :: g) :: gs

def parseConnectionHeader (connection : Option HVal) : List String :=
  let values : List String :=
    match connection with
    | none => []
    | some (.str s) => [s]
    | some (.arr vs) => vs
  values.flatMap fun value =>
    (((splitOnComma value.data).map
        (fun h => lowerAscii (jsTrim (String.mk h)))).filter
      (fun h => h != ""))

/-- The filtering step of `buildForwardHeaders`' copy loop (the source
computes `keyLower` once per iteration; written out here for each test). -/
def forwardStep (conn : List String) (bodyLen : Nat) (bodyWasRewritten : Bool)
    (acc : List (String × HVal)) (kv : String × HVal) : List (String × HVal) :=
  if lowerAscii kv.1 ∈ HOP_BY_HOP_HEADERS then acc
  else if lowerAscii kv.1 ∈ conn then acc
  else if lowerAscii kv.1 ∈ SECURITY_HEADERS_TO_REMOVE then acc
  else if lowerAscii kv.1 = "host" then acc
  else if lowerAscii kv.1 = "content-length" ∧ bodyWasRewritten then
    objSetH acc kv.1 (.str (toString bodyLen))
  else objSetH acc kv.1 kv.2

/-- `buildForwardHeaders`. -/
def buildForwardHeaders (reqHeaders : List (String × HVal)) (target : Route)
    (bodyLen : Nat) (bodyWasRewritten : Bool) : List (String × HVal) :=
  let connectionHeaders := parseConnectionHeader (hlookup reqHeaders "connection")
  let base := reqHeaders.foldl (forwardStep connectionHeaders bodyLen bodyWasRewritten) []
  let withAE := objSetH base "accept-encoding" (.str "identity")
  let clMissing : Bool :=
    match hlookup withAE "content-length" with
    | none => true
    | some v => !hvalTruthy v
  let withCL :=
    if bodyWasRewritten && clMissing then
      objSetH withAE "content-length" (.str (toString bodyLen))
    else withAE
  if target.name = "zai" then
    let afterDel := objDelH withCL "authorization"
    match target.apiKey with
    | some key => if key ≠ "" then objSetH afterDel "x-api-key" (.str key) else afterDel
    | none => afterDel
  else withCL

/-- The removal condition of the claim: hop-by-hop, `Connection`-listed,
security set, or `host`. -/
def removedByFilter (connectionHeaders : List String) (k : String) : Bool :=
  k ∈ HOP_BY_HOP_HEADERS || k ∈ connectionHeaders
    || k ∈ SECURITY_HEADERS_TO_REMOVE || k = "host"

/-- The zai adjustment at the end of `buildForwardHeaders`: delete
`authorization`, then set `x-api-key` when a non-empty key is configured. -/
def zaiAdjust (headers : List (String × HVal)) : Option String → List (String × HVal)
  | some key =>
    if key ≠ "" then objSetH (objDelH headers "authorization") "x-api-key" (.str key)
    else objDelH headers "authorization"
  | none => objDelH headers "authorization"

mutual
/-- JSON values as produced by `JSON.parse`. Numbers are carried as their
source lexemes (`JSON.parse` turns a lexeme into a double and
`JSON.stringify` re-prints it canonically; the pipeline under study never
inspects or creates numbers, so the lexeme stands in for the double). -/
inductive JValue where
  | null
  | bool (b : Bool)
  | num (lexeme : String)
  | str (s : String)
  | arr (elems : JList)
  | obj (fields : JFields)
/-- A JSON array's element list. -/
inductive JList where
  | nil
  | cons (hd : JValue) (tl : JList)
/-- A JSON object's field list, in property order. -/
inductive JFields where
  | nil
  | cons (key : String) (val : JValue) (tl : JFields)
end

mutual
def beqJ : JValue → JValue → Bool
  | .null, .null => true
  | .bool a, .bool b => a = b
  | .num a, .num b => a = b
  | .str a, .str b => a = b
  | .arr a, .arr b => beqJL a b
  | .obj a, .obj b => beqJF a b
  | _, _ => false
def beqJL : JList → JList → Bool
  | .nil, .nil => true
  | .cons a as, .cons b bs => beqJ a b && beqJL as bs
  | _, _ => false
def beqJF : JFields → JFields → Bool
  | .nil, .nil => true
  | .cons k a as, .cons k2 b bs => k = k2 && beqJ a b && beqJF as bs
  | _, _ => false
end

mutual
theorem beqJ_iff : ∀ a b : JValue, beqJ a b = true ↔ a = b
  | .null, b => by cases b <;> simp [beqJ]
  | .bool x, b => by cases b <;> simp [beqJ]
  | .num x, b => by cases b <;> simp [beqJ]
  | .str x, b => by cases b <;> simp [beqJ]
  | .arr xs, b => by cases b <;> simp [beqJ, beqJL_iff xs]
  | .obj fs, b => by cases b <;> simp [beqJ, beqJF_iff fs]
theorem beqJL_iff : ∀ a b : JList, beqJL a b = true ↔ a = b
  | .nil, b => by cases b <;> simp [beqJL]
  | .cons x xs, b => by
      cases b <;> simp [beqJL, beqJ_iff x, beqJL_iff xs]
theorem beqJF_iff : ∀ a b : JFields, beqJF a b = true ↔ a = b
  | .nil, b => by cases b <;> simp [beqJF]
  | .cons k x xs, b => by
      cases b <;> simp [beqJF, beqJ_iff x, beqJF_iff xs, and_assoc]
end

instance : DecidableEq JValue := fun a b =>
  decidable_of_iff (beqJ a b = true) (beqJ_iff a b)

instance : DecidableEq JList := fun a b =>
  decidable_of_iff (beqJL a b = true) (beqJL_iff a b)

instance : DecidableEq JFields := fun a b =>
  decidable_of_iff (beqJF a b = true) (beqJF_iff a b)

def JList.toList : JList → List JValue
  | .nil => []
  | .cons v tl => v :: tl.toList

def JList.ofList : List JValue → JList
  | [] => .nil
  | v :: tl => .cons v (JList.ofList tl)

def JFields.toList : JFields → List (String × JValue)
  | .nil => []
  | .cons k v tl => (k, v) :: tl.toList

mutual
def jsizeV : JValue → Nat
  | .arr es => jsizeL es + 1
  | .obj fs => jsizeF fs + 1
  | _ => 1
def jsizeL : JList → Nat
  | .nil => 0
  | .cons v tl => jsizeV v + jsizeL tl
def jsizeF : JFields → Nat
  | .nil => 0
  | .cons _ v tl => jsizeV v + jsizeF tl
end

/-- JS property read `o[key]` on an object: `none` is `undefined`. -/
def objGet : JFields → String → Option JValue
  | .nil, _ => none
  | .cons k v tl, key => if k = key then some v else objGet tl key

/-- JS property write `o[key] = v` / spread override `\x7b...o, key: v\x7d` on an
object with unique keys: replace the value at the key's position if present,
else append the key last. -/
def objSet : JFields → String → JValue → JFields
  | .nil, key, v => .cons key v .nil
  | .cons k v0 tl, key, v =>
    if k = key then .cons k v tl else .cons k v0 (objSet tl key v)

/-- Hex digit printing (lowercase, as `JSON.stringify` emits). -/
def hexDigit (n : Nat) : Char :=
  if n < 10 then Char.ofNat (48 + n) else Char.ofNat (87 + n)

/-- `JSON.stringify`'s escaping of one character inside a string literal. -/
def escapeJChar (c : Char) : List Char :=
  if c = '"' then ['\\', '"']
  else if c = '\\' then ['\\', '\\']
  else if c = '\x08' then ['\\', 'b']
  else if c = '\t' then ['\\', 't']
  else if c = '\n' then ['\\', 'n']
  else if c = '\x0c' then ['\\', 'f']
  else if c = '\r' then ['\\', 'r']
  else if c.toNat < 32 then
    ['\\', 'u', '0', '0', hexDigit (c.toNat / 16), hexDigit (c.toNat % 16)]
  else [c]

/-- `JSON.stringify` of a string value. -/
def printJString (s : String) : String :=
  String.mk ('"' :: s.data.flatMap escapeJChar ++ ['"'])

mutual
/-- `JSON.stringify` (no spacing), over the lexeme-number model. -/
def printJ : JValue → String
  | .null => "null"
  | .bool b => if b then "true" else "false"
  | .num l => l
  | .str s => printJString s
  | .arr es => "[" ++ printJL es ++ "]"
  | .obj fs => "\x7b" ++ printJF fs ++ "\x7d"
def printJL : JList → String
  | .nil => ""
  | .cons v .nil => printJ v
  | .cons v tl => printJ v ++ "," ++ printJL tl
def printJF : JFields → String
  | .nil => ""
  | .cons k v .nil => printJString k ++ ":" ++ printJ v
  | .cons k v tl => printJString k ++ ":" ++ printJ v ++ "," ++ printJF tl
end

/-- JSON whitespace. -/
def isJsonWs (c : Char) : Bool := c = ' ' || c = '\t' || c = '\n' || c = '\r'

def skipWs (cs : List Char) : List Char := cs.dropWhile isJsonWs

def isDigit (c : Char) : Bool := '0' ≤ c && c ≤ '9'

def hexVal (c : Char) : Option Nat :=
  if '0' ≤ c ∧ c ≤ '9' then some (c.toNat - 48)
  else if 'a' ≤ c ∧ c ≤ 'f' then some (c.toNat - 87)
  else if 'A' ≤ c ∧ c ≤ 'F' then some (c.toNat - 55)
  else none

/-- Match an expected literal character sequence. -/
def expectChars : List Char → List Char → Option (List Char)
  | [], cs => some cs
  | e :: es, c :: cs => if c = e then expectChars es cs else none
  | _ :: _, [] => none

/-- Four hex digits of a `\\u` escape. -/
def parseHex4 : List Char → Option (Nat × List Char)
  | h1 :: h2 :: h3 :: h4 :: r =>
    (hexVal h1).bind (fun a => (hexVal h2).bind (fun b => (hexVal h3).bind (fun c =>
      (hexVal h4).map (fun d => (((a * 16 + b) * 16 + c) * 16 + d, r)))))
  | _ => none

/-- Decode a `\\uXXXX` escape, combining a surrogate pair. An unpaired
surrogate fails the parse (JavaScript would produce an unpaired UTF-16 code
unit, which has no counterpart in a scalar-value string model, so such inputs
are routed to the parse-error path that returns the body unchanged). -/
def parseUEsc (r : List Char) : Option (Char × List Char) :=
  (parseHex4 r).bind (fun nr =>
    if nr.1 < 0xd800 ∨ 0xdfff < nr.1 then some (Char.ofNat nr.1, nr.2)
    else if nr.1 ≤ 0xdbff then
      match nr.2 with
      | b1 :: b2 :: r3 =>
        if b1 = '\\' ∧ b2 = 'u' then
          (parseHex4 r3).bind (fun mr =>
            if 0xdc00 ≤ mr.1 ∧ mr.1 ≤ 0xdfff then
              some (Char.ofNat (0x10000 + (nr.1 - 0xd800) * 0x400 + (mr.1 - 0xdc00)), mr.2)
            else none)
        else none
      | _ => none
    else none)

/-- Decode one escape after a backslash. -/
def parseEsc1 : List Char → Option (Char × List Char)
  | [] => none
  | e :: r =>
    if e = '"' then some ('"', r)
    else if e = '\\' then some ('\\', r)
    else if e = '/' then some ('/', r)
    else if e = 'b' then some ('\x08', r)
    else if e = 'f' then some ('\x0c', r)
    else if e = 'n' then some ('\n', r)
    else if e = 'r' then some ('\r', r)
    else if e = 't' then some ('\t', r)
    else if e = 'u' then parseUEsc r
    else none

/-- Read a JSON string body after the opening quote, decoding escapes
(fuel-bounded; each step consumes at least one character). -/
def parseStrF : Nat → List Char → Option (List Char × List Char)
  | 0, _ => none
  | fuel + 1, cs =>
    match cs with
    | [] => none
    | c :: rest =>
      if c = '"' then some ([], rest)
      else if c = '\\' then
        (parseEsc1 rest).bind
          (fun er => (parseStrF fuel er.2).map (fun p => (er.1 :: p.1, p.2)))
      else if c.toNat < 32 then none
      else (parseStrF fuel rest).map (fun p => (c :: p.1, p.2))

/-- Read a JSON string body after the opening quote. -/
def parseStrChars (cs : List Char) : Option (List Char × List Char) :=
  parseStrF (cs.length + 1) cs

def readDigits (cs : List Char) : List Char × List Char :=
  (cs.takeWhile isDigit, cs.dropWhile isDigit)

/-- Fraction part of a JSON number lexeme (possibly empty). -/
def readFrac (cs : List Char) : Option (List Char × List Char) :=
  match cs with
  | [] => some ([], [])
  | c :: r =>
    if c = '.' then
      match readDigits r with
      | ([], _) => none
      | (ds, r2) => some ('.' :: ds, r2)
    else some ([], c :: r)

/-- Digits of an exponent after the marker and optional sign. -/
def readExpAfterE (c : Char) : List Char → Option (List Char × List Char)
  | [] => none
  | s :: r1 =>
    if s = '+' ∨ s = '-' then
      match readDigits r1 with
      | ([], _) => none
      | (ds, r2) => some (c :: s :: ds, r2)
    else
      match readDigits (s :: r1) with
      | ([], _) => none
      | (ds, r2) => some (c :: ds, r2)

/-- Exponent part of a JSON number lexeme (possibly empty). -/
def readExp (cs : List Char) : Option (List Char × List Char) :=
  match cs with
  | [] => some ([], [])
  | c :: r =>
    if c = 'e' ∨ c = 'E' then readExpAfterE c r
    else some ([], c :: r)

/-- A JSON number after the optional minus sign (leading zeros rejected). -/
def readIntFrom (c : Char) (r : List Char) : Option (List Char × List Char) :=
  if c = '0' then
    match readFrac r with
    | none => none
    | some (f, r2) =>
      match readExp r2 with
      | none => none
      | some (e, r3) => some ('0' :: (f ++ e), r3)
  else if isDigit c then
    match readDigits r with
    | (ds, r1) =>
      match readFrac r1 with
      | none => none
      | some (f, r2) =>
        match readExp r2 with
        | none => none
        | some (e, r3) => some (c :: (ds ++ f ++ e), r3)
  else none

/-- Read a JSON number lexeme (maximal munch). -/
def readNumber (cs : List Char) : Option (List Char × List Char) :=
  match cs with
  | [] => none
  | c0 :: r0 =>
    if c0 = '-' then
      match r0 with
      | [] => none
      | c :: r => (readIntFrom c r).map (fun p => ('-' :: p.1, p.2))
    else readIntFrom c0 r0

/-- One or more digits. -/
def digits1 (cs : List Char) : Bool := !cs.isEmpty && cs.all isDigit

/-- Sign-and-digits tail of an exponent. -/
def numExpTail : List Char → Bool
  | [] => false
  | s :: r1 => if s = '+' ∨ s = '-' then digits1 r1 else digits1 (s :: r1)

/-- Well-formed exponent-or-end tail of a number lexeme. -/
def numExpWF : List Char → Bool
  | [] => true
  | c :: r => if c = 'e' ∨ c = 'E' then numExpTail r else false

/-- Well-formed fraction-then-exponent tail of a number lexeme. -/
def numFracWF : List Char → Bool
  | [] => true
  | c :: r =>
    if c = '.' then
      !(r.takeWhile isDigit).isEmpty && numExpWF (r.dropWhile isDigit)
    else numExpWF (c :: r)

/-- Well-formed unsigned number lexeme. -/
def numIntWF : List Char → Bool
  | [] => false
  | c :: r =>
    if c = '0' then numFracWF r
    else if isDigit c then numFracWF (r.dropWhile isDigit)
    else false

/-- Well-formed signed number lexeme. -/
def numSignWF : List Char → Bool
  | [] => false
  | c :: r => if c = '-' then numIntWF r else numIntWF (c :: r)

/-- Well-formed JSON number lexeme (exactly the lexemes `readNumber` keeps). -/
def numWF (l : String) : Bool := numSignWF l.data

mutual
/-- `JSON.parse` value parser (fuel-bounded; the wrapper supplies enough fuel
for any input). Expects no leading whitespace. -/
def parseJV : Nat → List Char → Option (JValue × List Char)
  | 0, _ => none
  | _ + 1, [] => none
  | fuel + 1, c :: r =>
      if c = 'n' then (expectChars ['u', 'l', 'l'] r).map (fun r2 => (.null, r2))
      else if c = 't' then (expectChars ['r', 'u', 'e'] r).map (fun r2 => (.bool true, r2))
      else if c = 'f' then (expectChars ['a', 'l', 's', 'e'] r).map (fun r2 => (.bool false, r2))
      else if c = '"' then (parseStrChars r).map (fun p => (.str (String.mk p.1), p.2))
      else if c = '[' then
        match skipWs r with
        | [] => none
        | d :: r1 =>
          if d = ']' then some (.arr .nil, r1)
          else (parseJItems fuel (d :: r1)).map (fun p => (.arr p.1, p.2))
      else if c = '\x7b' then
        match skipWs r with
        | [] => none
        | d :: r1 =>
          if d = '\x7d' then some (.obj .nil, r1)
          else (parseJFieldsR fuel .nil (d :: r1)).map (fun p => (.obj p.1, p.2))
      else if c = '-' ∨ isDigit c then
        (readNumber (c :: r)).map (fun p => (.num (String.mk p.1), p.2))
      else none
/-- Array elements after `[` (first element pending, whitespace skipped). -/
def parseJItems : Nat → List Char → Option (JList × List Char)
  | 0, _ => none
  | fuel + 1, cs =>
    (parseJV fuel cs).bind (fun vr =>
      match skipWs vr.2 with
      | [] => none
      | d :: r2 =>
        if d = ',' then
          (parseJItems fuel (skipWs r2)).map (fun p => (JList.cons vr.1 p.1, p.2))
        else if d = ']' then some (.cons vr.1 .nil, r2)
        else none)
/-- Object members after `\x7b` (first key pending, whitespace skipped). A
duplicate key overwrites the value kept at the key's first position, as JS
object construction does. -/
def parseJFieldsR : Nat → JFields → List Char → Option (JFields × List Char)
  | 0, _, _ => none
  | _ + 1, _, [] => none
  | fuel + 1, acc, c :: r =>
      if c = '"' then
        (parseStrChars r).bind (fun kr =>
          match skipWs kr.2 with
          | [] => none
          | d :: r2 =>
            if d = ':' then
              (parseJV fuel (skipWs r2)).bind (fun vr =>
                match skipWs vr.2 with
                | [] => none
                | e :: r4 =>
                  if e = ',' then
                    parseJFieldsR fuel (objSet acc (String.mk kr.1) vr.1) (skipWs r4)
                  else if e = '\x7d' then some (objSet acc (String.mk kr.1) vr.1, r4)
                  else none)
            else none)
      else none
end

/-- `JSON.parse`: whole-input parse with surrounding whitespace. -/
def parseJSON (x : String) : Option JValue :=
  match parseJV (x.length + 1) (skipWs x.data) with
  | some (v, rest) => if skipWs rest = [] then some v else none
  | none => none

def keysF : JFields → List String
  | .nil => []
  | .cons k _ tl => k :: keysF tl

def nodupKeysF : JFields → Bool
  | .nil => true
  | .cons k _ tl => !(keysF tl).contains k && nodupKeysF tl

mutual
/-- Well-formed JSON values: valid number lexemes and duplicate-free object
keys everywhere. `JSON.parse` only produces such values. -/
def JWF : JValue → Bool
  | .null => true
  | .bool _ => true
  | .num l => numWF l
  | .str _ => true
  | .arr es => JWFL es
  | .obj fs => nodupKeysF fs && JWFF fs
def JWFL : JList → Bool
  | .nil => true
  | .cons v tl => JWF v && JWFL tl
def JWFF : JFields → Bool
  | .nil => true
  | .cons _ v tl => JWF v && JWFF tl
end

def JFields.append : JFields → JFields → JFields
  | .nil, gs => gs
  | .cons k v tl, gs => .cons k v (JFields.append tl gs)

/-- The character that may legally follow a printed JSON value in context. -/
def goodFollow : List Char → Prop
  | [] => True
  | c :: _ => c = ',' ∨ c = ']' ∨ c = '\x7d'

def headNot (p : Char → Bool) : List Char → Prop
  | [] => True
  | c :: _ => p c = false

/-- The characters a printed JSON value can start with. -/
def goodHead (c : Char) : Prop :=
  c = 'n' ∨ c = 't' ∨ c = 'f' ∨ c = '"' ∨ c = '[' ∨ c = '\x7b' ∨ c = '-' ∨ isDigit c = true

/-- A fresh `\x7b type: "text", text: s \x7d` block. -/
def textBlock (s : String) : JValue :=
  .obj (.cons "type" (.str "text") (.cons "text" (.str s) .nil))

/-- `convertThinkingToText`: extract the reasoning text and wrap it in a text
block with the `<previous-glm-reasoning>` marker. Total (no property access on
null can occur inside it). -/
def convertThinkingToText (fs : JFields) : JValue :=
  let thinkingText :=
    match objGet fs "thinking" with
    | some (.str t) => t
    | _ =>
      match objGet fs "content" with
      | some (.str c) => c
      | _ =>
        match objGet fs "thinking" with
        | some (.arr a) => printJ (.arr a)
        | some (.obj tf) =>
          (match objGet tf "content" with
          | some (.str c) => c
          | _ =>
            match objGet tf "thinking" with
            | some (.str t) => t
            | _ =>
              match objGet tf "text" with
              | some (.str t) => t
              | _ => printJ (.obj tf))
        | _ =>
          match objGet fs "content" with
          | some (.arr a) => printJ (.arr a)
          | some (.obj cf) =>
            (match objGet cf "text" with
            | some (.str t) => t
            | _ => printJ (.obj cf))
          | _ => ""
  textBlock ("<previous-glm-reasoning>\n" ++ thinkingText ++ "\n</previous-glm-reasoning>")

/-- Collect the `text` of nested text blocks of a `tool_result`'s content
array (`convertToolResultToText`'s loop); a null element throws. -/
def collectTextParts : List JValue → Except Unit (List String)
  | [] => .ok []
  | .null :: _ => .error ()
  | .obj nf :: rest => do
    let tl ← collectTextParts rest
    if objGet nf "type" = some (.str "text") then
      match objGet nf "text" with
      | some (.str t) => .ok (t :: tl)
      | _ => .ok tl
    else .ok tl
  | _ :: rest => collectTextParts rest

/-- `convertToolResultToText`: replace a `tool_result` block by a text block
carrying its extracted text. -/
def convertToolResultToText (fs : JFields) : Except Unit JValue := do
  let text ←
    match objGet fs "content" with
    | some (.str s) => pure (if s ≠ "" then "[previous tool result]\n" ++ s
        else "[previous tool result]")
    | some (.arr cs) => do
      let parts ← collectTextParts cs.toList
      pure (if parts ≠ [] then
          "[previous tool result]\n" ++ String.intercalate "\n" parts
        else "[previous tool result]")
    | _ => pure "[previous tool result]"
  pure (textBlock text)

/-- Rules 2-4 of `sanitizeContentBlockWithStore` for a thinking block whose
signature was not found in the store. -/
def sanitizeThinkingRest (fs : JFields) : JValue × Bool :=
  if (objGet fs "thinking").isSome then (convertThinkingToText fs, true)
  else
    match objGet fs "signature" with
    | some (.str sg) =>
      if sg ≠ "" then (.obj fs, false) else (convertThinkingToText fs, true)
    | _ => (convertThinkingToText fs, true)

mutual
/-- `sanitizeContentBlockWithStore` (fuel-bounded; the wrapper supplies
`jsizeV` fuel, which always suffices). Returns the block, a flag modelling
`sanitized !== block` (a fresh object was returned), and the store after the
`has` lookups. A null block throws (`block.type` on null). -/
def sanitizeContentBlockF : Nat → JValue → SignatureStore →
    Except Unit (JValue × Bool) × SignatureStore
  | 0, _, st => (.error (), st)
  | _ + 1, .null, st => (.error (), st)
  | fuel + 1, .obj fs, st =>
    if objGet fs "type" = some (.str "thinking") then
      match objGet fs "signature" with
      | some (.str sg) =>
        if sg ≠ "" then
          match SignatureStore.has st sg with
          | (true, st1) => (.ok (.obj fs, false), st1)
          | (false, st1) => (.ok (sanitizeThinkingRest fs), st1)
        else (.ok (sanitizeThinkingRest fs), st)
      | _ => (.ok (sanitizeThinkingRest fs), st)
    else if objGet fs "type" = some (.str "tool_result") then
      match objGet fs "content" with
      | some (.arr cs) =>
        match mapSanitizeBlocksF fuel cs st with
        | (.error e, st1) => (.error e, st1)
        | (.ok (cs2, ch), st1) =>
          if ch then (.ok (.obj (objSet fs "content" (.arr cs2)), true), st1)
          else (.ok (.obj fs, false), st1)
      | _ => (.ok (.obj fs, false), st)
    else (.ok (.obj fs, false), st)
  | _ + 1, b, st => (.ok (b, false), st)
/-- The per-element loop over a `tool_result`'s nested content. -/
def mapSanitizeBlocksF : Nat → JList → SignatureStore →
    Except Unit (JList × Bool) × SignatureStore
  | 0, _, st => (.error (), st)
  | _ + 1, .nil, st => (.ok (.nil, false), st)
  | fuel + 1, .cons b tl, st =>
    match sanitizeContentBlockF fuel b st with
    | (.error e, st1) => (.error e, st1)
    | (.ok (b2, ch), st1) =>
      match mapSanitizeBlocksF fuel tl st1 with
      | (.error e, st2) => (.error e, st2)
      | (.ok (tl2, ch2), st2) => (.ok (.cons b2 tl2, ch || ch2), st2)
end

/-- `sanitizeContentBlockWithStore`. -/
def sanitizeContentBlockWithStore (b : JValue) (st : SignatureStore) :
    Except Unit (JValue × Bool) × SignatureStore :=
  sanitizeContentBlockF (jsizeV b) b st

/-- `sanitizeMessageWithStore`: sanitize each block of an array content;
string or exotic content is returned as-is; a null message throws. -/
def sanitizeMessageWithStore (msg : JValue) (st : SignatureStore) :
    Except Unit (JValue × Bool) × SignatureStore :=
  match msg with
  | .null => (.error (), st)
  | .obj fs =>
    match objGet fs "content" with
    | some (.str _) => (.ok (.obj fs, false), st)
    | some (.arr cs) =>
      match mapSanitizeBlocksF (jsizeL cs + 1) cs st with
      | (.error e, st1) => (.error e, st1)
      | (.ok (cs2, ch), st1) =>
        if ch then (.ok (.obj (objSet fs "content" (.arr cs2)), true), st1)
        else (.ok (.obj fs, false), st1)
    | _ => (.ok (.obj fs, false), st)
  | b => (.ok (b, false), st)

/-- The `parsed.messages.map(sanitizeMessageWithStore)` loop with its
`sanitized` change flag. -/
def sanitizeMessagesPhase0 : List JValue → SignatureStore →
    Except Unit (List JValue × Bool) × SignatureStore
  | [], st => (.ok ([], false), st)
  | m :: rest, st =>
    match sanitizeMessageWithStore m st with
    | (.error e, st1) => (.error e, st1)
    | (.ok (m2, ch), st1) =>
      match sanitizeMessagesPhase0 rest st1 with
      | (.error e, st2) => (.error e, st2)
      | (.ok (rest2, ch2), st2) => (.ok (m2 :: rest2, ch || ch2), st2)

/-- `msg.role !== "user"` test (`current[i].role` throws on a null message). -/
def roleIsUser (m : JValue) : Except Unit Bool :=
  match m with
  | .null => .error ()
  | .obj fs => .ok (decide (objGet fs "role" = some (.str "user")))
  | _ => .ok false

/-- `msg.role` read for the merge comparison. -/
def roleVal (m : JValue) : Except Unit (Option JValue) :=
  match m with
  | .null => .error ()
  | .obj fs => .ok (objGet fs "role")
  | _ => .ok none

/-- `msg.content` read. -/
def msgContentOpt (m : JValue) : Except Unit (Option JValue) :=
  match m with
  | .null => .error ()
  | .obj fs => .ok (objGet fs "content")
  | _ => .ok none

/-- JS `===` on two role values read out of distinct parsed messages:
`undefined === undefined` and `null === null` hold, primitives compare by
value (numbers on their lexemes in this model), and two distinct parsed
objects or arrays are never reference-equal. -/
def jsRoleEq : Option JValue → Option JValue → Bool
  | none, none => true
  | some .null, some .null => true
  | some (.bool a), some (.bool b) => a = b
  | some (.num a), some (.num b) => a = b
  | some (.str a), some (.str b) => a = b
  | _, _ => false

/-- Step 1: drop leading messages whose role is not `"user"`. -/
def dropLeadingNonUserE : List JValue → Except Unit (List JValue × Bool)
  | [] => .ok ([], false)
  | m :: rest => do
    let b ← roleIsUser m
    if b then .ok (m :: rest, false)
    else do
      let (r2, _) ← dropLeadingNonUserE rest
      .ok (r2, true)

/-- String content becomes a single text block; arrays pass through; anything
else is not iterable and the spread in `mergeMessages` throws. -/
def toContentBlocks : Option JValue → Except Unit (List JValue)
  | some (.str s) => .ok [textBlock s]
  | some (.arr cs) => .ok cs.toList
  | _ => .error ()

def setContent (a : JValue) (v : JValue) : JValue :=
  match a with
  | .obj fs => .obj (objSet fs "content" v)
  | _ => a

/-- `mergeMessages`: join two same-role messages. -/
def mergeMessages (a b : JValue) : Except Unit JValue := do
  let ca ← msgContentOpt a
  let cb ← msgContentOpt b
  match ca, cb with
  | some (.str sa), some (.str sb) => pure (setContent a (.str (sa ++ "\n\n" ++ sb)))
  | ca, cb => do
    let xs ← toContentBlocks ca
    let ys ← toContentBlocks cb
    pure (setContent a (.arr (JList.ofList (xs ++ ys))))

/-- Step 2: the left-to-right merge of consecutive same-role messages. -/
def mergeFoldAux : List JValue → Bool → List JValue → Except Unit (List JValue × Bool)
  | acc, ch, [] => .ok (acc, ch)
  | acc, ch, m :: rest =>
    match acc.getLast? with
    | none => mergeFoldAux (acc ++ [m]) ch rest
    | some prev => do
      let rp ← roleVal prev
      let rm ← roleVal m
      if jsRoleEq rp rm then do
        let merged ← mergeMessages prev m
        mergeFoldAux (acc.dropLast ++ [merged]) true rest
      else mergeFoldAux (acc ++ [m]) ch rest

/-- Step 3's keep test: non-empty string or array content, everything else
kept. -/
def keepMsg (m : JValue) : Except Unit Bool :=
  match m with
  | .null => .error ()
  | .obj fs =>
    .ok (match objGet fs "content" with
      | some (.str s) => decide (s ≠ "")
      | some (.arr cs) => decide (cs ≠ .nil)
      | _ => true)
  | _ => .ok true

def filterMsgsE : List JValue → Except Unit (List JValue)
  | [] => .ok []
  | m :: rest => do
    let b ← keepMsg m
    let r2 ← filterMsgsE rest
    if b then pure (m :: r2) else pure r2

/-- One iteration of the `sanitizeMessageStructure` loop. -/
def structIter (ms : List JValue) : Except Unit (List JValue × Bool) := do
  let (d, ch1) ← dropLeadingNonUserE ms
  let (mg, ch2) ← mergeFoldAux [] false d
  let kept ← filterMsgsE mg
  pure (kept, ch1 || ch2 || decide (kept.length ≠ mg.length))

/-- The bounded loop (`MAX_ITERATIONS = 10`), with the accumulated `changed`
flag; it breaks at the first iteration that changes nothing. -/
def structLoop : Nat → List JValue → Bool → Except Unit (List JValue × Bool)
  | 0, ms, changed => .ok (ms, changed)
  | n + 1, ms, changed => do
    let (ms2, step) ← structIter ms
    if step then structLoop n ms2 true
    else .ok (ms2, changed)

/-- `sanitizeMessageStructure`. -/
def sanitizeMessageStructure (ms : List JValue) : Except Unit (List JValue × Bool) :=
  structLoop 10 ms false

/-- Collect the `tool_use` ids of a previous message's blocks
(`prevToolUseIds`); a null block throws. -/
def collectIds : List JValue → Except Unit (List String)
  | [] => .ok []
  | .null :: _ => .error ()
  | .obj bf :: rest => do
    let tl ← collectIds rest
    if objGet bf "type" = some (.str "tool_use") then
      match objGet bf "id" with
      | some (.str i) => .ok (i :: tl)
      | _ => .ok tl
    else .ok tl
  | _ :: rest => collectIds rest

def toolUseIds : Option JValue → Except Unit (List String)
  | some (.obj pf) =>
    if objGet pf "role" = some (.str "assistant") then
      match objGet pf "content" with
      | some (.arr cs) => collectIds cs.toList
      | _ => .ok []
    else .ok []
  | _ => .ok []

/-- `content.some(block => block.type === "tool_result")` with JS
short-circuiting; a null block visited before a hit throws. -/
def hasToolResultE : List JValue → Except Unit Bool
  | [] => .ok false
  | .null :: _ => .error ()
  | .obj bf :: rest =>
    if objGet bf "type" = some (.str "tool_result") then .ok true
    else hasToolResultE rest
  | _ :: rest => hasToolResultE rest

/-- Whether the previous message is an assistant message (`prev &&
prev.role === "assistant"`). -/
def prevIsAssistant : Option JValue → Bool
  | some (.obj pf) => decide (objGet pf "role" = some (.str "assistant"))
  | _ => false

/-- The per-block map of `removeOrphanedToolResults`: convert each orphaned
`tool_result` to a text block. -/
def orphanMapBlocks (prevOk : Bool) (ids : List String) :
    List JValue → Except Unit (List JValue × Bool)
  | [] => .ok ([], false)
  | .null :: _ => .error ()
  | .obj bf :: rest =>
    if objGet bf "type" = some (.str "tool_result") then
      if prevOk && (match objGet bf "tool_use_id" with
          | some (.str s) => decide (s ≠ "") && ids.contains s
          | _ => false) then do
        let (r2, ch) ← orphanMapBlocks prevOk ids rest
        pure (JValue.obj bf :: r2, ch)
      else do
        let conv ← convertToolResultToText bf
        let (r2, _) ← orphanMapBlocks prevOk ids rest
        pure (conv :: r2, true)
    else do
      let (r2, ch) ← orphanMapBlocks prevOk ids rest
      pure (JValue.obj bf :: r2, ch)
  | b :: rest => do
    let (r2, ch) ← orphanMapBlocks prevOk ids rest
    pure (b :: r2, ch)

/-- One message of `removeOrphanedToolResults`. -/
def orphanOne (prev : Option JValue) (m : JValue) : Except Unit (JValue × Bool) :=
  match m with
  | .null => .error ()
  | .obj fs =>
    if objGet fs "role" = some (.str "user") then
      match objGet fs "content" with
      | some (.arr cs) => do
        let hasTR ← hasToolResultE cs.toList
        if hasTR then do
          let ids ← toolUseIds prev
          let (cs2, ch) ← orphanMapBlocks (prevIsAssistant prev) ids cs.toList
          if ch then pure (.obj (objSet fs "content" (.arr (JList.ofList cs2))), true)
          else pure (.obj fs, false)
        else pure (.obj fs, false)
      | _ => pure (.obj fs, false)
    else pure (.obj fs, false)
  | b => pure (b, false)

def orphanGo (prev : Option JValue) : List JValue → Except Unit (List JValue × Bool)
  | [] => .ok ([], false)
  | m :: rest => do
    let (m2, ch) ← orphanOne prev m
    let (r2, ch2) ← orphanGo (some m) rest
    pure (m2 :: r2, ch || ch2)

/-- `removeOrphanedToolResults`. -/
def removeOrphanedToolResults (ms : List JValue) : Except Unit (List JValue × Bool) :=
  orphanGo none ms

/-- `sanitizeContentBlocksWithStore`: parse, per-block sanitize, repair the
message structure, convert orphaned tool results, and re-serialize when
anything changed; any parse error or exception returns the body unchanged
(the store keeps the `has`-promotions made before the throw). -/
def sanitizeContentBlocksWithStore (requestBody : String) (st : SignatureStore) :
    String × SignatureStore :=
  match parseJSON requestBody with
  | some (.obj fs) =>
    match objGet fs "messages" with
    | some (.arr msL) =>
      match sanitizeMessagesPhase0 msL.toList st with
      | (.error _, st1) => (requestBody, st1)
      | (.ok (newMessages, sanitized), st1) =>
        let messages1 := if sanitized then newMessages else msL.toList
        match sanitizeMessageStructure messages1 with
        | .error _ => (requestBody, st1)
        | .ok (ms2, schanged) =>
          let messages2 := if schanged then ms2 else messages1
          match removeOrphanedToolResults messages2 with
          | .error _ => (requestBody, st1)
          | .ok (ms3, ochanged) =>
            let messages3 := if ochanged then ms3 else messages2
            if sanitized || schanged || ochanged then
              (printJ (.obj (objSet fs "messages" (.arr (JList.ofList messages3)))), st1)
            else (requestBody, st1)
    | _ => (requestBody, st)
  | _ => (requestBody, st)

def jlistGet : JList → Nat → Option JValue
  | .nil, _ => none
  | .cons v _, 0 => some v
  | .cons _ tl, n + 1 => jlistGet tl n

mutual
/-- No `null` anywhere inside the value. -/
def noNullsV : JValue → Bool
  | .null => false
  | .arr es => noNullsL es
  | .obj fs => noNullsF fs
  | _ => true
def noNullsL : JList → Bool
  | .nil => true
  | .cons v tl => noNullsV v && noNullsL tl
def noNullsF : JFields → Bool
  | .nil => true
  | .cons _ v tl => noNullsV v && noNullsF tl
end

def jlistLen : JList → Nat
  | .nil => 0
  | .cons _ tl => jlistLen tl + 1

/-- The role of a message as an observation (no exception; `none` for
non-objects, matching the property read on non-null values). -/
def roleD (m : JValue) : Option JValue :=
  match m with
  | .obj fs => objGet fs "role"
  | _ => none

/-- The content of a message as an observation. -/
def contentD (m : JValue) : Option JValue :=
  match m with
  | .obj fs => objGet fs "content"
  | _ => none

/-- The keep test of the structure pass's filter step as a total observation
(step 3's condition on non-null messages). -/
def keepD (m : JValue) : Bool :=
  match m with
  | .obj fs =>
    (match objGet fs "content" with
      | some (.str s) => decide (s ≠ "")
      | some (.arr cs) => decide (cs ≠ .nil)
      | _ => true)
  | _ => true

/-- A message the whole pipeline can process without throwing: an object,
no `null` anywhere inside, and string-or-array content. -/
def msgWF (m : JValue) : Bool :=
  noNullsV m &&
  (match m with
   | .obj fs =>
     (match objGet fs "content" with
      | some (.str _) => true
      | some (.arr _) => true
      | _ => false)
   | _ => false)

/-- The head of the list, when present, has role `"user"`. -/
def headUserD : List JValue → Prop
  | [] => True
  | m :: _ => roleD m = some (.str "user")

/-- Adjacent messages whose roles are not JS-`===` equal. -/
def roleNeq (a b : JValue) : Prop := jsRoleEq (roleD a) (roleD b) = false

/-- The fixed point of the structure-repair iteration: a leading user
message (if any), no two adjacent messages with `===`-equal roles, and no
null or empty-content message. -/
def structStable (ms : List JValue) : Prop :=
  headUserD ms ∧ List.Chain' roleNeq ms ∧
    ∀ m ∈ ms, m ≠ JValue.null ∧ keepD m = true

/-- The blocks contributed to a merged content array: fresh text blocks or
blocks of the two source messages. -/
def mergedBlockSrc (a b : JValue) (x : JValue) : Prop :=
  (∃ s, x = textBlock s) ∨
    (∃ ca, contentD a = some (.arr ca) ∧ x ∈ ca.toList) ∨
    (∃ cb, contentD b = some (.arr cb) ∧ x ∈ cb.toList)

/-- A user message's top-level `tool_result` blocks all match a `tool_use`
id of the immediately preceding assistant message. -/
def userToolResultsOk (prev : Option JValue) (m : JValue) : Prop :=
  ∀ fs, m = JValue.obj fs → objGet fs "role" = some (.str "user") →
  ∀ cs, objGet fs "content" = some (.arr cs) →
  ∀ bf, JValue.obj bf ∈ cs.toList →
  objGet bf "type" = some (.str "tool_result") →
  prevIsAssistant prev = true ∧ ∃ s ids,
    objGet bf "tool_use_id" = some (.str s) ∧ s ≠ "" ∧
    toolUseIds prev = .ok ids ∧ ids.contains s = true

/-- No orphaned `tool_result` anywhere in the list, walking with the
previous message. -/
def NoOrphansFrom (prev : Option JValue) : List JValue → Prop
  | [] => True
  | m :: rest => userToolResultsOk prev m ∧ NoOrphansFrom (some m) rest

/-- The per-element relation of the orphan pass. -/
def orphanRel (m m2 : JValue) : Prop :=
  m2 ≠ JValue.null ∧ roleD m2 = roleD m ∧ keepD m2 = keepD m ∧
  (JWF m = true → JWF m2 = true) ∧
  (noNullsV m = true → noNullsV m2 = true) ∧
  (∀ P : JValue → Prop, (∀ s, P (textBlock s)) →
    (∀ cs, contentD m = some (.arr cs) → ∀ b ∈ cs.toList, P b) →
    ∀ cs2, contentD m2 = some (.arr cs2) → ∀ b ∈ cs2.toList, P b) ∧
  (roleD m = some (.str "assistant") → m2 = m)

/-- Any message's top-level `tool_result` blocks (not only user messages')
match a `tool_use` id of the immediately preceding assistant message. -/
def anyToolResultsOk (prev : Option JValue) (m : JValue) : Prop :=
  ∀ fs, m = JValue.obj fs →
  ∀ cs, objGet fs "content" = some (.arr cs) →
  ∀ bf, JValue.obj bf ∈ cs.toList →
  objGet bf "type" = some (.str "tool_result") →
  prevIsAssistant prev = true ∧ ∃ s ids,
    objGet bf "tool_use_id" = some (.str s) ∧ s ≠ "" ∧
    toolUseIds prev = .ok ids ∧ ids.contains s = true

/-- Orphan-freedom over all messages, as the specification states it. -/
def NoOrphansAnyFrom (prev : Option JValue) : List JValue → Prop
  | [] => True
  | m :: rest => anyToolResultsOk prev m ∧ NoOrphansAnyFrom (some m) rest

/-- A one-user-message request body used as a concrete witness input. -/
def exampleBody : String :=
  "\x7b\"messages\":[\x7b\"role\":\"user\",\"content\":\"hi\"\x7d]\x7d"

def exampleMsgs : JList :=
  .cons (.obj (.cons "role" (.str "user")
    (.cons "content" (.str "hi") .nil))) .nil

def exampleFields : JFields :=
  .cons "messages" (.arr exampleMsgs) .nil

/-- A body whose assistant message carries a tool_result block: the
sanitizer returns it unchanged, yet that block has no matching tool_use in
the preceding (user) message. -/
def orphanAssistantBody : String :=
  "\x7b\"messages\":[\x7b\"role\":\"user\",\"content\":\"hi\"\x7d,\x7b\"role\":\"assistant\",\"content\":[\x7b\"type\":\"tool_result\",\"tool_use_id\":\"t1\",\"content\":\"r\"\x7d]\x7d]\x7d"

def orphanUserMsg : JValue :=
  .obj (.cons "role" (.str "user") (.cons "content" (.str "hi") .nil))

def orphanTRBlock : JFields :=
  .cons "type" (.str "tool_result") (.cons "tool_use_id" (.str "t1")
    (.cons "content" (.str "r") .nil))

def orphanAssistantMsg : JValue :=
  .obj (.cons "role" (.str "assistant")
    (.cons "content" (.arr (.cons (.obj orphanTRBlock) .nil)) .nil))

def orphanMsgs : JList :=
  .cons orphanUserMsg (.cons orphanAssistantMsg .nil)

def storedThinkingBlock : JFields :=
  .cons "type" (.str "thinking")
    (.cons "signature" (.str "s") (.cons "thinking" (.str "hm") .nil))

/-- A body whose sole message (role `"a"`) holds a stored-signature
thinking block. -/
def storedThinkingBody : String :=
  "\x7b\"messages\":[\x7b\"role\":\"a\",\"content\":[\x7b\"type\":\"thinking\",\"signature\":\"s\"\x7d]\x7d]\x7d"

/-- Two stores with the same membership set. -/
def memEq (st st' : SignatureStore) : Prop :=
  ∀ s : String, s ∈ st.items ↔ s ∈ st'.items

/-- A block the sanitizer leaves alone under any store with the given
membership. -/
def SB (st : SignatureStore) (b : JValue) : Prop :=
  ∀ (fuel : Nat) (st' : SignatureStore), jsizeV b ≤ fuel → memEq st st' →
    ∃ st2, sanitizeContentBlockF fuel b st' = (.ok (b, false), st2)

/-- A message the per-block phase leaves alone under any store with this
membership. -/
def SM (st : SignatureStore) (m : JValue) : Prop :=
  ∀ st' : SignatureStore, memEq st st' →
    ∃ st2, sanitizeMessageWithStore m st' = (.ok (m, false), st2)

/-- Null-free with all array-content blocks fixed points of the block
sanitizer. -/
def P7 (st : SignatureStore) (m : JValue) : Prop :=
  m ≠ JValue.null ∧ ∀ fs, m = JValue.obj fs →
    ∀ cs, objGet fs "content" = some (.arr cs) → ∀ b ∈ cs.toList, SB st b

/-! ### List lemmas for the LRU argument -/
theorem filter_bne_of_not_mem : ∀ {l : List String} {k : String}, k ∉ l →
    l.filter (fun b => b != k) = l
  | [], _, _ => rfl
  | a :: l, k, h => by
    have ha : (a != k) = true := by
      simp only [bne_iff_ne, ne_eq]
      intro e
      exact h (e ▸ List.mem_cons_self a l)
    have hl : k ∉ l := fun m => h (List.mem_cons_of_mem a m)
    simp [List.filter_cons, ha, filter_bne_of_not_mem hl]

theorem take_filter_bne_of_not_mem : ∀ (M : List String) (k : String) (n : Nat),
    k ∉ M.take (n + 1) → (M.filter (fun b => b != k)).take n = M.take n
  | [], _, _, _ => by simp
  | x :: M, k, n, h => by
    rw [List.take_succ_cons] at h
    have hx : (x != k) = true := by
      simp only [bne_iff_ne, ne_eq]
      intro e
      exact h (by simp [e])
    have hM : k ∉ M.take n := fun m => h (List.mem_cons_of_mem x m)
    match n with
    | 0 => simp
    | j + 1 =>
      rw [List.filter_cons, if_pos hx, List.take_succ_cons, List.take_succ_cons,
        take_filter_bne_of_not_mem M k j hM]

theorem take_filter_bne_of_mem : ∀ (M : List String) (k : String) (n : Nat),
    M.Nodup → k ∈ M.take (n + 1) →
    (M.take (n + 1)).filter (fun b => b != k) = (M.filter (fun b => b != k)).take n
  | [], _, _, _, h => by simp at h
  | x :: M, k, n, hd, h => by
    rw [List.take_succ_cons] at h ⊢
    have hd' : M.Nodup := (List.nodup_cons.1 hd).2
    by_cases hx : x = k
    · subst hx
      have hxM : x ∉ M := (List.nodup_cons.1 hd).1
      have hxMt : x ∉ M.take n := fun m => hxM (List.mem_of_mem_take m)
      rw [List.filter_cons, if_neg (by simp), List.filter_cons, if_neg (by simp),
        filter_bne_of_not_mem hxMt, filter_bne_of_not_mem hxM]
    · have hk : k ∈ M.take n := by
        rcases List.mem_cons.1 h with e | m
        · exact absurd e.symm hx
        · exact m
      have hxk : (x != k) = true := by simp [bne_iff_ne, hx]
      match n with
      | 0 => simp at hk
      | j + 1 =>
        rw [List.filter_cons, if_pos hxk, List.filter_cons, if_pos hxk,
          List.take_succ_cons, take_filter_bne_of_mem M k j hd' hk]

theorem take_succ_dropLast : ∀ (M : List String) (n : Nat), n + 1 ≤ M.length →
    (M.take (n + 1)).dropLast = M.take n
  | [], n, h => by simp at h
  | _ :: _, 0, _ => by simp
  | x :: M, n + 1, h => by
    have hlen : n + 1 ≤ M.length := by
      simpa using Nat.succ_le_succ_iff.1 h
    have hne : M.take (n + 1) ≠ [] := by
      have hpos : 0 < (M.take (n + 1)).length := by
        rw [List.length_take]
        omega
      exact List.length_pos.1 hpos
    rw [List.take_succ_cons, List.take_succ_cons,
      List.dropLast_cons_of_ne_nil hne, take_succ_dropLast M n hlen]

theorem reverse_drop_one : ∀ (l : List String), (l.drop 1).reverse = l.reverse.dropLast
  | [] => rfl
  | x :: l => by simp [List.reverse_cons, List.dropLast_concat]

theorem filter_reverse_comm (p : String → Bool) : ∀ (l : List String),
    l.reverse.filter p = (l.filter p).reverse
  | [] => rfl
  | x :: l => by
    by_cases hx : p x = true <;>
      simp [List.reverse_cons, List.filter_append, List.filter_cons, hx,
        filter_reverse_comm p l]

theorem nodup_erase_eq_filter_bne : ∀ {l : List String} (k : String), l.Nodup →
    l.erase k = l.filter (fun b => b != k)
  | [], _, _ => rfl
  | a :: l, k, hd => by
    have hd' : l.Nodup := (List.nodup_cons.1 hd).2
    by_cases ha : a = k
    · subst ha
      have haM : a ∉ l := (List.nodup_cons.1 hd).1
      rw [List.erase_cons_head, List.filter_cons, if_neg (by simp),
        filter_bne_of_not_mem haM]
    · rw [List.erase_cons_tail, List.filter_cons, if_pos (by simp [bne_iff_ne, ha]),
        nodup_erase_eq_filter_bne k hd']
      simp [ha]

theorem mem_dedupFirst {x : String} : ∀ {l : List String}, x ∈ dedupFirst l ↔ x ∈ l
  | [] => Iff.rfl
  | a :: l => by
    simp only [dedupFirst, List.mem_cons, List.mem_filter]
    constructor
    · rintro (e | ⟨m, _⟩)
      · exact Or.inl e
      · exact Or.inr (mem_dedupFirst.1 m)
    · rintro (e | m)
      · exact Or.inl e
      · by_cases hx : x = a
        · exact Or.inl hx
        · exact Or.inr ⟨mem_dedupFirst.2 m, by simp [bne_iff_ne, hx]⟩

theorem dedupFirst_nodup : ∀ (l : List String), (dedupFirst l).Nodup
  | [] => List.nodup_nil
  | a :: l => by
    refine List.nodup_cons.2 ⟨?_, ?_⟩
    · intro m
      exact absurd (List.of_mem_filter m) (by simp)
    · exact (dedupFirst_nodup l).filter _

theorem storeInv_items_nodup {st : SignatureStore} {acc : List String}
    (h : storeInv st acc) : st.items.Nodup := by
  have : st.items.reverse.Nodup := by
    rw [h]
    exact ((dedupFirst_nodup _).sublist (List.take_sublist _ _))
  simpa using this

theorem storeInv_promote {st : SignatureStore} {acc : List String} {k : String}
    (hm : 1 ≤ st.maxSize) (hinv : storeInv st acc) (hk : k ∈ st.items) :
    (st.items.erase k ++ [k]).reverse = lruSpec st.maxSize (acc ++ [k]) := by
  obtain ⟨j, hj⟩ : ∃ j, st.maxSize = j + 1 :=
    ⟨st.maxSize - 1, (Nat.succ_pred_eq_of_pos hm).symm⟩
  have hnd : st.items.Nodup := storeInv_items_nodup hinv
  have hrev : st.items.reverse = (dedupFirst acc.reverse).take st.maxSize := hinv
  have hkrev : k ∈ (dedupFirst acc.reverse).take st.maxSize := by
    rw [← hrev]; simpa using hk
  calc (st.items.erase k ++ [k]).reverse
      = k :: (st.items.erase k).reverse := by simp
    _ = k :: (st.items.filter (fun b => b != k)).reverse := by
        rw [nodup_erase_eq_filter_bne k hnd]
    _ = k :: st.items.reverse.filter (fun b => b != k) := by
        rw [filter_reverse_comm]
    _ = k :: ((dedupFirst acc.reverse).take st.maxSize).filter (fun b => b != k) := by
        rw [hrev]
    _ = k :: ((dedupFirst acc.reverse).filter (fun b => b != k)).take j := by
        rw [hj] at hkrev ⊢
        rw [take_filter_bne_of_mem _ k j (dedupFirst_nodup _) hkrev]
    _ = lruSpec st.maxSize (acc ++ [k]) := by
        rw [lruSpec, List.reverse_append, List.reverse_singleton, List.singleton_append,
          dedupFirst, hj, List.take_succ_cons]

theorem storeInv_fresh {st : SignatureStore} {acc : List String} {k : String}
    (hm : 1 ≤ st.maxSize) (hinv : storeInv st acc) (hk : k ∉ st.items) :
    (if st.maxSize ≤ st.items.length then st.items.drop 1 ++ [k]
      else st.items ++ [k]).reverse = lruSpec st.maxSize (acc ++ [k]) := by
  obtain ⟨j, hj⟩ : ∃ j, st.maxSize = j + 1 :=
    ⟨st.maxSize - 1, (Nat.succ_pred_eq_of_pos hm).symm⟩
  set M := dedupFirst acc.reverse with hM
  have hrev : st.items.reverse = M.take st.maxSize := hinv
  have hkrev : k ∉ M.take st.maxSize := by
    rw [← hrev]; simpa using hk
  have hlen : st.items.length = (M.take st.maxSize).length := by
    rw [← hrev]; simp
  have hspec : lruSpec st.maxSize (acc ++ [k])
      = k :: (M.filter (fun b => b != k)).take j := by
    rw [lruSpec, List.reverse_append, List.reverse_singleton, List.singleton_append,
      dedupFirst, ← hM, hj, List.take_succ_cons]
  by_cases hfull : st.maxSize ≤ st.items.length
  · rw [if_pos hfull]
    have hMlen : st.maxSize ≤ M.length := by
      by_contra hlt
      push_neg at hlt
      have : st.items.length < st.maxSize := by
        rw [hlen, List.length_take]
        omega
      omega
    have hitems : st.items.length = st.maxSize := by
      rw [hlen, List.length_take]
      omega
    calc (st.items.drop 1 ++ [k]).reverse
        = k :: (st.items.drop 1).reverse := by simp
      _ = k :: st.items.reverse.dropLast := by rw [reverse_drop_one]
      _ = k :: (M.take st.maxSize).dropLast := by rw [hrev]
      _ = k :: M.take j := by
          rw [hj] at hMlen ⊢
          rw [take_succ_dropLast M j hMlen]
      _ = k :: (M.filter (fun b => b != k)).take j := by
          rw [hj] at hkrev
          rw [take_filter_bne_of_not_mem M k j hkrev]
      _ = lruSpec st.maxSize (acc ++ [k]) := hspec.symm
  · rw [if_neg hfull]
    push_neg at hfull
    have hMshort : M.length < st.maxSize := by
      by_contra hge
      push_neg at hge
      have : st.items.length = st.maxSize := by
        rw [hlen, List.length_take]
        omega
      omega
    have hMfull : M.take st.maxSize = M := List.take_of_length_le (Nat.le_of_lt hMshort)
    have hkM : k ∉ M := by rw [← hMfull]; exact hkrev
    calc (st.items ++ [k]).reverse
        = k :: st.items.reverse := by simp
      _ = k :: M.take st.maxSize := by rw [hrev]
      _ = k :: M := by rw [hMfull]
      _ = k :: (M.filter (fun b => b != k)).take j := by
          rw [filter_bne_of_not_mem hkM, List.take_of_length_le (by omega)]
      _ = lruSpec st.maxSize (acc ++ [k]) := hspec.symm

theorem SignatureStore.maxSize_stepOp (st : SignatureStore) (op : StoreOp) :
    (st.stepOp op).maxSize = st.maxSize := by
  cases op with
  | add s =>
    simp only [stepOp, add]
    split <;> try rfl
    split <;> try rfl
    split <;> rfl
  | has s =>
    simp only [stepOp, has]
    split <;> try rfl
    split <;> rfl

theorem storeInv_stepOp {st : SignatureStore} {acc : List String}
    (hm : 1 ≤ st.maxSize) (hinv : storeInv st acc) (op : StoreOp) :
    storeInv (st.stepOp op) (acc ++ st.opAccess op) := by
  cases op with
  | add s =>
    by_cases hs : s = ""
    · simpa [storeInv, SignatureStore.stepOp, SignatureStore.add,
        SignatureStore.opAccess, hs] using hinv
    · by_cases hmem : s ∈ st.items
      · have := storeInv_promote hm hinv hmem
        simp only [storeInv, SignatureStore.stepOp, SignatureStore.add,
          SignatureStore.opAccess, hs, hmem, if_neg hs, if_pos hmem, if_true]
        simpa using this
      · have := storeInv_fresh (k := s) hm hinv hmem
        by_cases hfull : st.maxSize ≤ st.items.length
        · rw [if_pos hfull] at this
          simp only [storeInv, SignatureStore.stepOp, SignatureStore.add,
            SignatureStore.opAccess, if_neg hs, if_neg hmem, if_pos hfull]
          simpa using this
        · rw [if_neg hfull] at this
          simp only [storeInv, SignatureStore.stepOp, SignatureStore.add,
            SignatureStore.opAccess, if_neg hs, if_neg hmem, if_neg hfull]
          simpa using this
  | has s =>
    by_cases hs : s = ""
    · simpa [storeInv, SignatureStore.stepOp, SignatureStore.has,
        SignatureStore.opAccess, hs] using hinv
    · by_cases hmem : s ∈ st.items
      · have := storeInv_promote hm hinv hmem
        simp only [storeInv, SignatureStore.stepOp, SignatureStore.has,
          SignatureStore.opAccess, if_neg hs, if_pos hmem]
        simpa using this
      · simpa [storeInv, SignatureStore.stepOp, SignatureStore.has,
          SignatureStore.opAccess, hs, hmem] using hinv

theorem runStoreJoint_inv : ∀ (ops : List StoreOp) (st : SignatureStore)
    (acc : List String), 1 ≤ st.maxSize → storeInv st acc →
    storeInv (runStoreJoint st acc ops).1 (runStoreJoint st acc ops).2 ∧
      (runStoreJoint st acc ops).1.maxSize = st.maxSize
  | [], st, acc, _, hinv => ⟨hinv, rfl⟩
  | op :: ops, st, acc, hm, hinv => by
    have hstep := storeInv_stepOp hm hinv op
    have hms := SignatureStore.maxSize_stepOp st op
    have := runStoreJoint_inv ops (st.stepOp op) (acc ++ st.opAccess op)
      (hms ▸ hm) hstep
    simpa [runStoreJoint, hms] using this

theorem one_le_validateMaxSize (arg : JSNum) : 1 ≤ validateMaxSize arg := by
  cases arg with
  | nan => simp [validateMaxSize, JSNum.isInteger, DEFAULT_MAX_SIZE]
  | posInf => simp [validateMaxSize, JSNum.isInteger, DEFAULT_MAX_SIZE]
  | negInf => simp [validateMaxSize, JSNum.isInteger, DEFAULT_MAX_SIZE]
  | fin q =>
    by_cases hden : q.den = 1
    · by_cases hlt : q < 1
      · simp [validateMaxSize, JSNum.isInteger, JSNum.ltOne, hden, hlt, DEFAULT_MAX_SIZE]
      · have hq : 1 ≤ q := not_lt.1 hlt
        have hpos : 0 < q.num := Rat.num_pos.2 (lt_of_lt_of_le one_pos hq)
        have hge : 1 ≤ q.num.toNat := by omega
        simpa [validateMaxSize, JSNum.isInteger, JSNum.ltOne, hden, hlt] using hge
    · simp [validateMaxSize, JSNum.isInteger, hden, DEFAULT_MAX_SIZE]

/-- C4. For every construction argument and every finite sequence of `add` and
`has` operations starting from the fresh store, the store's size never exceeds
the construction capacity, and the retained keys (most recent first) are
exactly the last `maxSize` distinct keys of the chronological access list,
where an `add` of a new or existing non-empty key and a `has` hit each access
(promote) the key, and an `add` of a new key at capacity evicts the
least-recent key. -/
theorem signatureStore_lru_capacity (arg : JSNum) (ops : List StoreOp) :
    (runStoreJoint (newSignatureStore arg) [] ops).1.items.length
        ≤ validateMaxSize arg ∧
      (runStoreJoint (newSignatureStore arg) [] ops).1.items.reverse
        = lruSpec (validateMaxSize arg) (runStoreJoint (newSignatureStore arg) [] ops).2 := by
  have h0 : storeInv (newSignatureStore arg) [] := by
    simp [storeInv, newSignatureStore, lruSpec, dedupFirst]
  have hm : 1 ≤ (newSignatureStore arg).maxSize := one_le_validateMaxSize arg
  obtain ⟨hinv, hms⟩ := runStoreJoint_inv ops (newSignatureStore arg) [] hm h0
  have hms' : (runStoreJoint (newSignatureStore arg) [] ops).1.maxSize
      = validateMaxSize arg := by
    rw [hms]; rfl
  constructor
  · have := congrArg List.length hinv
    simp only [storeInv, lruSpec, List.length_reverse, List.length_take] at this
    rw [hms'] at this
    omega
  · have := hinv
    rw [storeInv, hms'] at this
    exact this

theorem SignatureStore.maxSize_runOps : ∀ (ops : List StoreOp) (st : SignatureStore),
    (st.runOps ops).maxSize = st.maxSize
  | [], _ => rfl
  | op :: ops, st => by
    rw [SignatureStore.runOps, List.foldl_cons]
    rw [show List.foldl SignatureStore.stepOp (st.stepOp op) ops
        = (st.stepOp op).runOps ops from rfl]
    rw [SignatureStore.maxSize_runOps ops, SignatureStore.maxSize_stepOp]

/-- C8 (amended). A constructor argument that is zero, negative, non-integer,
NaN or an infinity yields the default capacity 1000, and the capacity never
changes under any later sequence of store operations.  (Arguments that are
integers `≥ 1` are kept as the capacity even when they exceed the configured
range's upper bound 100000; see the counterexample.) -/
theorem signatureStore_constructor_default (arg : JSNum) (ops : List StoreOp)
    (h : arg.isInteger = false ∨ arg.ltOne = true) :
    (newSignatureStore arg).maxSize = 1000 ∧
      ((newSignatureStore arg).runOps ops).maxSize = (newSignatureStore arg).maxSize := by
  refine ⟨?_, SignatureStore.maxSize_runOps ops _⟩
  rcases h with h | h <;>
    simp [newSignatureStore, validateMaxSize, h, DEFAULT_MAX_SIZE]

/-- Witness for C8: the concrete arguments NaN and 3.5 do hit the default. -/
theorem signatureStore_constructor_default_witness :
    (newSignatureStore .nan).maxSize = 1000 ∧
      ((newSignatureStore .nan).runOps [.add "s"]).maxSize
        = (newSignatureStore .nan).maxSize :=
  signatureStore_constructor_default .nan [.add "s"] (Or.inl rfl)

/-- Counterexample for C8 as stated: 200000 is out of the configured range
1..100000 (`loader.ts` rejects it), yet the constructor keeps it as the
capacity instead of falling back to the default 1000. -/
theorem signatureStore_out_of_range_counterexample :
    ¬ (200000 : Nat) ≤ 100000 ∧
      (newSignatureStore (.fin 200000)).maxSize = 200000 ∧
      (newSignatureStore (.fin 200000)).maxSize ≠ 1000 :=
  ⟨by decide, by decide, by decide⟩

/-- C9. Every SIGTERM or SIGKILL event in a `stop()` trace is immediately
preceded by a successful port-ownership verification of the same PID:
`stop()` signals a PID only after the verification for that PID succeeded. -/
theorem stop_signals_only_verified_pids (env : StopEnv) (i : Nat) (pid : Int)
    (h : (stopTrace env).get? i = some (.sigterm pid) ∨
      (stopTrace env).get? i = some (.sigkill pid)) :
    1 ≤ i ∧ (stopTrace env).get? (i - 1) = some (.verify pid true) := by
  rcases env with ⟨pf, p1, a1, l1, ap, p2, a2, l2⟩
  match pf with
  | none =>
    exfalso
    rcases h with h | h <;>
      · match i with
        | 0 => simp [stopTrace] at h
        | j + 1 => simp [stopTrace] at h
  | some pid' =>
    by_cases hp : pid' > 0
    · simp only [stopTrace, if_pos hp] at h ⊢
      generalize verifyResult p1 a1 l1 = v1 at h ⊢
      generalize verifyResult p2 a2 l2 = v2 at h ⊢
      cases v1 with
      | false =>
        exfalso
        simp only [Bool.false_eq_true, if_false] at h
        rcases h with h | h <;>
          · match i with
            | 0 => simp at h
            | 1 => simp at h
            | j + 2 => simp at h
      | true =>
        simp only [if_true] at h ⊢
        cases ap with
        | false =>
          simp only [Bool.false_eq_true, if_false] at h ⊢
          match i with
          | 0 => exfalso; rcases h with h | h <;> simp at h
          | 1 =>
            rcases h with h | h
            · obtain rfl : pid' = pid := by simpa using h
              exact ⟨Nat.le_refl 1, by simp⟩
            · exfalso; simp at h
          | 2 => exfalso; rcases h with h | h <;> simp at h
          | j + 3 => exfalso; rcases h with h | h <;> simp at h
        | true =>
          simp only [if_true] at h ⊢
          cases v2 with
          | false =>
            simp only [Bool.false_eq_true, if_false] at h ⊢
            match i with
            | 0 => exfalso; rcases h with h | h <;> simp at h
            | 1 =>
              rcases h with h | h
              · obtain rfl : pid' = pid := by simpa using h
                exact ⟨Nat.le_refl 1, by simp⟩
              · exfalso; simp at h
            | 2 => exfalso; rcases h with h | h <;> simp at h
            | 3 => exfalso; rcases h with h | h <;> simp at h
            | j + 4 => exfalso; rcases h with h | h <;> simp at h
          | true =>
            simp only [if_true] at h ⊢
            match i with
            | 0 => exfalso; rcases h with h | h <;> simp at h
            | 1 =>
              rcases h with h | h
              · obtain rfl : pid' = pid := by simpa using h
                exact ⟨Nat.le_refl 1, by simp⟩
              · exfalso; simp at h
            | 2 => exfalso; rcases h with h | h <;> simp at h
            | 3 =>
              rcases h with h | h
              · exfalso; simp at h
              · obtain rfl : pid' = pid := by simpa using h
                refine ⟨by omega, by simp⟩
            | 4 => exfalso; rcases h with h | h <;> simp at h
            | j + 5 => exfalso; rcases h with h | h <;> simp at h
    · exfalso
      simp only [stopTrace, if_neg hp] at h
      rcases h with h | h <;>
        · match i with
          | 0 => simp at h
          | j + 1 => simp at h

/-- Witness for C9 at a concrete execution: PID 42, all checks succeeding;
the SIGKILL at index 3 is preceded by the successful re-verification. -/
theorem stop_signals_only_verified_pids_witness :
    1 ≤ 3 ∧ (stopTrace ⟨some 42, true, true, true, true, true, true, true⟩).get? (3 - 1)
      = some (.verify 42 true) :=
  stop_signals_only_verified_pids ⟨some 42, true, true, true, true, true, true, true⟩
    3 42 (Or.inr (by rfl))

theorem rmatchF_fuel_irrel : ∀ (fuel₁ fuel₂ : Nat) (r : List (RAtom × RQuant))
    (s : List Char), r.length + s.length < fuel₁ → r.length + s.length < fuel₂ →
    rmatchF fuel₁ r s = rmatchF fuel₂ r s
  | 0, _, _, _, h1, _ => absurd h1 (Nat.not_lt_zero _)
  | _ + 1, 0, _, _, _, h2 => absurd h2 (Nat.not_lt_zero _)
  | f + 1, g + 1, [], s, _, _ => rfl
  | f + 1, g + 1, (a, .one) :: r, s, h1, h2 => by
    simp only [List.length_cons] at h1 h2
    match s with
    | [] => rfl
    | x :: s' =>
      show (ratomMatch a x && rmatchF f r s') = (ratomMatch a x && rmatchF g r s')
      simp only [List.length_cons] at h1 h2
      rw [rmatchF_fuel_irrel f g r s' (by omega) (by omega)]
  | f + 1, g + 1, (a, .opt) :: r, s, h1, h2 => by
    simp only [List.length_cons] at h1 h2
    match s with
    | [] =>
      show (rmatchF f r [] || false) = (rmatchF g r [] || false)
      rw [rmatchF_fuel_irrel f g r [] (by simp at h1 ⊢; omega) (by simp at h2 ⊢; omega)]
    | x :: s' =>
      show (rmatchF f r (x :: s') || (ratomMatch a x && rmatchF f r s'))
        = (rmatchF g r (x :: s') || (ratomMatch a x && rmatchF g r s'))
      simp only [List.length_cons] at h1 h2
      rw [rmatchF_fuel_irrel f g r (x :: s') (by simp; omega) (by simp; omega),
        rmatchF_fuel_irrel f g r s' (by omega) (by omega)]
  | f + 1, g + 1, (a, .star) :: r, s, h1, h2 => by
    simp only [List.length_cons] at h1 h2
    match s with
    | [] =>
      show (rmatchF f r [] || false) = (rmatchF g r [] || false)
      rw [rmatchF_fuel_irrel f g r [] (by simp at h1 ⊢; omega) (by simp at h2 ⊢; omega)]
    | x :: s' =>
      show (rmatchF f r (x :: s') || (ratomMatch a x && rmatchF f ((a, .star) :: r) s'))
        = (rmatchF g r (x :: s') || (ratomMatch a x && rmatchF g ((a, .star) :: r) s'))
      simp only [List.length_cons] at h1 h2
      rw [rmatchF_fuel_irrel f g r (x :: s') (by simp; omega) (by simp; omega),
        rmatchF_fuel_irrel f g ((a, .star) :: r) s'
          (by simp; omega) (by simp; omega)]

theorem rmatch_nil (s : List Char) : rmatch [] s = s.isEmpty := rfl

theorem rmatch_one_nil (a : RAtom) (r : List (RAtom × RQuant)) :
    rmatch ((a, .one) :: r) [] = false := rfl

theorem rmatch_one_cons (a : RAtom) (r : List (RAtom × RQuant)) (x : Char)
    (s : List Char) :
    rmatch ((a, .one) :: r) (x :: s) = (ratomMatch a x && rmatch r s) := by
  show (ratomMatch a x
      && rmatchF (((a, RQuant.one) :: r).length + (x :: s).length) r s)
    = (ratomMatch a x && rmatch r s)
  rw [rmatch, rmatchF_fuel_irrel (((a, RQuant.one) :: r).length + (x :: s).length)
    (r.length + s.length + 1) r s
    (by simp only [List.length_cons]; omega) (by omega)]

theorem rmatch_opt_nil (a : RAtom) (r : List (RAtom × RQuant)) :
    rmatch ((a, .opt) :: r) [] = rmatch r [] := by
  show (rmatchF (((a, RQuant.opt) :: r).length + ([] : List Char).length) r [] || false)
    = rmatch r []
  rw [Bool.or_false, rmatch,
    rmatchF_fuel_irrel (((a, RQuant.opt) :: r).length + ([] : List Char).length)
      (r.length + ([] : List Char).length + 1) r []
      (by simp only [List.length_cons, List.length_nil]; omega) (by omega)]

theorem rmatch_opt_cons (a : RAtom) (r : List (RAtom × RQuant)) (x : Char)
    (s : List Char) :
    rmatch ((a, .opt) :: r) (x :: s)
      = (rmatch r (x :: s) || (ratomMatch a x && rmatch r s)) := by
  show (rmatchF (((a, RQuant.opt) :: r).length + (x :: s).length) r (x :: s)
      || (ratomMatch a x
        && rmatchF (((a, RQuant.opt) :: r).length + (x :: s).length) r s))
    = (rmatch r (x :: s) || (ratomMatch a x && rmatch r s))
  rw [rmatch, rmatch,
    rmatchF_fuel_irrel (((a, RQuant.opt) :: r).length + (x :: s).length)
      (r.length + (x :: s).length + 1) r (x :: s)
      (by simp only [List.length_cons]; omega) (by omega),
    rmatchF_fuel_irrel (((a, RQuant.opt) :: r).length + (x :: s).length)
      (r.length + s.length + 1) r s
      (by simp only [List.length_cons]; omega) (by omega)]

theorem rmatch_star_nil (a : RAtom) (r : List (RAtom × RQuant)) :
    rmatch ((a, .star) :: r) [] = rmatch r [] := by
  show (rmatchF (((a, RQuant.star) :: r).length + ([] : List Char).length) r [] || false)
    = rmatch r []
  rw [Bool.or_false, rmatch,
    rmatchF_fuel_irrel (((a, RQuant.star) :: r).length + ([] : List Char).length)
      (r.length + ([] : List Char).length + 1) r []
      (by simp only [List.length_cons, List.length_nil]; omega) (by omega)]

theorem rmatch_star_cons (a : RAtom) (r : List (RAtom × RQuant)) (x : Char)
    (s : List Char) :
    rmatch ((a, .star) :: r) (x :: s)
      = (rmatch r (x :: s) || (ratomMatch a x && rmatch ((a, .star) :: r) s)) := by
  show (rmatchF (((a, RQuant.star) :: r).length + (x :: s).length) r (x :: s)
      || (ratomMatch a x
        && rmatchF (((a, RQuant.star) :: r).length + (x :: s).length)
          ((a, RQuant.star) :: r) s))
    = (rmatch r (x :: s) || (ratomMatch a x && rmatch ((a, RQuant.star) :: r) s))
  rw [rmatch, rmatch,
    rmatchF_fuel_irrel (((a, RQuant.star) :: r).length + (x :: s).length)
      (r.length + (x :: s).length + 1) r (x :: s)
      (by simp only [List.length_cons]; omega) (by omega),
    rmatchF_fuel_irrel (((a, RQuant.star) :: r).length + (x :: s).length)
      (((a, RQuant.star) :: r).length + s.length + 1) ((a, RQuant.star) :: r) s
      (by simp only [List.length_cons]; omega)
      (by simp only [List.length_cons]; omega)]

theorem globCharToRegexChars_ne_nil (c : Char) : globCharToRegexChars c ≠ [] := by
  unfold globCharToRegexChars
  split
  · simp
  · split <;> simp

theorem parseRQuant_not_quant_head (cs : List Char)
    (h : ∀ x ∈ cs.head?, x ≠ '*' ∧ x ≠ '?') :
    parseRQuant cs = (.one, cs) := by
  match cs with
  | [] => rfl
  | c :: rest =>
    obtain ⟨h1, h2⟩ := h c rfl
    simp only [parseRQuant]
    rw [if_neg h1, if_neg h2]

theorem parseRQuant_star_head (rest : List Char)
    (h : ∀ x ∈ rest.head?, x ≠ '?') :
    parseRQuant ('*' :: rest) = (.star, rest) := by
  match rest with
  | [] => rfl
  | x :: t =>
    have hx : x ≠ '?' := h x rfl
    simp only [parseRQuant]
    simp only [if_true]
    split
    · rename_i heq
      rcases List.cons_eq_cons.1 heq with ⟨h1, -⟩
      exact absurd h1 hx
    · rfl

theorem flatMap_head_not_quant (p : List Char) (h : '?' ∉ p) :
    ∀ x ∈ (p.flatMap globCharToRegexChars).head?, x ≠ '*' ∧ x ≠ '?' := by
  match p with
  | [] => intro x hx; simp at hx
  | d :: p' =>
    intro x hx
    have hd : d ≠ '?' := fun e => h (e ▸ List.mem_cons_self d p')
    rw [List.flatMap_cons] at hx
    unfold globCharToRegexChars at hx
    by_cases hstar : d = '*'
    · rw [if_pos hstar] at hx
      simp at hx
      subst hx
      exact ⟨by decide, by decide⟩
    · rw [if_neg hstar] at hx
      by_cases hmeta : d ∈ regexEscapeSet
      · rw [if_pos hmeta] at hx
        simp at hx
        subst hx
        exact ⟨by decide, by decide⟩
      · rw [if_neg hmeta] at hx
        simp at hx
        subst hx
        exact ⟨hstar, hd⟩

theorem parseRItems_glob : ∀ (p : List Char), '?' ∉ p → ∀ (fuel : Nat),
    (p.flatMap globCharToRegexChars).length ≤ fuel →
    parseRItems fuel (p.flatMap globCharToRegexChars) = some (globItemsL p)
  | [], _, fuel, _ => by
    cases fuel <;> rfl
  | d :: p', h, fuel, hfuel => by
    have hd : d ≠ '?' := fun e => h (e ▸ List.mem_cons_self d p')
    have hp' : '?' ∉ p' := fun m => h (List.mem_cons_of_mem d m)
    rw [List.flatMap_cons] at hfuel ⊢
    by_cases hstar : d = '*'
    · subst hstar
      have hbody : globCharToRegexChars '*' = ['.', '*'] := rfl
      rw [hbody] at hfuel ⊢
      match fuel, hfuel with
      | fuel + 1, hfuel =>
        show parseRItems (fuel + 1) ('.' :: '*' :: p'.flatMap globCharToRegexChars) = _
        have hatom : parseRAtom ('.' :: '*' :: p'.flatMap globCharToRegexChars)
            = some (.dot, '*' :: p'.flatMap globCharToRegexChars) := rfl
        have hquant := parseRQuant_star_head (p'.flatMap globCharToRegexChars)
          (fun x hx => (flatMap_head_not_quant p' hp' x hx).2)
        have hrec := parseRItems_glob p' hp' fuel (by
          rw [List.length_append] at hfuel
          simp only [List.length_cons, List.length_nil] at hfuel
          omega)
        simp [parseRItems, hatom, hquant, hrec, globItemsL]
    · by_cases hmeta : d ∈ regexEscapeSet
      · have hbody : globCharToRegexChars d = ['\\', d] := by
          unfold globCharToRegexChars
          rw [if_neg hstar, if_pos hmeta]
        rw [hbody] at hfuel ⊢
        match fuel, hfuel with
        | fuel + 1, hfuel =>
          show parseRItems (fuel + 1) ('\\' :: d :: p'.flatMap globCharToRegexChars) = _
          have hatom : parseRAtom ('\\' :: d :: p'.flatMap globCharToRegexChars)
              = some (.lit d, p'.flatMap globCharToRegexChars) := rfl
          have hquant := parseRQuant_not_quant_head (p'.flatMap globCharToRegexChars)
            (flatMap_head_not_quant p' hp')
          have hrec := parseRItems_glob p' hp' fuel (by
            rw [List.length_append] at hfuel
            simp only [List.length_cons, List.length_nil] at hfuel
            omega)
          simp [parseRItems, hatom, hquant, hrec, globItemsL, hstar]
      · have hbody : globCharToRegexChars d = [d] := by
          unfold globCharToRegexChars
          rw [if_neg hstar, if_neg hmeta]
        rw [hbody] at hfuel ⊢
        match fuel, hfuel with
        | fuel + 1, hfuel =>
          show parseRItems (fuel + 1) (d :: p'.flatMap globCharToRegexChars) = _
          have hbs : d ≠ '\\' := by
            intro e
            exact hmeta (by rw [e]; simp [regexEscapeSet])
          have hdot : d ≠ '.' := by
            intro e
            exact hmeta (by rw [e]; simp [regexEscapeSet])
          have hatom : parseRAtom (d :: p'.flatMap globCharToRegexChars)
              = some (.lit d, p'.flatMap globCharToRegexChars) := by
            simp only [parseRAtom]
            rw [if_neg hbs, if_neg hdot, if_neg hstar, if_neg hd]
          have hquant := parseRQuant_not_quant_head (p'.flatMap globCharToRegexChars)
            (flatMap_head_not_quant p' hp')
          have hrec := parseRItems_glob p' hp' fuel (by
            rw [List.length_append] at hfuel
            simp only [List.length_cons, List.length_nil] at hfuel
            omega)
          simp [parseRItems, hatom, hquant, hrec, globItemsL, hstar]

theorem globMatch_nil_iff {s : List Char} : GlobMatch [] s ↔ s = [] := by
  constructor
  · intro h
    cases h
    rfl
  · rintro rfl
    exact .nil

theorem globMatch_cons_lit {c : Char} (hc : c ≠ '*') {p s : List Char} :
    GlobMatch (c :: p) s ↔ ∃ s', s = c :: s' ∧ GlobMatch p s' := by
  constructor
  · intro h
    cases h with
    | lit hc' h' => exact ⟨_, rfl, h'⟩
    | star w h' => exact absurd rfl hc
  · rintro ⟨s', rfl, h⟩
    exact .lit hc h

theorem globMatch_star_iff {p s : List Char} :
    GlobMatch ('*' :: p) s ↔ ∃ w u, s = w ++ u ∧ GlobMatch p u := by
  constructor
  · intro h
    cases h with
    | lit hc h' => exact absurd rfl hc
    | star w h' => exact ⟨w, _, rfl, h'⟩
  · rintro ⟨w, u, rfl, h⟩
    exact .star w h

theorem globMatch_star_cons {p s : List Char} (x : Char)
    (h : GlobMatch ('*' :: p) s) : GlobMatch ('*' :: p) (x :: s) := by
  rcases globMatch_star_iff.1 h with ⟨w, u, rfl, h'⟩
  exact GlobMatch.star (x :: w) h'

theorem rmatch_star_of_append : ∀ (w u : List Char) (r : List (RAtom × RQuant)),
    (∀ c ∈ w, ratomMatch RAtom.dot c = true) → rmatch r u = true →
    rmatch ((RAtom.dot, RQuant.star) :: r) (w ++ u) = true
  | [], u, r, _, hu => by
    match u with
    | [] => rw [List.nil_append, rmatch_star_nil]; exact hu
    | x :: u' => rw [List.nil_append, rmatch_star_cons, hu, Bool.true_or]
  | x :: w, u, r, hw, hu => by
    rw [List.cons_append, rmatch_star_cons]
    have hx : ratomMatch RAtom.dot x = true := hw x (List.mem_cons_self x w)
    have hrec := rmatch_star_of_append w u r
      (fun c hc => hw c (List.mem_cons_of_mem x hc)) hu
    rw [hx, hrec]
    simp

theorem rmatch_globItems : ∀ (p s : List Char),
    (∀ c ∈ s, isLineTerminator c = false) →
    (rmatch (globItemsL p) s = true ↔ GlobMatch p s)
  | [], s, _ => by
    rw [globItemsL, List.map_nil, rmatch_nil]
    simp [List.isEmpty_iff, globMatch_nil_iff]
  | c :: p', s, hs => by
    by_cases hc : c = '*'
    · subst hc
      have hitems : globItemsL ('*' :: p') = (RAtom.dot, RQuant.star) :: globItemsL p' := by
        simp [globItemsL]
      rw [hitems]
      constructor
      · intro h
        match s, hs, h with
        | [], hs, h =>
          rw [rmatch_star_nil] at h
          have := (rmatch_globItems p' [] (by simp)).1 h
          exact GlobMatch.star [] this
        | x :: s', hs, h =>
          rw [rmatch_star_cons] at h
          rcases Bool.or_eq_true_iff.1 h with h1 | h2
          · have := (rmatch_globItems p' (x :: s') hs).1 h1
            have h0 : GlobMatch ('*' :: p') ([] ++ (x :: s')) := GlobMatch.star [] this
            simpa using h0
          · rcases Bool.and_eq_true_iff.1 h2 with ⟨-, h4⟩
            have hs' : ∀ c ∈ s', isLineTerminator c = false :=
              fun c hcs => hs c (List.mem_cons_of_mem x hcs)
            have := (rmatch_globItems ('*' :: p') s' hs').1 h4
            exact globMatch_star_cons x this
      · intro h
        rcases globMatch_star_iff.1 h with ⟨w, u, hsplit, hu⟩
        subst hsplit
        have hu' : ∀ c ∈ u, isLineTerminator c = false :=
          fun c hcu => hs c (List.mem_append_right w hcu)
        have hmu : rmatch (globItemsL p') u = true :=
          (rmatch_globItems p' u hu').2 hu
        exact rmatch_star_of_append w u (globItemsL p')
          (fun c hcw => by
            have := hs c (List.mem_append_left u hcw)
            simp [ratomMatch, this]) hmu
    · have hitems : globItemsL (c :: p') = (RAtom.lit c, RQuant.one) :: globItemsL p' := by
        simp [globItemsL, hc]
      rw [hitems]
      match s, hs with
      | [], hs =>
        rw [rmatch_one_nil]
        simp only [Bool.false_eq_true, false_iff]
        intro h
        rcases (globMatch_cons_lit hc).1 h with ⟨s', hs', -⟩
        exact List.noConfusion hs'
      | x :: s', hs =>
        rw [rmatch_one_cons]
        have hs' : ∀ d ∈ s', isLineTerminator d = false :=
          fun d hds => hs d (List.mem_cons_of_mem x hds)
        constructor
        · intro h
          rcases Bool.and_eq_true_iff.1 h with ⟨h1, h2⟩
          have hx : x = c := by simpa [ratomMatch] using h1
          subst hx
          exact GlobMatch.lit hc ((rmatch_globItems p' s' hs').1 h2)
        · intro h
          rcases (globMatch_cons_lit hc).1 h with ⟨s'', heq, h'⟩
          rcases List.cons_eq_cons.1 heq with ⟨rfl, rfl⟩
          rw [(rmatch_globItems p' s' hs').2 h']
          simp [ratomMatch]
termination_by p s => (p.length, s.length)

/-- C5 (amended). For every pattern that contains no `?` and every string with
no line terminator, the compiled matcher accepts the string iff it is a
whole-string, case-sensitive glob match of the pattern (with `*` matching any
characters including none, other regex metacharacters literal, anchoring at
both ends, and the empty pattern matching only the empty string).  An
unescaped `?` in the pattern instead acts as the JS optional quantifier, and
`.*` does not match across line terminators (see the counterexample). -/
theorem globToRegExp_glob_equiv (pattern s : String)
    (hq : '?' ∉ pattern.data)
    (hs : ∀ c ∈ s.data, isLineTerminator c = false) :
    regexTest pattern s = true ↔ GlobMatch pattern.data s.data := by
  have hcompile : globToRegExp pattern = some (globItemsL pattern.data) :=
    parseRItems_glob pattern.data hq _ (Nat.le_refl _)
  unfold regexTest
  rw [hcompile]
  exact rmatch_globItems pattern.data s.data hs

/-- Witness for C5 at a concrete pattern and string: `a*b` against `aXYb`. -/
theorem globToRegExp_glob_equiv_witness :
    regexTest "a*b" "aXYb" = true ↔ GlobMatch "a*b".data "aXYb".data :=
  globToRegExp_glob_equiv "a*b" "aXYb" (by decide) (by decide)

/-- Counterexample for C5 as stated: the pattern `a?` consists of literal
characters only (no `*`), so by the glob definition it matches exactly the
string `a?`; but `globToRegExp` does not escape `?`, so the compiled regex
`^a?$` rejects `a?` and accepts `a`. -/
theorem globToRegExp_question_counterexample :
    GlobMatch "a?".data "a?".data ∧ regexTest "a?" "a?" = false ∧
      regexTest "a?" "a" = true :=
  ⟨GlobMatch.lit (by decide) (GlobMatch.lit (by decide) GlobMatch.nil),
    by decide, by decide⟩

theorem selectRouteRules_spec (modelToMatch : String) (cfg : Config) :
    ∀ (rules : List Rule), (∀ r ∈ rules, (globToRegExp r.matchPat).isSome) →
    selectRouteRules modelToMatch cfg rules
      = .ok ((rules.find? (ruleMatches modelToMatch)).map
          (fun r => routeForUpstream cfg r.upstream r.model))
  | [], _ => rfl
  | rule :: rest, h => by
    have hrest : ∀ r ∈ rest, (globToRegExp r.matchPat).isSome :=
      fun r hr => h r (List.mem_cons_of_mem rule hr)
    have hrec := selectRouteRules_spec modelToMatch cfg rest hrest
    by_cases hvalid : isValidUpstream rule.upstream = true
    · obtain ⟨items, hitems⟩ : ∃ items, globToRegExp rule.matchPat = some items := by
        have := h rule (List.mem_cons_self rule rest)
        exact Option.isSome_iff_exists.1 this
      have htest : regexTest rule.matchPat modelToMatch
          = rmatch items modelToMatch.data := by
        rw [regexTest, hitems]
      by_cases hmatch : rmatch items modelToMatch.data = true
      · have hrm : ruleMatches modelToMatch rule = true := by
          rw [ruleMatches, hvalid, htest, hmatch]
          rfl
        by_cases hup : rule.upstream = "anthropic"
        · simp [selectRouteRules, hitems, hvalid, hmatch, hup, List.find?, hrm,
            routeForUpstream, isValidUpstream]
        · have hz : rule.upstream = "zai" := by
            rw [isValidUpstream] at hvalid
            rcases Bool.or_eq_true_iff.1 hvalid with h1 | h2
            · exact absurd (of_decide_eq_true h1) hup
            · exact of_decide_eq_true h2
          simp [selectRouteRules, hitems, hvalid, hmatch, hz, List.find?, hrm,
            routeForUpstream, isValidUpstream]
      · have hmatch' : rmatch items modelToMatch.data = false :=
          Bool.eq_false_iff.2 hmatch
        have hrm : ruleMatches modelToMatch rule = false := by
          rw [ruleMatches, htest, hmatch']
          simp
        simp only [selectRouteRules, hitems, hvalid, if_true, hmatch',
          Bool.false_eq_true, if_false, List.find?, hrm]
        exact hrec
    · have hvf : isValidUpstream rule.upstream = false := Bool.eq_false_iff.2 hvalid
      have hrm : ruleMatches modelToMatch rule = false := by
        rw [ruleMatches, hvf]
        simp
      simp only [selectRouteRules, hvf, Bool.false_eq_true, if_false,
        List.find?, hrm]
      exact hrec

/-- C6 (amended). Provided every rule pattern compiles (no misplaced `?`
quantifier; see the counterexample for a pattern that throws instead),
`selectRoute` returns exactly the route the claim describes: the first rule
in declared order with a valid upstream name and matching pattern (invalid
upstream names skipped), else the configured default with no model rewrite,
an invalid default yielding anthropic's URL with no apiKey; and the apiKey
field is populated only for upstream zai. -/
theorem selectRoute_spec (model : Option String) (cfg : Config)
    (h : ∀ r ∈ cfg.rules, (globToRegExp r.matchPat).isSome) :
    selectRoute model cfg = .ok (selectRouteSpec model cfg) ∧
      ((selectRouteSpec model cfg).name = "anthropic" →
        (selectRouteSpec model cfg).apiKey = none) := by
  have hrules := selectRouteRules_spec (model.getD "") cfg cfg.rules h
  constructor
  · rw [selectRoute, hrules, selectRouteSpec]
    match hfind : cfg.rules.find? (ruleMatches (model.getD "")) with
    | some r => rfl
    | none =>
      by_cases hdef : isValidUpstream cfg.routingDefault = true
      · rw [if_pos hdef]
        simp only [Option.map_none]
        rw [show (!isValidUpstream cfg.routingDefault) = false by rw [hdef]; rfl]
        by_cases hda : cfg.routingDefault = "anthropic"
        · rw [routeForUpstream, if_pos hda]
          simp [hda]
        · rw [routeForUpstream, if_neg hda]
          simp [hda]
      · rw [if_neg hdef]
        simp only [Option.map_none]
        rw [show (!isValidUpstream cfg.routingDefault) = true by
          rw [Bool.eq_false_iff.2 hdef]; rfl]
        rfl
  · rcases hfind : cfg.rules.find? (ruleMatches (model.getD "")) with _ | r
    · by_cases hdef : isValidUpstream cfg.routingDefault = true
      · by_cases hda : cfg.routingDefault = "anthropic"
        · simp [selectRouteSpec, hfind, hdef, hda, routeForUpstream]
        · simp [selectRouteSpec, hfind, hdef, hda, routeForUpstream]
      · simp [selectRouteSpec, hfind, Bool.eq_false_iff.2 hdef]
    · by_cases hup : r.upstream = "anthropic"
      · simp [selectRouteSpec, hfind, hup, routeForUpstream]
      · simp [selectRouteSpec, hfind, hup, routeForUpstream]

/-- Witness for C6 at a concrete configuration and model. -/
theorem selectRoute_spec_witness :
    (selectRoute (some "glm-4")
        { rules := [{ matchPat := "glm-*", upstream := "zai", model := some "GLM-4.7" }],
          routingDefault := "anthropic", anthropicUrl := "https://a.example",
          zaiUrl := "https://z.example", zaiApiKey := some "k1" }
      = .ok (selectRouteSpec (some "glm-4")
        { rules := [{ matchPat := "glm-*", upstream := "zai", model := some "GLM-4.7" }],
          routingDefault := "anthropic", anthropicUrl := "https://a.example",
          zaiUrl := "https://z.example", zaiApiKey := some "k1" })) ∧
      ((selectRouteSpec (some "glm-4")
        { rules := [{ matchPat := "glm-*", upstream := "zai", model := some "GLM-4.7" }],
          routingDefault := "anthropic", anthropicUrl := "https://a.example",
          zaiUrl := "https://z.example", zaiApiKey := some "k1" }).name = "anthropic" →
        (selectRouteSpec (some "glm-4")
        { rules := [{ matchPat := "glm-*", upstream := "zai", model := some "GLM-4.7" }],
          routingDefault := "anthropic", anthropicUrl := "https://a.example",
          zaiUrl := "https://z.example", zaiApiKey := some "k1" }).apiKey = none) :=
  selectRoute_spec (some "glm-4") _ (by decide)

/-- Counterexample for C6 as stated: a rule whose pattern is `?` (a valid
glob of one literal character) makes `new RegExp("^?$")` throw, so
`selectRoute` raises instead of returning the default route. -/
theorem selectRoute_question_counterexample :
    selectRoute (some "x")
        { rules := [{ matchPat := "?", upstream := "zai" }],
          routingDefault := "anthropic", anthropicUrl := "https://a.example",
          zaiUrl := "https://z.example" }
      = .error () := rfl

theorem hlookup_objSetH_self : ∀ (l : List (String × HVal)) (k : String) (v : HVal),
    hlookup (objSetH l k v) k = some v
  | [], k, v => by simp [objSetH, hlookup]
  | (k', v') :: rest, k, v => by
    by_cases h : k' = k
    · simp [objSetH, hlookup, h]
    · simp [objSetH, hlookup, h, hlookup_objSetH_self rest k v]

theorem hlookup_objSetH_other : ∀ (l : List (String × HVal)) (k k' : String)
    (v : HVal), k' ≠ k → hlookup (objSetH l k v) k' = hlookup l k'
  | [], k, k', v, h => by simp [objSetH, hlookup, Ne.symm h]
  | (k0, v0) :: rest, k, k', v, h => by
    by_cases h0 : k0 = k
    · subst h0
      simp [objSetH, hlookup, Ne.symm h]
    · by_cases h1 : k0 = k'
      · simp [objSetH, hlookup, h0, h1, h]
      · simp [objSetH, hlookup, h0, h1, hlookup_objSetH_other rest k k' v h]

theorem hlookup_objDelH_self : ∀ (l : List (String × HVal)) (k : String),
    hlookup (objDelH l k) k = none
  | [], k => rfl
  | (k', v') :: rest, k => by
    by_cases h : k' = k
    · simp [objDelH, h, hlookup_objDelH_self rest k]
    · simp [objDelH, hlookup, h, hlookup_objDelH_self rest k]

theorem hlookup_objDelH_other : ∀ (l : List (String × HVal)) (k k' : String),
    k' ≠ k → hlookup (objDelH l k) k' = hlookup l k'
  | [], _, _, _ => rfl
  | (k0, v0) :: rest, k, k', h => by
    by_cases h0 : k0 = k
    · subst h0
      simp [objDelH, hlookup, Ne.symm h, hlookup_objDelH_other rest k0 k' h]
    · by_cases h1 : k0 = k'
      · simp [objDelH, hlookup, h0, h1, h]
      · simp [objDelH, hlookup, h0, h1, hlookup_objDelH_other rest k k' h]

theorem hlookup_filter_key (q : String → Bool) :
    ∀ (l : List (String × HVal)) (k : String),
    hlookup (l.filter (fun kv => q kv.1)) k
      = if q k then hlookup l k else none
  | [], k => by
    by_cases h : q k = true <;> simp [hlookup, h]
  | (k0, v0) :: rest, k => by
    by_cases hk0 : k0 = k
    · subst hk0
      by_cases hq : q k0 = true
      · simp [List.filter_cons, hq, hlookup]
      · simp [List.filter_cons, hq, hlookup, hlookup_filter_key q rest k0,
          Bool.eq_false_iff.2 hq]
    · by_cases hq : q k0 = true
      · simp [List.filter_cons, hq, hlookup, hk0, hlookup_filter_key q rest k]
      · simp [List.filter_cons, hq, hlookup, hk0, hlookup_filter_key q rest k]

theorem objSetH_append_of_not_mem : ∀ (l : List (String × HVal)) (k : String)
    (v : HVal), k ∉ l.map Prod.fst → objSetH l k v = l ++ [(k, v)]
  | [], _, _, _ => rfl
  | (k0, v0) :: rest, k, v, h => by
    have h0 : k0 ≠ k := by
      intro e
      exact h (by simp [e])
    have hrest : k ∉ rest.map Prod.fst := by
      intro m
      exact h (by simp [m])
    simp [objSetH, h0, objSetH_append_of_not_mem rest k v hrest]

theorem forwardStep_removed (conn : List String) (bodyLen : Nat) (brw : Bool)
    (acc : List (String × HVal)) (kv : String × HVal)
    (hk : lowerAscii kv.1 = kv.1) (hrem : removedByFilter conn kv.1 = true) :
    forwardStep conn bodyLen brw acc kv = acc := by
  simp only [forwardStep, hk]
  by_cases h1 : kv.1 ∈ HOP_BY_HOP_HEADERS
  · rw [if_pos h1]
  · rw [if_neg h1]
    by_cases h2 : kv.1 ∈ conn
    · rw [if_pos h2]
    · rw [if_neg h2]
      by_cases h3 : kv.1 ∈ SECURITY_HEADERS_TO_REMOVE
      · rw [if_pos h3]
      · rw [if_neg h3]
        by_cases h4 : kv.1 = "host"
        · rw [if_pos h4]
        · exfalso
          rw [removedByFilter] at hrem
          simp [h1, h2, h3, h4] at hrem

theorem forwardStep_kept (conn : List String) (bodyLen : Nat)
    (acc : List (String × HVal)) (kv : String × HVal)
    (hk : lowerAscii kv.1 = kv.1) (hrem : removedByFilter conn kv.1 = false) :
    forwardStep conn bodyLen false acc kv = objSetH acc kv.1 kv.2 := by
  rw [removedByFilter] at hrem
  simp only [Bool.or_eq_false_iff, decide_eq_false_iff_not] at hrem
  obtain ⟨⟨⟨n1, n2⟩, n3⟩, n4⟩ := hrem
  simp only [forwardStep, hk]
  rw [if_neg n1, if_neg n2, if_neg n3, if_neg n4,
    if_neg (by rintro ⟨-, hb⟩; simp at hb)]

theorem foldl_forwardStep_filter (conn : List String) (bodyLen : Nat) :
    ∀ (hs acc : List (String × HVal)),
    (∀ kv ∈ hs, lowerAscii kv.1 = kv.1) →
    (∀ kv ∈ hs, kv.1 ∉ acc.map Prod.fst) →
    (hs.map Prod.fst).Nodup →
    hs.foldl (forwardStep conn bodyLen false) acc
      = acc ++ hs.filter (fun kv => !removedByFilter conn kv.1)
  | [], acc, _, _, _ => by simp
  | kv :: hs, acc, hlow, hdisj, hnd => by
    have hk : lowerAscii kv.1 = kv.1 := hlow kv (List.mem_cons_self kv hs)
    have hlow' : ∀ kv' ∈ hs, lowerAscii kv'.1 = kv'.1 :=
      fun kv' h => hlow kv' (List.mem_cons_of_mem kv h)
    have hnd' : (hs.map Prod.fst).Nodup := by
      rw [List.map_cons] at hnd
      exact (List.nodup_cons.1 hnd).2
    have hhead : kv.1 ∉ hs.map Prod.fst := by
      rw [List.map_cons] at hnd
      exact (List.nodup_cons.1 hnd).1
    rw [List.foldl_cons]
    by_cases hrem : removedByFilter conn kv.1 = true
    · rw [forwardStep_removed conn bodyLen false acc kv hk hrem]
      rw [foldl_forwardStep_filter conn bodyLen hs acc hlow'
        (fun kv' h => hdisj kv' (List.mem_cons_of_mem kv h)) hnd']
      rw [List.filter_cons, if_neg (by simp [hrem])]
    · have hrem' : removedByFilter conn kv.1 = false := Bool.eq_false_iff.2 hrem
      rw [forwardStep_kept conn bodyLen acc kv hk hrem']
      have hnotin : kv.1 ∉ acc.map Prod.fst := hdisj kv (List.mem_cons_self kv hs)
      rw [objSetH_append_of_not_mem acc kv.1 kv.2 hnotin]
      have hdisj' : ∀ kv' ∈ hs, kv'.1 ∉ (acc ++ [(kv.1, kv.2)]).map Prod.fst := by
        intro kv' h
        rw [List.map_append]
        intro hmem
        rcases List.mem_append.1 hmem with hmem | hmem
        · exact hdisj kv' (List.mem_cons_of_mem kv h) hmem
        · simp at hmem
          exact hhead (hmem ▸ List.mem_map_of_mem Prod.fst h)
      rw [foldl_forwardStep_filter conn bodyLen hs (acc ++ [(kv.1, kv.2)]) hlow'
        hdisj' hnd']
      rw [List.filter_cons, if_pos (by simp [hrem'])]
      simp

theorem hlookup_zaiAdjust_other (headers : List (String × HVal))
    (ak : Option String) (k : String) (hka : k ≠ "authorization")
    (hkx : k ≠ "x-api-key") :
    hlookup (zaiAdjust headers ak) k = hlookup headers k := by
  match ak with
  | none =>
    simp only [zaiAdjust]
    exact hlookup_objDelH_other _ _ _ hka
  | some key =>
    simp only [zaiAdjust]
    by_cases hkey : key ≠ ""
    · rw [if_pos hkey, hlookup_objSetH_other _ _ _ _ hkx,
        hlookup_objDelH_other _ _ _ hka]
    · rw [if_neg hkey, hlookup_objDelH_other _ _ _ hka]

theorem hlookup_zaiAdjust_auth (headers : List (String × HVal))
    (ak : Option String) :
    hlookup (zaiAdjust headers ak) "authorization" = none := by
  match ak with
  | none =>
    simp only [zaiAdjust]
    exact hlookup_objDelH_self _ _
  | some key =>
    simp only [zaiAdjust]
    by_cases hkey : key ≠ ""
    · rw [if_pos hkey, hlookup_objSetH_other _ _ _ _ (by decide)]
      exact hlookup_objDelH_self _ _
    · rw [if_neg hkey]
      exact hlookup_objDelH_self _ _

theorem hlookup_zaiAdjust_key (headers : List (String × HVal)) (key : String)
    (h : key ≠ "") :
    hlookup (zaiAdjust headers (some key)) "x-api-key" = some (.str key) := by
  simp only [zaiAdjust]
  rw [if_pos h]
  exact hlookup_objSetH_self _ _ _

/-- C3. For every inbound header map (Node delivers lowercase,
duplicate-free names) and selected route, with an unrewritten body: the
forwarded header set equals the inbound set minus the closed hop-by-hop set,
the names listed in the `Connection` header, the forwarding/identity security
set and `host`, with `accept-encoding` forced to `identity`; and when the
route's upstream is zai, `authorization` is absent and `x-api-key` equals the
configured apiKey whenever it is non-empty. -/
theorem buildForwardHeaders_policy (reqHeaders : List (String × HVal))
    (target : Route) (bodyLen : Nat)
    (hlower : ∀ kv ∈ reqHeaders, lowerAscii kv.1 = kv.1)
    (hnodup : (reqHeaders.map Prod.fst).Nodup) :
    (∀ k : String, k ≠ "accept-encoding" →
      (target.name = "zai" → k ≠ "authorization" ∧ k ≠ "x-api-key") →
      hlookup (buildForwardHeaders reqHeaders target bodyLen false) k
        = if removedByFilter
              (parseConnectionHeader (hlookup reqHeaders "connection")) k = true
            then none else hlookup reqHeaders k) ∧
    hlookup (buildForwardHeaders reqHeaders target bodyLen false) "accept-encoding"
      = some (.str "identity") ∧
    (target.name = "zai" →
      hlookup (buildForwardHeaders reqHeaders target bodyLen false)
        "authorization" = none) ∧
    (target.name = "zai" → ∀ key, target.apiKey = some key → key ≠ "" →
      hlookup (buildForwardHeaders reqHeaders target bodyLen false)
        "x-api-key" = some (.str key)) := by
  have hbase := foldl_forwardStep_filter
    (parseConnectionHeader (hlookup reqHeaders "connection")) bodyLen reqHeaders []
    hlower (by intro kv h; simp) hnodup
  rw [List.nil_append] at hbase
  set conn := parseConnectionHeader (hlookup reqHeaders "connection") with hconn
  set withAE := objSetH
    (reqHeaders.foldl (forwardStep conn bodyLen false) [])
    "accept-encoding" (HVal.str "identity") with hAEdef
  have hFsplit : buildForwardHeaders reqHeaders target bodyLen false
      = if target.name = "zai" then zaiAdjust withAE target.apiKey else withAE := by
    rw [buildForwardHeaders]
    match target.apiKey with
    | some key => rfl
    | none => rfl
  have hAEval : hlookup withAE "accept-encoding" = some (.str "identity") :=
    hlookup_objSetH_self _ _ _
  have hAEother : ∀ k, k ≠ "accept-encoding" →
      hlookup withAE k = if removedByFilter conn k = true
        then none else hlookup reqHeaders k := by
    intro k hkae
    rw [hAEdef, hlookup_objSetH_other _ _ _ _ hkae, hbase]
    have hfk := hlookup_filter_key (fun key => !removedByFilter conn key)
      reqHeaders k
    rw [hfk]
    by_cases hrem : removedByFilter conn k = true
    · rw [if_pos hrem, if_neg (by simp [hrem])]
    · rw [if_neg hrem, if_pos (by simp [Bool.eq_false_iff.2 hrem])]
  refine ⟨?_, ?_, ?_, ?_⟩
  · intro k hkae hkzai
    rw [hFsplit]
    by_cases hz : target.name = "zai"
    · obtain ⟨hka, hkx⟩ := hkzai hz
      rw [if_pos hz, hlookup_zaiAdjust_other _ _ _ hka hkx]
      exact hAEother k hkae
    · rw [if_neg hz]
      exact hAEother k hkae
  · rw [hFsplit]
    by_cases hz : target.name = "zai"
    · rw [if_pos hz, hlookup_zaiAdjust_other _ _ _ (by decide) (by decide)]
      exact hAEval
    · rw [if_neg hz]
      exact hAEval
  · intro hz
    rw [hFsplit, if_pos hz]
    exact hlookup_zaiAdjust_auth _ _
  · intro hz key hkey hkeyne
    rw [hFsplit, if_pos hz, hkey]
    exact hlookup_zaiAdjust_key _ _ hkeyne

/-- Witness for C3 at a concrete header map and zai route. -/
theorem buildForwardHeaders_policy_witness :
    (hlookup (buildForwardHeaders
        [("authorization", .str "Bearer t"), ("connection", .str "x-custom, TE"),
          ("x-custom", .str "1"), ("host", .str "localhost:8787"),
          ("te", .str "trailers"), ("x-forwarded-for", .str "1.2.3.4"),
          ("content-type", .str "application/json")]
        { name := "zai", url := "https://z.example", apiKey := some "k1" } 17 false)
      "content-type" = some (.str "application/json")) ∧
    (hlookup (buildForwardHeaders
        [("authorization", .str "Bearer t"), ("connection", .str "x-custom, TE"),
          ("x-custom", .str "1"), ("host", .str "localhost:8787"),
          ("te", .str "trailers"), ("x-forwarded-for", .str "1.2.3.4"),
          ("content-type", .str "application/json")]
        { name := "zai", url := "https://z.example", apiKey := some "k1" } 17 false)
      "x-custom" = none) ∧
    (hlookup (buildForwardHeaders
        [("authorization", .str "Bearer t"), ("connection", .str "x-custom, TE"),
          ("x-custom", .str "1"), ("host", .str "localhost:8787"),
          ("te", .str "trailers"), ("x-forwarded-for", .str "1.2.3.4"),
          ("content-type", .str "application/json")]
        { name := "zai", url := "https://z.example", apiKey := some "k1" } 17 false)
      "authorization" = none) ∧
    (hlookup (buildForwardHeaders
        [("authorization", .str "Bearer t"), ("connection", .str "x-custom, TE"),
          ("x-custom", .str "1"), ("host", .str "localhost:8787"),
          ("te", .str "trailers"), ("x-forwarded-for", .str "1.2.3.4"),
          ("content-type", .str "application/json")]
        { name := "zai", url := "https://z.example", apiKey := some "k1" } 17 false)
      "x-api-key" = some (.str "k1")) := by
  have h := buildForwardHeaders_policy
    [("authorization", .str "Bearer t"), ("connection", .str "x-custom, TE"),
      ("x-custom", .str "1"), ("host", .str "localhost:8787"),
      ("te", .str "trailers"), ("x-forwarded-for", .str "1.2.3.4"),
      ("content-type", .str "application/json")]
    { name := "zai", url := "https://z.example", apiKey := some "k1" } 17
    (by decide) (by decide)
  refine ⟨?_, ?_, h.2.2.1 rfl, h.2.2.2 rfl "k1" rfl (by decide)⟩
  · have h1 := h.1 "content-type" (by decide) (fun _ => ⟨by decide, by decide⟩)
    rw [h1, if_neg (by decide)]
    decide
  · have h2 := h.1 "x-custom" (by decide) (fun _ => ⟨by decide, by decide⟩)
    rw [h2, if_pos (by decide)]

@[simp] theorem JList.toList_ofList : ∀ l : List JValue, (JList.ofList l).toList = l
  | [] => rfl
  | v :: tl => by simp [JList.ofList, JList.toList, JList.toList_ofList tl]

@[simp] theorem JList.ofList_toList : ∀ l : JList, JList.ofList l.toList = l
  | .nil => rfl
  | .cons v tl => by simp [JList.ofList, JList.toList, JList.ofList_toList tl]

theorem objGet_jsize : ∀ (fs : JFields) (key : String) (v : JValue),
    objGet fs key = some v → jsizeV v ≤ jsizeF fs
  | .nil, key, v => by simp [objGet]
  | .cons k w tl, key, v => by
    simp only [objGet]
    by_cases h : k = key
    · rw [if_pos h]
      rintro ⟨⟩
      simp [jsizeF]
    · rw [if_neg h]
      intro hget
      have := objGet_jsize tl key v hget
      simp [jsizeF]
      omega

@[simp] theorem objGet_objSet_self : ∀ (fs : JFields) (key : String) (v : JValue),
    objGet (objSet fs key v) key = some v
  | .nil, key, v => by simp [objSet, objGet]
  | .cons k w tl, key, v => by
    by_cases h : k = key
    · simp [objSet, objGet, h]
    · simp [objSet, objGet, h, objGet_objSet_self tl key v]

theorem objGet_objSet_other : ∀ (fs : JFields) (key k2 : String) (v : JValue),
    k2 ≠ key → objGet (objSet fs key v) k2 = objGet fs k2
  | .nil, key, k2, v, h => by simp [objSet, objGet, Ne.symm h]
  | .cons k w tl, key, k2, v, h => by
    by_cases hk : k = key
    · subst hk
      simp [objSet, objGet, Ne.symm h]
    · by_cases hk2 : k = k2
      · subst hk2
        simp [objSet, objGet, hk]
      · simp [objSet, objGet, hk, hk2, objGet_objSet_other tl key k2 v h]

theorem objSet_fresh : ∀ (fs : JFields) (k : String) (v : JValue),
    k ∉ keysF fs → objSet fs k v = JFields.append fs (.cons k v .nil)
  | .nil, k, v, _ => rfl
  | .cons k0 v0 tl, k, v, h => by
    have hk : k0 ≠ k := by
      intro he
      exact h (by simp [keysF, he])
    have htl : k ∉ keysF tl := fun hm => h (by simp [keysF, hm])
    simp [objSet, hk, JFields.append, objSet_fresh tl k v htl]

theorem headNot_dropWhile (p : Char → Bool) : ∀ l : List Char, headNot p (l.dropWhile p)
  | [] => trivial
  | c :: tl => by
    by_cases h : p c
    · simpa [List.dropWhile, h] using headNot_dropWhile p tl
    · have hpc : p c = false := by simpa using h
      simp [List.dropWhile, hpc, headNot]

theorem all_takeWhile (p : Char → Bool) : ∀ l : List Char, (l.takeWhile p).all p = true
  | [] => rfl
  | c :: tl => by
    by_cases h : p c
    · simpa [List.takeWhile_cons, h] using all_takeWhile p tl
    · simp [List.takeWhile, h]

theorem readDigits_append : ∀ (ds rest : List Char), ds.all isDigit = true →
    headNot isDigit rest → readDigits (ds ++ rest) = (ds, rest)
  | [], rest, _, hr => by
    cases rest with
    | nil => rfl
    | cons c tl =>
      simp only [headNot] at hr
      simp [readDigits, List.takeWhile, List.dropWhile, hr]
  | d :: ds, rest, hall, hr => by
    simp only [List.all_cons, Bool.and_eq_true] at hall
    have ih := readDigits_append ds rest hall.2 hr
    simp only [readDigits, Prod.mk.injEq] at ih
    simp [readDigits, List.takeWhile_cons, List.dropWhile_cons, hall.1, ih.1, ih.2]

theorem goodFollow_headNotDigit : ∀ rest : List Char, goodFollow rest → headNot isDigit rest
  | [], _ => trivial
  | c :: _, h => by
    rcases h with h | h | h <;> subst h <;> exact rfl

theorem readExp_ext : ∀ (es rest : List Char), numExpWF es = true → goodFollow rest →
    readExp (es ++ rest) = some (es, rest)
  | [], rest, _, hr => by
    cases rest with
    | nil => rfl
    | cons c tl =>
      have hce : ¬(c = 'e' ∨ c = 'E') := by
        rcases hr with h | h | h <;> subst h <;> decide
      simp [readExp, hce]
  | c :: r, rest, he, hr => by
    simp only [numExpWF] at he
    by_cases hce : c = 'e' ∨ c = 'E'
    · rw [if_pos hce] at he
      cases r with
      | nil => exact absurd he (by simp [numExpTail])
      | cons s r1 =>
        simp only [numExpTail] at he
        simp only [List.cons_append, readExp]
        rw [if_pos hce]
        simp only [List.cons_append, readExpAfterE]
        by_cases hs : s = '+' ∨ s = '-'
        · rw [if_pos hs] at he ⊢
          simp only [digits1, Bool.and_eq_true, Bool.not_eq_true',
            List.isEmpty_eq_false] at he
          obtain ⟨hne, hall⟩ := he
          have hrd := readDigits_append r1 rest hall (goodFollow_headNotDigit rest hr)
          rw [hrd]
          cases r1 with
          | nil => simp at hne
          | cons d ds => rfl
        · rw [if_neg hs] at he ⊢
          simp only [digits1, Bool.and_eq_true, Bool.not_eq_true',
            List.isEmpty_eq_false] at he
          obtain ⟨hne, hall⟩ := he
          have hrd := readDigits_append (s :: r1) rest hall (goodFollow_headNotDigit rest hr)
          rw [List.cons_append] at hrd
          rw [hrd]
    · rw [if_neg hce] at he
      exact absurd he (by simp)

theorem headNot_append_drop (r rest : List Char) (hr : goodFollow rest) :
    headNot isDigit (r.dropWhile isDigit ++ rest) := by
  cases hdw : r.dropWhile isDigit with
  | nil => exact goodFollow_headNotDigit rest hr
  | cons d ds =>
    have := headNot_dropWhile isDigit r
    rw [hdw] at this
    simpa [headNot] using this

theorem readDigits_split (r rest : List Char) (hr : goodFollow rest) :
    readDigits (r ++ rest) = (r.takeWhile isDigit, r.dropWhile isDigit ++ rest) := by
  conv_lhs => rw [← List.takeWhile_append_dropWhile isDigit r]
  rw [List.append_assoc]
  exact readDigits_append _ _ (all_takeWhile isDigit r) (headNot_append_drop r rest hr)

theorem readFrac_ext : ∀ (fs rest : List Char), numFracWF fs = true → goodFollow rest →
    ∃ f e, fs = f ++ e ∧ numExpWF e = true ∧ readFrac (fs ++ rest) = some (f, e ++ rest)
  | [], rest, _, hr => by
    refine ⟨[], [], rfl, rfl, ?_⟩
    cases rest with
    | nil => rfl
    | cons c tl =>
      have hc : c ≠ '.' := by rcases hr with h | h | h <;> subst h <;> decide
      simp [readFrac, hc]
  | c :: r, rest, hf, hr => by
    simp only [numFracWF] at hf
    by_cases hc : c = '.'
    · rw [if_pos hc] at hf
      simp only [Bool.and_eq_true, Bool.not_eq_true', List.isEmpty_eq_false] at hf
      obtain ⟨hne, hexp⟩ := hf
      have hsplit : r.takeWhile isDigit ++ r.dropWhile isDigit = r :=
        List.takeWhile_append_dropWhile isDigit r
      refine ⟨'.' :: r.takeWhile isDigit, r.dropWhile isDigit, ?_, hexp, ?_⟩
      · rw [hc, List.cons_append, hsplit]
      · simp only [List.cons_append, readFrac]
        rw [if_pos hc, readDigits_split r rest hr]
        cases htw : r.takeWhile isDigit with
        | nil => exact absurd htw hne
        | cons d ds => rfl
    · rw [if_neg hc] at hf
      exact ⟨[], c :: r, rfl, hf, by simp [readFrac, hc]⟩

theorem readIntFrom_ext : ∀ (c : Char) (r rest : List Char), numIntWF (c :: r) = true →
    goodFollow rest → readIntFrom c (r ++ rest) = some (c :: r, rest)
  | c, r, rest, hi, hr => by
    simp only [numIntWF] at hi
    by_cases hc : c = '0'
    · rw [if_pos hc] at hi
      obtain ⟨f, e, hre, hexp, hrf⟩ := readFrac_ext r rest hi hr
      rw [readIntFrom, if_pos hc]
      simp only [hrf, readExp_ext e rest hexp hr]
      rw [hc, hre]
    · rw [if_neg hc] at hi
      by_cases hd : isDigit c
      · rw [if_pos hd] at hi
        obtain ⟨f, e, hre, hexp, hrf⟩ :=
          readFrac_ext (r.dropWhile isDigit) rest hi hr
        have hsplit : r.takeWhile isDigit ++ r.dropWhile isDigit = r :=
          List.takeWhile_append_dropWhile isDigit r
        rw [readIntFrom, if_neg hc, if_pos hd]
        simp only [readDigits_split r rest hr, hrf, readExp_ext e rest hexp hr]
        rw [List.append_assoc, ← hre, hsplit]
      · rw [if_neg hd] at hi
        exact absurd hi (by simp)

theorem readNumber_ext (l : String) (rest : List Char) (hl : numWF l = true)
    (hr : goodFollow rest) : readNumber (l.data ++ rest) = some (l.data, rest) := by
  simp only [numWF] at hl
  cases hld : l.data with
  | nil => rw [hld] at hl; exact absurd hl (by simp [numSignWF])
  | cons c r =>
    rw [hld] at hl
    simp only [numSignWF] at hl
    by_cases hc : c = '-'
    · rw [if_pos hc] at hl
      cases r with
      | nil => exact absurd hl (by simp [numIntWF])
      | cons c1 r1 =>
        simp only [List.cons_append, readNumber]
        rw [if_pos hc, readIntFrom_ext c1 r1 rest hl hr, hc]
        rfl
    · rw [if_neg hc] at hl
      simp only [List.cons_append, readNumber]
      rw [if_neg hc, readIntFrom_ext c r rest hl hr]

theorem hexVal_hexDigit (n : Nat) (h : n < 16) : hexVal (hexDigit n) = some n := by
  interval_cases n <;> rfl

theorem escapeJChar_length_pos (c : Char) : 0 < (escapeJChar c).length := by
  simp only [escapeJChar]
  repeat' split
  all_goals simp

theorem flatMap_escape_length : ∀ cs : List Char,
    cs.length ≤ (cs.flatMap escapeJChar).length
  | [] => le_refl 0
  | c :: cs => by
    rw [List.flatMap_cons, List.length_append, List.length_cons]
    have h1 := escapeJChar_length_pos c
    have h2 := flatMap_escape_length cs
    omega

theorem parseStrF_print : ∀ (cs tail : List Char) (fuel : Nat), cs.length < fuel →
    parseStrF fuel (cs.flatMap escapeJChar ++ '"' :: tail) = some (cs, tail)
  | [], tail, fuel, hf => by
    obtain ⟨f, rfl⟩ : ∃ f, fuel = f + 1 := ⟨fuel - 1, by omega⟩
    simp [parseStrF]
  | c :: cs, tail, fuel, hf => by
    obtain ⟨f, rfl⟩ : ∃ f, fuel = f + 1 := ⟨fuel - 1, by omega⟩
    have ih := parseStrF_print cs tail f (by simpa using Nat.lt_of_succ_lt_succ hf)
    rw [List.flatMap_cons, List.append_assoc]
    by_cases h1 : c = '"'
    · subst h1
      rw [show parseStrF (f + 1) (escapeJChar '"' ++ (cs.flatMap escapeJChar ++ '"' :: tail))
          = (parseStrF f (cs.flatMap escapeJChar ++ '"' :: tail)).map
              (fun p => ('"' :: p.1, p.2)) from rfl, ih]
      rfl
    · by_cases h2 : c = '\\'
      · subst h2
        rw [show parseStrF (f + 1)
              (escapeJChar '\\' ++ (cs.flatMap escapeJChar ++ '"' :: tail))
            = (parseStrF f (cs.flatMap escapeJChar ++ '"' :: tail)).map
                (fun p => ('\\' :: p.1, p.2)) from rfl, ih]
        rfl
      · by_cases h3 : c = '\x08'
        · subst h3
          rw [show parseStrF (f + 1)
                (escapeJChar '\x08' ++ (cs.flatMap escapeJChar ++ '"' :: tail))
              = (parseStrF f (cs.flatMap escapeJChar ++ '"' :: tail)).map
                  (fun p => ('\x08' :: p.1, p.2)) from rfl, ih]
          rfl
        · by_cases h4 : c = '\t'
          · subst h4
            rw [show parseStrF (f + 1)
                  (escapeJChar '\t' ++ (cs.flatMap escapeJChar ++ '"' :: tail))
                = (parseStrF f (cs.flatMap escapeJChar ++ '"' :: tail)).map
                    (fun p => ('\t' :: p.1, p.2)) from rfl, ih]
            rfl
          · by_cases h5 : c = '\n'
            · subst h5
              rw [show parseStrF (f + 1)
                    (escapeJChar '\n' ++ (cs.flatMap escapeJChar ++ '"' :: tail))
                  = (parseStrF f (cs.flatMap escapeJChar ++ '"' :: tail)).map
                      (fun p => ('\n' :: p.1, p.2)) from rfl, ih]
              rfl
            · by_cases h6 : c = '\x0c'
              · subst h6
                rw [show parseStrF (f + 1)
                      (escapeJChar '\x0c' ++ (cs.flatMap escapeJChar ++ '"' :: tail))
                    = (parseStrF f (cs.flatMap escapeJChar ++ '"' :: tail)).map
                        (fun p => ('\x0c' :: p.1, p.2)) from rfl, ih]
                rfl
              · by_cases h7 : c = '\r'
                · subst h7
                  rw [show parseStrF (f + 1)
                        (escapeJChar '\r' ++ (cs.flatMap escapeJChar ++ '"' :: tail))
                      = (parseStrF f (cs.flatMap escapeJChar ++ '"' :: tail)).map
                          (fun p => ('\r' :: p.1, p.2)) from rfl, ih]
                  rfl
                · by_cases h8 : c.toNat < 32
                  · have hdiv : c.toNat / 16 < 16 := by omega
                    have hmod : c.toNat % 16 < 16 := by omega
                    have he : escapeJChar c = ['\\', 'u', '0', '0',
                        hexDigit (c.toNat / 16), hexDigit (c.toNat % 16)] := by
                      simp only [escapeJChar, if_neg h1, if_neg h2, if_neg h3, if_neg h4,
                        if_neg h5, if_neg h6, if_neg h7, if_pos h8]
                    rw [he]
                    rw [show parseStrF (f + 1) (['\\', 'u', '0', '0',
                          hexDigit (c.toNat / 16), hexDigit (c.toNat % 16)]
                            ++ (cs.flatMap escapeJChar ++ '"' :: tail))
                        = (parseUEsc ('0' :: '0' :: hexDigit (c.toNat / 16)
                              :: hexDigit (c.toNat % 16)
                              :: (cs.flatMap escapeJChar ++ '"' :: tail))).bind
                            (fun er => (parseStrF f er.2).map
                              (fun p => (er.1 :: p.1, p.2))) from rfl]
                    simp only [parseUEsc, parseHex4]
                    rw [show hexVal '0' = some 0 from rfl,
                      hexVal_hexDigit _ hdiv, hexVal_hexDigit _ hmod]
                    simp only [Option.some_bind, Option.map_some, Option.map_some']
                    rw [show ((0 * 16 + 0) * 16 + c.toNat / 16) * 16 + c.toNat % 16
                        = c.toNat from by omega]
                    rw [if_pos (by omega : c.toNat < 0xd800 ∨ 0xdfff < c.toNat),
                      Char.ofNat_toNat]
                    simp only [Option.some_bind]
                    rw [ih]
                    rfl
                  · have he : escapeJChar c = [c] := by
                      simp only [escapeJChar, if_neg h1, if_neg h2, if_neg h3, if_neg h4,
                        if_neg h5, if_neg h6, if_neg h7, if_neg h8]
                    rw [he, List.cons_append, List.nil_append]
                    simp only [parseStrF]
                    rw [if_neg h1, if_neg h2, if_neg h8, ih]
                    rfl

theorem parseStrChars_print (cs tail : List Char) :
    parseStrChars (cs.flatMap escapeJChar ++ '"' :: tail) = some (cs, tail) := by
  have h := flatMap_escape_length cs
  apply parseStrF_print
  simp only [List.length_append, List.length_cons]
  omega

theorem string_mk_data (s : String) : String.mk s.data = s := rfl

theorem skipWs_cons (c : Char) (r : List Char) (h : isJsonWs c = false) :
    skipWs (c :: r) = c :: r := by
  simp [skipWs, List.dropWhile_cons, h]

theorem goodHead_facts (c : Char) (h : goodHead c) :
    isJsonWs c = false ∧ c ≠ ']' ∧ c ≠ '\x7d' ∧ c ≠ ',' := by
  rcases h with h | h | h | h | h | h | h | h
  · subst h; exact ⟨rfl, by decide, by decide, by decide⟩
  · subst h; exact ⟨rfl, by decide, by decide, by decide⟩
  · subst h; exact ⟨rfl, by decide, by decide, by decide⟩
  · subst h; exact ⟨rfl, by decide, by decide, by decide⟩
  · subst h; exact ⟨rfl, by decide, by decide, by decide⟩
  · subst h; exact ⟨rfl, by decide, by decide, by decide⟩
  · subst h; exact ⟨rfl, by decide, by decide, by decide⟩
  · refine ⟨?_, ?_, ?_, ?_⟩
    · by_contra hw
      rw [Bool.not_eq_false] at hw
      simp only [isJsonWs, Bool.or_eq_true, decide_eq_true_eq] at hw
      rcases hw with ((hw | hw) | hw) | hw <;> subst hw <;> exact absurd h (by decide)
    · intro he; subst he; exact absurd h (by decide)
    · intro he; subst he; exact absurd h (by decide)
    · intro he; subst he; exact absurd h (by decide)

theorem numWF_head (l : String) (h : numWF l = true) :
    ∃ c r, l.data = c :: r ∧ (c = '-' ∨ isDigit c = true) := by
  simp only [numWF] at h
  cases hld : l.data with
  | nil => rw [hld] at h; exact absurd h (by simp [numSignWF])
  | cons c r =>
    rw [hld] at h
    simp only [numSignWF] at h
    by_cases hc : c = '-'
    · exact ⟨c, r, rfl, Or.inl hc⟩
    · rw [if_neg hc] at h
      simp only [numIntWF] at h
      by_cases h0 : c = '0'
      · exact ⟨c, r, rfl, Or.inr (by rw [h0]; decide)⟩
      · rw [if_neg h0] at h
        by_cases hd : isDigit c
        · exact ⟨c, r, rfl, Or.inr hd⟩
        · rw [if_neg hd] at h
          exact absurd h (by simp)

theorem printJ_head : ∀ v : JValue, JWF v = true →
    ∃ c r, (printJ v).data = c :: r ∧ goodHead c := by
  intro v hv
  cases v with
  | null => exact ⟨'n', _, rfl, Or.inl rfl⟩
  | bool b =>
    cases b
    · exact ⟨'f', _, rfl, Or.inr (Or.inr (Or.inl rfl))⟩
    · exact ⟨'t', _, rfl, Or.inr (Or.inl rfl)⟩
  | num l =>
    obtain ⟨c, r, hd, hc⟩ := numWF_head l (by simpa [JWF] using hv)
    refine ⟨c, r, hd, ?_⟩
    rcases hc with h | h
    · exact Or.inr (Or.inr (Or.inr (Or.inr (Or.inr (Or.inr (Or.inl h))))))
    · exact Or.inr (Or.inr (Or.inr (Or.inr (Or.inr (Or.inr (Or.inr h))))))
  | str s =>
    exact ⟨'"', _, rfl, Or.inr (Or.inr (Or.inr (Or.inl rfl)))⟩
  | arr es =>
    refine ⟨'[', (printJL es).data ++ [']'], ?_, Or.inr (Or.inr (Or.inr (Or.inr (Or.inl rfl))))⟩
    show ("[" ++ printJL es ++ "]").data = _
    simp [String.data_append]
  | obj fs =>
    refine ⟨'\x7b', (printJF fs).data ++ ['\x7d'], ?_,
      Or.inr (Or.inr (Or.inr (Or.inr (Or.inr (Or.inl rfl)))))⟩
    show ("\x7b" ++ printJF fs ++ "\x7d").data = _
    simp [String.data_append]

theorem printJ_data_len_pos (v : JValue) (h : JWF v = true) :
    0 < (printJ v).data.length := by
  obtain ⟨c, r, hd, _⟩ := printJ_head v h
  simp [hd]

theorem skipWs_printJ (v : JValue) (h : JWF v = true) (rest : List Char) :
    skipWs ((printJ v).data ++ rest) = (printJ v).data ++ rest := by
  obtain ⟨c, r, hd, hg⟩ := printJ_head v h
  rw [hd, List.cons_append]
  exact skipWs_cons c _ (goodHead_facts c hg).1

theorem keysF_append : ∀ (fs gs : JFields),
    keysF (JFields.append fs gs) = keysF fs ++ keysF gs
  | .nil, gs => rfl
  | .cons k v tl, gs => by simp [JFields.append, keysF, keysF_append tl gs]

theorem appendF_assoc : ∀ (a b c : JFields),
    JFields.append (JFields.append a b) c = JFields.append a (JFields.append b c)
  | .nil, b, c => rfl
  | .cons k v tl, b, c => by simp [JFields.append, appendF_assoc tl b c]

theorem printJ_str_data (s : String) :
    (printJ (.str s)).data = '"' :: (s.data.flatMap escapeJChar ++ ['"']) := rfl

theorem printJ_arr_data (es : JList) :
    (printJ (.arr es)).data = '[' :: ((printJL es).data ++ [']']) := by
  show ("[" ++ printJL es ++ "]").data = _
  simp [String.data_append]

theorem printJ_obj_data (fs : JFields) :
    (printJ (.obj fs)).data = '\x7b' :: ((printJF fs).data ++ ['\x7d']) := by
  show ("\x7b" ++ printJF fs ++ "\x7d").data = _
  simp [String.data_append]

theorem printJL_cons_nil (v : JValue) : printJL (.cons v .nil) = printJ v := rfl

theorem printJL_cons_cons (v w : JValue) (tl : JList) :
    printJL (.cons v (.cons w tl)) = printJ v ++ "," ++ printJL (.cons w tl) := rfl

theorem printJF_cons_nil (k : String) (v : JValue) :
    printJF (.cons k v .nil) = printJString k ++ ":" ++ printJ v := rfl

theorem printJF_cons_cons (k : String) (v : JValue) (k2 : String) (w : JValue) (tl : JFields) :
    printJF (.cons k v (.cons k2 w tl))
      = printJString k ++ ":" ++ printJ v ++ "," ++ printJF (.cons k2 w tl) := rfl

theorem skipWs_printJL (v : JValue) (tl : JList) (hv : JWF v = true) (rest : List Char) :
    skipWs ((printJL (.cons v tl)).data ++ rest) = (printJL (.cons v tl)).data ++ rest := by
  cases tl with
  | nil => rw [printJL_cons_nil]; exact skipWs_printJ v hv rest
  | cons w tw =>
    rw [printJL_cons_cons]
    simp only [String.data_append, List.append_assoc]
    exact skipWs_printJ v hv _

theorem printJF_cons_head (k : String) (v : JValue) (tl : JFields) :
    ∃ r, (printJF (.cons k v tl)).data = '"' :: r := by
  cases tl with
  | nil =>
    refine ⟨(k.data.flatMap escapeJChar ++ ['"']) ++ ((":" ++ printJ v).data), ?_⟩
    rw [printJF_cons_nil]
    simp only [String.data_append]
    rw [show (printJString k).data = '"' :: (k.data.flatMap escapeJChar ++ ['"']) from rfl]
    simp
  | cons k2 w tw =>
    refine ⟨(k.data.flatMap escapeJChar ++ ['"'])
      ++ ((":" ++ printJ v ++ "," ++ printJF (.cons k2 w tw)).data), ?_⟩
    rw [printJF_cons_cons]
    simp only [String.data_append]
    rw [show (printJString k).data = '"' :: (k.data.flatMap escapeJChar ++ ['"']) from rfl]
    simp

theorem skipWs_printJF (k : String) (v : JValue) (tl : JFields) (rest : List Char) :
    skipWs ((printJF (.cons k v tl)).data ++ rest)
      = (printJF (.cons k v tl)).data ++ rest := by
  obtain ⟨r, hr⟩ := printJF_cons_head k v tl
  rw [hr, List.cons_append]
  exact skipWs_cons _ _ rfl

theorem numHead_ne (c : Char) (h : c = '-' ∨ isDigit c = true) :
    ¬c = 'n' ∧ ¬c = 't' ∧ ¬c = 'f' ∧ ¬c = '"' ∧ ¬c = '[' ∧ ¬c = '\x7b' := by
  rcases h with h | h
  · subst h
    exact ⟨by decide, by decide, by decide, by decide, by decide, by decide⟩
  · refine ⟨?_, ?_, ?_, ?_, ?_, ?_⟩ <;>
      (intro he; subst he; exact absurd h (by decide))

theorem sdata_append (a b : String) : (a ++ b).data = a.data ++ b.data := rfl

theorem parseJV_arr_step (f : Nat) (R : List Char) :
    parseJV (f + 1) ('[' :: R) = (match skipWs R with
      | [] => none
      | d :: r1 =>
        if d = ']' then some (.arr .nil, r1)
        else (parseJItems f (d :: r1)).map (fun p => (.arr p.1, p.2))) := rfl

theorem parseJV_obj_step (f : Nat) (R : List Char) :
    parseJV (f + 1) ('\x7b' :: R) = (match skipWs R with
      | [] => none
      | d :: r1 =>
        if d = '\x7d' then some (.obj .nil, r1)
        else (parseJFieldsR f .nil (d :: r1)).map (fun p => (.obj p.1, p.2))) := rfl

theorem parseJFieldsR_step (f : Nat) (acc : JFields) (r : List Char) :
    parseJFieldsR (f + 1) acc ('"' :: r) = (parseStrChars r).bind (fun kr =>
      match skipWs kr.2 with
      | [] => none
      | d :: r2 =>
        if d = ':' then
          (parseJV f (skipWs r2)).bind (fun vr =>
            match skipWs vr.2 with
            | [] => none
            | e :: r4 =>
              if e = ',' then
                parseJFieldsR f (objSet acc (String.mk kr.1) vr.1) (skipWs r4)
              else if e = '\x7d' then some (objSet acc (String.mk kr.1) vr.1, r4)
              else none)
        else none) := rfl

theorem printJL_cons_head (v : JValue) (tl : JList) (hv : JWF v = true) :
    ∃ c r, (printJL (.cons v tl)).data = c :: r ∧ goodHead c := by
  obtain ⟨c, r, hd, hg⟩ := printJ_head v hv
  cases tl with
  | nil => exact ⟨c, r, by rw [printJL_cons_nil, hd], hg⟩
  | cons w tw =>
    refine ⟨c, r ++ (("," ++ printJL (.cons w tw)).data), ?_, hg⟩
    rw [printJL_cons_cons]
    rw [show printJ v ++ "," ++ printJL (.cons w tw)
        = printJ v ++ ("," ++ printJL (.cons w tw)) from by simp [String.append_assoc]]
    rw [sdata_append, hd]
    simp

theorem goodFollow_nil : goodFollow [] := trivial

theorem goodFollow_comma (x : List Char) : goodFollow (',' :: x) := Or.inl rfl

theorem goodFollow_rbrack (x : List Char) : goodFollow (']' :: x) := Or.inr (Or.inl rfl)

theorem goodFollow_rbrace (x : List Char) : goodFollow ('\x7d' :: x) :=
  Or.inr (Or.inr rfl)

theorem jsizeV_pos : ∀ v : JValue, 0 < jsizeV v
  | .null => by simp [jsizeV]
  | .bool _ => by simp [jsizeV]
  | .num _ => by simp [jsizeV]
  | .str _ => by simp [jsizeV]
  | .arr _ => by simp [jsizeV]
  | .obj _ => by simp [jsizeV]

mutual
theorem parseJV_print : ∀ (v : JValue), JWF v = true → ∀ (fuel : Nat) (rest : List Char),
    (printJ v).data.length ≤ fuel → goodFollow rest →
    parseJV fuel ((printJ v).data ++ rest) = some (v, rest)
  | .null, _, fuel, rest, hlen, _ => by
    obtain ⟨f, rfl⟩ : ∃ f, fuel = f + 1 := ⟨fuel - 1, by
      rw [show (printJ JValue.null).data = ['n', 'u', 'l', 'l'] from rfl] at hlen
      simp at hlen
      omega⟩
    exact rfl
  | .bool true, _, fuel, rest, hlen, _ => by
    obtain ⟨f, rfl⟩ : ∃ f, fuel = f + 1 := ⟨fuel - 1, by
      rw [show (printJ (JValue.bool true)).data = ['t', 'r', 'u', 'e'] from rfl] at hlen
      simp at hlen
      omega⟩
    exact rfl
  | .bool false, _, fuel, rest, hlen, _ => by
    obtain ⟨f, rfl⟩ : ∃ f, fuel = f + 1 := ⟨fuel - 1, by
      rw [show (printJ (JValue.bool false)).data = ['f', 'a', 'l', 's', 'e'] from rfl] at hlen
      simp at hlen
      omega⟩
    exact rfl
  | .num l, hwf, fuel, rest, hlen, hgf => by
    have hnum : numWF l = true := by simpa [JWF] using hwf
    obtain ⟨c, r, hd, hc⟩ := numWF_head l hnum
    obtain ⟨f, rfl⟩ : ∃ f, fuel = f + 1 := ⟨fuel - 1, by
      rw [show (printJ (JValue.num l)).data = l.data from rfl, hd] at hlen
      simp at hlen
      omega⟩
    rw [show (printJ (JValue.num l)).data = l.data from rfl, hd, List.cons_append]
    simp only [parseJV]
    obtain ⟨hn, ht, hf2, hq, hb, hob⟩ := numHead_ne c hc
    rw [if_neg hn, if_neg ht, if_neg hf2, if_neg hq, if_neg hb, if_neg hob, if_pos hc]
    rw [← List.cons_append, ← hd, readNumber_ext l rest hnum hgf]
    simp [string_mk_data]
  | .str s, _, fuel, rest, hlen, _ => by
    obtain ⟨f, rfl⟩ : ∃ f, fuel = f + 1 := ⟨fuel - 1, by
      rw [printJ_str_data] at hlen
      simp at hlen
      omega⟩
    rw [printJ_str_data, List.cons_append]
    rw [show parseJV (f + 1) ('"' :: ((s.data.flatMap escapeJChar ++ ['"']) ++ rest))
        = (parseStrChars ((s.data.flatMap escapeJChar ++ ['"']) ++ rest)).map
            (fun p => (.str (String.mk p.1), p.2)) from rfl]
    rw [List.append_assoc, List.singleton_append, parseStrChars_print]
    simp [string_mk_data]
  | .arr .nil, _, fuel, rest, hlen, _ => by
    obtain ⟨f, rfl⟩ : ∃ f, fuel = f + 1 := ⟨fuel - 1, by
      rw [printJ_arr_data] at hlen
      simp at hlen
      omega⟩
    rw [printJ_arr_data]
    exact rfl
  | .arr (.cons v tl), hwf, fuel, rest, hlen, hgf => by
    have hwfl : JWFL (.cons v tl) = true := by simpa [JWF] using hwf
    have hv : JWF v = true := by
      simp only [JWFL, Bool.and_eq_true] at hwfl
      exact hwfl.1
    obtain ⟨f, rfl⟩ : ∃ f, fuel = f + 1 := ⟨fuel - 1, by
      rw [printJ_arr_data] at hlen
      simp at hlen
      omega⟩
    rw [printJ_arr_data, List.cons_append, List.append_assoc, List.singleton_append]
    rw [parseJV_arr_step]
    obtain ⟨c0, r0, hd0, hg0⟩ := printJL_cons_head v tl hv
    rw [show skipWs ((printJL (JList.cons v tl)).data ++ ']' :: rest)
        = (printJL (JList.cons v tl)).data ++ ']' :: rest from skipWs_printJL v tl hv _]
    rw [hd0, List.cons_append]
    simp only []
    rw [if_neg (goodHead_facts c0 hg0).2.1]
    rw [← List.cons_append, ← hd0]
    rw [parseJItems_print v tl hwfl f rest (by
      rw [printJ_arr_data] at hlen
      simp only [List.length_cons, List.length_append, List.length_singleton] at hlen ⊢
      omega)]
    rfl
  | .obj .nil, _, fuel, rest, hlen, _ => by
    obtain ⟨f, rfl⟩ : ∃ f, fuel = f + 1 := ⟨fuel - 1, by
      rw [printJ_obj_data] at hlen
      simp at hlen
      omega⟩
    rw [printJ_obj_data]
    exact rfl
  | .obj (.cons k v tl), hwf, fuel, rest, hlen, hgf => by
    have hwff : JWFF (.cons k v tl) = true ∧ nodupKeysF (.cons k v tl) = true := by
      have := hwf
      simp only [JWF, Bool.and_eq_true] at this
      exact ⟨this.2, this.1⟩
    obtain ⟨f, rfl⟩ : ∃ f, fuel = f + 1 := ⟨fuel - 1, by
      rw [printJ_obj_data] at hlen
      simp at hlen
      omega⟩
    rw [printJ_obj_data, List.cons_append, List.append_assoc, List.singleton_append]
    rw [parseJV_obj_step]
    obtain ⟨r0, hd0⟩ := printJF_cons_head k v tl
    rw [show skipWs ((printJF (JFields.cons k v tl)).data ++ '\x7d' :: rest)
        = (printJF (JFields.cons k v tl)).data ++ '\x7d' :: rest from
      skipWs_printJF k v tl _]
    rw [hd0, List.cons_append]
    simp only []
    rw [if_neg (by decide : ¬('"' : Char) = '\x7d')]
    rw [← List.cons_append, ← hd0]
    rw [parseJFieldsR_print k v tl hwff.1 hwff.2 .nil f rest (by simp [keysF]) (by
      rw [printJ_obj_data] at hlen
      simp only [List.length_cons, List.length_append, List.length_singleton] at hlen ⊢
      omega)]
    rfl
termination_by v => 2 * jsizeV v
decreasing_by
  all_goals try simp only [jsizeV, jsizeL, jsizeF]
  all_goals first
    | omega
    | (have hp := jsizeV_pos v; omega)
theorem parseJItems_print : ∀ (v : JValue) (tl : JList), JWFL (.cons v tl) = true →
    ∀ (fuel : Nat) (rest : List Char), (printJL (.cons v tl)).data.length < fuel →
    parseJItems fuel ((printJL (.cons v tl)).data ++ ']' :: rest)
      = some (.cons v tl, rest)
  | v, .nil, hwfl, fuel, rest, hlen => by
    have hv : JWF v = true := by
      simp only [JWFL, Bool.and_eq_true] at hwfl
      exact hwfl.1
    obtain ⟨f, rfl⟩ : ∃ f, fuel = f + 1 := ⟨fuel - 1, by omega⟩
    simp only [parseJItems]
    rw [printJL_cons_nil] at hlen ⊢
    rw [parseJV_print v hv f (']' :: rest) (by omega) (goodFollow_rbrack rest)]
    simp only [Option.some_bind]
    rw [show skipWs (']' :: rest) = ']' :: rest from skipWs_cons ']' rest rfl]
    simp only []
    rw [if_neg (by decide : ¬(']' : Char) = ',')]
    simp
  | v, .cons w tw, hwfl, fuel, rest, hlen => by
    have hv : JWF v = true := by
      simp only [JWFL, Bool.and_eq_true] at hwfl
      exact hwfl.1
    have hw : JWFL (.cons w tw) = true := by
      simp only [JWFL, Bool.and_eq_true] at hwfl ⊢
      exact hwfl.2
    obtain ⟨f, rfl⟩ : ∃ f, fuel = f + 1 := ⟨fuel - 1, by omega⟩
    simp only [parseJItems]
    rw [printJL_cons_cons] at hlen ⊢
    simp only [sdata_append, List.append_assoc] at hlen ⊢
    simp only [List.singleton_append, List.cons_append, List.append_assoc,
      List.nil_append] at hlen ⊢
    rw [parseJV_print v hv f _ (by
      simp only [List.length_append, List.length_cons] at hlen ⊢
      omega) (goodFollow_comma _)]
    simp only [Option.some_bind]
    rw [show skipWs (',' :: ((printJL (JList.cons w tw)).data ++ ']' :: rest))
        = ',' :: ((printJL (JList.cons w tw)).data ++ ']' :: rest) from
      skipWs_cons ',' _ rfl]
    simp only [reduceIte]
    rw [show skipWs ((printJL (JList.cons w tw)).data ++ ']' :: rest)
        = (printJL (JList.cons w tw)).data ++ ']' :: rest from skipWs_printJL w tw
      (by
        have h2 := hw
        simp only [JWFL, Bool.and_eq_true] at h2
        exact h2.1) _]
    rw [parseJItems_print w tw hw f rest (by
      simp only [List.length_append, List.length_cons] at hlen ⊢
      omega)]
    rfl
termination_by v tl => 2 * (jsizeV v + jsizeL tl) + 1
decreasing_by
  all_goals try simp only [jsizeV, jsizeL, jsizeF]
  all_goals first
    | omega
    | (have hp := jsizeV_pos v; omega)
theorem parseJFieldsR_print : ∀ (k : String) (v : JValue) (tl : JFields),
    JWFF (.cons k v tl) = true → nodupKeysF (.cons k v tl) = true →
    ∀ (acc : JFields) (fuel : Nat) (rest : List Char),
    (∀ k2 ∈ keysF (.cons k v tl), k2 ∉ keysF acc) →
    (printJF (.cons k v tl)).data.length < fuel →
    parseJFieldsR fuel acc ((printJF (.cons k v tl)).data ++ '\x7d' :: rest)
      = some (JFields.append acc (.cons k v tl), rest)
  | k, v, .nil, hwff, hnd, acc, fuel, rest, hfresh, hlen => by
    have hv : JWF v = true := by
      simp only [JWFF, Bool.and_eq_true] at hwff
      exact hwff.1
    have hkacc : k ∉ keysF acc := hfresh k (by simp [keysF])
    obtain ⟨f, rfl⟩ : ∃ f, fuel = f + 1 := ⟨fuel - 1, by omega⟩
    rw [printJF_cons_nil] at hlen ⊢
    simp only [sdata_append, List.append_assoc] at hlen ⊢
    rw [show (printJString k).data
        = '"' :: (k.data.flatMap escapeJChar ++ ['"']) from rfl] at hlen ⊢
    simp only [List.cons_append, List.append_assoc, List.singleton_append,
      List.nil_append] at hlen ⊢
    rw [parseJFieldsR_step]
    rw [parseStrChars_print k.data _]
    simp only [Option.some_bind]
    rw [show skipWs (':' :: ((printJ v).data ++ '\x7d' :: rest))
        = ':' :: ((printJ v).data ++ '\x7d' :: rest) from skipWs_cons ':' _ rfl]
    simp only [reduceIte]
    rw [show skipWs ((printJ v).data ++ '\x7d' :: rest)
        = (printJ v).data ++ '\x7d' :: rest from skipWs_printJ v hv _]
    rw [parseJV_print v hv f _ (by
      simp only [List.length_cons, List.length_append] at hlen ⊢
      omega) (goodFollow_rbrace _)]
    simp only [Option.some_bind]
    rw [show skipWs ('\x7d' :: rest) = '\x7d' :: rest from skipWs_cons '\x7d' _ rfl]
    simp only []
    rw [if_neg (by decide : ¬('\x7d' : Char) = ',')]
    simp only [reduceIte, string_mk_data]
    rw [objSet_fresh acc k v hkacc]
  | k, v, .cons k2 w tw, hwff, hnd, acc, fuel, rest, hfresh, hlen => by
    have hv : JWF v = true := by
      simp only [JWFF, Bool.and_eq_true] at hwff
      exact hwff.1
    have hkacc : k ∉ keysF acc := hfresh k (by simp [keysF])
    obtain ⟨f, rfl⟩ : ∃ f, fuel = f + 1 := ⟨fuel - 1, by omega⟩
    have hw : JWFF (.cons k2 w tw) = true := by
      simp only [JWFF, Bool.and_eq_true] at hwff ⊢
      exact hwff.2
    have hndw : nodupKeysF (.cons k2 w tw) = true := by
      simp only [nodupKeysF, Bool.and_eq_true] at hnd ⊢
      exact hnd.2
    have hknotl : k ∉ keysF (.cons k2 w tw) := by
      have h1 : (keysF (.cons k2 w tw)).contains k = false := by
        have h2 := hnd
        simp only [nodupKeysF, Bool.and_eq_true, Bool.not_eq_true'] at h2
        exact h2.1
      simpa using h1
    rw [printJF_cons_cons] at hlen ⊢
    simp only [sdata_append, List.append_assoc] at hlen ⊢
    rw [show (printJString k).data
        = '"' :: (k.data.flatMap escapeJChar ++ ['"']) from rfl] at hlen ⊢
    simp only [List.cons_append, List.append_assoc, List.singleton_append,
      List.nil_append] at hlen ⊢
    rw [parseJFieldsR_step]
    rw [parseStrChars_print k.data _]
    simp only [Option.some_bind]
    rw [show skipWs (':' :: ((printJ v).data ++ ','
          :: ((printJF (JFields.cons k2 w tw)).data ++ '\x7d' :: rest)))
        = ':' :: ((printJ v).data ++ ','
          :: ((printJF (JFields.cons k2 w tw)).data ++ '\x7d' :: rest)) from
      skipWs_cons ':' _ rfl]
    simp only [reduceIte]
    rw [show skipWs ((printJ v).data ++ ','
          :: ((printJF (JFields.cons k2 w tw)).data ++ '\x7d' :: rest))
        = (printJ v).data ++ ','
          :: ((printJF (JFields.cons k2 w tw)).data ++ '\x7d' :: rest) from
      skipWs_printJ v hv _]
    rw [parseJV_print v hv f _ (by
      simp only [List.length_cons, List.length_append] at hlen ⊢
      omega) (goodFollow_comma _)]
    simp only [Option.some_bind]
    rw [show skipWs (','
          :: ((printJF (JFields.cons k2 w tw)).data ++ '\x7d' :: rest))
        = ','
          :: ((printJF (JFields.cons k2 w tw)).data ++ '\x7d' :: rest) from
      skipWs_cons ',' _ rfl]
    simp only [reduceIte, string_mk_data]
    rw [show skipWs ((printJF (JFields.cons k2 w tw)).data ++ '\x7d' :: rest)
        = (printJF (JFields.cons k2 w tw)).data ++ '\x7d' :: rest from
      skipWs_printJF k2 w tw _]
    rw [objSet_fresh acc k v hkacc]
    rw [parseJFieldsR_print k2 w tw hw hndw (JFields.append acc (.cons k v .nil)) f rest
      (by
        intro k3 hk3
        rw [keysF_append]
        intro hmem
        rcases List.mem_append.1 hmem with hm | hm
        · exact hfresh k3 (by
            simp only [keysF, List.mem_cons] at hk3 ⊢
            exact Or.inr hk3) hm
        · have hk3k : k3 = k := by simpa [keysF] using hm
          subst hk3k
          exact hknotl hk3)
      (by
        simp only [List.length_cons, List.length_append] at hlen ⊢
        omega)]
    rw [appendF_assoc]
    rfl
termination_by k v tl => 2 * (jsizeV v + jsizeF tl) + 1
decreasing_by
  all_goals try simp only [jsizeV, jsizeL, jsizeF]
  all_goals first
    | omega
    | (have hp := jsizeV_pos v; omega)
end

theorem numExpWF_of_read : ∀ (cs e r3 : List Char), readExp cs = some (e, r3) →
    numExpWF e = true
  | [], e, r3, h => by
    simp only [readExp] at h
    obtain ⟨he, _⟩ := Prod.mk.injEq .. ▸ Option.some.inj h
    rw [← he]
    rfl
  | c :: r, e, r3, h => by
    simp only [readExp] at h
    by_cases hc : c = 'e' ∨ c = 'E'
    · rw [if_pos hc] at h
      cases r with
      | nil => simp [readExpAfterE] at h
      | cons s r1 =>
        simp only [readExpAfterE] at h
        by_cases hs : s = '+' ∨ s = '-'
        · rw [if_pos hs] at h
          cases htw : r1.takeWhile isDigit with
          | nil =>
            rw [show readDigits r1 = ([], r1.dropWhile isDigit) from by
              simp [readDigits, htw]] at h
            simp at h
          | cons d ds =>
            rw [show readDigits r1 = (d :: ds, r1.dropWhile isDigit) from by
              simp [readDigits, htw]] at h
            simp only [Option.some.injEq, Prod.mk.injEq] at h
            obtain ⟨he, _⟩ := h
            rw [← he]
            simp only [numExpWF, if_pos hc, numExpTail, if_pos hs, digits1]
            have hall := all_takeWhile isDigit r1
            rw [htw] at hall
            simp [hall]
        · rw [if_neg hs] at h
          cases htw : (s :: r1).takeWhile isDigit with
          | nil =>
            rw [show readDigits (s :: r1) = ([], (s :: r1).dropWhile isDigit) from by
              simp [readDigits, htw]] at h
            simp at h
          | cons d ds =>
            rw [show readDigits (s :: r1)
                = (d :: ds, (s :: r1).dropWhile isDigit) from by
              simp [readDigits, htw]] at h
            simp only [Option.some.injEq, Prod.mk.injEq] at h
            obtain ⟨he, _⟩ := h
            rw [← he]
            have hall := all_takeWhile isDigit (s :: r1)
            rw [htw] at hall
            have hsd : s = d := by
              rw [List.takeWhile] at htw
              by_cases hpd : isDigit s
              · simp only [hpd] at htw
                exact (List.cons.inj htw).1
              · simp only [Bool.not_eq_true] at hpd
                simp only [hpd] at htw
                simp at htw
            simp only [numExpWF, if_pos hc, numExpTail, if_neg (hsd ▸ hs), digits1]
            simp [hall]
    · rw [if_neg hc] at h
      obtain ⟨he, _⟩ := Prod.mk.injEq .. ▸ Option.some.inj h
      rw [← he]
      rfl

theorem headNotDigit_of_numExpWF : ∀ e : List Char, numExpWF e = true → headNot isDigit e
  | [], _ => trivial
  | c :: r, h => by
    simp only [numExpWF] at h
    by_cases hc : c = 'e' ∨ c = 'E'
    · rcases hc with hc | hc <;> subst hc <;> exact rfl
    · rw [if_neg hc] at h
      exact absurd h (by simp)

theorem numFracWF_of_numExpWF : ∀ e : List Char, numExpWF e = true → numFracWF e = true
  | [], _ => rfl
  | c :: r, h => by
    have hc : ¬c = '.' := by
      intro he
      subst he
      simp only [numExpWF] at h
      rw [if_neg (by decide : ¬('.' = 'e' ∨ '.' = 'E'))] at h
      exact absurd h (by simp)
    simp only [numFracWF, if_neg hc]
    exact h

theorem readFrac_shape : ∀ (cs f r2 : List Char), readFrac cs = some (f, r2) →
    f = [] ∨ ∃ ds, f = '.' :: ds
  | [], f, r2, h => by
    simp only [readFrac] at h
    obtain ⟨hf, _⟩ := Prod.mk.injEq .. ▸ Option.some.inj h
    exact Or.inl hf.symm
  | c :: r, f, r2, h => by
    simp only [readFrac] at h
    by_cases hc : c = '.'
    · rw [if_pos hc] at h
      cases htw : r.takeWhile isDigit with
      | nil =>
        rw [show readDigits r = ([], r.dropWhile isDigit) from by
          simp [readDigits, htw]] at h
        simp at h
      | cons d ds =>
        rw [show readDigits r = (d :: ds, r.dropWhile isDigit) from by
          simp [readDigits, htw]] at h
        simp only [Option.some.injEq, Prod.mk.injEq] at h
        exact Or.inr ⟨d :: ds, h.1.symm⟩
    · rw [if_neg hc] at h
      obtain ⟨hf, _⟩ := Prod.mk.injEq .. ▸ Option.some.inj h
      exact Or.inl hf.symm

theorem numFracWF_of_read : ∀ (cs f r2 e r3 : List Char), readFrac cs = some (f, r2) →
    readExp r2 = some (e, r3) → numFracWF (f ++ e) = true
  | [], f, r2, e, r3, hf, he => by
    simp only [readFrac] at hf
    obtain ⟨hf1, hf2⟩ := Prod.mk.injEq .. ▸ Option.some.inj hf
    rw [← hf1, List.nil_append]
    exact numFracWF_of_numExpWF e (numExpWF_of_read r2 e r3 he)
  | c :: r, f, r2, e, r3, hf, he => by
    simp only [readFrac] at hf
    by_cases hc : c = '.'
    · rw [if_pos hc] at hf
      cases htw : r.takeWhile isDigit with
      | nil =>
        rw [show readDigits r = ([], r.dropWhile isDigit) from by
          simp [readDigits, htw]] at hf
        simp at hf
      | cons d ds =>
        rw [show readDigits r = (d :: ds, r.dropWhile isDigit) from by
          simp [readDigits, htw]] at hf
        simp only [Option.some.injEq, Prod.mk.injEq] at hf
        obtain ⟨hf1, hf2⟩ := hf
        rw [← hf1, List.cons_append]
        have hexp : numExpWF e = true := numExpWF_of_read r2 e r3 he
        have hall : (d :: ds).all isDigit = true := by
          have := all_takeWhile isDigit r
          rw [htw] at this
          exact this
        have hrd := readDigits_append (d :: ds) e hall (headNotDigit_of_numExpWF e hexp)
        simp only [readDigits, Prod.mk.injEq, List.cons_append] at hrd
        simp only [numFracWF, reduceIte, List.cons_append]
        rw [hrd.1, hrd.2]
        simp [hexp]
    · rw [if_neg hc] at hf
      obtain ⟨hf1, hf2⟩ := Prod.mk.injEq .. ▸ Option.some.inj hf
      rw [← hf1, List.nil_append]
      exact numFracWF_of_numExpWF e (numExpWF_of_read r2 e r3 he)

theorem readIntFrom_wf (c : Char) (r lex rest : List Char)
    (h : readIntFrom c r = some (lex, rest)) :
    numIntWF lex = true ∧ ∃ tail, lex = c :: tail := by
  simp only [readIntFrom] at h
  by_cases hc : c = '0'
  · rw [if_pos hc] at h
    rcases hf : readFrac r with _ | ⟨f, r2⟩
    · simp only [hf] at h
      exact absurd h (by simp)
    · simp only [hf] at h
      rcases he : readExp r2 with _ | ⟨e, r3⟩
      · simp only [he] at h
        exact absurd h (by simp)
      · simp only [he] at h
        simp only [Option.some.injEq, Prod.mk.injEq] at h
        obtain ⟨h1, _⟩ := h
        rw [← h1]
        constructor
        · simp only [numIntWF, if_pos rfl]
          exact numFracWF_of_read r f r2 e r3 hf he
        · exact ⟨f ++ e, by rw [hc]⟩
  · rw [if_neg hc] at h
    by_cases hd : isDigit c
    · rw [if_pos hd] at h
      rcases hf : readFrac (r.dropWhile isDigit) with _ | ⟨f, r2⟩
      · simp only [show readDigits r = (r.takeWhile isDigit, r.dropWhile isDigit)
          from rfl, hf] at h
        exact absurd h (by simp)
      · simp only [show readDigits r = (r.takeWhile isDigit, r.dropWhile isDigit)
          from rfl, hf] at h
        rcases he : readExp r2 with _ | ⟨e, r3⟩
        · simp only [he] at h
          exact absurd h (by simp)
        · simp only [he] at h
          simp only [Option.some.injEq, Prod.mk.injEq] at h
          obtain ⟨h1, _⟩ := h
          rw [← h1]
          have hfr : numFracWF (f ++ e) = true :=
            numFracWF_of_read (r.dropWhile isDigit) f r2 e r3 hf he
          have hhead : headNot isDigit (f ++ e) := by
            rcases readFrac_shape (r.dropWhile isDigit) f r2 hf with hsh | ⟨ds, hsh⟩
            · subst hsh
              rw [List.nil_append]
              exact headNotDigit_of_numExpWF e (numExpWF_of_read r2 e r3 he)
            · subst hsh
              exact rfl
          have hall := all_takeWhile isDigit r
          have hrd := readDigits_append (r.takeWhile isDigit) (f ++ e) hall hhead
          simp only [readDigits, Prod.mk.injEq] at hrd
          constructor
          · simp only [numIntWF, if_neg hc, if_pos hd]
            rw [List.append_assoc, hrd.2]
            exact hfr
          · exact ⟨r.takeWhile isDigit ++ f ++ e, rfl⟩
    · rw [if_neg hd] at h
      simp at h

theorem readNumber_wf (cs lex rest : List Char)
    (h : readNumber cs = some (lex, rest)) : numWF (String.mk lex) = true := by
  simp only [readNumber] at h
  cases cs with
  | nil => simp at h
  | cons c0 r0 =>
    simp only [] at h
    by_cases hc0 : c0 = '-'
    · rw [if_pos hc0] at h
      cases r0 with
      | nil => simp at h
      | cons c r =>
        rcases hint : readIntFrom c r with _ | ⟨lex1, rest1⟩
        · simp only [hint, Option.map_none'] at h
          exact absurd h (by simp)
        · simp only [hint, Option.map_some', Option.some.injEq,
            Prod.mk.injEq] at h
          obtain ⟨h1, _⟩ := h
          obtain ⟨hwf, tail, hsh⟩ := readIntFrom_wf c r lex1 rest1 hint
          rw [← h1]
          show numSignWF ('-' :: lex1) = true
          simp only [numSignWF, if_pos rfl]
          exact hwf
    · rw [if_neg hc0] at h
      obtain ⟨hwf, tail, hsh⟩ := readIntFrom_wf c0 r0 lex rest h
      show numSignWF lex = true
      rw [hsh]
      simp only [numSignWF, if_neg hc0]
      rw [← hsh]
      exact hwf

theorem keysF_objSet : ∀ (fs : JFields) (k : String) (v : JValue),
    keysF (objSet fs k v) = if k ∈ keysF fs then keysF fs else keysF fs ++ [k]
  | .nil, k, v => by simp [objSet, keysF]
  | .cons k0 v0 tl, k, v => by
    by_cases hk : k0 = k
    · subst hk
      simp [objSet, keysF]
    · simp only [objSet, if_neg hk, keysF, keysF_objSet tl k v]
      by_cases hm : k ∈ keysF tl
      · simp [hm, Ne.symm hk]
      · simp [hm, Ne.symm hk]

theorem nodupKeysF_iff : ∀ fs : JFields, nodupKeysF fs = true ↔ (keysF fs).Nodup
  | .nil => by simp [nodupKeysF, keysF]
  | .cons k v tl => by
    simp [nodupKeysF, keysF, nodupKeysF_iff tl]

theorem nodupKeysF_objSet (fs : JFields) (k : String) (v : JValue)
    (h : nodupKeysF fs = true) : nodupKeysF (objSet fs k v) = true := by
  rw [nodupKeysF_iff] at h ⊢
  rw [keysF_objSet]
  by_cases hm : k ∈ keysF fs
  · simpa [hm] using h
  · rw [if_neg hm]
    simp [List.nodup_append, h, hm]

theorem JWFF_objSet : ∀ (fs : JFields) (k : String) (v : JValue),
    JWFF fs = true → JWF v = true → JWFF (objSet fs k v) = true
  | .nil, k, v, _, hv => by simp [objSet, JWFF, hv]
  | .cons k0 v0 tl, k, v, hf, hv => by
    simp only [JWFF, Bool.and_eq_true] at hf
    by_cases hk : k0 = k
    · subst hk
      simp [objSet, JWFF, hv, hf.2]
    · simp [objSet, if_neg hk, JWFF, hf.1, JWFF_objSet tl k v hf.2 hv]

mutual
theorem parseJV_wf : ∀ (fuel : Nat) (cs : List Char) (v : JValue) (rest : List Char),
    parseJV fuel cs = some (v, rest) → JWF v = true
  | 0, cs, v, rest, h => by simp [parseJV] at h
  | fuel + 1, cs, v, rest, h => by
    cases cs with
    | nil => exact absurd h (by simp [parseJV])
    | cons c r =>
      simp only [parseJV] at h
      by_cases h1 : c = 'n'
      · rw [if_pos h1] at h
        rcases he : expectChars ['u', 'l', 'l'] r with _ | r2 <;> simp only [he] at h
        · exact absurd h (by simp)
        · simp only [Option.map_some', Option.some.injEq, Prod.mk.injEq] at h
          rw [← h.1]
          rfl
      · rw [if_neg h1] at h
        by_cases h2 : c = 't'
        · rw [if_pos h2] at h
          rcases he : expectChars ['r', 'u', 'e'] r with _ | r2 <;> simp only [he] at h
          · exact absurd h (by simp)
          · simp only [Option.map_some', Option.some.injEq, Prod.mk.injEq] at h
            rw [← h.1]
            rfl
        · rw [if_neg h2] at h
          by_cases h3 : c = 'f'
          · rw [if_pos h3] at h
            rcases he : expectChars ['a', 'l', 's', 'e'] r with _ | r2 <;>
              simp only [he] at h
            · exact absurd h (by simp)
            · simp only [Option.map_some', Option.some.injEq, Prod.mk.injEq] at h
              rw [← h.1]
              rfl
          · rw [if_neg h3] at h
            by_cases h4 : c = '"'
            · rw [if_pos h4] at h
              rcases he : parseStrChars r with _ | p <;> simp only [he] at h
              · exact absurd h (by simp)
              · simp only [Option.map_some', Option.some.injEq, Prod.mk.injEq] at h
                rw [← h.1]
                rfl
            · rw [if_neg h4] at h
              by_cases h5 : c = '['
              · rw [if_pos h5] at h
                cases hsk : skipWs r with
                | nil => rw [hsk] at h; exact absurd h (by simp)
                | cons d r1 =>
                  rw [hsk] at h
                  simp only [] at h
                  by_cases hd : d = ']'
                  · rw [if_pos hd] at h
                    simp only [Option.some.injEq, Prod.mk.injEq] at h
                    rw [← h.1]
                    rfl
                  · rw [if_neg hd] at h
                    rcases hi : parseJItems fuel (d :: r1) with _ | p <;>
                      simp only [hi] at h
                    · exact absurd h (by simp)
                    · simp only [Option.map_some', Option.some.injEq,
                        Prod.mk.injEq] at h
                      rw [← h.1]
                      exact parseJItems_wf fuel (d :: r1) p.1 p.2 hi
              · rw [if_neg h5] at h
                by_cases h6 : c = '\x7b'
                · rw [if_pos h6] at h
                  cases hsk : skipWs r with
                  | nil => rw [hsk] at h; exact absurd h (by simp)
                  | cons d r1 =>
                    rw [hsk] at h
                    simp only [] at h
                    by_cases hd : d = '\x7d'
                    · rw [if_pos hd] at h
                      simp only [Option.some.injEq, Prod.mk.injEq] at h
                      rw [← h.1]
                      rfl
                    · rw [if_neg hd] at h
                      rcases hi : parseJFieldsR fuel .nil (d :: r1) with _ | p <;>
                        simp only [hi] at h
                      · exact absurd h (by simp)
                      · simp only [Option.map_some', Option.some.injEq,
                          Prod.mk.injEq] at h
                        rw [← h.1]
                        have := parseJFieldsR_wf fuel .nil (d :: r1) p.1 p.2 hi rfl rfl
                        simp only [JWF, Bool.and_eq_true]
                        exact ⟨this.1, this.2⟩
                · rw [if_neg h6] at h
                  by_cases h7 : c = '-' ∨ isDigit c = true
                  · rw [if_pos h7] at h
                    rcases hn : readNumber (c :: r) with _ | p <;> simp only [hn] at h
                    · exact absurd h (by simp)
                    · simp only [Option.map_some', Option.some.injEq,
                        Prod.mk.injEq] at h
                      rw [← h.1]
                      exact readNumber_wf (c :: r) p.1 p.2 hn
                  · rw [if_neg h7] at h
                    exact absurd h (by simp)
theorem parseJItems_wf : ∀ (fuel : Nat) (cs : List Char) (es : JList) (rest : List Char),
    parseJItems fuel cs = some (es, rest) → JWFL es = true
  | 0, cs, es, rest, h => by simp [parseJItems] at h
  | fuel + 1, cs, es, rest, h => by
    simp only [parseJItems] at h
    rcases hv : parseJV fuel cs with _ | p <;> simp only [hv] at h
    · exact absurd h (by simp)
    · rw [Option.some_bind] at h
      have hwv := parseJV_wf fuel cs p.1 p.2 hv
      cases hsk : skipWs p.2 with
      | nil => rw [hsk] at h; exact absurd h (by simp)
      | cons d r2 =>
        rw [hsk] at h
        simp only [] at h
        by_cases hd : d = ','
        · rw [if_pos hd] at h
          rcases hi : parseJItems fuel (skipWs r2) with _ | q <;> simp only [hi] at h
          · exact absurd h (by simp)
          · simp only [Option.map_some', Option.some.injEq, Prod.mk.injEq] at h
            rw [← h.1]
            simp only [JWFL, Bool.and_eq_true]
            exact ⟨hwv, parseJItems_wf fuel (skipWs r2) q.1 q.2 hi⟩
        · rw [if_neg hd] at h
          by_cases hd2 : d = ']'
          · rw [if_pos hd2] at h
            simp only [Option.some.injEq, Prod.mk.injEq] at h
            rw [← h.1]
            simp only [JWFL, Bool.and_eq_true]
            exact ⟨hwv, trivial⟩
          · rw [if_neg hd2] at h
            exact absurd h (by simp)
theorem parseJFieldsR_wf : ∀ (fuel : Nat) (acc : JFields) (cs : List Char)
    (fs : JFields) (rest : List Char), parseJFieldsR fuel acc cs = some (fs, rest) →
    nodupKeysF acc = true → JWFF acc = true →
    nodupKeysF fs = true ∧ JWFF fs = true
  | 0, acc, cs, fs, rest, h, _, _ => by simp [parseJFieldsR] at h
  | fuel + 1, acc, cs, fs, rest, h, hnd, hwa => by
    cases cs with
    | nil => exact absurd h (by simp [parseJFieldsR])
    | cons c r =>
      simp only [parseJFieldsR] at h
      by_cases hc : c = '"'
      · rw [if_pos hc] at h
        rcases hs : parseStrChars r with _ | kr <;> simp only [hs] at h
        · exact absurd h (by simp)
        · rw [Option.some_bind] at h
          cases hsk : skipWs kr.2 with
          | nil => rw [hsk] at h; exact absurd h (by simp)
          | cons d r2 =>
            rw [hsk] at h
            simp only [] at h
            by_cases hd : d = ':'
            · rw [if_pos hd] at h
              rcases hv : parseJV fuel (skipWs r2) with _ | vr <;> simp only [hv] at h
              · exact absurd h (by simp)
              · rw [Option.some_bind] at h
                have hwv := parseJV_wf fuel (skipWs r2) vr.1 vr.2 hv
                have hnd2 := nodupKeysF_objSet acc (String.mk kr.1) vr.1 hnd
                have hwa2 := JWFF_objSet acc (String.mk kr.1) vr.1 hwa hwv
                cases hsk2 : skipWs vr.2 with
                | nil => rw [hsk2] at h; exact absurd h (by simp)
                | cons e r4 =>
                  rw [hsk2] at h
                  simp only [] at h
                  by_cases he : e = ','
                  · rw [if_pos he] at h
                    exact parseJFieldsR_wf fuel (objSet acc (String.mk kr.1) vr.1)
                      (skipWs r4) fs rest h hnd2 hwa2
                  · rw [if_neg he] at h
                    by_cases he2 : e = '\x7d'
                    · rw [if_pos he2] at h
                      simp only [Option.some.injEq, Prod.mk.injEq] at h
                      rw [← h.1]
                      exact ⟨hnd2, hwa2⟩
                    · rw [if_neg he2] at h
                      exact absurd h (by simp)
            · rw [if_neg hd] at h
              exact absurd h (by simp)
      · rw [if_neg hc] at h
        exact absurd h (by simp)
end

/-- `JSON.parse` output is well-formed. -/
theorem parseJSON_wf (x : String) (v : JValue) (h : parseJSON x = some v) :
    JWF v = true := by
  simp only [parseJSON] at h
  rcases hp : parseJV (x.length + 1) (skipWs x.data) with _ | p <;> simp only [hp] at h
  · exact absurd h (by simp)
  · by_cases hr : skipWs p.2 = []
    · rw [if_pos hr] at h
      simp only [Option.some.injEq] at h
      rw [← h]
      exact parseJV_wf _ _ p.1 p.2 hp
    · rw [if_neg hr] at h
      exact absurd h (by simp)

/-- Printing a well-formed value and parsing it back returns the value. -/
theorem parseJSON_print (v : JValue) (h : JWF v = true) :
    parseJSON (printJ v) = some v := by
  simp only [parseJSON]
  have hs : skipWs (printJ v).data = (printJ v).data := by
    have := skipWs_printJ v h []
    simpa using this
  rw [hs]
  have hp := parseJV_print v h ((printJ v).length + 1) []
    (by
      rw [show (printJ v).length = (printJ v).data.length from rfl]
      omega) goodFollow_nil
  rw [List.append_nil] at hp
  rw [hp]
  rfl

theorem has_perm (st : SignatureStore) (sg : String) :
    (st.has sg).2.items.Perm st.items ∧ (st.has sg).2.maxSize = st.maxSize := by
  simp only [SignatureStore.has]
  by_cases h0 : sg = ""
  · simp [h0]
  · rw [if_neg h0]
    by_cases hm : sg ∈ st.items
    · rw [if_pos hm]
      refine ⟨?_, rfl⟩
      exact (List.perm_append_singleton sg _).trans (List.perm_cons_erase hm).symm
    · rw [if_neg hm]
      exact ⟨List.Perm.refl _, rfl⟩

theorem sanitize_store_frame_fuel : ∀ fuel : Nat,
    (∀ (b : JValue) (st : SignatureStore),
      (sanitizeContentBlockF fuel b st).2.items.Perm st.items ∧
        (sanitizeContentBlockF fuel b st).2.maxSize = st.maxSize) ∧
    (∀ (cs : JList) (st : SignatureStore),
      (mapSanitizeBlocksF fuel cs st).2.items.Perm st.items ∧
        (mapSanitizeBlocksF fuel cs st).2.maxSize = st.maxSize) := by
  intro fuel
  induction fuel with
  | zero =>
    constructor
    · intro b st; simp [sanitizeContentBlockF]
    · intro cs st; simp [mapSanitizeBlocksF]
  | succ f ih =>
    have hmap : ∀ (cs : JList) (st : SignatureStore),
        (mapSanitizeBlocksF (f + 1) cs st).2.items.Perm st.items ∧
          (mapSanitizeBlocksF (f + 1) cs st).2.maxSize = st.maxSize := by
      intro cs st
      cases cs with
      | nil => simp [mapSanitizeBlocksF]
      | cons b tl =>
        simp only [mapSanitizeBlocksF]
        rcases hb : sanitizeContentBlockF f b st with ⟨eb, st1⟩
        have hb2 := ih.1 b st
        rw [hb] at hb2
        cases eb with
        | error e => exact hb2
        | ok p =>
          rcases p with ⟨b2, ch⟩
          simp only []
          rcases hm : mapSanitizeBlocksF f tl st1 with ⟨em, st2⟩
          have hm2 := ih.2 tl st1
          rw [hm] at hm2
          cases em with
          | error e => exact ⟨hm2.1.trans hb2.1, hm2.2.trans hb2.2⟩
          | ok q =>
            rcases q with ⟨tl2, ch2⟩
            exact ⟨hm2.1.trans hb2.1, hm2.2.trans hb2.2⟩
    refine ⟨?_, hmap⟩
    intro b st
    cases b with
    | null => simp [sanitizeContentBlockF]
    | obj fs =>
      simp only [sanitizeContentBlockF]
      by_cases ht : objGet fs "type" = some (.str "thinking")
      · rw [if_pos ht]
        cases hsig : objGet fs "signature" with
        | none => simp
        | some sv =>
          cases sv with
          | str sg =>
            simp only []
            by_cases hsg : sg ≠ ""
            · rw [if_pos hsg]
              rcases hh : SignatureStore.has st sg with ⟨hit, st1⟩
              have hperm := has_perm st sg
              rw [hh] at hperm
              cases hit <;> simpa using hperm
            · rw [if_neg hsg]
              simp
          | null => simp
          | bool b2 => simp
          | num l2 => simp
          | arr es2 => simp
          | obj fs2 => simp
      · rw [if_neg ht]
        by_cases htr : objGet fs "type" = some (.str "tool_result")
        · rw [if_pos htr]
          cases hc : objGet fs "content" with
          | none => simp
          | some cv =>
            cases cv with
            | arr cs =>
              simp only []
              rcases hm : mapSanitizeBlocksF f cs st with ⟨em, st1⟩
              have hm2 := ih.2 cs st
              rw [hm] at hm2
              cases em with
              | error e => simpa using hm2
              | ok q =>
                rcases q with ⟨cs2, ch⟩
                simp only []
                cases ch <;> simpa using hm2
            | null => simp
            | bool b2 => simp
            | num l2 => simp
            | str s2 => simp
            | obj fs2 => simp
        · rw [if_neg htr]
          simp
    | bool b => simp [sanitizeContentBlockF]
    | num l => simp [sanitizeContentBlockF]
    | str s => simp [sanitizeContentBlockF]
    | arr es => simp [sanitizeContentBlockF]

theorem sanitizeMessageWithStore_store (m : JValue) (st : SignatureStore) :
    (sanitizeMessageWithStore m st).2.items.Perm st.items ∧
      (sanitizeMessageWithStore m st).2.maxSize = st.maxSize := by
  cases m with
  | null => simp [sanitizeMessageWithStore]
  | obj fs =>
    simp only [sanitizeMessageWithStore]
    cases hc : objGet fs "content" with
    | none => simp
    | some cv =>
      cases cv with
      | str s => simp
      | arr cs =>
        simp only []
        rcases hm : mapSanitizeBlocksF (jsizeL cs + 1) cs st with ⟨em, st1⟩
        have hm2 := (sanitize_store_frame_fuel (jsizeL cs + 1)).2 cs st
        rw [hm] at hm2
        cases em with
        | error e => exact hm2
        | ok q =>
          rcases q with ⟨cs2, ch⟩
          simp only []
          cases ch <;> simpa using hm2
      | null => simp
      | bool b => simp
      | num l => simp
      | obj o => simp
  | bool b => simp [sanitizeMessageWithStore]
  | num l => simp [sanitizeMessageWithStore]
  | str s => simp [sanitizeMessageWithStore]
  | arr es => simp [sanitizeMessageWithStore]

theorem sanitizeMessagesPhase0_store : ∀ (ms : List JValue) (st : SignatureStore),
    (sanitizeMessagesPhase0 ms st).2.items.Perm st.items ∧
      (sanitizeMessagesPhase0 ms st).2.maxSize = st.maxSize
  | [], st => by simp [sanitizeMessagesPhase0]
  | m :: rest, st => by
    simp only [sanitizeMessagesPhase0]
    rcases hm : sanitizeMessageWithStore m st with ⟨em, st1⟩
    have hm2 := sanitizeMessageWithStore_store m st
    rw [hm] at hm2
    cases em with
    | error e => exact hm2
    | ok p =>
      rcases p with ⟨m2, ch⟩
      simp only []
      rcases hr : sanitizeMessagesPhase0 rest st1 with ⟨er, st2⟩
      have hr2 := sanitizeMessagesPhase0_store rest st1
      rw [hr] at hr2
      cases er with
      | error e => exact ⟨hr2.1.trans hm2.1, hr2.2.trans hm2.2⟩
      | ok q =>
        rcases q with ⟨rest2, ch2⟩
        exact ⟨hr2.1.trans hm2.1, hr2.2.trans hm2.2⟩

/-- C10 core: the sanitizer returns the store with the same capacity and a
permutation of the same keys. -/
theorem sanitize_store_perm (x : String) (st : SignatureStore) :
    (sanitizeContentBlocksWithStore x st).2.items.Perm st.items ∧
      (sanitizeContentBlocksWithStore x st).2.maxSize = st.maxSize := by
  simp only [sanitizeContentBlocksWithStore]
  cases hp : parseJSON x with
  | none => simp
  | some v =>
    cases v with
    | obj fs =>
      simp only []
      cases hms : objGet fs "messages" with
      | none => simp
      | some mv =>
        cases mv with
        | arr msL =>
          simp only []
          rcases h0 : sanitizeMessagesPhase0 msL.toList st with ⟨e0, st1⟩
          have h02 := sanitizeMessagesPhase0_store msL.toList st
          rw [h0] at h02
          cases e0 with
          | error e => exact h02
          | ok p =>
            rcases p with ⟨newMessages, sanitized⟩
            simp only []
            cases h1 : sanitizeMessageStructure
                (if sanitized then newMessages else msL.toList) with
            | error e => exact h02
            | ok q =>
              rcases q with ⟨ms2, schanged⟩
              simp only []
              cases h2 : removeOrphanedToolResults
                  (if schanged then ms2
                    else if sanitized then newMessages else msL.toList) with
              | error e => exact h02
              | ok r =>
                rcases r with ⟨ms3, ochanged⟩
                simp only []
                by_cases hch : (sanitized || schanged || ochanged) = true
                · rw [if_pos hch]
                  exact h02
                · rw [if_neg hch]
                  exact h02
        | null => simp
        | bool b => simp
        | num l => simp
        | str s => simp
        | obj o => simp
    | null => simp
    | bool b => simp
    | num l => simp
    | str s => simp
    | arr es => simp

theorem has_true_of_mem (st : SignatureStore) (sg : String) (hne : sg ≠ "")
    (hmem : sg ∈ st.items) :
    st.has sg = (true, { st with items := st.items.erase sg ++ [sg] }) := by
  simp [SignatureStore.has, hne, hmem]

theorem sanitizeBlockF_stored (f : Nat) (fs : JFields) (st : SignatureStore)
    (sg : String) (ht : objGet fs "type" = some (.str "thinking"))
    (hs : objGet fs "signature" = some (.str sg)) (hne : sg ≠ "")
    (hmem : sg ∈ st.items) :
    sanitizeContentBlockF (f + 1) (.obj fs) st
      = (.ok (.obj fs, false), (st.has sg).2) := by
  simp only [sanitizeContentBlockF]
  rw [if_pos ht, hs]
  simp only []
  rw [if_pos hne, has_true_of_mem st sg hne hmem]

theorem mem_of_perm_sanitizeBlock (f : Nat) (b : JValue) (st : SignatureStore)
    (sg : String) (h : sg ∈ st.items) :
    sg ∈ (sanitizeContentBlockF f b st).2.items :=
  ((sanitize_store_frame_fuel f).1 b st).1.mem_iff.mpr h

theorem mapSanitize_preserves_stored :
    ∀ (fuel : Nat) (cs : JList) (st : SignatureStore) (i : Nat) (bf : JFields)
      (sg : String), jlistGet cs i = some (.obj bf) →
      objGet bf "type" = some (.str "thinking") →
      objGet bf "signature" = some (.str sg) → sg ≠ "" → sg ∈ st.items →
      ∀ (cs2 : JList) (ch : Bool) (st2 : SignatureStore),
        mapSanitizeBlocksF fuel cs st = (.ok (cs2, ch), st2) →
        jlistGet cs2 i = some (.obj bf)
  | 0, cs, st, i, bf, sg, hg, ht, hs, hne, hmem, cs2, ch, st2, h => by
    simp [mapSanitizeBlocksF] at h
  | fuel + 1, .nil, st, i, bf, sg, hg, ht, hs, hne, hmem, cs2, ch, st2, h => by
    simp [jlistGet] at hg
  | fuel + 1, .cons b tl, st, 0, bf, sg, hg, ht, hs, hne, hmem, cs2, ch, st2, h => by
    simp only [jlistGet, Option.some.injEq] at hg
    subst hg
    cases fuel with
    | zero => simp [mapSanitizeBlocksF, sanitizeContentBlockF] at h
    | succ f =>
      simp only [mapSanitizeBlocksF] at h
      rw [sanitizeBlockF_stored f bf st sg ht hs hne hmem] at h
      simp only [] at h
      rcases hm : mapSanitizeBlocksF (f + 1) tl (st.has sg).2 with ⟨em, st3⟩
      rw [hm] at h
      cases em with
      | error e => exact absurd h (by simp)
      | ok q =>
        rcases q with ⟨tl2, ch2⟩
        simp only [Prod.mk.injEq, Except.ok.injEq] at h
        rw [← h.1.1]
        rfl
  | fuel + 1, .cons b tl, st, i + 1, bf, sg, hg, ht, hs, hne, hmem, cs2, ch, st2, h => by
    simp only [jlistGet] at hg
    simp only [mapSanitizeBlocksF] at h
    rcases hb : sanitizeContentBlockF fuel b st with ⟨eb, st1⟩
    rw [hb] at h
    cases eb with
    | error e => exact absurd h (by simp)
    | ok p =>
      rcases p with ⟨b2, ch1⟩
      simp only [] at h
      rcases hm : mapSanitizeBlocksF fuel tl st1 with ⟨em, st3⟩
      rw [hm] at h
      cases em with
      | error e => exact absurd h (by simp)
      | ok q =>
        rcases q with ⟨tl2, ch2⟩
        simp only [Prod.mk.injEq, Except.ok.injEq] at h
        have hmem1 : sg ∈ st1.items := by
          have := mem_of_perm_sanitizeBlock fuel b st sg hmem
          rw [hb] at this
          exact this
        have := mapSanitize_preserves_stored fuel tl st1 i bf sg hg ht hs hne hmem1
          tl2 ch2 st3 hm
        rw [← h.1.1]
        simpa [jlistGet] using this

/-- C1 (corrected): the per-block sanitizer returns a thinking block whose
non-empty signature is present in the store unchanged, both directly and at
its position inside a tool_result's nested content array (the store only
sees the `has` promotion). The full pipeline, however, does not preserve
such blocks verbatim: its later structure pass can drop the containing
message entirely. -/
theorem sanitizeBlock_stored_thinking (bf : JFields) (st : SignatureStore)
    (sg : String) (ht : objGet bf "type" = some (.str "thinking"))
    (hs : objGet bf "signature" = some (.str sg)) (hne : sg ≠ "")
    (hmem : sg ∈ st.items) :
    sanitizeContentBlockWithStore (.obj bf) st
        = (.ok (.obj bf, false), (st.has sg).2) ∧
      ∀ (tf : JFields) (cs : JList) (i : Nat),
        objGet tf "type" = some (.str "tool_result") →
        objGet tf "content" = some (.arr cs) →
        jlistGet cs i = some (.obj bf) →
        ∀ (b2 : JValue) (ch : Bool) (st2 : SignatureStore),
          sanitizeContentBlockWithStore (.obj tf) st = (.ok (b2, ch), st2) →
          ∃ (fs2 : JFields) (cs2 : JList), b2 = .obj fs2 ∧
            objGet fs2 "content" = some (.arr cs2) ∧
            jlistGet cs2 i = some (.obj bf) := by
  constructor
  · exact sanitizeBlockF_stored (jsizeF bf) bf st sg ht hs hne hmem
  · intro tf cs i ht2 hc2 hg b2 ch st2 h
    have h' : sanitizeContentBlockF (jsizeF tf + 1) (.obj tf) st
        = (.ok (b2, ch), st2) := h
    simp only [sanitizeContentBlockF] at h'
    rw [if_neg (by rw [ht2]; decide), if_pos ht2, hc2] at h'
    simp only [] at h'
    rcases hm : mapSanitizeBlocksF (jsizeF tf) cs st with ⟨em, st1⟩
    rw [hm] at h'
    cases em with
    | error e => exact absurd h' (by simp)
    | ok q =>
      rcases q with ⟨cs2, ch2⟩
      simp only [] at h'
      cases ch2 with
      | true =>
        simp only [if_true, Prod.mk.injEq, Except.ok.injEq] at h'
        refine ⟨objSet tf "content" (.arr cs2), cs2, h'.1.1.symm, objGet_objSet_self _ _ _, ?_⟩
        exact mapSanitize_preserves_stored (jsizeF tf) cs st i bf sg hg ht hs hne hmem
          cs2 true st1 hm
      | false =>
        simp only [Bool.false_eq_true, if_false, Prod.mk.injEq, Except.ok.injEq] at h'
        exact ⟨tf, cs, h'.1.1.symm, hc2, hg⟩

theorem noNullsF_objGet : ∀ (fs : JFields) (k : String) (v : JValue),
    noNullsF fs = true → objGet fs k = some v → noNullsV v = true
  | .nil, k, v, _, h => by simp [objGet] at h
  | .cons k0 v0 tl, k, v, hn, h => by
    simp only [noNullsF, Bool.and_eq_true] at hn
    simp only [objGet] at h
    by_cases hk : k0 = k
    · rw [if_pos hk] at h
      cases h
      exact hn.1
    · rw [if_neg hk] at h
      exact noNullsF_objGet tl k v hn.2 h

theorem noNullsF_objSet : ∀ (fs : JFields) (k : String) (v : JValue),
    noNullsF fs = true → noNullsV v = true → noNullsF (objSet fs k v) = true
  | .nil, k, v, _, hv => by simp [objSet, noNullsF, hv]
  | .cons k0 v0 tl, k, v, hf, hv => by
    simp only [noNullsF, Bool.and_eq_true] at hf
    by_cases hk : k0 = k
    · simp [objSet, hk, noNullsF, hv, hf.2]
    · simp [objSet, hk, noNullsF, hf.1, noNullsF_objSet tl k v hf.2 hv]

theorem noNullsV_textBlock (s : String) : noNullsV (textBlock s) = true := rfl

theorem JWF_textBlock (s : String) : JWF (textBlock s) = true := rfl

theorem noNullsV_convertThinkingToText (fs : JFields) :
    noNullsV (convertThinkingToText fs) = true := by
  simp only [convertThinkingToText]
  exact noNullsV_textBlock _

theorem JWF_convertThinkingToText (fs : JFields) :
    JWF (convertThinkingToText fs) = true := by
  simp only [convertThinkingToText]
  exact JWF_textBlock _

theorem JWF_objSet (fs : JFields) (k : String) (v : JValue)
    (hf : JWF (.obj fs) = true) (hv : JWF v = true) :
    JWF (.obj (objSet fs k v)) = true := by
  simp only [JWF, Bool.and_eq_true] at hf ⊢
  exact ⟨nodupKeysF_objSet fs k v hf.1, JWFF_objSet fs k v hf.2 hv⟩

theorem JWFF_objGet : ∀ (fs : JFields) (k : String) (v : JValue),
    JWFF fs = true → objGet fs k = some v → JWF v = true
  | .nil, k, v, _, h => by simp [objGet] at h
  | .cons k0 v0 tl, k, v, hn, h => by
    simp only [JWFF, Bool.and_eq_true] at hn
    simp only [objGet] at h
    by_cases hk : k0 = k
    · rw [if_pos hk] at h
      cases h
      exact hn.1
    · rw [if_neg hk] at h
      exact JWFF_objGet tl k v hn.2 h

theorem sanitizeThinkingRest_shape (fs : JFields) :
    sanitizeThinkingRest fs = (.obj fs, false) ∨
      sanitizeThinkingRest fs = (convertThinkingToText fs, true) := by
  simp only [sanitizeThinkingRest]
  rcases h1 : (objGet fs "thinking").isSome with _ | _
  · simp only [Bool.false_eq_true, if_false]
    rcases hsg : objGet fs "signature" with _ | sv
    · right
      rfl
    · rcases sv with _ | bv | nl | sg | es | gs
      case str =>
        by_cases he : sg ≠ ""
        · left
          simp [he]
        · right
          simp [he]
      all_goals right ; rfl
  · simp

mutual
theorem sanitizeBlockF_total : ∀ (fuel : Nat) (b : JValue) (st : SignatureStore),
    noNullsV b = true → jsizeV b ≤ fuel →
    ∃ b2 ch st2, sanitizeContentBlockF fuel b st = (.ok (b2, ch), st2) ∧
      noNullsV b2 = true ∧ (JWF b = true → JWF b2 = true)
  | 0, b, st, _, hf => absurd hf (by have := jsizeV_pos b ; omega)
  | fuel + 1, .null, st, hn, _ => by simp [noNullsV] at hn
  | fuel + 1, .bool v, st, hn, _ => ⟨.bool v, false, st, rfl, hn, fun h => h⟩
  | fuel + 1, .num l, st, hn, _ => ⟨.num l, false, st, rfl, hn, fun h => h⟩
  | fuel + 1, .str s, st, hn, _ => ⟨.str s, false, st, rfl, hn, fun h => h⟩
  | fuel + 1, .arr es, st, hn, _ => ⟨.arr es, false, st, rfl, hn, fun h => h⟩
  | fuel + 1, .obj fs, st, hn, hf => by
    have hnf : noNullsF fs = true := hn
    have hrest : ∀ st0 : SignatureStore, ∃ b2 ch st2,
        ((Except.ok (sanitizeThinkingRest fs) : Except Unit (JValue × Bool)), st0)
          = (.ok (b2, ch), st2) ∧
        noNullsV b2 = true ∧ (JWF (.obj fs) = true → JWF b2 = true) := by
      intro st0
      rcases sanitizeThinkingRest_shape fs with h | h
      · exact ⟨.obj fs, false, st0, by rw [h], hn, fun hw => hw⟩
      · exact ⟨convertThinkingToText fs, true, st0, by rw [h],
          noNullsV_convertThinkingToText fs, fun _ => JWF_convertThinkingToText fs⟩
    simp only [sanitizeContentBlockF]
    by_cases ht : objGet fs "type" = some (.str "thinking")
    · rw [if_pos ht]
      rcases hsg : objGet fs "signature" with _ | sv
      · exact hrest st
      · rcases sv with _ | bv | nl | sg | es2 | gs
        · exact hrest st
        · exact hrest st
        · exact hrest st
        · simp only []
          by_cases he : sg ≠ ""
          · rw [if_pos he]
            rcases hh : SignatureStore.has st sg with ⟨hit, st1⟩
            rcases hit with _ | _
            · simp only []
              exact hrest st1
            · exact ⟨.obj fs, false, st1, by simp only [], hn, fun hw => hw⟩
          · rw [if_neg he]
            exact hrest st
        · exact hrest st
        · exact hrest st
    · rw [if_neg ht]
      by_cases htr : objGet fs "type" = some (.str "tool_result")
      · rw [if_pos htr]
        rcases hc : objGet fs "content" with _ | cv
        · exact ⟨.obj fs, false, st, rfl, hn, fun hw => hw⟩
        · rcases cv with _ | bv | nl | cs0 | cs | gs
          · exact ⟨.obj fs, false, st, rfl, hn, fun hw => hw⟩
          · exact ⟨.obj fs, false, st, rfl, hn, fun hw => hw⟩
          · exact ⟨.obj fs, false, st, rfl, hn, fun hw => hw⟩
          · exact ⟨.obj fs, false, st, rfl, hn, fun hw => hw⟩
          · simp only []
            have hszc : jsizeV (.arr cs) ≤ jsizeF fs := objGet_jsize fs "content" _ hc
            have hsz : jsizeL cs + 1 ≤ fuel := by
              simp only [jsizeV] at hf hszc
              omega
            have hncs : noNullsL cs = true := noNullsF_objGet fs "content" _ hnf hc
            obtain ⟨cs2, ch, st2, hm1, hm2, hm3, _⟩ :=
              mapSanitizeF_total fuel cs st hncs hsz
            rw [hm1]
            rcases ch with _ | _
            · exact ⟨.obj fs, false, st2, by simp, hn, fun hw => hw⟩
            · refine ⟨.obj (objSet fs "content" (.arr cs2)), true, st2,
                by simp, ?_, ?_⟩
              · exact noNullsF_objSet fs "content" _ hnf hm2
              · intro hw
                refine JWF_objSet fs "content" _ hw ?_
                have : JWF (.arr cs) = true := by
                  simp only [JWF, Bool.and_eq_true] at hw
                  exact JWFF_objGet fs "content" _ hw.2 hc
                exact hm3 this
          · exact ⟨.obj fs, false, st, rfl, hn, fun hw => hw⟩
      · rw [if_neg htr]
        exact ⟨.obj fs, false, st, rfl, hn, fun hw => hw⟩

theorem mapSanitizeF_total : ∀ (fuel : Nat) (cs : JList) (st : SignatureStore),
    noNullsL cs = true → jsizeL cs + 1 ≤ fuel →
    ∃ cs2 ch st2, mapSanitizeBlocksF fuel cs st = (.ok (cs2, ch), st2) ∧
      noNullsL cs2 = true ∧ (JWFL cs = true → JWFL cs2 = true) ∧
      jlistLen cs2 = jlistLen cs
  | 0, cs, st, _, hf => absurd hf (by omega)
  | fuel + 1, .nil, st, _, _ => ⟨.nil, false, st, rfl, rfl, fun h => h, rfl⟩
  | fuel + 1, .cons b tl, st, hn, hf => by
    simp only [noNullsL, Bool.and_eq_true] at hn
    simp only [jsizeL] at hf
    have hbp := jsizeV_pos b
    obtain ⟨b2, ch, st1, hb1, hb2, hb3⟩ :=
      sanitizeBlockF_total fuel b st hn.1 (by omega)
    obtain ⟨tl2, ch2, st2, h1, h2, h3, h4⟩ :=
      mapSanitizeF_total fuel tl st1 hn.2 (by omega)
    refine ⟨.cons b2 tl2, ch || ch2, st2, ?_, ?_, ?_, ?_⟩
    · simp only [mapSanitizeBlocksF, hb1, h1]
    · simp [noNullsL, hb2, h2]
    · intro hw
      simp only [JWFL, Bool.and_eq_true] at hw ⊢
      exact ⟨hb3 hw.1, h3 hw.2⟩
    · simp [jlistLen, h4]
end

theorem sanitizeMessage_total (m : JValue) (st : SignatureStore)
    (hn : noNullsV m = true) :
    ∃ m2 ch st2, sanitizeMessageWithStore m st = (.ok (m2, ch), st2) ∧
      noNullsV m2 = true ∧ (JWF m = true → JWF m2 = true) ∧
      roleD m2 = roleD m ∧
      (contentD m2 = contentD m ∨ ∃ cs cs2, contentD m = some (.arr cs) ∧
        contentD m2 = some (.arr cs2) ∧ jlistLen cs2 = jlistLen cs) ∧
      ((∃ fs, m = JValue.obj fs) → ∃ fs2, m2 = JValue.obj fs2) ∧
      ((∀ fs, m ≠ JValue.obj fs) → m2 = m) := by
  match m with
  | .null => simp [noNullsV] at hn
  | .bool v =>
    exact ⟨.bool v, false, st, rfl, hn, fun h => h, rfl, Or.inl rfl,
      (by rintro ⟨fs, h⟩ ; cases h), fun _ => rfl⟩
  | .num l =>
    exact ⟨.num l, false, st, rfl, hn, fun h => h, rfl, Or.inl rfl,
      (by rintro ⟨fs, h⟩ ; cases h), fun _ => rfl⟩
  | .str s =>
    exact ⟨.str s, false, st, rfl, hn, fun h => h, rfl, Or.inl rfl,
      (by rintro ⟨fs, h⟩ ; cases h), fun _ => rfl⟩
  | .arr es =>
    exact ⟨.arr es, false, st, rfl, hn, fun h => h, rfl, Or.inl rfl,
      (by rintro ⟨fs, h⟩ ; cases h), fun _ => rfl⟩
  | .obj fs =>
    have hnf : noNullsF fs = true := hn
    have hid : ∀ st0 : SignatureStore, ∃ m2 ch st2,
        ((Except.ok ((JValue.obj fs), false) : Except Unit (JValue × Bool)), st0)
          = (.ok (m2, ch), st2) ∧
        noNullsV m2 = true ∧ (JWF (.obj fs) = true → JWF m2 = true) ∧
        roleD m2 = roleD (.obj fs) ∧
        (contentD m2 = contentD (.obj fs) ∨ ∃ cs cs2,
          contentD (.obj fs) = some (.arr cs) ∧
          contentD m2 = some (.arr cs2) ∧ jlistLen cs2 = jlistLen cs) ∧
        ((∃ gs, (JValue.obj fs) = JValue.obj gs) → ∃ fs2, m2 = JValue.obj fs2) ∧
        ((∀ gs, (JValue.obj fs) ≠ JValue.obj gs) → m2 = (.obj fs)) :=
      fun st0 => ⟨.obj fs, false, st0, rfl, hn, fun h => h, rfl, Or.inl rfl,
        fun _ => ⟨fs, rfl⟩, fun _ => rfl⟩
    simp only [sanitizeMessageWithStore]
    rcases hc : objGet fs "content" with _ | cv
    · exact hid st
    · rcases cv with _ | bv | nl | s0 | cs | gs
      · exact hid st
      · exact hid st
      · exact hid st
      · exact hid st
      · simp only []
        have hncs : noNullsL cs = true := noNullsF_objGet fs "content" _ hnf hc
        obtain ⟨cs2, ch, st2, hm1, hm2, hm3, hm4⟩ :=
          mapSanitizeF_total (jsizeL cs + 1) cs st hncs (le_refl _)
        rw [hm1]
        rcases ch with _ | _
        · simpa using hid st2
        · refine ⟨.obj (objSet fs "content" (.arr cs2)), true, st2, by simp, ?_,
            ?_, ?_, ?_, fun _ => ⟨_, rfl⟩, ?_⟩
          · exact noNullsF_objSet fs "content" _ hnf hm2
          · intro hw
            refine JWF_objSet fs "content" _ hw ?_
            have : JWF (.arr cs) = true := by
              simp only [JWF, Bool.and_eq_true] at hw
              exact JWFF_objGet fs "content" _ hw.2 hc
            exact hm3 this
          · simp only [roleD]
            exact objGet_objSet_other fs "content" "role" _ (by decide)
          · right
            exact ⟨cs, cs2, by simp [contentD, hc], by simp [contentD], hm4⟩
          · intro hne
            exact absurd rfl (hne fs)
      · exact hid st

theorem ne_null_of_noNulls {m : JValue} (h : noNullsV m = true) :
    m ≠ JValue.null := by
  intro he
  subst he
  simp [noNullsV] at h

theorem roleD_obj {m : JValue} {v : JValue} (h : roleD m = some v) :
    ∃ fs, m = JValue.obj fs := by
  match m with
  | .null | .bool _ | .num _ | .str _ | .arr _ => simp [roleD] at h
  | .obj fs => exact ⟨fs, rfl⟩

theorem roleVal_eq {m : JValue} (h : m ≠ JValue.null) :
    roleVal m = .ok (roleD m) := by
  match m with
  | .null => exact absurd rfl h
  | .bool _ | .num _ | .str _ | .arr _ | .obj _ => rfl

theorem bindOk {α β : Type} (a : α) (f : α → Except Unit β) :
    (do let x ← Except.ok a ; f x) = f a := rfl

theorem bindErr {α β : Type} (e : Unit) (f : α → Except Unit β) :
    (do let x ← (Except.error e : Except Unit α) ; f x) = Except.error e := rfl

theorem pureE {α : Type} (a : α) : (pure a : Except Unit α) = Except.ok a := rfl

theorem roleVal_ok {m : JValue} {r : Option JValue} (h : roleVal m = .ok r) :
    m ≠ JValue.null ∧ r = roleD m := by
  match m with
  | .null => simp [roleVal] at h
  | .bool _ | .num _ | .str _ | .arr _ | .obj _ =>
    simp only [roleVal, roleD] at h ⊢
    cases h
    exact ⟨(by intro he ; cases he), rfl⟩

theorem roleIsUser_eq {m : JValue} (h : m ≠ JValue.null) :
    roleIsUser m = .ok (decide (roleD m = some (.str "user"))) := by
  match m with
  | .null => exact absurd rfl h
  | .obj fs => rfl
  | .bool _ | .num _ | .str _ | .arr _ => rfl

theorem roleIsUser_ok {m : JValue} {b : Bool} (h : roleIsUser m = .ok b) :
    m ≠ JValue.null ∧ b = decide (roleD m = some (.str "user")) := by
  match m with
  | .null => simp [roleIsUser] at h
  | .obj fs =>
    simp only [roleIsUser, roleD] at h ⊢
    cases h
    exact ⟨(by intro he ; cases he), rfl⟩
  | .bool _ | .num _ | .str _ | .arr _ =>
    simp only [roleIsUser, roleD] at h ⊢
    cases h
    exact ⟨(by intro he ; cases he), rfl⟩

theorem keepMsg_eq {m : JValue} (h : m ≠ JValue.null) :
    keepMsg m = .ok (keepD m) := by
  match m with
  | .null => exact absurd rfl h
  | .obj fs => rfl
  | .bool _ | .num _ | .str _ | .arr _ => rfl

theorem msgContentOpt_eq {m : JValue} (h : m ≠ JValue.null) :
    msgContentOpt m = .ok (contentD m) := by
  match m with
  | .null => exact absurd rfl h
  | .obj fs => rfl
  | .bool _ | .num _ | .str _ | .arr _ => rfl

/-- On a list whose head (if any) has role `"user"`, step 1 changes
nothing. -/
theorem dropLeading_id : ∀ (ms : List JValue), headUserD ms →
    dropLeadingNonUserE ms = .ok (ms, false)
  | [], _ => rfl
  | m :: rest, h => by
    have hu : roleD m = some (.str "user") := h
    have hne : m ≠ JValue.null := by
      obtain ⟨fs, he⟩ := roleD_obj hu
      subst he
      intro h2
      cases h2
    simp only [dropLeadingNonUserE, roleIsUser_eq hne, hu, bindOk]
    simp

/-- Step 1 returns a suffix with a leading user message; an unset change
flag means nothing was dropped. -/
theorem dropLeading_spec : ∀ (ms d : List JValue) (ch : Bool),
    dropLeadingNonUserE ms = .ok (d, ch) →
    d.IsSuffix ms ∧ headUserD d ∧ (ch = false → d = ms)
  | [], d, ch, h => by
    simp only [dropLeadingNonUserE] at h
    cases h
    exact ⟨List.nil_suffix, trivial, fun _ => rfl⟩
  | m :: rest, d, ch, h => by
    simp only [dropLeadingNonUserE] at h
    rcases hru : roleIsUser m with e | b
    · rw [hru, bindErr] at h
      cases h
    · rw [hru, bindOk] at h
      rcases b with _ | _
      · simp only [Bool.false_eq_true, if_false] at h
        rcases hrec : dropLeadingNonUserE rest with e | p
        · rw [hrec, bindErr] at h
          cases h
        · rcases p with ⟨r2, cr⟩
          rw [hrec, bindOk] at h
          cases h
          obtain ⟨h1, h2, _⟩ := dropLeading_spec rest r2 cr hrec
          exact ⟨h1.trans (List.suffix_cons m rest), h2, fun hf => by cases hf⟩
      · simp only [if_true] at h
        cases h
        obtain ⟨hne, hb⟩ := roleIsUser_ok hru
        have hu : roleD m = some (.str "user") := of_decide_eq_true hb.symm
        exact ⟨List.suffix_refl _, hu, fun _ => rfl⟩

theorem noNullsL_toList : ∀ cs : JList,
    noNullsL cs = true ↔ ∀ x ∈ cs.toList, noNullsV x = true
  | .nil => by simp [noNullsL, JList.toList]
  | .cons v tl => by
    simp [noNullsL, JList.toList, noNullsL_toList tl]

theorem JWFL_toList : ∀ cs : JList,
    JWFL cs = true ↔ ∀ x ∈ cs.toList, JWF x = true
  | .nil => by simp [JWFL, JList.toList]
  | .cons v tl => by
    simp [JWFL, JList.toList, JWFL_toList tl]

theorem noNullsL_ofList (l : List JValue) :
    noNullsL (JList.ofList l) = true ↔ ∀ x ∈ l, noNullsV x = true := by
  rw [noNullsL_toList]
  simp

theorem JWFL_ofList (l : List JValue) :
    JWFL (JList.ofList l) = true ↔ ∀ x ∈ l, JWF x = true := by
  rw [JWFL_toList]
  simp

theorem toContentBlocks_ok {co : Option JValue} {xs : List JValue}
    (h : toContentBlocks co = .ok xs) :
    (∃ s, co = some (.str s) ∧ xs = [textBlock s]) ∨
      (∃ cs, co = some (.arr cs) ∧ xs = cs.toList) := by
  match co with
  | none => simp [toContentBlocks] at h
  | some .null | some (.bool _) | some (.num _) | some (.obj _) =>
    simp [toContentBlocks] at h
  | some (.str s) =>
    simp only [toContentBlocks] at h
    cases h
    exact Or.inl ⟨s, rfl, rfl⟩
  | some (.arr cs) =>
    simp only [toContentBlocks] at h
    cases h
    exact Or.inr ⟨cs, rfl, rfl⟩

theorem toContentBlocks_src {m : JValue} {xs : List JValue}
    (h : toContentBlocks (contentD m) = .ok xs) :
    ∀ x ∈ xs, (∃ s, x = textBlock s) ∨
      (∃ cm, contentD m = some (.arr cm) ∧ x ∈ cm.toList) := by
  rcases toContentBlocks_ok h with ⟨s, hc, hx⟩ | ⟨cs, hc, hx⟩
  · subst hx
    intro x hx
    rw [List.mem_singleton] at hx
    exact Or.inl ⟨s, hx⟩
  · subst hx
    intro x hx
    exact Or.inr ⟨cs, hc, hx⟩

theorem roleD_objSet_content (fa : JFields) (v : JValue) :
    roleD (.obj (objSet fa "content" v)) = roleD (.obj fa) := by
  simp only [roleD]
  exact objGet_objSet_other fa "content" "role" v (by decide)

theorem contentD_objSet_content (fa : JFields) (v : JValue) :
    contentD (.obj (objSet fa "content" v)) = some v := by
  simp only [contentD]
  exact objGet_objSet_self fa "content" v

theorem keepD_objSet_str (fa : JFields) (s : String) (h : s ≠ "") :
    keepD (.obj (objSet fa "content" (.str s))) = true := by
  simp [keepD, objGet_objSet_self, h]

theorem keepD_objSet_arr (fa : JFields) (l : JList) (h : l ≠ JList.nil) :
    keepD (.obj (objSet fa "content" (.arr l))) = true := by
  simp [keepD, objGet_objSet_self, h]

theorem noNullsV_objSet_content {fa : JFields} {v : JValue}
    (hf : noNullsV (.obj fa) = true) (hv : noNullsV v = true) :
    noNullsV (.obj (objSet fa "content" v)) = true :=
  noNullsF_objSet fa "content" v hf hv

theorem JWF_objSet_content {fa : JFields} {v : JValue}
    (hf : JWF (.obj fa) = true) (hv : JWF v = true) :
    JWF (.obj (objSet fa "content" v)) = true :=
  JWF_objSet fa "content" v hf hv

theorem noNullsV_contentD {m v : JValue} (hm : noNullsV m = true)
    (hc : contentD m = some v) : noNullsV v = true := by
  match m with
  | .null | .bool _ | .num _ | .str _ | .arr _ => simp [contentD] at hc
  | .obj fs => exact noNullsF_objGet fs "content" v hm hc

theorem JWF_contentD {m v : JValue} (hm : JWF m = true)
    (hc : contentD m = some v) : JWF v = true := by
  match m with
  | .null | .bool _ | .num _ | .str _ | .arr _ => simp [contentD] at hc
  | .obj fs =>
    simp only [JWF, Bool.and_eq_true] at hm
    exact JWFF_objGet fs "content" v hm.2 hc

theorem ofList_ne_nil (x : JValue) (t : List JValue) :
    JList.ofList (x :: t) ≠ JList.nil := by
  simp only [JList.ofList]
  intro h
  cases h

theorem toList_ne_nil {cs : JList} (h : cs ≠ JList.nil) :
    cs.toList ≠ [] := by
  match cs with
  | .nil => exact absurd rfl h
  | .cons v tl => simp [JList.toList]

theorem strGlue_ne_empty (sa sb : String) : sa ++ "\n\n" ++ sb ≠ "" := by
  intro he
  have := congrArg String.length he
  simp only [String.length_append] at this
  have h2 : ("\n\n" : String).length = 2 := by decide
  have h3 : ("" : String).length = 0 := by decide
  omega

theorem mergeMessages_shape {a b mg : JValue}
    (h : mergeMessages a b = .ok mg) :
    roleD mg = roleD a ∧ (∃ fg, mg = JValue.obj fg) ∧
      ((∃ s, contentD mg = some (.str s)) ∨
        (∃ l, contentD mg = some (.arr l))) ∧
      (keepD a = true → keepD mg = true) ∧
      (noNullsV a = true → noNullsV b = true → noNullsV mg = true) ∧
      (JWF a = true → JWF b = true → JWF mg = true) ∧
      (∀ l, contentD mg = some (.arr l) → ∀ x ∈ l.toList, mergedBlockSrc a b x) := by
  have hane : a ≠ JValue.null := by
    intro he
    subst he
    rw [mergeMessages] at h
    simp [msgContentOpt, bindErr] at h
  have hbne : b ≠ JValue.null := by
    intro he
    subst he
    rw [mergeMessages, msgContentOpt_eq hane, bindOk] at h
    simp [msgContentOpt, bindErr] at h
  rw [mergeMessages, msgContentOpt_eq hane, bindOk, msgContentOpt_eq hbne, bindOk] at h
  rcases hca : contentD a with _ | cav
  · rw [hca] at h
    rcases hcb : contentD b with _ | cbv
    · rw [hcb] at h
      simp [toContentBlocks, bindErr] at h
    · rw [hcb] at h
      rcases cbv with _ | bv | nl | sb | cbs | gbs
      all_goals simp [toContentBlocks, bindErr] at h
  · rcases cav with _ | bv | nl | sa | cas | gas
    · rw [hca] at h
      rcases hcb : contentD b with _ | cbv
      · rw [hcb] at h
        simp [toContentBlocks, bindErr] at h
      · rw [hcb] at h
        rcases cbv with _ | bv2 | nl2 | sb | cbs | gbs
        all_goals simp [toContentBlocks, bindErr] at h
    · rw [hca] at h
      rcases hcb : contentD b with _ | cbv
      · rw [hcb] at h
        simp [toContentBlocks, bindErr] at h
      · rw [hcb] at h
        rcases cbv with _ | bv2 | nl2 | sb | cbs | gbs
        all_goals simp [toContentBlocks, bindErr] at h
    · rw [hca] at h
      rcases hcb : contentD b with _ | cbv
      · rw [hcb] at h
        simp [toContentBlocks, bindErr] at h
      · rw [hcb] at h
        rcases cbv with _ | bv2 | nl2 | sb | cbs | gbs
        all_goals simp [toContentBlocks, bindErr] at h
    · -- contentD a = some (.str sa)
      obtain ⟨fa, hfa⟩ : ∃ fa, a = JValue.obj fa := by
        match a, hane with
        | .obj fa, _ => exact ⟨fa, rfl⟩
        | .bool v, _ | .num l0, _ | .str s0, _ | .arr es, _ => simp [contentD] at hca
      subst hfa
      rw [hca] at h
      rcases hcb : contentD b with _ | cbv
      · rw [hcb] at h
        simp only [toContentBlocks, bindOk, bindErr] at h
        cases h
      · rw [hcb] at h
        rcases cbv with _ | bv2 | nl2 | sb | cbs | gbs
        · simp only [toContentBlocks, bindOk, bindErr] at h
          cases h
        · simp only [toContentBlocks, bindOk, bindErr] at h
          cases h
        · simp only [toContentBlocks, bindOk, bindErr] at h
          cases h
        · -- str/str: direct concatenation
          simp only [] at h
          cases h
          simp only [setContent]
          refine ⟨roleD_objSet_content fa _, ⟨_, rfl⟩,
            Or.inl ⟨_, contentD_objSet_content fa _⟩,
            fun _ => keepD_objSet_str fa _ (strGlue_ne_empty sa sb),
            fun hna _ => noNullsV_objSet_content hna rfl,
            fun hwa _ => JWF_objSet_content hwa rfl, ?_⟩
          intro l hl
          rw [contentD_objSet_content] at hl
          cases hl
        · -- str content of a, array content of b
          simp only [toContentBlocks, bindOk] at h
          cases h
          simp only [setContent, List.singleton_append]
          refine ⟨roleD_objSet_content fa _, ⟨_, rfl⟩,
            Or.inr ⟨_, contentD_objSet_content fa _⟩,
            fun _ => keepD_objSet_arr fa _ (ofList_ne_nil _ _),
            fun hna hnb => noNullsV_objSet_content hna ?_,
            fun hwa hwb => JWF_objSet_content hwa ?_, ?_⟩
          · rw [show (noNullsV (.arr (JList.ofList (textBlock sa :: cbs.toList))) : Bool)
                = noNullsL (JList.ofList (textBlock sa :: cbs.toList)) from rfl,
              noNullsL_ofList]
            intro x hx
            rcases List.mem_cons.1 hx with hx | hx
            · subst hx
              exact noNullsV_textBlock sa
            · exact (noNullsL_toList cbs).1 (noNullsV_contentD hnb hcb) x hx
          · rw [show (JWF (.arr (JList.ofList (textBlock sa :: cbs.toList))) : Bool)
                = JWFL (JList.ofList (textBlock sa :: cbs.toList)) from rfl,
              JWFL_ofList]
            intro x hx
            rcases List.mem_cons.1 hx with hx | hx
            · subst hx
              exact JWF_textBlock sa
            · exact (JWFL_toList cbs).1 (JWF_contentD hwb hcb) x hx
          · intro l hl
            rw [contentD_objSet_content] at hl
            cases hl
            intro x hx
            rw [JList.toList_ofList] at hx
            rcases List.mem_cons.1 hx with hx | hx
            · exact Or.inl ⟨sa, hx⟩
            · exact Or.inr (Or.inr ⟨cbs, hcb, hx⟩)
        · simp only [toContentBlocks, bindOk, bindErr] at h
          cases h
    · -- contentD a = some (.arr cas)
      obtain ⟨fa, hfa⟩ : ∃ fa, a = JValue.obj fa := by
        match a, hane with
        | .obj fa, _ => exact ⟨fa, rfl⟩
        | .bool v, _ | .num l0, _ | .str s0, _ | .arr es, _ => simp [contentD] at hca
      subst hfa
      rw [hca] at h
      have hca2 : objGet fa "content" = some (.arr cas) := hca
      have hkeepa : keepD (.obj fa) = true → cas ≠ JList.nil := by
        intro hk
        simp only [keepD, hca2] at hk
        exact of_decide_eq_true hk
      rcases hcb : contentD b with _ | cbv
      · rw [hcb] at h
        simp only [toContentBlocks, bindOk, bindErr] at h
        cases h
      · rw [hcb] at h
        have harr : ∀ (ys : List JValue),
            (∀ y ∈ ys, (∃ s, y = textBlock s) ∨
              (∃ cb2, contentD b = some (.arr cb2) ∧ y ∈ cb2.toList)) →
            (noNullsV b = true → ∀ y ∈ ys, noNullsV y = true) →
            (JWF b = true → ∀ y ∈ ys, JWF y = true) →
            mg = setContent (.obj fa) (.arr (JList.ofList (cas.toList ++ ys))) →
            roleD mg = roleD (.obj fa) ∧ (∃ fg, mg = JValue.obj fg) ∧
              ((∃ s, contentD mg = some (.str s)) ∨
                (∃ l, contentD mg = some (.arr l))) ∧
              (keepD (.obj fa) = true → keepD mg = true) ∧
              (noNullsV (.obj fa) = true → noNullsV b = true → noNullsV mg = true) ∧
              (JWF (.obj fa) = true → JWF b = true → JWF mg = true) ∧
              (∀ l, contentD mg = some (.arr l) → ∀ x ∈ l.toList,
                mergedBlockSrc (.obj fa) b x) := by
          intro ys hysrc hynn hywf hmg
          subst hmg
          simp only [setContent]
          refine ⟨roleD_objSet_content fa _, ⟨_, rfl⟩,
            Or.inr ⟨_, contentD_objSet_content fa _⟩, ?_, ?_, ?_, ?_⟩
          · intro hk
            refine keepD_objSet_arr fa _ ?_
            have h1 : cas.toList ≠ [] := toList_ne_nil (hkeepa hk)
            match he : cas.toList ++ ys, h1 with
            | [], h1 => simp at he ; exact absurd he.1 h1
            | x :: t, h1 => exact ofList_ne_nil x t
          · intro hna hnb
            refine noNullsV_objSet_content hna ?_
            rw [show (noNullsV (.arr (JList.ofList (cas.toList ++ ys))) : Bool)
                = noNullsL (JList.ofList (cas.toList ++ ys)) from rfl,
              noNullsL_ofList]
            intro x hx
            rcases List.mem_append.1 hx with hx | hx
            · exact (noNullsL_toList cas).1 (noNullsV_contentD hna hca) x hx
            · exact hynn hnb x hx
          · intro hwa hwb
            refine JWF_objSet_content hwa ?_
            rw [show (JWF (.arr (JList.ofList (cas.toList ++ ys))) : Bool)
                = JWFL (JList.ofList (cas.toList ++ ys)) from rfl,
              JWFL_ofList]
            intro x hx
            rcases List.mem_append.1 hx with hx | hx
            · exact (JWFL_toList cas).1 (JWF_contentD hwa hca) x hx
            · exact hywf hwb x hx
          · intro l hl
            rw [contentD_objSet_content] at hl
            cases hl
            intro x hx
            rw [JList.toList_ofList] at hx
            rcases List.mem_append.1 hx with hx | hx
            · exact Or.inr (Or.inl ⟨cas, hca, hx⟩)
            · rcases hysrc x hx with ⟨s, hs⟩ | ⟨cb2, hc2, hx2⟩
              · exact Or.inl ⟨s, hs⟩
              · exact Or.inr (Or.inr ⟨cb2, hc2, hx2⟩)
        rcases cbv with _ | bv2 | nl2 | sb | cbs | gbs
        · simp only [toContentBlocks, bindOk, bindErr] at h
          cases h
        · simp only [toContentBlocks, bindOk, bindErr] at h
          cases h
        · simp only [toContentBlocks, bindOk, bindErr] at h
          cases h
        · -- b has string content: it becomes one text block
          simp only [toContentBlocks, bindOk] at h
          cases h
          refine harr [textBlock sb] ?_ ?_ ?_ rfl
          · intro y hy
            rw [List.mem_singleton] at hy
            exact Or.inl ⟨sb, hy⟩
          · intro _ y hy
            rw [List.mem_singleton] at hy
            subst hy
            exact noNullsV_textBlock sb
          · intro _ y hy
            rw [List.mem_singleton] at hy
            subst hy
            exact JWF_textBlock sb
        · -- both arrays
          simp only [toContentBlocks, bindOk] at h
          cases h
          refine harr cbs.toList ?_ ?_ ?_ rfl
          · intro y hy
            exact Or.inr ⟨cbs, hcb, hy⟩
          · intro hnb y hy
            exact (noNullsL_toList cbs).1 (noNullsV_contentD hnb hcb) y hy
          · intro hwb y hy
            exact (JWFL_toList cbs).1 (JWF_contentD hwb hcb) y hy
        · simp only [toContentBlocks, bindOk, bindErr] at h
          cases h
    · rw [hca] at h
      rcases hcb : contentD b with _ | cbv
      · rw [hcb] at h
        simp [toContentBlocks, bindErr] at h
      · rw [hcb] at h
        rcases cbv with _ | bv2 | nl2 | sb | cbs | gbs
        all_goals simp [toContentBlocks, bindErr] at h

theorem msgWF_parts {m : JValue} : msgWF m = true ↔
    (noNullsV m = true ∧ (∃ fs, m = JValue.obj fs) ∧
      ((∃ s, contentD m = some (.str s)) ∨ (∃ l, contentD m = some (.arr l)))) := by
  match m with
  | .null | .bool _ | .num _ | .str _ | .arr _ =>
    simp [msgWF, contentD]
  | .obj fs =>
    simp only [msgWF, Bool.and_eq_true, contentD]
    constructor
    · rintro ⟨hn, hc⟩
      refine ⟨hn, ⟨fs, rfl⟩, ?_⟩
      rcases hg : objGet fs "content" with _ | cv
      · rw [hg] at hc
        simp at hc
      · rw [hg] at hc
        rcases cv with _ | bv | nl | s0 | cs | gs
        · simp at hc
        · simp at hc
        · simp at hc
        · exact Or.inl ⟨s0, rfl⟩
        · exact Or.inr ⟨cs, rfl⟩
        · simp at hc
    · rintro ⟨hn, _, hc⟩
      refine ⟨hn, ?_⟩
      rcases hc with ⟨s, hc⟩ | ⟨l, hc⟩
      · rw [hc]
      · rw [hc]

theorem mergeMessages_total {a b : JValue} (ha : msgWF a = true)
    (hb : msgWF b = true) : ∃ mg, mergeMessages a b = .ok mg := by
  obtain ⟨hna, ⟨fa, hfa⟩, hca⟩ := msgWF_parts.1 ha
  obtain ⟨hnb, ⟨fb, hfb⟩, hcb⟩ := msgWF_parts.1 hb
  have hane := ne_null_of_noNulls hna
  have hbne := ne_null_of_noNulls hnb
  rw [mergeMessages, msgContentOpt_eq hane, bindOk, msgContentOpt_eq hbne, bindOk]
  rcases hca with ⟨sa, hca⟩ | ⟨la, hca⟩ <;> rcases hcb with ⟨sb, hcb⟩ | ⟨lb, hcb⟩ <;>
    rw [hca, hcb]
  · exact ⟨_, rfl⟩
  · exact ⟨_, rfl⟩
  · exact ⟨_, rfl⟩
  · exact ⟨_, rfl⟩

theorem mergeFold_flag_true : ∀ (ms acc : List JValue) (out : List JValue)
    (chf : Bool), mergeFoldAux acc true ms = .ok (out, chf) → chf = true
  | [], acc, out, chf, h => by
    simp only [mergeFoldAux] at h
    cases h
    rfl
  | m :: rest, acc, out, chf, h => by
    simp only [mergeFoldAux] at h
    rcases hl : acc.getLast? with _ | prev
    · rw [hl] at h
      exact mergeFold_flag_true rest (acc ++ [m]) out chf h
    · rw [hl] at h
      simp only [] at h
      rcases hrp : roleVal prev with e | rp
      · rw [hrp, bindErr] at h
        cases h
      · rw [hrp, bindOk] at h
        rcases hrm : roleVal m with e | rm
        · rw [hrm, bindErr] at h
          cases h
        · rw [hrm, bindOk] at h
          by_cases hje : jsRoleEq rp rm = true
          · rw [if_pos hje] at h
            rcases hmg : mergeMessages prev m with e | mg
            · rw [hmg, bindErr] at h
              cases h
            · rw [hmg, bindOk] at h
              exact mergeFold_flag_true rest _ out chf h
          · rw [if_neg hje] at h
            exact mergeFold_flag_true rest (acc ++ [m]) out chf h

theorem chain'_tail_of_opt (u : Option JValue) (ms : List JValue)
    (h : List.Chain' roleNeq (u.toList ++ ms)) : List.Chain' roleNeq ms := by
  rcases u with _ | p
  · exact h
  · exact (List.chain'_cons'.1 h).2

/-- If every adjacent pair (including across the accumulator boundary) has
distinct roles, the merge fold appends everything unchanged. -/
theorem mergeFold_id : ∀ (ms acc : List JValue) (ch : Bool),
    List.Chain' roleNeq (acc.getLast?.toList ++ ms) →
    (∀ m ∈ ms, m ≠ JValue.null) →
    (∀ p ∈ acc.getLast?.toList, p ≠ JValue.null) →
    mergeFoldAux acc ch ms = .ok (acc ++ ms, ch)
  | [], acc, ch, _, _, _ => by simp [mergeFoldAux]
  | m :: rest, acc, ch, hch, hnn, hpn => by
    simp only [mergeFoldAux]
    rcases hl : acc.getLast? with _ | prev
    all_goals simp only []
    · have : mergeFoldAux (acc ++ [m]) ch rest = .ok ((acc ++ [m]) ++ rest, ch) := by
        refine mergeFold_id rest (acc ++ [m]) ch ?_ ?_ ?_
        · rw [List.getLast?_append_cons]
          simp only [List.getLast?_singleton, Option.toList_some]
          rw [hl, Option.toList_none, List.nil_append] at hch
          exact hch
        · exact fun x hx => hnn x (List.mem_cons_of_mem m hx)
        · rw [List.getLast?_append_cons]
          simp only [List.getLast?_singleton, Option.toList_some]
          intro p hp
          rw [List.mem_singleton] at hp
          subst hp
          exact hnn p (List.mem_cons_self p rest)
      rw [this]
      simp
    · have hprev : prev ≠ JValue.null := by
        refine hpn prev ?_
        rw [hl, Option.toList_some]
        exact List.mem_singleton.2 rfl
      have hmne : m ≠ JValue.null := hnn m (List.mem_cons_self m rest)
      rw [roleVal_eq hprev, bindOk, roleVal_eq hmne, bindOk]
      rw [hl, Option.toList_some] at hch
      have hne : roleNeq prev m := (List.chain'_cons'.1 hch).1 m rfl
      rw [if_neg (by rw [roleNeq] at hne ; simp [hne])]
      have : mergeFoldAux (acc ++ [m]) ch rest = .ok ((acc ++ [m]) ++ rest, ch) := by
        refine mergeFold_id rest (acc ++ [m]) ch ?_ ?_ ?_
        · rw [List.getLast?_append_cons]
          simp only [List.getLast?_singleton, Option.toList_some]
          exact (List.chain'_cons'.1 hch).2
        · exact fun x hx => hnn x (List.mem_cons_of_mem m hx)
        · rw [List.getLast?_append_cons]
          simp only [List.getLast?_singleton, Option.toList_some]
          intro p hp
          rw [List.mem_singleton] at hp
          subst hp
          exact hmne
      rw [this]
      simp

theorem chain'_replace_last {l : List JValue} {a b : JValue}
    (h : List.Chain' roleNeq (l ++ [a])) (hr : roleD b = roleD a) :
    List.Chain' roleNeq (l ++ [b]) := by
  rw [List.chain'_append] at h ⊢
  refine ⟨h.1, List.chain'_singleton b, ?_⟩
  intro x hx y hy
  simp only [List.head?_cons, Option.mem_def, Option.some.injEq] at hy
  subst hy
  have := h.2.2 x hx a (by simp)
  rw [roleNeq] at this ⊢
  rw [hr]
  exact this

/-- A merge fold that reports no change appended everything: the adjacent
roles, including across the accumulator boundary, were all distinct. -/
theorem mergeFold_false_spec : ∀ (ms acc out : List JValue),
    mergeFoldAux acc false ms = .ok (out, false) →
    out = acc ++ ms ∧ List.Chain' roleNeq (acc.getLast?.toList ++ ms)
  | [], acc, out, h => by
    simp only [mergeFoldAux] at h
    cases h
    refine ⟨by simp, ?_⟩
    rcases acc.getLast? with _ | p
    · simp
    · simp [List.chain'_singleton]
  | m :: rest, acc, out, h => by
    simp only [mergeFoldAux] at h
    rcases hl : acc.getLast? with _ | prev
    all_goals rw [hl] at h
    all_goals simp only [] at h
    · have hacc : acc = [] := List.getLast?_eq_none_iff.1 hl
      obtain ⟨h1, h2⟩ := mergeFold_false_spec rest (acc ++ [m]) out h
      subst hacc
      refine ⟨by simpa using h1, ?_⟩
      simp only [List.nil_append] at h2 ⊢
      rw [List.getLast?_singleton, Option.toList_some, List.singleton_append] at h2
      exact h2
    · rcases hrp : roleVal prev with e | rp
      · rw [hrp, bindErr] at h
        cases h
      · rw [hrp, bindOk] at h
        rcases hrm : roleVal m with e | rm
        · rw [hrm, bindErr] at h
          cases h
        · rw [hrm, bindOk] at h
          by_cases hje : jsRoleEq rp rm = true
          · rw [if_pos hje] at h
            rcases hmg : mergeMessages prev m with e | mg
            · rw [hmg, bindErr] at h
              cases h
            · rw [hmg, bindOk] at h
              exact absurd (mergeFold_flag_true rest _ out false h) (by simp)
          · rw [if_neg hje] at h
            obtain ⟨h1, h2⟩ := mergeFold_false_spec rest (acc ++ [m]) out h
            rw [List.getLast?_append_cons, List.getLast?_singleton,
              Option.toList_some, List.singleton_append] at h2
            refine ⟨by simpa using h1, ?_⟩
            rw [Option.toList_some, List.singleton_append]
            refine List.chain'_cons'.2 ⟨?_, h2⟩
            intro y hy
            simp only [List.head?_cons, Option.mem_def, Option.some.injEq] at hy
            subst hy
            rw [roleNeq, (roleVal_ok hrp).2.symm, (roleVal_ok hrm).2.symm]
            simpa using hje

/-- Every element the merge fold outputs is non-null, provided the
accumulator holds no nulls and, when it is empty, the first message is not
null (the fold never reads that first message's role). -/
theorem mergeFold_out_nonnull : ∀ (ms acc : List JValue) (ch : Bool)
    (out : List JValue) (chf : Bool),
    mergeFoldAux acc ch ms = .ok (out, chf) →
    (∀ m ∈ acc, m ≠ JValue.null) →
    (acc = [] → ∀ x, ms.head? = some x → x ≠ JValue.null) →
    ∀ m ∈ out, m ≠ JValue.null
  | [], acc, ch, out, chf, h, ha, _ => by
    simp only [mergeFoldAux] at h
    cases h
    exact ha
  | m :: rest, acc, ch, out, chf, h, ha, hh => by
    simp only [mergeFoldAux] at h
    rcases hl : acc.getLast? with _ | prev
    all_goals rw [hl] at h
    all_goals simp only [] at h
    · have hacc : acc = [] := List.getLast?_eq_none_iff.1 hl
      refine mergeFold_out_nonnull rest (acc ++ [m]) ch out chf h ?_ (by simp [hacc])
      intro x hx
      rcases List.mem_append.1 hx with hx | hx
      · exact ha x hx
      · rw [List.mem_singleton] at hx
        subst hx
        exact hh hacc x rfl
    · rcases hrp : roleVal prev with e | rp
      · rw [hrp, bindErr] at h
        cases h
      · rw [hrp, bindOk] at h
        rcases hrm : roleVal m with e | rm
        · rw [hrm, bindErr] at h
          cases h
        · rw [hrm, bindOk] at h
          have hmne := (roleVal_ok hrm).1
          by_cases hje : jsRoleEq rp rm = true
          · rw [if_pos hje] at h
            rcases hmg : mergeMessages prev m with e | mg
            · rw [hmg, bindErr] at h
              cases h
            · rw [hmg, bindOk] at h
              refine mergeFold_out_nonnull rest _ true out chf h ?_ (by simp)
              intro x hx
              rcases List.mem_append.1 hx with hx | hx
              · exact ha x ((List.dropLast_sublist acc).subset hx)
              · rw [List.mem_singleton] at hx
                subst hx
                obtain ⟨_, ⟨fg, hfg⟩, _⟩ := mergeMessages_shape hmg
                subst hfg
                intro he
                cases he
          · rw [if_neg hje] at h
            refine mergeFold_out_nonnull rest (acc ++ [m]) ch out chf h ?_ (by simp)
            intro x hx
            rcases List.mem_append.1 hx with hx | hx
            · exact ha x hx
            · rw [List.mem_singleton] at hx
              subst hx
              exact hmne

/-- Membership preservation through the merge fold, for any property closed
under merging. -/
theorem mergeFold_mem (P : JValue → Prop)
    (hmerge : ∀ a b mg, mergeMessages a b = .ok mg → P a → P b → P mg) :
    ∀ (ms acc : List JValue) (ch : Bool) (out : List JValue) (chf : Bool),
    mergeFoldAux acc ch ms = .ok (out, chf) →
    (∀ m ∈ acc, P m) → (∀ m ∈ ms, P m) → ∀ m ∈ out, P m
  | [], acc, ch, out, chf, h, ha, _ => by
    simp only [mergeFoldAux] at h
    cases h
    exact ha
  | m :: rest, acc, ch, out, chf, h, ha, hms => by
    simp only [mergeFoldAux] at h
    rcases hl : acc.getLast? with _ | prev
    all_goals rw [hl] at h
    all_goals simp only [] at h
    · refine mergeFold_mem P hmerge rest (acc ++ [m]) ch out chf h ?_
        (fun x hx => hms x (List.mem_cons_of_mem m hx))
      intro x hx
      rcases List.mem_append.1 hx with hx | hx
      · exact ha x hx
      · rw [List.mem_singleton] at hx
        subst hx
        exact hms x (List.mem_cons_self x rest)
    · have hane : acc ≠ [] := by
        intro he
        subst he
        cases hl
      have hprev : prev = acc.getLast hane := by
        have := List.getLast?_eq_getLast acc hane
        rw [hl] at this
        exact Option.some.inj this
      have hpm : prev ∈ acc := by
        rw [hprev]
        exact List.getLast_mem hane
      rcases hrp : roleVal prev with e | rp
      · rw [hrp, bindErr] at h
        cases h
      · rw [hrp, bindOk] at h
        rcases hrm : roleVal m with e | rm
        · rw [hrm, bindErr] at h
          cases h
        · rw [hrm, bindOk] at h
          by_cases hje : jsRoleEq rp rm = true
          · rw [if_pos hje] at h
            rcases hmg : mergeMessages prev m with e | mg
            · rw [hmg, bindErr] at h
              cases h
            · rw [hmg, bindOk] at h
              refine mergeFold_mem P hmerge rest _ true out chf h ?_
                (fun x hx => hms x (List.mem_cons_of_mem m hx))
              intro x hx
              rcases List.mem_append.1 hx with hx | hx
              · exact ha x ((List.dropLast_sublist acc).subset hx)
              · rw [List.mem_singleton] at hx
                subst hx
                exact hmerge prev m x hmg (ha prev hpm)
                  (hms m (List.mem_cons_self m rest))
          · rw [if_neg hje] at h
            refine mergeFold_mem P hmerge rest (acc ++ [m]) ch out chf h ?_
              (fun x hx => hms x (List.mem_cons_of_mem m hx))
            intro x hx
            rcases List.mem_append.1 hx with hx | hx
            · exact ha x hx
            · rw [List.mem_singleton] at hx
              subst hx
              exact hms x (List.mem_cons_self x rest)

/-- The merge fold keeps adjacent roles distinct in its output and
preserves the role of the first message. -/
theorem mergeFold_chain : ∀ (ms acc : List JValue) (ch : Bool)
    (out : List JValue) (chf : Bool),
    mergeFoldAux acc ch ms = .ok (out, chf) →
    List.Chain' roleNeq acc →
    List.Chain' roleNeq out ∧
      out.head?.map roleD = (acc ++ ms).head?.map roleD
  | [], acc, ch, out, chf, h, hch => by
    simp only [mergeFoldAux] at h
    cases h
    exact ⟨hch, by simp⟩
  | m :: rest, acc, ch, out, chf, h, hch => by
    simp only [mergeFoldAux] at h
    rcases hl : acc.getLast? with _ | prev
    all_goals rw [hl] at h
    all_goals simp only [] at h
    · have hacc : acc = [] := List.getLast?_eq_none_iff.1 hl
      subst hacc
      obtain ⟨h1, h2⟩ := mergeFold_chain rest [m] ch out chf h
        (List.chain'_singleton m)
      exact ⟨h1, h2⟩
    · have hane : acc ≠ [] := by
        intro he
        subst he
        cases hl
      have hprev : prev = acc.getLast hane := by
        have := List.getLast?_eq_getLast acc hane
        rw [hl] at this
        exact Option.some.inj this
      rcases hrp : roleVal prev with e | rp
      · rw [hrp, bindErr] at h
        cases h
      · rw [hrp, bindOk] at h
        rcases hrm : roleVal m with e | rm
        · rw [hrm, bindErr] at h
          cases h
        · rw [hrm, bindOk] at h
          by_cases hje : jsRoleEq rp rm = true
          · rw [if_pos hje] at h
            rcases hmg : mergeMessages prev m with e | mg
            · rw [hmg, bindErr] at h
              cases h
            · rw [hmg, bindOk] at h
              have hrole : roleD mg = roleD prev := (mergeMessages_shape hmg).1
              have hacc2 : List.Chain' roleNeq (acc.dropLast ++ [mg]) := by
                refine chain'_replace_last ?_ hrole
                rw [hprev, List.dropLast_append_getLast hane]
                exact hch
              obtain ⟨h1, h2⟩ := mergeFold_chain rest _ true out chf h hacc2
              refine ⟨h1, ?_⟩
              rw [h2]
              rcases acc with _ | ⟨q, qs⟩
              · exact absurd rfl hane
              · rcases qs with _ | ⟨q2, qs2⟩
                · have : prev = q := by
                    rw [hprev]
                    rfl
                  subst this
                  simp [hrole]
                · simp [List.dropLast]
          · rw [if_neg hje] at h
            have hacc2 : List.Chain' roleNeq (acc ++ [m]) := by
              rw [List.chain'_append]
              refine ⟨hch, List.chain'_singleton m, ?_⟩
              intro x hx y hy
              rw [hl, Option.mem_def, Option.some.injEq] at hx
              subst hx
              simp only [List.head?_cons, Option.mem_def, Option.some.injEq] at hy
              subst hy
              rw [roleNeq, (roleVal_ok hrp).2.symm, (roleVal_ok hrm).2.symm]
              simpa using hje
            obtain ⟨h1, h2⟩ := mergeFold_chain rest (acc ++ [m]) ch out chf h hacc2
            refine ⟨h1, ?_⟩
            rw [h2, List.append_assoc, List.singleton_append]

/-- The merge fold cannot throw on well-formed messages. -/
theorem mergeFold_total : ∀ (ms acc : List JValue) (ch : Bool),
    (∀ m ∈ ms, msgWF m = true) → (∀ m ∈ acc, msgWF m = true) →
    ∃ out chf, mergeFoldAux acc ch ms = .ok (out, chf) ∧
      ∀ m ∈ out, msgWF m = true
  | [], acc, ch, _, ha => ⟨acc, ch, by simp only [mergeFoldAux], ha⟩
  | m :: rest, acc, ch, hms, ha => by
    have hmwf : msgWF m = true := hms m (List.mem_cons_self m rest)
    have hmne : m ≠ JValue.null := ne_null_of_noNulls (msgWF_parts.1 hmwf).1
    have hrest : ∀ x ∈ rest, msgWF x = true :=
      fun x hx => hms x (List.mem_cons_of_mem m hx)
    simp only [mergeFoldAux]
    rcases hl : acc.getLast? with _ | prev
    all_goals simp only []
    · refine mergeFold_total rest (acc ++ [m]) ch hrest ?_
      intro x hx
      rcases List.mem_append.1 hx with hx | hx
      · exact ha x hx
      · rw [List.mem_singleton] at hx
        subst hx
        exact hmwf
    · have hane : acc ≠ [] := by
        intro he
        subst he
        cases hl
      have hprev : prev = acc.getLast hane := by
        have := List.getLast?_eq_getLast acc hane
        rw [hl] at this
        exact Option.some.inj this
      have hpm : prev ∈ acc := by
        rw [hprev]
        exact List.getLast_mem hane
      have hpwf : msgWF prev = true := ha prev hpm
      have hpne : prev ≠ JValue.null := ne_null_of_noNulls (msgWF_parts.1 hpwf).1
      rw [roleVal_eq hpne, bindOk, roleVal_eq hmne, bindOk]
      by_cases hje : jsRoleEq (roleD prev) (roleD m) = true
      · rw [if_pos hje]
        obtain ⟨mg, hmg⟩ := mergeMessages_total hpwf hmwf
        rw [hmg, bindOk]
        refine mergeFold_total rest _ true hrest ?_
        intro x hx
        rcases List.mem_append.1 hx with hx | hx
        · exact ha x ((List.dropLast_sublist acc).subset hx)
        · rw [List.mem_singleton] at hx
          subst hx
          obtain ⟨_, hobj, hcontent, _, hnn, _, _⟩ := mergeMessages_shape hmg
          refine msgWF_parts.2 ⟨?_, hobj, hcontent⟩
          exact hnn (msgWF_parts.1 hpwf).1 (msgWF_parts.1 hmwf).1
      · rw [if_neg hje]
        refine mergeFold_total rest (acc ++ [m]) ch hrest ?_
        intro x hx
        rcases List.mem_append.1 hx with hx | hx
        · exact ha x hx
        · rw [List.mem_singleton] at hx
          subst hx
          exact hmwf

/-- The filter step visits every message (so none may be null) and keeps
exactly those passing the keep test. -/
theorem filterMsgs_spec : ∀ (ms out : List JValue),
    filterMsgsE ms = .ok out →
    (∀ m ∈ ms, m ≠ JValue.null) ∧ out = ms.filter (fun m => keepD m)
  | [], out, h => by
    simp only [filterMsgsE] at h
    cases h
    exact ⟨by simp, rfl⟩
  | m :: rest, out, h => by
    simp only [filterMsgsE] at h
    rcases hk : keepMsg m with e | b
    · rw [hk, bindErr] at h
      cases h
    · rw [hk, bindOk] at h
      have hmne : m ≠ JValue.null := by
        intro he
        subst he
        simp [keepMsg] at hk
      have hb : b = keepD m := by
        rw [keepMsg_eq hmne] at hk
        exact (Except.ok.inj hk).symm
      rcases hrec : filterMsgsE rest with e | r2
      · rw [hrec, bindErr] at h
        cases h
      · rw [hrec, bindOk] at h
        obtain ⟨h1, h2⟩ := filterMsgs_spec rest r2 hrec
        subst hb
        refine ⟨?_, ?_⟩
        · intro x hx
          rcases List.mem_cons.1 hx with hx | hx
          · subst hx
            exact hmne
          · exact h1 x hx
        · rcases hkd : keepD m with _ | _
          · rw [hkd] at h
            simp only [Bool.false_eq_true, if_false] at h
            cases h
            simp [List.filter, hkd, h2]
          · rw [hkd] at h
            simp only [if_true] at h
            cases h
            simp [List.filter, hkd, h2]

theorem filterMsgs_total : ∀ (ms : List JValue),
    (∀ m ∈ ms, m ≠ JValue.null) →
    filterMsgsE ms = .ok (ms.filter (fun m => keepD m))
  | [], _ => rfl
  | m :: rest, hn => by
    simp only [filterMsgsE]
    rw [keepMsg_eq (hn m (List.mem_cons_self m rest)), bindOk]
    rw [filterMsgs_total rest (fun x hx => hn x (List.mem_cons_of_mem m hx)),
      bindOk]
    rcases hkd : keepD m with _ | _
    · simp only [List.filter, hkd, Bool.false_eq_true, if_false]
      rfl
    · simp only [List.filter, hkd, if_true]
      rfl

theorem dropLeading_total : ∀ (ms : List JValue),
    (∀ m ∈ ms, m ≠ JValue.null) →
    ∃ d ch, dropLeadingNonUserE ms = .ok (d, ch)
  | [], _ => ⟨[], false, rfl⟩
  | m :: rest, hn => by
    simp only [dropLeadingNonUserE]
    rw [roleIsUser_eq (hn m (List.mem_cons_self m rest)), bindOk]
    by_cases hu : roleD m = some (.str "user")
    · rw [if_pos (by simp [hu])]
      exact ⟨m :: rest, false, rfl⟩
    · rw [if_neg (by simp [hu])]
      obtain ⟨d2, ch2, hd2⟩ :=
        dropLeading_total rest (fun x hx => hn x (List.mem_cons_of_mem m hx))
      rw [hd2, bindOk]
      exact ⟨d2, true, rfl⟩

/-- A successful structure iteration outputs only non-null messages with
non-empty content (they all passed the filter step). -/
theorem structIter_out_nonempty {ms out : List JValue} {fl : Bool}
    (h : structIter ms = .ok (out, fl)) :
    ∀ m ∈ out, m ≠ JValue.null ∧ keepD m = true := by
  rw [structIter] at h
  rcases hd : dropLeadingNonUserE ms with e | ⟨d, ch1⟩
  · rw [hd, bindErr] at h
    cases h
  · rw [hd, bindOk] at h
    simp only [] at h
    rcases hmg : mergeFoldAux [] false d with e | ⟨mg, ch2⟩
    · rw [hmg, bindErr] at h
      cases h
    · rw [hmg, bindOk] at h
      simp only [] at h
      rcases hk : filterMsgsE mg with e | kept
      · rw [hk, bindErr] at h
        cases h
      · rw [hk, bindOk, pureE] at h
        have hpq := Except.ok.inj h
        have he1 : kept = out := congrArg Prod.fst hpq
        subst he1
        obtain ⟨hnn, hflt⟩ := filterMsgs_spec mg kept hk
        subst hflt
        intro m hm
        exact ⟨hnn m (List.mem_of_mem_filter hm), List.of_mem_filter hm⟩

/-- On input of non-null messages with non-empty content, a successful
structure iteration yields a stable list. -/
theorem structIter_stable_out {ms out : List JValue} {fl : Bool}
    (hin : ∀ m ∈ ms, m ≠ JValue.null ∧ keepD m = true)
    (h : structIter ms = .ok (out, fl)) : structStable out := by
  rw [structIter] at h
  rcases hd : dropLeadingNonUserE ms with e | ⟨d, ch1⟩
  · rw [hd, bindErr] at h
    cases h
  · rw [hd, bindOk] at h
    simp only [] at h
    obtain ⟨hsuf, hhead, _⟩ := dropLeading_spec ms d ch1 hd
    have hdin : ∀ m ∈ d, m ≠ JValue.null ∧ keepD m = true :=
      fun m hm => hin m (hsuf.subset hm)
    rcases hmg : mergeFoldAux [] false d with e | ⟨mg, ch2⟩
    · rw [hmg, bindErr] at h
      cases h
    · rw [hmg, bindOk] at h
      simp only [] at h
      have hmgnn : ∀ m ∈ mg, m ≠ JValue.null := by
        refine mergeFold_out_nonnull d [] false mg ch2 hmg (by simp) ?_
        intro _ x hx
        exact (hdin x (List.mem_of_mem_head? hx)).1
      have hmgkeep : ∀ m ∈ mg, keepD m = true := by
        refine mergeFold_mem (fun m => keepD m = true) ?_ d [] false mg ch2
          hmg (by simp) (fun m hm => (hdin m hm).2)
        intro a b mg2 hm2 hka _
        exact (mergeMessages_shape hm2).2.2.2.1 hka
      obtain ⟨hmgch, hmghead⟩ :=
        mergeFold_chain d [] false mg ch2 hmg List.chain'_nil
      rcases hk : filterMsgsE mg with e | kept
      · rw [hk, bindErr] at h
        cases h
      · rw [hk, bindOk, pureE] at h
        have hpq := Except.ok.inj h
        have he1 : kept = out := congrArg Prod.fst hpq
        subst he1
        obtain ⟨_, hflt⟩ := filterMsgs_spec mg kept hk
        have hkmg : kept = mg := by
          rw [hflt]
          exact List.filter_eq_self.2 hmgkeep
        subst hkmg
        refine ⟨?_, hmgch, fun m hm => ⟨hmgnn m hm, hmgkeep m hm⟩⟩
        rcases hmgl : kept with _ | ⟨m0, mgr⟩
        · exact trivial
        · rw [hmgl] at hmghead
          rcases hdl : d with _ | ⟨d0, dr⟩
          · rw [hdl] at hmghead
            simp at hmghead
          · rw [hdl] at hmghead
            simp only [List.head?_cons, Option.map_some', List.nil_append,
              Option.some.injEq] at hmghead
            have hu : roleD d0 = some (.str "user") := by
              rw [hdl] at hhead
              exact hhead
            show roleD m0 = some (.str "user")
            rw [hmghead, hu]

/-- A stable list passes a structure iteration unchanged with no flag. -/
theorem structIter_id {ms : List JValue} (h : structStable ms) :
    structIter ms = .ok (ms, false) := by
  obtain ⟨hhead, hchain, hmem⟩ := h
  rw [structIter, dropLeading_id ms hhead, bindOk]
  simp only []
  have hmg : mergeFoldAux [] false ms = .ok ([] ++ ms, false) := by
    refine mergeFold_id ms [] false ?_ (fun m hm => (hmem m hm).1) (by simp)
    simpa using hchain
  rw [hmg, bindOk]
  simp only [List.nil_append]
  have hflt : filterMsgsE ms = .ok (ms.filter (fun m => keepD m)) :=
    filterMsgs_total ms (fun m hm => (hmem m hm).1)
  rw [List.filter_eq_self.2 (fun m hm => (hmem m hm).2)] at hflt
  rw [hflt, bindOk]
  have hfl : decide (ms.length ≠ ms.length) = false := by simp
  simp only [hfl]
  rfl

/-- An iteration that reports no change received a stable list and
returned it unchanged. -/
theorem structIter_noflag {ms out : List JValue}
    (h : structIter ms = .ok (out, false)) : out = ms ∧ structStable ms := by
  rw [structIter] at h
  rcases hd : dropLeadingNonUserE ms with e | ⟨d, ch1⟩
  · rw [hd, bindErr] at h
    cases h
  · rw [hd, bindOk] at h
    simp only [] at h
    rcases hmg : mergeFoldAux [] false d with e | ⟨mg, ch2⟩
    · rw [hmg, bindErr] at h
      cases h
    · rw [hmg, bindOk] at h
      simp only [] at h
      rcases hk : filterMsgsE mg with e | kept
      · rw [hk, bindErr] at h
        cases h
      · rw [hk, bindOk, pureE] at h
        have hpq := Except.ok.inj h
        have he1 : kept = out := congrArg Prod.fst hpq
        have he2 : (ch1 || ch2 || decide (kept.length ≠ mg.length)) = false :=
          congrArg Prod.snd hpq
        subst he1
        have hflags : ch1 = false ∧ ch2 = false ∧
            decide (kept.length ≠ mg.length) = false := by
          rcases ch1 with _ | _
          · rcases ch2 with _ | _
            · exact ⟨rfl, rfl, by simpa using he2⟩
            · simp at he2
          · simp at he2
        obtain ⟨hc1, hc2, hlen⟩ := hflags
        subst hc1
        subst hc2
        obtain ⟨_, _, hdms⟩ := dropLeading_spec ms d false hd
        have hdms := hdms rfl
        subst hdms
        obtain ⟨hmgeq, hmgch⟩ := mergeFold_false_spec d [] mg hmg
        simp only [List.nil_append] at hmgeq
        subst hmgeq
        obtain ⟨hnn, hflt⟩ := filterMsgs_spec mg kept hk
        have hkeep : ∀ m ∈ mg, keepD m = true := by
          refine List.filter_length_eq_length.1 ?_
          rw [← hflt]
          have := of_decide_eq_false hlen
          omega
        have hkmg : kept = mg := by
          rw [hflt]
          exact List.filter_eq_self.2 hkeep
        subst hkmg
        obtain ⟨_, hhead, _⟩ := dropLeading_spec kept kept false hd
        refine ⟨rfl, hhead, by simpa using hmgch,
          fun m hm => ⟨hnn m hm, hkeep m hm⟩⟩

theorem msgWF_merge {a b mg : JValue} (h : mergeMessages a b = .ok mg)
    (ha : msgWF a = true) (hb : msgWF b = true) : msgWF mg = true := by
  obtain ⟨_, hobj, hcontent, _, hnn, _, _⟩ := mergeMessages_shape h
  exact msgWF_parts.2 ⟨hnn (msgWF_parts.1 ha).1 (msgWF_parts.1 hb).1, hobj, hcontent⟩

/-- Membership preservation through one structure iteration, for any
property closed under merging. -/
theorem structIter_mem (P : JValue → Prop)
    (hmerge : ∀ a b mg, mergeMessages a b = .ok mg → P a → P b → P mg)
    {ms out : List JValue} {fl : Bool}
    (h : structIter ms = .ok (out, fl)) (hin : ∀ m ∈ ms, P m) :
    ∀ m ∈ out, P m := by
  rw [structIter] at h
  rcases hd : dropLeadingNonUserE ms with e | ⟨d, ch1⟩
  · rw [hd, bindErr] at h
    cases h
  · rw [hd, bindOk] at h
    simp only [] at h
    obtain ⟨hsuf, _, _⟩ := dropLeading_spec ms d ch1 hd
    rcases hmg : mergeFoldAux [] false d with e | ⟨mg, ch2⟩
    · rw [hmg, bindErr] at h
      cases h
    · rw [hmg, bindOk] at h
      simp only [] at h
      have hmgP : ∀ m ∈ mg, P m :=
        mergeFold_mem P hmerge d [] false mg ch2 hmg (by simp)
          (fun m hm => hin m (hsuf.subset hm))
      rcases hk : filterMsgsE mg with e | kept
      · rw [hk, bindErr] at h
        cases h
      · rw [hk, bindOk, pureE] at h
        have hpq := Except.ok.inj h
        have he1 : kept = out := congrArg Prod.fst hpq
        subst he1
        obtain ⟨_, hflt⟩ := filterMsgs_spec mg kept hk
        subst hflt
        exact fun m hm => hmgP m (List.mem_of_mem_filter hm)

/-- One structure iteration cannot throw on well-formed messages. -/
theorem structIter_total {ms : List JValue}
    (hwf : ∀ m ∈ ms, msgWF m = true) :
    ∃ out fl, structIter ms = .ok (out, fl) := by
  obtain ⟨d, ch1, hd⟩ := dropLeading_total ms
    (fun m hm => ne_null_of_noNulls (msgWF_parts.1 (hwf m hm)).1)
  obtain ⟨hsuf, _, _⟩ := dropLeading_spec ms d ch1 hd
  obtain ⟨mg, ch2, hmg, hmgwf⟩ := mergeFold_total d [] false
    (fun m hm => hwf m (hsuf.subset hm)) (by simp)
  have hflt := filterMsgs_total mg
    (fun m hm => ne_null_of_noNulls (msgWF_parts.1 (hmgwf m hm)).1)
  refine ⟨mg.filter (fun m => keepD m),
    ch1 || ch2 || decide ((mg.filter (fun m => keepD m)).length ≠ mg.length), ?_⟩
  rw [structIter, hd, bindOk]
  simp only []
  rw [hmg, bindOk]
  simp only []
  rw [hflt, bindOk]
  rfl

theorem structLoop_flag_true : ∀ (n : Nat) (ms : List JValue)
    (out : List JValue) (fl : Bool),
    structLoop n ms true = .ok (out, fl) → fl = true
  | 0, ms, out, fl, h => by
    simp only [structLoop] at h
    cases h
    rfl
  | n + 1, ms, out, fl, h => by
    simp only [structLoop] at h
    rcases hit : structIter ms with e | ⟨ms2, step⟩
    · rw [hit, bindErr] at h
      cases h
    · rw [hit, bindOk] at h
      simp only [] at h
      rcases step with _ | _
      · simp only [Bool.false_eq_true, if_false] at h
        cases h
        rfl
      · simp only [if_true] at h
        exact structLoop_flag_true n ms2 out fl h

theorem structLoop_stable_id {ms : List JValue} (h : structStable ms)
    (n : Nat) (ch : Bool) : structLoop (n + 1) ms ch = .ok (ms, ch) := by
  simp only [structLoop]
  rw [structIter_id h, bindOk]
  simp

theorem structLoop_stable_spec : ∀ (n : Nat) (ms : List JValue) (ch : Bool)
    (out : List JValue) (fl : Bool), 1 ≤ n → structStable ms →
    structLoop n ms ch = .ok (out, fl) → out = ms ∧ fl = ch
  | 0, ms, ch, out, fl, hn, _, _ => by omega
  | n + 1, ms, ch, out, fl, _, hst, h => by
    rw [structLoop_stable_id hst n ch] at h
    cases h
    exact ⟨rfl, rfl⟩

theorem structLoop_stable_out2 : ∀ (n : Nat) (ms : List JValue) (ch : Bool)
    (out : List JValue) (fl : Bool), 2 ≤ n →
    (∀ m ∈ ms, m ≠ JValue.null ∧ keepD m = true) →
    structLoop n ms ch = .ok (out, fl) → structStable out
  | 0, ms, ch, out, fl, hn, _, _ => by omega
  | n + 1, ms, ch, out, fl, hn, hin, h => by
    simp only [structLoop] at h
    rcases hit : structIter ms with e | ⟨ms2, step⟩
    · rw [hit, bindErr] at h
      cases h
    · rw [hit, bindOk] at h
      simp only [] at h
      rcases step with _ | _
      · simp only [Bool.false_eq_true, if_false] at h
        cases h
        obtain ⟨he, hst⟩ := structIter_noflag hit
        subst he
        exact hst
      · simp only [if_true] at h
        have hst2 : structStable ms2 := structIter_stable_out hin hit
        obtain ⟨he, _⟩ := structLoop_stable_spec n ms2 true out fl
          (by omega) hst2 h
        subst he
        exact hst2

/-- Any successful run of the bounded structure loop (fuel at least 3)
ends in a stable message list. -/
theorem structLoop_stable_out : ∀ (n : Nat) (ms : List JValue) (ch : Bool)
    (out : List JValue) (fl : Bool), 3 ≤ n →
    structLoop n ms ch = .ok (out, fl) → structStable out
  | 0, ms, ch, out, fl, hn, _ => by omega
  | n + 1, ms, ch, out, fl, hn, h => by
    simp only [structLoop] at h
    rcases hit : structIter ms with e | ⟨ms2, step⟩
    · rw [hit, bindErr] at h
      cases h
    · rw [hit, bindOk] at h
      simp only [] at h
      rcases step with _ | _
      · simp only [Bool.false_eq_true, if_false] at h
        cases h
        obtain ⟨he, hst⟩ := structIter_noflag hit
        subst he
        exact hst
      · simp only [if_true] at h
        exact structLoop_stable_out2 n ms2 true out fl (by omega)
          (structIter_out_nonempty hit) h

theorem structLoop_noflag : ∀ (n : Nat) (ms : List JValue)
    (out : List JValue), structLoop n ms false = .ok (out, false) →
    out = ms ∧ (1 ≤ n → structStable ms)
  | 0, ms, out, h => by
    simp only [structLoop] at h
    cases h
    exact ⟨rfl, by omega⟩
  | n + 1, ms, out, h => by
    simp only [structLoop] at h
    rcases hit : structIter ms with e | ⟨ms2, step⟩
    · rw [hit, bindErr] at h
      cases h
    · rw [hit, bindOk] at h
      simp only [] at h
      rcases step with _ | _
      · simp only [Bool.false_eq_true, if_false] at h
        cases h
        obtain ⟨he, hst⟩ := structIter_noflag hit
        subst he
        exact ⟨rfl, fun _ => hst⟩
      · simp only [if_true] at h
        exact absurd (structLoop_flag_true n ms2 out false h) (by simp)

theorem structLoop_mem (P : JValue → Prop)
    (hmerge : ∀ a b mg, mergeMessages a b = .ok mg → P a → P b → P mg) :
    ∀ (n : Nat) (ms : List JValue) (ch : Bool) (out : List JValue) (fl : Bool),
    structLoop n ms ch = .ok (out, fl) → (∀ m ∈ ms, P m) → ∀ m ∈ out, P m
  | 0, ms, ch, out, fl, h, hin => by
    simp only [structLoop] at h
    cases h
    exact hin
  | n + 1, ms, ch, out, fl, h, hin => by
    simp only [structLoop] at h
    rcases hit : structIter ms with e | ⟨ms2, step⟩
    · rw [hit, bindErr] at h
      cases h
    · rw [hit, bindOk] at h
      simp only [] at h
      have h2 := structIter_mem P hmerge hit hin
      rcases step with _ | _
      · simp only [Bool.false_eq_true, if_false] at h
        cases h
        exact h2
      · simp only [if_true] at h
        exact structLoop_mem P hmerge n ms2 true out fl h h2

theorem structLoop_total : ∀ (n : Nat) (ms : List JValue) (ch : Bool),
    (∀ m ∈ ms, msgWF m = true) →
    ∃ out fl, structLoop n ms ch = .ok (out, fl)
  | 0, ms, ch, _ => ⟨ms, ch, rfl⟩
  | n + 1, ms, ch, hwf => by
    obtain ⟨ms2, step, hit⟩ := structIter_total hwf
    simp only [structLoop]
    rw [hit, bindOk]
    simp only []
    rcases step with _ | _
    · exact ⟨ms2, ch, by simp⟩
    · simp only [if_true]
      exact structLoop_total n ms2 true
        (structIter_mem (fun m => msgWF m = true)
          (fun a b mg hm ha hb => msgWF_merge hm ha hb) hit hwf)

theorem sanitizeMessageStructure_spec {ms : List JValue}
    (hwf : ∀ m ∈ ms, msgWF m = true) :
    ∃ out fl, sanitizeMessageStructure ms = .ok (out, fl) ∧
      structStable out ∧ (∀ m ∈ out, msgWF m = true) ∧
      (fl = false → out = ms) := by
  obtain ⟨out, fl, h⟩ := structLoop_total 10 ms false hwf
  refine ⟨out, fl, h, structLoop_stable_out 10 ms false out fl (by omega) h,
    structLoop_mem (fun m => msgWF m = true)
      (fun a b mg hm ha hb => msgWF_merge hm ha hb) 10 ms false out fl h hwf,
    ?_⟩
  intro hfl
  subst hfl
  exact (structLoop_noflag 10 ms out h).1

theorem convertToolResult_shape {bf : JFields} {v : JValue}
    (h : convertToolResultToText bf = .ok v) : ∃ s, v = textBlock s := by
  rw [convertToolResultToText] at h
  rcases hc : objGet bf "content" with _ | cv
  · rw [hc] at h
    simp only [bindOk, pureE] at h
    exact ⟨_, (Except.ok.inj h).symm⟩
  · rw [hc] at h
    rcases cv with _ | bv | nl | s0 | cs | gs
    · simp only [bindOk, pureE] at h
      exact ⟨_, (Except.ok.inj h).symm⟩
    · simp only [bindOk, pureE] at h
      exact ⟨_, (Except.ok.inj h).symm⟩
    · simp only [bindOk, pureE] at h
      exact ⟨_, (Except.ok.inj h).symm⟩
    · simp only [bindOk, pureE] at h
      exact ⟨_, (Except.ok.inj h).symm⟩
    · simp only [] at h
      rcases hp : collectTextParts cs.toList with e | ps
      · rw [hp, bindErr] at h
        cases h
      · rw [hp, bindOk] at h
        simp only [bindOk, pureE] at h
        exact ⟨_, (Except.ok.inj h).symm⟩
    · simp only [bindOk, pureE] at h
      exact ⟨_, (Except.ok.inj h).symm⟩

theorem textBlock_type (s : String) :
    ∀ bf, textBlock s = JValue.obj bf →
      objGet bf "type" = some (.str "text") := by
  intro bf h
  cases h
  rfl

/-- The orphan block map: preserves length, emits only original blocks or
fresh text blocks, every surviving `tool_result` passed the match test, and
an unset flag means the list is unchanged. -/
theorem orphanMapBlocks_spec : ∀ (bs : List JValue) (prevOk : Bool)
    (ids : List String) (bs2 : List JValue) (ch : Bool),
    orphanMapBlocks prevOk ids bs = .ok (bs2, ch) →
    bs2.length = bs.length ∧
    (∀ b2 ∈ bs2, b2 ∈ bs ∨ ∃ s, b2 = textBlock s) ∧
    (∀ bf, JValue.obj bf ∈ bs2 →
      objGet bf "type" = some (.str "tool_result") →
      prevOk = true ∧ ∃ s, objGet bf "tool_use_id" = some (.str s) ∧
        s ≠ "" ∧ ids.contains s = true) ∧
    (ch = false → bs2 = bs)
  | [], prevOk, ids, bs2, ch, h => by
    simp only [orphanMapBlocks] at h
    cases h
    exact ⟨rfl, by simp, by simp, fun _ => rfl⟩
  | .null :: rest, prevOk, ids, bs2, ch, h => by
    simp only [orphanMapBlocks] at h
    cases h
  | .obj bf :: rest, prevOk, ids, bs2, ch, h => by
    simp only [orphanMapBlocks] at h
    by_cases htr : objGet bf "type" = some (.str "tool_result")
    · rw [if_pos htr] at h
      by_cases hchk : (prevOk && (match objGet bf "tool_use_id" with
          | some (.str s) => decide (s ≠ "") && ids.contains s
          | _ => false) : Bool) = true
      · rw [if_pos hchk] at h
        rcases hrec : orphanMapBlocks prevOk ids rest with e | ⟨r2, ch2⟩
        · rw [hrec, bindErr] at h
          cases h
        · rw [hrec, bindOk] at h
          simp only [pureE] at h
          have hpq := Except.ok.inj h
          have he1 : JValue.obj bf :: r2 = bs2 := congrArg Prod.fst hpq
          have he2 : ch2 = ch := congrArg Prod.snd hpq
          subst he1
          subst he2
          obtain ⟨hl, hmem, htrs, hfl⟩ := orphanMapBlocks_spec rest prevOk ids r2 ch2 hrec
          rw [Bool.and_eq_true] at hchk
          obtain ⟨hpok, hmtch⟩ := hchk
          refine ⟨by simp [hl], ?_, ?_, fun hf => by rw [hfl hf]⟩
          · intro b2 hb2
            rcases List.mem_cons.1 hb2 with hb2 | hb2
            · exact Or.inl (by rw [hb2] ; exact List.mem_cons_self _ _)
            · rcases hmem b2 hb2 with hm | hm
              · exact Or.inl (List.mem_cons_of_mem _ hm)
              · exact Or.inr hm
          · intro bf2 hbf2 htype2
            rcases List.mem_cons.1 hbf2 with hb2 | hb2
            · cases hb2
              refine ⟨hpok, ?_⟩
              rcases hti : objGet bf "tool_use_id" with _ | tv
              · rw [hti] at hmtch
                simp at hmtch
              · rw [hti] at hmtch
                rcases tv with _ | bv | nl | sid | cs0 | gs0
                · simp at hmtch
                · simp at hmtch
                · simp at hmtch
                · simp only [Bool.and_eq_true, decide_eq_true_eq] at hmtch
                  exact ⟨sid, rfl, hmtch.1, hmtch.2⟩
                · simp at hmtch
                · simp at hmtch
            · exact htrs bf2 hb2 htype2
      · rw [if_neg hchk] at h
        rcases hcv : convertToolResultToText bf with e | conv
        · rw [hcv, bindErr] at h
          cases h
        · rw [hcv, bindOk] at h
          rcases hrec : orphanMapBlocks prevOk ids rest with e | ⟨r2, ch2⟩
          · rw [hrec, bindErr] at h
            cases h
          · rw [hrec, bindOk] at h
            simp only [pureE] at h
            have hpq := Except.ok.inj h
            have he1 : conv :: r2 = bs2 := congrArg Prod.fst hpq
            have he2 : true = ch := congrArg Prod.snd hpq
            subst he1
            obtain ⟨hl, hmem, htrs, _⟩ := orphanMapBlocks_spec rest prevOk ids r2 ch2 hrec
            obtain ⟨sc, hsc⟩ := convertToolResult_shape hcv
            refine ⟨by simp [hl], ?_, ?_, fun hf => by rw [← he2] at hf ; cases hf⟩
            · intro b2 hb2
              rcases List.mem_cons.1 hb2 with hb2 | hb2
              · exact Or.inr ⟨sc, by rw [hb2, hsc]⟩
              · rcases hmem b2 hb2 with hm | hm
                · exact Or.inl (List.mem_cons_of_mem _ hm)
                · exact Or.inr hm
            · intro bf2 hbf2 htype2
              rcases List.mem_cons.1 hbf2 with hb2 | hb2
              · rw [hsc] at hb2
                rw [textBlock_type sc bf2 hb2.symm] at htype2
                simp at htype2
              · exact htrs bf2 hb2 htype2
    · rw [if_neg htr] at h
      rcases hrec : orphanMapBlocks prevOk ids rest with e | ⟨r2, ch2⟩
      · rw [hrec, bindErr] at h
        cases h
      · rw [hrec, bindOk] at h
        simp only [pureE] at h
        have hpq := Except.ok.inj h
        have he1 : JValue.obj bf :: r2 = bs2 := congrArg Prod.fst hpq
        have he2 : ch2 = ch := congrArg Prod.snd hpq
        subst he1
        subst he2
        obtain ⟨hl, hmem, htrs, hfl⟩ := orphanMapBlocks_spec rest prevOk ids r2 ch2 hrec
        refine ⟨by simp [hl], ?_, ?_, fun hf => by rw [hfl hf]⟩
        · intro b2 hb2
          rcases List.mem_cons.1 hb2 with hb2 | hb2
          · exact Or.inl (by rw [hb2] ; exact List.mem_cons_self _ _)
          · rcases hmem b2 hb2 with hm | hm
            · exact Or.inl (List.mem_cons_of_mem _ hm)
            · exact Or.inr hm
        · intro bf2 hbf2 htype2
          rcases List.mem_cons.1 hbf2 with hb2 | hb2
          · cases hb2
            exact absurd htype2 htr
          · exact htrs bf2 hb2 htype2
  | .bool v :: rest, prevOk, ids, bs2, ch, h => by
    simp only [orphanMapBlocks] at h
    rcases hrec : orphanMapBlocks prevOk ids rest with e | ⟨r2, ch2⟩
    · rw [hrec, bindErr] at h
      cases h
    · rw [hrec, bindOk] at h
      simp only [pureE] at h
      have hpq := Except.ok.inj h
      have he1 : JValue.bool v :: r2 = bs2 := congrArg Prod.fst hpq
      have he2 : ch2 = ch := congrArg Prod.snd hpq
      subst he1
      subst he2
      obtain ⟨hl, hmem, htrs, hfl⟩ := orphanMapBlocks_spec rest prevOk ids r2 ch2 hrec
      refine ⟨by simp [hl], ?_, ?_, fun hf => by rw [hfl hf]⟩
      · intro b2 hb2
        rcases List.mem_cons.1 hb2 with hb2 | hb2
        · exact Or.inl (by rw [hb2] ; exact List.mem_cons_self _ _)
        · rcases hmem b2 hb2 with hm | hm
          · exact Or.inl (List.mem_cons_of_mem _ hm)
          · exact Or.inr hm
      · intro bf2 hbf2 htype2
        rcases List.mem_cons.1 hbf2 with hb2 | hb2
        · cases hb2
        · exact htrs bf2 hb2 htype2
  | .num l :: rest, prevOk, ids, bs2, ch, h => by
    simp only [orphanMapBlocks] at h
    rcases hrec : orphanMapBlocks prevOk ids rest with e | ⟨r2, ch2⟩
    · rw [hrec, bindErr] at h
      cases h
    · rw [hrec, bindOk] at h
      simp only [pureE] at h
      have hpq := Except.ok.inj h
      have he1 : JValue.num l :: r2 = bs2 := congrArg Prod.fst hpq
      have he2 : ch2 = ch := congrArg Prod.snd hpq
      subst he1
      subst he2
      obtain ⟨hl, hmem, htrs, hfl⟩ := orphanMapBlocks_spec rest prevOk ids r2 ch2 hrec
      refine ⟨by simp [hl], ?_, ?_, fun hf => by rw [hfl hf]⟩
      · intro b2 hb2
        rcases List.mem_cons.1 hb2 with hb2 | hb2
        · exact Or.inl (by rw [hb2] ; exact List.mem_cons_self _ _)
        · rcases hmem b2 hb2 with hm | hm
          · exact Or.inl (List.mem_cons_of_mem _ hm)
          · exact Or.inr hm
      · intro bf2 hbf2 htype2
        rcases List.mem_cons.1 hbf2 with hb2 | hb2
        · cases hb2
        · exact htrs bf2 hb2 htype2
  | .str s0 :: rest, prevOk, ids, bs2, ch, h => by
    simp only [orphanMapBlocks] at h
    rcases hrec : orphanMapBlocks prevOk ids rest with e | ⟨r2, ch2⟩
    · rw [hrec, bindErr] at h
      cases h
    · rw [hrec, bindOk] at h
      simp only [pureE] at h
      have hpq := Except.ok.inj h
      have he1 : JValue.str s0 :: r2 = bs2 := congrArg Prod.fst hpq
      have he2 : ch2 = ch := congrArg Prod.snd hpq
      subst he1
      subst he2
      obtain ⟨hl, hmem, htrs, hfl⟩ := orphanMapBlocks_spec rest prevOk ids r2 ch2 hrec
      refine ⟨by simp [hl], ?_, ?_, fun hf => by rw [hfl hf]⟩
      · intro b2 hb2
        rcases List.mem_cons.1 hb2 with hb2 | hb2
        · exact Or.inl (by rw [hb2] ; exact List.mem_cons_self _ _)
        · rcases hmem b2 hb2 with hm | hm
          · exact Or.inl (List.mem_cons_of_mem _ hm)
          · exact Or.inr hm
      · intro bf2 hbf2 htype2
        rcases List.mem_cons.1 hbf2 with hb2 | hb2
        · cases hb2
        · exact htrs bf2 hb2 htype2
  | .arr es :: rest, prevOk, ids, bs2, ch, h => by
    simp only [orphanMapBlocks] at h
    rcases hrec : orphanMapBlocks prevOk ids rest with e | ⟨r2, ch2⟩
    · rw [hrec, bindErr] at h
      cases h
    · rw [hrec, bindOk] at h
      simp only [pureE] at h
      have hpq := Except.ok.inj h
      have he1 : JValue.arr es :: r2 = bs2 := congrArg Prod.fst hpq
      have he2 : ch2 = ch := congrArg Prod.snd hpq
      subst he1
      subst he2
      obtain ⟨hl, hmem, htrs, hfl⟩ := orphanMapBlocks_spec rest prevOk ids r2 ch2 hrec
      refine ⟨by simp [hl], ?_, ?_, fun hf => by rw [hfl hf]⟩
      · intro b2 hb2
        rcases List.mem_cons.1 hb2 with hb2 | hb2
        · exact Or.inl (by rw [hb2] ; exact List.mem_cons_self _ _)
        · rcases hmem b2 hb2 with hm | hm
          · exact Or.inl (List.mem_cons_of_mem _ hm)
          · exact Or.inr hm
      · intro bf2 hbf2 htype2
        rcases List.mem_cons.1 hbf2 with hb2 | hb2
        · cases hb2
        · exact htrs bf2 hb2 htype2

theorem ofList_eq_nil_iff {l : List JValue} :
    JList.ofList l = JList.nil ↔ l = [] := by
  rcases l with _ | ⟨x, t⟩
  · simp [JList.ofList]
  · simp only [JList.ofList]
    constructor
    · intro h
      cases h
    · intro h
      cases h

theorem toList_eq_nil_iff {cs : JList} : cs.toList = [] ↔ cs = JList.nil := by
  rcases cs with _ | ⟨x, t⟩
  · simp [JList.toList]
  · simp only [JList.toList]
    constructor
    · intro h
      cases h
    · intro h
      cases h

theorem hasToolResultE_false : ∀ (bs : List JValue),
    hasToolResultE bs = .ok false → ∀ bf, JValue.obj bf ∈ bs →
    objGet bf "type" ≠ some (.str "tool_result")
  | [], _, bf, hbf => absurd hbf (by simp)
  | .null :: rest, h, bf, hbf => by simp [hasToolResultE] at h
  | .obj bf0 :: rest, h, bf, hbf => by
    simp only [hasToolResultE] at h
    by_cases htr : objGet bf0 "type" = some (.str "tool_result")
    · rw [if_pos htr] at h
      cases h
    · rw [if_neg htr] at h
      rcases List.mem_cons.1 hbf with hb | hb
      · cases hb
        exact htr
      · exact hasToolResultE_false rest h bf hb
  | .bool v :: rest, h, bf, hbf => by
    simp only [hasToolResultE] at h
    rcases List.mem_cons.1 hbf with hb | hb
    · cases hb
    · exact hasToolResultE_false rest h bf hb
  | .num l :: rest, h, bf, hbf => by
    simp only [hasToolResultE] at h
    rcases List.mem_cons.1 hbf with hb | hb
    · cases hb
    · exact hasToolResultE_false rest h bf hb
  | .str s :: rest, h, bf, hbf => by
    simp only [hasToolResultE] at h
    rcases List.mem_cons.1 hbf with hb | hb
    · cases hb
    · exact hasToolResultE_false rest h bf hb
  | .arr es :: rest, h, bf, hbf => by
    simp only [hasToolResultE] at h
    rcases List.mem_cons.1 hbf with hb | hb
    · cases hb
    · exact hasToolResultE_false rest h bf hb

theorem user_ne_assistant :
    (some (JValue.str "user") : Option JValue) ≠ some (JValue.str "assistant") := by
  decide

theorem orphanOne_ok {prev : Option JValue} {m m2 : JValue} {ch : Bool}
    (h : orphanOne prev m = .ok (m2, ch)) : orphanRel m m2 ∧
      userToolResultsOk prev m2 ∧ (ch = false → m2 = m) := by
  match m with
  | .null => simp [orphanOne] at h
  | .bool v | .num l | .str s0 | .arr es =>
    simp only [orphanOne, pureE] at h
    have hpq := Except.ok.inj h
    have he1 := congrArg Prod.fst hpq
    have he2 := congrArg Prod.snd hpq
    simp only [] at he1 he2
    subst he1
    refine ⟨⟨(by intro he ; cases he), rfl, rfl, fun hw => hw, fun hn => hn,
      ?_, fun _ => rfl⟩, ?_, fun _ => rfl⟩
    · intro P _ hP cs2 hc2
      exact hP cs2 hc2
    · intro fs hm
      cases hm
  | .obj fs =>
    simp only [orphanOne] at h
    by_cases hu : objGet fs "role" = some (.str "user")
    · rw [if_pos hu] at h
      have hid : ∀ (hok : (Except.ok ((JValue.obj fs), false)
            : Except Unit (JValue × Bool)) = .ok (m2, ch))
          (hno : userToolResultsOk prev (.obj fs)),
          orphanRel (.obj fs) m2 ∧ userToolResultsOk prev m2 ∧
            (ch = false → m2 = (.obj fs)) := by
        intro hok hno
        have hpq := Except.ok.inj hok
        have he1 : JValue.obj fs = m2 := congrArg Prod.fst hpq
        subst he1
        exact ⟨⟨(by intro he ; cases he), rfl, rfl, fun hw => hw, fun hn => hn,
          fun P _ hP cs2 hc2 => hP cs2 hc2, fun _ => rfl⟩, hno, fun _ => rfl⟩
      rcases hc : objGet fs "content" with _ | cv
      · rw [hc] at h
        refine hid h ?_
        intro fs2 hm hrole cs hcs
        cases hm
        rw [hc] at hcs
        cases hcs
      · rw [hc] at h
        rcases cv with _ | bv | nl | s1 | cs | gs
        · refine hid h ?_
          intro fs2 hm hrole cs hcs
          cases hm
          rw [hc] at hcs
          cases hcs
        · refine hid h ?_
          intro fs2 hm hrole cs hcs
          cases hm
          rw [hc] at hcs
          cases hcs
        · refine hid h ?_
          intro fs2 hm hrole cs hcs
          cases hm
          rw [hc] at hcs
          cases hcs
        · refine hid h ?_
          intro fs2 hm hrole cs hcs
          cases hm
          rw [hc] at hcs
          cases hcs
        · simp only [] at h
          rcases htr : hasToolResultE cs.toList with e | hasTR
          · rw [htr, bindErr] at h
            cases h
          · rw [htr, bindOk] at h
            rcases hasTR with _ | _
            · simp only [Bool.false_eq_true, if_false, pureE] at h
              refine hid h ?_
              intro fs2 hm hrole cs3 hcs bf hbf htype
              cases hm
              rw [hc] at hcs
              cases hcs
              exact absurd htype (hasToolResultE_false cs.toList htr bf hbf)
            · simp only [if_true] at h
              rcases hti : toolUseIds prev with e | ids
              · rw [hti, bindErr] at h
                cases h
              · rw [hti, bindOk] at h
                rcases hmp : orphanMapBlocks (prevIsAssistant prev) ids cs.toList
                  with e | ⟨cs2, ch2⟩
                · rw [hmp, bindErr] at h
                  cases h
                · rw [hmp, bindOk] at h
                  simp only [] at h
                  obtain ⟨hlen, hmem, htrs, hfl⟩ :=
                    orphanMapBlocks_spec cs.toList (prevIsAssistant prev) ids cs2 ch2 hmp
                  rcases ch2 with _ | _
                  · simp only [Bool.false_eq_true, if_false, pureE] at h
                    have hcs2 : cs2 = cs.toList := hfl rfl
                    subst hcs2
                    refine hid h ?_
                    intro fs2 hm hrole cs3 hcs bf hbf htype
                    cases hm
                    rw [hc] at hcs
                    cases hcs
                    obtain ⟨hpok, s, hs, hsne, hcont⟩ := htrs bf hbf htype
                    exact ⟨hpok, s, ids, hs, hsne, hti, hcont⟩
                  · simp only [if_true, pureE] at h
                    have hpq := Except.ok.inj h
                    have he1 : JValue.obj (objSet fs "content"
                        (.arr (JList.ofList cs2))) = m2 := congrArg Prod.fst hpq
                    have he2 : true = ch := congrArg Prod.snd hpq
                    subst he1
                    refine ⟨⟨(by intro he ; cases he), roleD_objSet_content fs _, ?_,
                      ?_, ?_, ?_, ?_⟩, ?_, fun hf => by rw [← he2] at hf ; cases hf⟩
                    · show keepD _ = keepD (.obj fs)
                      have h1 : keepD (.obj (objSet fs "content"
                          (.arr (JList.ofList cs2)))) =
                          decide (JList.ofList cs2 ≠ JList.nil) := by
                        simp [keepD, objGet_objSet_self]
                      have h2 : keepD (.obj fs) = decide (cs ≠ JList.nil) := by
                        simp [keepD, hc]
                      rw [h1, h2]
                      have : (JList.ofList cs2 = JList.nil) ↔ (cs = JList.nil) := by
                        rw [ofList_eq_nil_iff, ← toList_eq_nil_iff]
                        constructor
                        · intro hx
                          have := hlen
                          rw [hx] at this
                          exact List.length_eq_zero.1 this.symm
                        · intro hx
                          rw [hx] at hlen
                          exact List.length_eq_zero.1 (by simpa using hlen)
                      simp [this]
                    · intro hw
                      refine JWF_objSet_content hw ?_
                      rw [show (JWF (.arr (JList.ofList cs2)) : Bool)
                          = JWFL (JList.ofList cs2) from rfl, JWFL_ofList]
                      intro x hx
                      rcases hmem x hx with hm | ⟨s, hs⟩
                      · exact (JWFL_toList cs).1
                          (JWF_contentD hw (show contentD (.obj fs) = _ from hc)) x hm
                      · rw [hs]
                        exact JWF_textBlock s
                    · intro hn
                      refine noNullsV_objSet_content hn ?_
                      rw [show (noNullsV (.arr (JList.ofList cs2)) : Bool)
                          = noNullsL (JList.ofList cs2) from rfl, noNullsL_ofList]
                      intro x hx
                      rcases hmem x hx with hm | ⟨s, hs⟩
                      · exact (noNullsL_toList cs).1
                          (noNullsV_contentD hn (show contentD (.obj fs) = _ from hc)) x hm
                      · rw [hs]
                        exact noNullsV_textBlock s
                    · intro P hPt hP cs3 hc3
                      rw [contentD_objSet_content] at hc3
                      cases hc3
                      intro b hb
                      rw [JList.toList_ofList] at hb
                      rcases hmem b hb with hm | ⟨s, hs⟩
                      · exact hP cs (show contentD (.obj fs) = _ from hc) b hm
                      · rw [hs]
                        exact hPt s
                    · intro hass
                      rw [show roleD (.obj fs) = objGet fs "role" from rfl, hu] at hass
                      exact absurd hass user_ne_assistant
                    · intro fs2 hm hrole cs3 hcs bf hbf htype
                      cases hm
                      rw [objGet_objSet_self] at hcs
                      cases hcs
                      rw [JList.toList_ofList] at hbf
                      obtain ⟨hpok, s, hs, hsne, hcont⟩ := htrs bf hbf htype
                      exact ⟨hpok, s, ids, hs, hsne, hti, hcont⟩
        · refine hid h ?_
          intro fs2 hm hrole cs hcs
          cases hm
          rw [hc] at hcs
          cases hcs
    · rw [if_neg hu] at h
      simp only [pureE] at h
      have hpq := Except.ok.inj h
      have he1 : JValue.obj fs = m2 := congrArg Prod.fst hpq
      subst he1
      refine ⟨⟨(by intro he ; cases he), rfl, rfl, fun hw => hw, fun hn => hn,
        fun P _ hP cs2 hc2 => hP cs2 hc2, fun _ => rfl⟩, ?_, fun _ => rfl⟩
      intro fs2 hm hrole
      cases hm
      exact absurd hrole hu

theorem prevIsAssistant_roleD {m : JValue} (h : prevIsAssistant (some m) = true) :
    roleD m = some (.str "assistant") := by
  match m with
  | .obj fs => exact of_decide_eq_true h
  | .null | .bool _ | .num _ | .str _ | .arr _ => simp [prevIsAssistant] at h

theorem userToolResultsOk_transfer {a a2 x : JValue}
    (h : userToolResultsOk (some a) x)
    (ht : prevIsAssistant (some a) = true → a2 = a) :
    userToolResultsOk (some a2) x := by
  intro fs hm hrole cs hc bf hbf htype
  obtain ⟨hass, s, ids, h1, h2, h3, h4⟩ := h fs hm hrole cs hc bf hbf htype
  rw [ht hass]
  exact ⟨hass, s, ids, h1, h2, h3, h4⟩

theorem NoOrphansFrom_transfer {a a2 : JValue} {l : List JValue}
    (h : NoOrphansFrom (some a) l)
    (ht : prevIsAssistant (some a) = true → a2 = a) :
    NoOrphansFrom (some a2) l := by
  rcases l with _ | ⟨x, t⟩
  · exact trivial
  · exact ⟨userToolResultsOk_transfer h.1 ht, h.2⟩

/-- The orphan pass: the output has no orphaned tool results (in user
messages), relates element-wise to the input, and an unset flag means the
list is unchanged. -/
theorem orphanGo_spec : ∀ (ms : List JValue) (prev : Option JValue)
    (out : List JValue) (ch : Bool),
    orphanGo prev ms = .ok (out, ch) →
    NoOrphansFrom prev out ∧ List.Forall₂ orphanRel ms out ∧
      (ch = false → out = ms)
  | [], prev, out, ch, h => by
    simp only [orphanGo] at h
    cases h
    exact ⟨trivial, List.Forall₂.nil, fun _ => rfl⟩
  | m :: rest, prev, out, ch, h => by
    simp only [orphanGo] at h
    rcases ho : orphanOne prev m with e | ⟨m2, c1⟩
    · rw [ho, bindErr] at h
      cases h
    · rw [ho, bindOk] at h
      simp only [] at h
      rcases hg : orphanGo (some m) rest with e | ⟨r2, c2⟩
      · rw [hg, bindErr] at h
        cases h
      · rw [hg, bindOk] at h
        simp only [pureE] at h
        have hpq := Except.ok.inj h
        have he1 : m2 :: r2 = out := congrArg Prod.fst hpq
        have he2 : (c1 || c2) = ch := congrArg Prod.snd hpq
        subst he1
        obtain ⟨hrel, hutr, hfl1⟩ := orphanOne_ok ho
        obtain ⟨hno, hfa, hfl2⟩ := orphanGo_spec rest (some m) r2 c2 hg
        refine ⟨⟨hutr, ?_⟩, List.Forall₂.cons hrel hfa, ?_⟩
        · refine NoOrphansFrom_transfer hno ?_
          intro hass
          exact hrel.2.2.2.2.2.2 (prevIsAssistant_roleD hass)
        · intro hf
          rw [← he2] at hf
          rcases c1 with _ | _
          · rcases c2 with _ | _
            · rw [hfl1 rfl, hfl2 rfl]
            · simp at hf
          · simp at hf

theorem forall2_orphan_head {ms out : List JValue}
    (h : List.Forall₂ orphanRel ms out) : headUserD ms → headUserD out := by
  cases h with
  | nil => exact fun h2 => h2
  | cons h1 h2 =>
    intro hu
    show roleD _ = some (.str "user")
    rw [h1.2.1]
    exact hu

theorem forall2_orphan_chain {ms out : List JValue}
    (h : List.Forall₂ orphanRel ms out) :
    List.Chain' roleNeq ms → List.Chain' roleNeq out := by
  induction h with
  | nil => exact fun h2 => h2
  | cons h1 h2 ih =>
    rename_i a b l1 l2
    intro hch
    rw [List.chain'_cons']
    refine ⟨?_, ih ((List.chain'_cons'.1 hch).2)⟩
    intro y hy
    cases h2 with
    | nil => cases hy
    | cons h3 h4 =>
      simp only [List.head?_cons, Option.mem_def, Option.some.injEq] at hy
      subst hy
      have hx := (List.chain'_cons'.1 hch).1 _ rfl
      rw [roleNeq] at hx ⊢
      rw [h1.2.1, h3.2.1]
      exact hx

theorem forall2_orphan_mem {ms out : List JValue}
    (h : List.Forall₂ orphanRel ms out) (p : JValue → JValue → Prop)
    (hp : ∀ a b, orphanRel a b → p a b) :
    ∀ b ∈ out, ∃ a ∈ ms, p a b := by
  induction h with
  | nil => exact fun b hb => absurd hb (by simp)
  | cons h1 h2 ih =>
    intro b hb
    rcases List.mem_cons.1 hb with hb | hb
    · subst hb
      exact ⟨_, List.mem_cons_self _ _, hp _ _ h1⟩
    · obtain ⟨a, ha, hpa⟩ := ih b hb
      exact ⟨a, List.mem_cons_of_mem _ ha, hpa⟩

theorem collectTextParts_total : ∀ (bs : List JValue),
    (∀ b ∈ bs, b ≠ JValue.null) → ∃ ps, collectTextParts bs = .ok ps
  | [], _ => ⟨[], rfl⟩
  | .null :: rest, hn =>
    absurd rfl (hn JValue.null (List.mem_cons_self _ _))
  | .obj nf :: rest, hn => by
    obtain ⟨ps, hps⟩ := collectTextParts_total rest
      (fun b hb => hn b (List.mem_cons_of_mem _ hb))
    simp only [collectTextParts]
    rw [hps, bindOk]
    by_cases ht : objGet nf "type" = some (.str "text")
    · rw [if_pos ht]
      rcases htx : objGet nf "text" with _ | tv
      · exact ⟨ps, rfl⟩
      · rcases tv with _ | bv | nl | t0 | cs | gs
        · exact ⟨ps, rfl⟩
        · exact ⟨ps, rfl⟩
        · exact ⟨ps, rfl⟩
        · exact ⟨t0 :: ps, rfl⟩
        · exact ⟨ps, rfl⟩
        · exact ⟨ps, rfl⟩
    · rw [if_neg ht]
      exact ⟨ps, rfl⟩
  | .bool v :: rest, hn => collectTextParts_total rest
      (fun b hb => hn b (List.mem_cons_of_mem _ hb))
  | .num l :: rest, hn => collectTextParts_total rest
      (fun b hb => hn b (List.mem_cons_of_mem _ hb))
  | .str s0 :: rest, hn => collectTextParts_total rest
      (fun b hb => hn b (List.mem_cons_of_mem _ hb))
  | .arr es :: rest, hn => collectTextParts_total rest
      (fun b hb => hn b (List.mem_cons_of_mem _ hb))

theorem collectIds_total : ∀ (bs : List JValue),
    (∀ b ∈ bs, b ≠ JValue.null) → ∃ ids, collectIds bs = .ok ids
  | [], _ => ⟨[], rfl⟩
  | .null :: rest, hn =>
    absurd rfl (hn JValue.null (List.mem_cons_self _ _))
  | .obj bf :: rest, hn => by
    obtain ⟨ids, hids⟩ := collectIds_total rest
      (fun b hb => hn b (List.mem_cons_of_mem _ hb))
    simp only [collectIds]
    rw [hids, bindOk]
    by_cases ht : objGet bf "type" = some (.str "tool_use")
    · rw [if_pos ht]
      rcases hid : objGet bf "id" with _ | iv
      · exact ⟨ids, rfl⟩
      · rcases iv with _ | bv | nl | i0 | cs | gs
        · exact ⟨ids, rfl⟩
        · exact ⟨ids, rfl⟩
        · exact ⟨ids, rfl⟩
        · exact ⟨i0 :: ids, rfl⟩
        · exact ⟨ids, rfl⟩
        · exact ⟨ids, rfl⟩
    · rw [if_neg ht]
      exact ⟨ids, rfl⟩
  | .bool v :: rest, hn => collectIds_total rest
      (fun b hb => hn b (List.mem_cons_of_mem _ hb))
  | .num l :: rest, hn => collectIds_total rest
      (fun b hb => hn b (List.mem_cons_of_mem _ hb))
  | .str s0 :: rest, hn => collectIds_total rest
      (fun b hb => hn b (List.mem_cons_of_mem _ hb))
  | .arr es :: rest, hn => collectIds_total rest
      (fun b hb => hn b (List.mem_cons_of_mem _ hb))

theorem toolUseIds_total {prev : Option JValue}
    (hn : ∀ p, prev = some p → noNullsV p = true) :
    ∃ ids, toolUseIds prev = .ok ids := by
  match prev with
  | none => exact ⟨[], rfl⟩
  | some .null =>
    have := hn JValue.null rfl
    simp [noNullsV] at this
  | some (.bool v) => exact ⟨[], rfl⟩
  | some (.num l) => exact ⟨[], rfl⟩
  | some (.str s0) => exact ⟨[], rfl⟩
  | some (.arr es) => exact ⟨[], rfl⟩
  | some (.obj pf) =>
    simp only [toolUseIds]
    by_cases hr : objGet pf "role" = some (.str "assistant")
    · rw [if_pos hr]
      rcases hc : objGet pf "content" with _ | cv
      · exact ⟨[], rfl⟩
      · rcases cv with _ | bv | nl | s0 | cs | gs
        · exact ⟨[], rfl⟩
        · exact ⟨[], rfl⟩
        · exact ⟨[], rfl⟩
        · exact ⟨[], rfl⟩
        · refine collectIds_total cs.toList ?_
          intro b hb
          refine ne_null_of_noNulls ((noNullsL_toList cs).1 ?_ b hb)
          exact noNullsV_contentD (hn _ rfl) (show contentD (.obj pf) = _ from hc)
        · exact ⟨[], rfl⟩
    · rw [if_neg hr]
      exact ⟨[], rfl⟩

theorem hasToolResultE_total : ∀ (bs : List JValue),
    (∀ b ∈ bs, b ≠ JValue.null) → ∃ r, hasToolResultE bs = .ok r
  | [], _ => ⟨false, rfl⟩
  | .null :: rest, hn =>
    absurd rfl (hn JValue.null (List.mem_cons_self _ _))
  | .obj bf :: rest, hn => by
    simp only [hasToolResultE]
    by_cases ht : objGet bf "type" = some (.str "tool_result")
    · rw [if_pos ht]
      exact ⟨true, rfl⟩
    · rw [if_neg ht]
      exact hasToolResultE_total rest (fun b hb => hn b (List.mem_cons_of_mem _ hb))
  | .bool v :: rest, hn => hasToolResultE_total rest
      (fun b hb => hn b (List.mem_cons_of_mem _ hb))
  | .num l :: rest, hn => hasToolResultE_total rest
      (fun b hb => hn b (List.mem_cons_of_mem _ hb))
  | .str s0 :: rest, hn => hasToolResultE_total rest
      (fun b hb => hn b (List.mem_cons_of_mem _ hb))
  | .arr es :: rest, hn => hasToolResultE_total rest
      (fun b hb => hn b (List.mem_cons_of_mem _ hb))

theorem convertToolResult_total {bf : JFields}
    (hn : noNullsV (.obj bf) = true) : ∃ v, convertToolResultToText bf = .ok v := by
  rw [convertToolResultToText]
  rcases hc : objGet bf "content" with _ | cv
  · exact ⟨_, rfl⟩
  · rcases cv with _ | bv | nl | s0 | cs | gs
    · exact ⟨_, rfl⟩
    · exact ⟨_, rfl⟩
    · exact ⟨_, rfl⟩
    · exact ⟨_, rfl⟩
    · simp only []
      have hbn : ∀ b ∈ cs.toList, b ≠ JValue.null := by
        intro b hb
        refine ne_null_of_noNulls ((noNullsL_toList cs).1 ?_ b hb)
        exact noNullsV_contentD hn (show contentD (.obj bf) = _ from hc)
      obtain ⟨ps, hps⟩ := collectTextParts_total cs.toList hbn
      rw [hps, bindOk]
      exact ⟨_, rfl⟩
    · exact ⟨_, rfl⟩

theorem orphanMapBlocks_total : ∀ (bs : List JValue) (prevOk : Bool)
    (ids : List String), (∀ b ∈ bs, noNullsV b = true) →
    ∃ bs2 ch, orphanMapBlocks prevOk ids bs = .ok (bs2, ch)
  | [], prevOk, ids, _ => ⟨[], false, rfl⟩
  | .null :: rest, prevOk, ids, hn => by
    have := hn JValue.null (List.mem_cons_self _ _)
    simp [noNullsV] at this
  | .obj bf :: rest, prevOk, ids, hn => by
    obtain ⟨r2, ch2, hr2⟩ := orphanMapBlocks_total rest prevOk ids
      (fun b hb => hn b (List.mem_cons_of_mem _ hb))
    simp only [orphanMapBlocks]
    by_cases ht : objGet bf "type" = some (.str "tool_result")
    · rw [if_pos ht]
      by_cases hchk : (prevOk && (match objGet bf "tool_use_id" with
          | some (.str s) => decide (s ≠ "") && ids.contains s
          | _ => false) : Bool) = true
      · rw [if_pos hchk, hr2, bindOk]
        exact ⟨_, _, rfl⟩
      · rw [if_neg hchk]
        obtain ⟨conv, hconv⟩ := convertToolResult_total
          (hn (JValue.obj bf) (List.mem_cons_self _ _))
        rw [hconv, bindOk, hr2, bindOk]
        exact ⟨_, _, rfl⟩
    · rw [if_neg ht, hr2, bindOk]
      exact ⟨_, _, rfl⟩
  | .bool v :: rest, prevOk, ids, hn => by
    obtain ⟨r2, ch2, hr2⟩ := orphanMapBlocks_total rest prevOk ids
      (fun b hb => hn b (List.mem_cons_of_mem _ hb))
    simp only [orphanMapBlocks]
    rw [hr2, bindOk]
    exact ⟨_, _, rfl⟩
  | .num l :: rest, prevOk, ids, hn => by
    obtain ⟨r2, ch2, hr2⟩ := orphanMapBlocks_total rest prevOk ids
      (fun b hb => hn b (List.mem_cons_of_mem _ hb))
    simp only [orphanMapBlocks]
    rw [hr2, bindOk]
    exact ⟨_, _, rfl⟩
  | .str s0 :: rest, prevOk, ids, hn => by
    obtain ⟨r2, ch2, hr2⟩ := orphanMapBlocks_total rest prevOk ids
      (fun b hb => hn b (List.mem_cons_of_mem _ hb))
    simp only [orphanMapBlocks]
    rw [hr2, bindOk]
    exact ⟨_, _, rfl⟩
  | .arr es :: rest, prevOk, ids, hn => by
    obtain ⟨r2, ch2, hr2⟩ := orphanMapBlocks_total rest prevOk ids
      (fun b hb => hn b (List.mem_cons_of_mem _ hb))
    simp only [orphanMapBlocks]
    rw [hr2, bindOk]
    exact ⟨_, _, rfl⟩

theorem orphanOne_total {prev : Option JValue} {m : JValue}
    (hwf : msgWF m = true)
    (hp : ∀ p, prev = some p → noNullsV p = true) :
    ∃ m2 ch, orphanOne prev m = .ok (m2, ch) := by
  obtain ⟨hnn, ⟨fs, hfs⟩, hcs⟩ := msgWF_parts.1 hwf
  subst hfs
  simp only [orphanOne]
  by_cases hu : objGet fs "role" = some (.str "user")
  · rw [if_pos hu]
    rcases hcs with ⟨s, hc⟩ | ⟨cs, hc⟩
    · rw [show objGet fs "content" = some (.str s) from hc]
      exact ⟨_, _, rfl⟩
    · rw [show objGet fs "content" = some (.arr cs) from hc]
      simp only []
      have hbn : ∀ b ∈ cs.toList, noNullsV b = true :=
        (noNullsL_toList cs).1 (noNullsV_contentD hnn hc)
      obtain ⟨hasTR, hhtr⟩ := hasToolResultE_total cs.toList
        (fun b hb => ne_null_of_noNulls (hbn b hb))
      rw [hhtr, bindOk]
      rcases hasTR with _ | _
      · simp only [Bool.false_eq_true, if_false]
        exact ⟨_, _, rfl⟩
      · simp only [if_true]
        obtain ⟨ids, hids⟩ := toolUseIds_total hp
        rw [hids, bindOk]
        obtain ⟨bs2, ch2, hbs2⟩ := orphanMapBlocks_total cs.toList
          (prevIsAssistant prev) ids hbn
        rw [hbs2, bindOk]
        simp only []
        rcases ch2 with _ | _
        · simp only [Bool.false_eq_true, if_false]
          exact ⟨_, _, rfl⟩
        · simp only [if_true]
          exact ⟨_, _, rfl⟩
  · rw [if_neg hu]
    exact ⟨_, _, rfl⟩

theorem orphanGo_total : ∀ (ms : List JValue) (prev : Option JValue),
    (∀ m ∈ ms, msgWF m = true) →
    (∀ p, prev = some p → noNullsV p = true) →
    ∃ out ch, orphanGo prev ms = .ok (out, ch)
  | [], prev, _, _ => ⟨[], false, rfl⟩
  | m :: rest, prev, hwf, hp => by
    obtain ⟨m2, c1, hm2⟩ := orphanOne_total
      (hwf m (List.mem_cons_self _ _)) hp
    obtain ⟨r2, c2, hr2⟩ := orphanGo_total rest (some m)
      (fun x hx => hwf x (List.mem_cons_of_mem _ hx))
      (fun p hpe => by
        cases hpe
        exact (msgWF_parts.1 (hwf m (List.mem_cons_self _ _))).1)
    simp only [orphanGo]
    rw [hm2, bindOk]
    simp only []
    rw [hr2, bindOk]
    exact ⟨_, _, rfl⟩

theorem JWF_merge {a b mg : JValue} (h : mergeMessages a b = .ok mg)
    (ha : JWF a = true) (hb : JWF b = true) : JWF mg = true :=
  (mergeMessages_shape h).2.2.2.2.2.1 ha hb

theorem phase0_msgWF {m m2 : JValue}
    (hnn : noNullsV m2 = true)
    (hcont : contentD m2 = contentD m ∨ ∃ cs cs2, contentD m = some (.arr cs) ∧
      contentD m2 = some (.arr cs2) ∧ jlistLen cs2 = jlistLen cs)
    (hobj : (∃ fs, m = JValue.obj fs) → ∃ fs2, m2 = JValue.obj fs2)
    (hwf : msgWF m = true) : msgWF m2 = true := by
  obtain ⟨_, hmobj, hc⟩ := msgWF_parts.1 hwf
  refine msgWF_parts.2 ⟨hnn, hobj hmobj, ?_⟩
  rcases hcont with he | ⟨cs, cs2, h1, h2, _⟩
  · rw [he]
    exact hc
  · exact Or.inr ⟨cs2, h2⟩

/-- Phase 0 cannot throw on well-formed messages and preserves their
well-formedness. -/
theorem sanitizeMessagesPhase0_total : ∀ (ms : List JValue) (st : SignatureStore),
    (∀ m ∈ ms, msgWF m = true) →
    ∃ ms2 ch st2, sanitizeMessagesPhase0 ms st = (.ok (ms2, ch), st2) ∧
      (∀ m2 ∈ ms2, msgWF m2 = true) ∧
      ((∀ m ∈ ms, JWF m = true) → ∀ m2 ∈ ms2, JWF m2 = true)
  | [], st, _ => ⟨[], false, st, rfl, by simp, by simp⟩
  | m :: rest, st, hwf => by
    have hmwf := hwf m (List.mem_cons_self m rest)
    obtain ⟨m2, ch, st1, hm1, hm2, hm3, hm4, hm5, hm6, hm7⟩ :=
      sanitizeMessage_total m st (msgWF_parts.1 hmwf).1
    obtain ⟨r2, ch2, st2, hr1, hr2w, hr3⟩ := sanitizeMessagesPhase0_total rest st1
      (fun x hx => hwf x (List.mem_cons_of_mem m hx))
    refine ⟨m2 :: r2, ch || ch2, st2, ?_, ?_, ?_⟩
    · simp only [sanitizeMessagesPhase0, hm1, hr1]
    · intro x hx
      rcases List.mem_cons.1 hx with hx | hx
      · subst hx
        exact phase0_msgWF hm2 hm5 hm6 hmwf
      · exact hr2w x hx
    · intro hJ x hx
      rcases List.mem_cons.1 hx with hx | hx
      · subst hx
        exact hm3 (hJ m (List.mem_cons_self m rest))
      · exact hr3 (fun y hy => hJ y (List.mem_cons_of_mem m hy)) x hx

/-- Core behaviour of the sanitizer pipeline on a parsed body with
well-formed messages: it succeeds, and the final message list (returned
verbatim or re-serialized) is structurally repaired and orphan-free. -/
theorem sanitizePipeline_core (x : String) (st : SignatureStore) (fs : JFields)
    (msL : JList) (hp : parseJSON x = some (.obj fs))
    (hm : objGet fs "messages" = some (.arr msL))
    (hwf : ∀ m ∈ msL.toList, msgWF m = true) :
    ∃ (ms3 : List JValue) (st1 : SignatureStore),
      ((sanitizeContentBlocksWithStore x st = (x, st1) ∧ ms3 = msL.toList) ∨
        sanitizeContentBlocksWithStore x st
          = (printJ (.obj (objSet fs "messages" (.arr (JList.ofList ms3)))), st1)) ∧
      structStable ms3 ∧ NoOrphansFrom none ms3 ∧
      ((∀ m ∈ msL.toList, JWF m = true) → ∀ m ∈ ms3, JWF m = true) := by
  obtain ⟨nm, sanitized, st1, hph, hnmwf, hnmJ⟩ :=
    sanitizeMessagesPhase0_total msL.toList st hwf
  have hrun0 : ∀ (L1 : List JValue), (∀ m ∈ L1, msgWF m = true) →
      ((∀ m ∈ msL.toList, JWF m = true) → ∀ m ∈ L1, JWF m = true) →
      ∃ (ms2 : List JValue) (schanged : Bool) (ms3 : List JValue) (och : Bool),
        sanitizeMessageStructure L1 = .ok (ms2, schanged) ∧
        removeOrphanedToolResults (if schanged then ms2 else L1)
          = .ok (ms3, och) ∧
        (schanged = false → ms2 = L1) ∧ (och = false → ms3 = ms2) ∧
        structStable ms3 ∧ NoOrphansFrom none ms3 ∧
        ((∀ m ∈ msL.toList, JWF m = true) → ∀ m ∈ ms3, JWF m = true) := by
    intro L1 hL1wf hL1J
    obtain ⟨ms2, schanged, hst, hstable, hms2wf, hstf⟩ :=
      sanitizeMessageStructure_spec hL1wf
    have hm2eq : (if schanged then ms2 else L1) = ms2 := by
      rcases schanged with _ | _
      · simp [hstf rfl]
      · simp
    obtain ⟨ms3, och, hor⟩ := orphanGo_total ms2 none hms2wf (by simp)
    obtain ⟨hno, hfa, horf⟩ := orphanGo_spec ms2 none ms3 och hor
    refine ⟨ms2, schanged, ms3, och, hst, by rw [hm2eq] ; exact hor, hstf, ?_, ?_, hno, ?_⟩
    · intro hf
      exact horf hf
    · obtain ⟨hhead, hchain, hmem⟩ := hstable
      refine ⟨forall2_orphan_head hfa hhead, forall2_orphan_chain hfa hchain, ?_⟩
      intro m3 hm3
      obtain ⟨a, ha, hnn3, hkd3⟩ := forall2_orphan_mem hfa
        (fun a b => b ≠ JValue.null ∧ keepD b = keepD a)
        (fun a b hr => ⟨hr.1, hr.2.2.1⟩) m3 hm3
      exact ⟨hnn3, by rw [hkd3] ; exact (hmem a ha).2⟩
    · intro hJ m3 hm3
      have hms2J : ∀ m ∈ ms2, JWF m = true := by
        have hL1J2 := hL1J hJ
        have hclosure : ∀ a b mg, mergeMessages a b = .ok mg →
            JWF a = true → JWF b = true → JWF mg = true :=
          fun a b mg hmg ha hb => JWF_merge hmg ha hb
        rw [sanitizeMessageStructure] at hst
        exact structLoop_mem (fun m => JWF m = true) hclosure 10 L1 false ms2
          schanged hst hL1J2
      obtain ⟨a, ha, hJa⟩ := forall2_orphan_mem hfa
        (fun a b => JWF a = true → JWF b = true)
        (fun a b hr => hr.2.2.2.1) m3 hm3
      exact hJa (hms2J a ha)
  rcases sanitized with _ | _
  · obtain ⟨ms2, schanged, ms3, och, hst, hor, hstf, horf, hstable, hno, hJ⟩ :=
      hrun0 msL.toList hwf (fun h => h)
    refine ⟨ms3, st1, ?_, hstable, hno, hJ⟩
    have hrun : sanitizeContentBlocksWithStore x st =
        (if false || schanged || och then
          (printJ (.obj (objSet fs "messages" (.arr (JList.ofList
            (if och then ms3 else if schanged then ms2 else msL.toList)))))
          , st1)
        else (x, st1)) := by
      rw [sanitizeContentBlocksWithStore, hp]
      simp only [hm, hph, Bool.false_eq_true, if_false, hst, hor]
    rcases schanged with _ | _
    · rcases och with _ | _
      · have hrun2 : sanitizeContentBlocksWithStore x st = (x, st1) := by
          rw [hrun]
          rfl
        exact Or.inl ⟨hrun2, by rw [horf rfl, hstf rfl]⟩
      · have hrun2 : sanitizeContentBlocksWithStore x st
            = (printJ (.obj (objSet fs "messages"
              (.arr (JList.ofList ms3)))), st1) := by
          rw [hrun]
          rfl
        exact Or.inr hrun2
    · rcases och with _ | _
      · have hrun2 : sanitizeContentBlocksWithStore x st
            = (printJ (.obj (objSet fs "messages"
              (.arr (JList.ofList ms2)))), st1) := by
          rw [hrun]
          rfl
        rw [horf rfl]
        exact Or.inr hrun2
      · have hrun2 : sanitizeContentBlocksWithStore x st
            = (printJ (.obj (objSet fs "messages"
              (.arr (JList.ofList ms3)))), st1) := by
          rw [hrun]
          rfl
        exact Or.inr hrun2
  · obtain ⟨ms2, schanged, ms3, och, hst, hor, hstf, horf, hstable, hno, hJ⟩ :=
      hrun0 nm hnmwf hnmJ
    refine ⟨ms3, st1, ?_, hstable, hno, hJ⟩
    have hrun : sanitizeContentBlocksWithStore x st =
        (printJ (.obj (objSet fs "messages" (.arr (JList.ofList
          (if och then ms3 else if schanged then ms2 else nm))))), st1) := by
      rw [sanitizeContentBlocksWithStore, hp]
      simp only [hm, hph, if_true, hst, hor, Bool.true_or]
    rcases och with _ | _
    · rcases schanged with _ | _
      · have hrun2 : sanitizeContentBlocksWithStore x st
            = (printJ (.obj (objSet fs "messages"
              (.arr (JList.ofList nm)))), st1) := by
          rw [hrun]
          rfl
        rw [horf rfl, hstf rfl]
        exact Or.inr hrun2
      · have hrun2 : sanitizeContentBlocksWithStore x st
            = (printJ (.obj (objSet fs "messages"
              (.arr (JList.ofList ms2)))), st1) := by
          rw [hrun]
          rfl
        rw [horf rfl]
        exact Or.inr hrun2
    · have hrun2 : sanitizeContentBlocksWithStore x st
          = (printJ (.obj (objSet fs "messages"
            (.arr (JList.ofList ms3)))), st1) := by
        rw [hrun]
        rfl
      exact Or.inr hrun2

/-- C2 (corrected): on a parsed body whose messages are well-formed
(objects, null-free, string-or-array content), the sanitizer's output
parses back to a body whose messages begin with a user message (when
non-empty), have no two adjacent `===`-equal roles, no empty content, and
no orphaned tool_result inside user messages. -/
theorem sanitize_structure_postcondition
    (x : String) (st : SignatureStore) (fs : JFields) (msL : JList)
    (hp : parseJSON x = some (.obj fs))
    (hm : objGet fs "messages" = some (.arr msL))
    (hne : msL ≠ JList.nil)
    (hwf : ∀ m ∈ msL.toList, msgWF m = true) :
    ∃ fs2 msL2,
      parseJSON (sanitizeContentBlocksWithStore x st).1 = some (.obj fs2) ∧
      objGet fs2 "messages" = some (.arr msL2) ∧
      headUserD msL2.toList ∧
      List.Chain' roleNeq msL2.toList ∧
      (∀ m ∈ msL2.toList, keepD m = true) ∧
      NoOrphansFrom none msL2.toList := by
  obtain ⟨ms3, st1, hcase, hstable, hno, hJ⟩ :=
    sanitizePipeline_core x st fs msL hp hm hwf
  obtain ⟨hhead, hchain, hmem⟩ := hstable
  rcases hcase with ⟨hrun, hms3⟩ | hrun
  · subst hms3
    refine ⟨fs, msL, ?_, hm, hhead, hchain, fun m hmm => (hmem m hmm).2, hno⟩
    rw [hrun]
    exact hp
  · have hJmsL : ∀ m ∈ msL.toList, JWF m = true := by
      have hJfs := parseJSON_wf x _ hp
      have hJarr : JWF (.arr msL) = true := by
        simp only [JWF, Bool.and_eq_true] at hJfs
        exact JWFF_objGet fs "messages" _ hJfs.2 hm
      exact (JWFL_toList msL).1 hJarr
    have hJ3 := hJ hJmsL
    have hwfobj : JWF (.obj (objSet fs "messages"
        (.arr (JList.ofList ms3)))) = true := by
      refine JWF_objSet fs "messages" _ (parseJSON_wf x _ hp) ?_
      rw [show (JWF (.arr (JList.ofList ms3)) : Bool)
          = JWFL (JList.ofList ms3) from rfl, JWFL_ofList]
      exact hJ3
    rw [hrun]
    refine ⟨_, JList.ofList ms3, ?_, objGet_objSet_self fs "messages" _, ?_, ?_, ?_, ?_⟩
    · exact parseJSON_print _ hwfobj
    · rw [JList.toList_ofList]
      exact hhead
    · rw [JList.toList_ofList]
      exact hchain
    · rw [JList.toList_ofList]
      exact fun m hmm => (hmem m hmm).2
    · rw [JList.toList_ofList]
      exact hno

set_option maxRecDepth 40000 in
theorem sanitize_structure_postcondition_witness :
    (parseJSON exampleBody = some (.obj exampleFields) ∧
      objGet exampleFields "messages" = some (.arr exampleMsgs) ∧
      exampleMsgs ≠ JList.nil ∧
      (∀ m ∈ exampleMsgs.toList, msgWF m = true)) ∧
    (∃ fs2 msL2,
      parseJSON (sanitizeContentBlocksWithStore exampleBody
        (SignatureStore.mk 1000 [])).1 = some (.obj fs2) ∧
      objGet fs2 "messages" = some (.arr msL2) ∧
      headUserD msL2.toList ∧
      List.Chain' roleNeq msL2.toList ∧
      (∀ m ∈ msL2.toList, keepD m = true) ∧
      NoOrphansFrom none msL2.toList) :=
  ⟨⟨by decide, by decide, by decide, by decide⟩,
    sanitize_structure_postcondition exampleBody (SignatureStore.mk 1000 [])
      exampleFields exampleMsgs (by decide) (by decide) (by decide) (by decide)⟩

set_option maxRecDepth 40000 in
theorem sanitize_structure_counterexample :
    (sanitizeContentBlocksWithStore orphanAssistantBody
      (SignatureStore.mk 1000 [])).1 = orphanAssistantBody ∧
    parseJSON orphanAssistantBody
      = some (.obj (.cons "messages" (.arr orphanMsgs) .nil)) ∧
    orphanMsgs ≠ JList.nil ∧
    (∀ m ∈ orphanMsgs.toList, msgWF m = true) ∧
    ¬ NoOrphansAnyFrom none orphanMsgs.toList := by
  refine ⟨by decide, by decide, by decide, by decide, ?_⟩
  intro h
  have h2 := h.2.1
  have h3 := h2 (.cons "role" (.str "assistant")
      (.cons "content" (.arr (.cons (.obj orphanTRBlock) .nil)) .nil)) rfl
    (.cons (.obj orphanTRBlock) .nil) rfl orphanTRBlock (by decide) (by decide)
  have h4 := h3.1
  revert h4
  decide

theorem sanitizeBlock_stored_thinking_witness :
    (objGet storedThinkingBlock "type" = some (.str "thinking") ∧
      objGet storedThinkingBlock "signature" = some (.str "s") ∧
      "s" ≠ "" ∧ "s" ∈ (SignatureStore.mk 1000 ["s"]).items) ∧
    (sanitizeContentBlockWithStore (.obj storedThinkingBlock)
        (SignatureStore.mk 1000 ["s"])
        = (.ok (.obj storedThinkingBlock, false),
          ((SignatureStore.mk 1000 ["s"]).has "s").2) ∧
      ∀ (tf : JFields) (cs : JList) (i : Nat),
        objGet tf "type" = some (.str "tool_result") →
        objGet tf "content" = some (.arr cs) →
        jlistGet cs i = some (.obj storedThinkingBlock) →
        ∀ (b2 : JValue) (ch : Bool) (st2 : SignatureStore),
          sanitizeContentBlockWithStore (.obj tf)
            (SignatureStore.mk 1000 ["s"]) = (.ok (b2, ch), st2) →
          ∃ (fs2 : JFields) (cs2 : JList), b2 = .obj fs2 ∧
            objGet fs2 "content" = some (.arr cs2) ∧
            jlistGet cs2 i = some (.obj storedThinkingBlock)) :=
  ⟨⟨by decide, by decide, by decide, by decide⟩,
    sanitizeBlock_stored_thinking storedThinkingBlock
      (SignatureStore.mk 1000 ["s"]) "s"
      (by decide) (by decide) (by decide) (by decide)⟩

set_option maxRecDepth 40000 in
theorem sanitizeBlock_stored_thinking_counterexample :
    parseJSON storedThinkingBody = some (.obj (.cons "messages"
      (.arr (.cons (.obj (.cons "role" (.str "a")
        (.cons "content" (.arr (.cons (.obj (.cons "type" (.str "thinking")
          (.cons "signature" (.str "s") .nil))) .nil)) .nil))) .nil)) .nil)) ∧
    (sanitizeContentBlocksWithStore storedThinkingBody
      (SignatureStore.mk 1000 ["s"])).1 = "\x7b\"messages\":[]\x7d" := by
  exact ⟨by decide, by decide⟩

/-- C10 (confirmed): the sanitizer only permutes the store's entries (the
`has` promotions); membership, entry count and capacity are all
preserved, and nothing is ever inserted or removed. -/
theorem sanitize_store_frame (x : String) (st : SignatureStore) :
    ((sanitizeContentBlocksWithStore x st).2).items.Perm st.items ∧
    (∀ sg, sg ∈ ((sanitizeContentBlocksWithStore x st).2).items ↔
      sg ∈ st.items) ∧
    ((sanitizeContentBlocksWithStore x st).2).items.length = st.items.length ∧
    ((sanitizeContentBlocksWithStore x st).2).maxSize = st.maxSize := by
  obtain ⟨hperm, hmax⟩ := sanitize_store_perm x st
  exact ⟨hperm, fun sg => hperm.mem_iff, hperm.length_eq, hmax⟩

theorem memEq_refl (st : SignatureStore) : memEq st st := fun _ => Iff.rfl

theorem memEq_symm {st st' : SignatureStore} (h : memEq st st') : memEq st' st :=
  fun s => (h s).symm

theorem memEq_trans {a b c : SignatureStore} (h1 : memEq a b) (h2 : memEq b c) :
    memEq a c := fun s => (h1 s).trans (h2 s)

theorem has_fst (st : SignatureStore) (sg : String) :
    (st.has sg).1 = (decide (sg ≠ "") && decide (sg ∈ st.items)) := by
  simp only [SignatureStore.has]
  by_cases h0 : sg = ""
  · simp [h0]
  · rw [if_neg h0]
    by_cases hm : sg ∈ st.items
    · simp [hm, h0]
    · simp [hm, h0]

theorem has_fst_memdep {st st' : SignatureStore} (h : memEq st st')
    (sg : String) : (st.has sg).1 = (st'.has sg).1 := by
  rw [has_fst, has_fst]
  by_cases hm : sg ∈ st.items
  · simp [hm, (h sg).1 hm]
  · have : sg ∉ st'.items := fun hx => hm ((h sg).2 hx)
    simp [hm, this]

theorem has_memEq (st : SignatureStore) (sg : String) :
    memEq (st.has sg).2 st :=
  fun s => (has_perm st sg).1.mem_iff

theorem blockF_store_memEq (fuel : Nat) (b : JValue) (st : SignatureStore) :
    memEq (sanitizeContentBlockF fuel b st).2 st :=
  fun s => ((sanitize_store_frame_fuel fuel).1 b st).1.mem_iff

theorem mapF_store_memEq (fuel : Nat) (cs : JList) (st : SignatureStore) :
    memEq (mapSanitizeBlocksF fuel cs st).2 st :=
  fun s => ((sanitize_store_frame_fuel fuel).2 cs st).1.mem_iff

mutual
/-- The block sanitizer's result (value and flags, success or failure)
depends on the store only through its membership set. -/
theorem sanitizeBlockF_memdep : ∀ (fuel : Nat) (b : JValue)
    (st st' : SignatureStore), memEq st st' →
    (sanitizeContentBlockF fuel b st).1 = (sanitizeContentBlockF fuel b st').1
  | 0, b, st, st', _ => rfl
  | fuel + 1, .null, st, st', _ => rfl
  | fuel + 1, .bool v, st, st', _ => rfl
  | fuel + 1, .num l, st, st', _ => rfl
  | fuel + 1, .str s0, st, st', _ => rfl
  | fuel + 1, .arr es, st, st', _ => rfl
  | fuel + 1, .obj fs, st, st', h => by
    simp only [sanitizeContentBlockF]
    by_cases ht : objGet fs "type" = some (.str "thinking")
    · simp only [if_pos ht]
      rcases hsg : objGet fs "signature" with _ | sv
      · rfl
      · rcases sv with _ | bv | nl | sg | es2 | gs
        · rfl
        · rfl
        · rfl
        · simp only []
          by_cases he : sg ≠ ""
          · simp only [if_pos he]
            have hf := has_fst_memdep h sg
            rcases h1 : st.has sg with ⟨b1, st1⟩
            rcases h2 : st'.has sg with ⟨b2, st2⟩
            have : b1 = b2 := by
              rw [h1, h2] at hf
              exact hf
            subst this
            cases b1 <;> rfl
          · simp only [if_neg he]
        · rfl
        · rfl
    · simp only [if_neg ht]
      by_cases htr : objGet fs "type" = some (.str "tool_result")
      · simp only [if_pos htr]
        rcases hc : objGet fs "content" with _ | cv
        · rfl
        · rcases cv with _ | bv | nl | s0 | cs | gs
          · rfl
          · rfl
          · rfl
          · rfl
          · simp only []
            have hm := mapSanitizeF_memdep fuel cs st st' h
            rcases h1 : mapSanitizeBlocksF fuel cs st with ⟨r1, st1⟩
            rcases h2 : mapSanitizeBlocksF fuel cs st' with ⟨r2, st2⟩
            have : r1 = r2 := by
              rw [h1, h2] at hm
              exact hm
            subst this
            rcases r1 with e | ⟨cs2, ch⟩
            · rfl
            · cases ch <;> rfl
          · rfl
      · simp only [if_neg htr]

theorem mapSanitizeF_memdep : ∀ (fuel : Nat) (cs : JList)
    (st st' : SignatureStore), memEq st st' →
    (mapSanitizeBlocksF fuel cs st).1 = (mapSanitizeBlocksF fuel cs st').1
  | 0, cs, st, st', _ => rfl
  | fuel + 1, .nil, st, st', _ => rfl
  | fuel + 1, .cons b tl, st, st', h => by
    simp only [mapSanitizeBlocksF]
    have hb := sanitizeBlockF_memdep fuel b st st' h
    rcases h1 : sanitizeContentBlockF fuel b st with ⟨r1, st1⟩
    rcases h2 : sanitizeContentBlockF fuel b st' with ⟨r2, st2⟩
    have : r1 = r2 := by
      rw [h1, h2] at hb
      exact hb
    subst this
    rcases r1 with e | ⟨b2, ch⟩
    · rfl
    · simp only []
      have hst12 : memEq st1 st2 := by
        have e1 : memEq st1 st := by
          have := blockF_store_memEq fuel b st
          rw [h1] at this
          exact this
        have e2 : memEq st2 st' := by
          have := blockF_store_memEq fuel b st'
          rw [h2] at this
          exact this
        exact memEq_trans e1 (memEq_trans h (memEq_symm e2))
      have htl := mapSanitizeF_memdep fuel tl st1 st2 hst12
      rcases h3 : mapSanitizeBlocksF fuel tl st1 with ⟨r3, st3⟩
      rcases h4 : mapSanitizeBlocksF fuel tl st2 with ⟨r4, st4⟩
      have : r3 = r4 := by
        rw [h3, h4] at htl
        exact htl
      subst this
      rcases r3 with e | ⟨tl2, ch2⟩
      · rfl
      · rfl
end

mutual
/-- An unset change flag means the block came back untouched. -/
theorem sanitizeBlockF_false_eq : ∀ (fuel : Nat) (b : JValue)
    (st : SignatureStore) (b2 : JValue) (st2 : SignatureStore),
    sanitizeContentBlockF fuel b st = (.ok (b2, false), st2) → b2 = b
  | 0, b, st, b2, st2, h => by simp [sanitizeContentBlockF] at h
  | fuel + 1, .null, st, b2, st2, h => by simp [sanitizeContentBlockF] at h
  | fuel + 1, .bool v, st, b2, st2, h => by
    simp only [sanitizeContentBlockF] at h
    exact (congrArg Prod.fst (Except.ok.inj (congrArg Prod.fst h))).symm
  | fuel + 1, .num l, st, b2, st2, h => by
    simp only [sanitizeContentBlockF] at h
    exact (congrArg Prod.fst (Except.ok.inj (congrArg Prod.fst h))).symm
  | fuel + 1, .str s0, st, b2, st2, h => by
    simp only [sanitizeContentBlockF] at h
    exact (congrArg Prod.fst (Except.ok.inj (congrArg Prod.fst h))).symm
  | fuel + 1, .arr es, st, b2, st2, h => by
    simp only [sanitizeContentBlockF] at h
    exact (congrArg Prod.fst (Except.ok.inj (congrArg Prod.fst h))).symm
  | fuel + 1, .obj fs, st, b2, st2, h => by
    simp only [sanitizeContentBlockF] at h
    by_cases ht : objGet fs "type" = some (.str "thinking")
    · rw [if_pos ht] at h
      have hrest : ∀ st0 : SignatureStore,
          ((Except.ok (sanitizeThinkingRest fs) : Except Unit (JValue × Bool)), st0)
            = (.ok (b2, false), st2) → b2 = JValue.obj fs := by
        intro st0 hok
        rcases sanitizeThinkingRest_shape fs with hsh | hsh
        · rw [hsh] at hok
          exact (congrArg Prod.fst (Except.ok.inj (congrArg Prod.fst hok))).symm
        · rw [hsh] at hok
          have := congrArg Prod.snd (Except.ok.inj (congrArg Prod.fst hok))
          simp at this
      rcases hsg : objGet fs "signature" with _ | sv
      · rw [hsg] at h
        exact hrest st h
      · rw [hsg] at h
        rcases sv with _ | bv | nl | sg | es2 | gs
        · exact hrest st h
        · exact hrest st h
        · exact hrest st h
        · simp only [] at h
          by_cases he : sg ≠ ""
          · rw [if_pos he] at h
            rcases hh : st.has sg with ⟨hit, st1⟩
            rw [hh] at h
            rcases hit with _ | _
            · simp only [] at h
              exact hrest st1 h
            · simp only [] at h
              exact (congrArg Prod.fst (Except.ok.inj (congrArg Prod.fst h))).symm
          · rw [if_neg he] at h
            exact hrest st h
        · exact hrest st h
        · exact hrest st h
    · rw [if_neg ht] at h
      by_cases htr : objGet fs "type" = some (.str "tool_result")
      · rw [if_pos htr] at h
        rcases hc : objGet fs "content" with _ | cv
        · rw [hc] at h
          exact (congrArg Prod.fst (Except.ok.inj (congrArg Prod.fst h))).symm
        · rw [hc] at h
          rcases cv with _ | bv | nl | s0 | cs | gs
          · exact (congrArg Prod.fst (Except.ok.inj (congrArg Prod.fst h))).symm
          · exact (congrArg Prod.fst (Except.ok.inj (congrArg Prod.fst h))).symm
          · exact (congrArg Prod.fst (Except.ok.inj (congrArg Prod.fst h))).symm
          · exact (congrArg Prod.fst (Except.ok.inj (congrArg Prod.fst h))).symm
          · simp only [] at h
            rcases hm : mapSanitizeBlocksF fuel cs st with ⟨r1, st1⟩
            rw [hm] at h
            rcases r1 with e | ⟨cs2, ch⟩
            · simp only [] at h
              cases h
            · simp only [] at h
              rcases ch with _ | _
              · simp only [Bool.false_eq_true, if_false] at h
                exact (congrArg Prod.fst (Except.ok.inj (congrArg Prod.fst h))).symm
              · simp only [if_true] at h
                have := congrArg Prod.snd (Except.ok.inj (congrArg Prod.fst h))
                simp at this
          · exact (congrArg Prod.fst (Except.ok.inj (congrArg Prod.fst h))).symm
      · rw [if_neg htr] at h
        exact (congrArg Prod.fst (Except.ok.inj (congrArg Prod.fst h))).symm

theorem mapSanitizeF_false_eq : ∀ (fuel : Nat) (cs : JList)
    (st : SignatureStore) (cs2 : JList) (st2 : SignatureStore),
    mapSanitizeBlocksF fuel cs st = (.ok (cs2, false), st2) → cs2 = cs
  | 0, cs, st, cs2, st2, h => by simp [mapSanitizeBlocksF] at h
  | fuel + 1, .nil, st, cs2, st2, h => by
    simp only [mapSanitizeBlocksF] at h
    exact (congrArg Prod.fst (Except.ok.inj (congrArg Prod.fst h))).symm
  | fuel + 1, .cons b tl, st, cs2, st2, h => by
    simp only [mapSanitizeBlocksF] at h
    rcases hb : sanitizeContentBlockF fuel b st with ⟨r1, st1⟩
    rw [hb] at h
    rcases r1 with e | ⟨b2, ch⟩
    · simp only [] at h
      cases h
    · simp only [] at h
      rcases hm : mapSanitizeBlocksF fuel tl st1 with ⟨r2, st3⟩
      rw [hm] at h
      rcases r2 with e | ⟨tl2, ch2⟩
      · simp only [] at h
        cases h
      · simp only [] at h
        have hfst := congrArg Prod.fst h
        have hflag := congrArg Prod.snd (Except.ok.inj hfst)
        have hlist := congrArg Prod.fst (Except.ok.inj hfst)
        simp only [] at hflag hlist
        have hor := Bool.or_eq_false_iff.1 hflag.symm.symm
        rcases Bool.or_eq_false_iff.1 (by rw [← hflag]) with ⟨h1, h2⟩
        have hb2 : b2 = b := sanitizeBlockF_false_eq fuel b st b2 st1
          (by rw [hb, h1])
        have htl2 : tl2 = tl := mapSanitizeF_false_eq fuel tl st1 tl2 st3
          (by rw [hm, h2])
        rw [← hlist, hb2, htl2]
end

theorem okFst {α β : Type} {x b2 : α} {c ch : Bool} {s1 s2 : β}
    (h : ((Except.ok (x, c) : Except Unit (α × Bool)), s1) = (.ok (b2, ch), s2)) :
    b2 = x := (congrArg Prod.fst (Except.ok.inj (congrArg Prod.fst h))).symm

mutual
/-- The block sanitizer preserves JSON well-formedness of anything it
returns. -/
theorem sanitizeBlockF_wf : ∀ (fuel : Nat) (b : JValue) (st : SignatureStore)
    (b2 : JValue) (ch : Bool) (st2 : SignatureStore),
    sanitizeContentBlockF fuel b st = (.ok (b2, ch), st2) →
    JWF b = true → JWF b2 = true
  | 0, b, st, b2, ch, st2, h, _ => by simp [sanitizeContentBlockF] at h
  | fuel + 1, .null, st, b2, ch, st2, h, _ => by
    simp [sanitizeContentBlockF] at h
  | fuel + 1, .bool v, st, b2, ch, st2, h, hw => by
    simp only [sanitizeContentBlockF] at h
    rw [okFst h]
    exact hw
  | fuel + 1, .num l, st, b2, ch, st2, h, hw => by
    simp only [sanitizeContentBlockF] at h
    rw [okFst h]
    exact hw
  | fuel + 1, .str s0, st, b2, ch, st2, h, hw => by
    simp only [sanitizeContentBlockF] at h
    rw [okFst h]
    exact hw
  | fuel + 1, .arr es, st, b2, ch, st2, h, hw => by
    simp only [sanitizeContentBlockF] at h
    rw [okFst h]
    exact hw
  | fuel + 1, .obj fs, st, b2, ch, st2, h, hw => by
    simp only [sanitizeContentBlockF] at h
    by_cases ht : objGet fs "type" = some (.str "thinking")
    · rw [if_pos ht] at h
      have hrest : ∀ st0 : SignatureStore,
          ((Except.ok (sanitizeThinkingRest fs) : Except Unit (JValue × Bool)), st0)
            = (.ok (b2, ch), st2) → JWF b2 = true := by
        intro st0 hok
        rcases sanitizeThinkingRest_shape fs with hsh | hsh
        · rw [hsh] at hok
          rw [okFst hok]
          exact hw
        · rw [hsh] at hok
          rw [okFst hok]
          exact JWF_convertThinkingToText fs
      rcases hsg : objGet fs "signature" with _ | sv
      · rw [hsg] at h
        exact hrest st h
      · rw [hsg] at h
        rcases sv with _ | bv | nl | sg | es2 | gs
        · exact hrest st h
        · exact hrest st h
        · exact hrest st h
        · simp only [] at h
          by_cases he : sg ≠ ""
          · rw [if_pos he] at h
            rcases hh : st.has sg with ⟨hit, st1⟩
            rw [hh] at h
            rcases hit with _ | _
            · simp only [] at h
              exact hrest st1 h
            · simp only [] at h
              rw [okFst h]
              exact hw
          · rw [if_neg he] at h
            exact hrest st h
        · exact hrest st h
        · exact hrest st h
    · rw [if_neg ht] at h
      by_cases htr : objGet fs "type" = some (.str "tool_result")
      · rw [if_pos htr] at h
        rcases hc : objGet fs "content" with _ | cv
        · rw [hc] at h
          rw [okFst h]
          exact hw
        · rw [hc] at h
          rcases cv with _ | bv | nl | s0 | cs | gs
          · rw [okFst h]
            exact hw
          · rw [okFst h]
            exact hw
          · rw [okFst h]
            exact hw
          · rw [okFst h]
            exact hw
          · simp only [] at h
            rcases hm : mapSanitizeBlocksF fuel cs st with ⟨r1, st1⟩
            rw [hm] at h
            rcases r1 with e | ⟨cs2, ch2⟩
            · simp only [] at h
              cases h
            · simp only [] at h
              have hcsw : JWFL cs = true := by
                simp only [JWF, Bool.and_eq_true] at hw
                exact JWFF_objGet fs "content" _ hw.2 hc
              have hcs2w : JWFL cs2 = true :=
                mapSanitizeF_wf fuel cs st cs2 ch2 st1 (by rw [hm]) hcsw
              rcases ch2 with _ | _
              · simp only [Bool.false_eq_true, if_false] at h
                rw [okFst h]
                exact hw
              · simp only [if_true] at h
                rw [okFst h]
                exact JWF_objSet fs "content" _ hw hcs2w
          · rw [okFst h]
            exact hw
      · rw [if_neg htr] at h
        rw [okFst h]
        exact hw

theorem mapSanitizeF_wf : ∀ (fuel : Nat) (cs : JList) (st : SignatureStore)
    (cs2 : JList) (ch : Bool) (st2 : SignatureStore),
    mapSanitizeBlocksF fuel cs st = (.ok (cs2, ch), st2) →
    JWFL cs = true → JWFL cs2 = true
  | 0, cs, st, cs2, ch, st2, h, _ => by simp [mapSanitizeBlocksF] at h
  | fuel + 1, .nil, st, cs2, ch, st2, h, hw => by
    simp only [mapSanitizeBlocksF] at h
    rw [okFst h]
    exact hw
  | fuel + 1, .cons b tl, st, cs2, ch, st2, h, hw => by
    simp only [mapSanitizeBlocksF] at h
    simp only [JWFL, Bool.and_eq_true] at hw
    rcases hb : sanitizeContentBlockF fuel b st with ⟨r1, st1⟩
    rw [hb] at h
    rcases r1 with e | ⟨b2, ch1⟩
    · simp only [] at h
      cases h
    · simp only [] at h
      rcases hm : mapSanitizeBlocksF fuel tl st1 with ⟨r2, st3⟩
      rw [hm] at h
      rcases r2 with e | ⟨tl2, ch2⟩
      · simp only [] at h
        cases h
      · simp only [] at h
        rw [okFst h]
        simp only [JWFL, Bool.and_eq_true]
        exact ⟨sanitizeBlockF_wf fuel b st b2 ch1 st1 (by rw [hb]) hw.1,
          mapSanitizeF_wf fuel tl st1 tl2 ch2 st3 (by rw [hm]) hw.2⟩
end

theorem SB_bool (st : SignatureStore) (v : Bool) : SB st (.bool v) := by
  intro fuel st' hf hm
  rcases fuel with _ | f
  · simp [jsizeV] at hf
  · exact ⟨st', rfl⟩

theorem SB_num (st : SignatureStore) (l : String) : SB st (.num l) := by
  intro fuel st' hf hm
  rcases fuel with _ | f
  · simp [jsizeV] at hf
  · exact ⟨st', rfl⟩

theorem SB_str (st : SignatureStore) (s0 : String) : SB st (.str s0) := by
  intro fuel st' hf hm
  rcases fuel with _ | f
  · simp [jsizeV] at hf
  · exact ⟨st', rfl⟩

theorem SB_arr (st : SignatureStore) (es : JList) : SB st (.arr es) := by
  intro fuel st' hf hm
  rcases fuel with _ | f
  · have := jsizeV_pos (.arr es)
    omega
  · exact ⟨st', rfl⟩

theorem SB_obj_inert (st : SignatureStore) (fs : JFields)
    (hnt : ¬ objGet fs "type" = some (.str "thinking"))
    (hc : objGet fs "type" = some (.str "tool_result") →
      ∀ cs, ¬ objGet fs "content" = some (.arr cs)) : SB st (.obj fs) := by
  intro fuel st' hf hm
  rcases fuel with _ | f
  · have := jsizeV_pos (.obj fs)
    omega
  · refine ⟨st', ?_⟩
    simp only [sanitizeContentBlockF, if_neg hnt]
    by_cases htr : objGet fs "type" = some (.str "tool_result")
    · rw [if_pos htr]
      rcases hcv : objGet fs "content" with _ | cv
      · rfl
      · rcases cv with _ | bv | nl | s0 | cs | gs
        · rfl
        · rfl
        · rfl
        · rfl
        · exact absurd hcv (hc htr cs)
        · rfl
    · rw [if_neg htr]

theorem SB_textBlock (st : SignatureStore) (s : String) : SB st (textBlock s) := by
  refine SB_obj_inert st _ ?_ ?_
  · intro h
    simp [objGet] at h
  · intro h
    simp [objGet] at h

theorem SB_thinking_found (st : SignatureStore) (fs : JFields) (sg : String)
    (ht : objGet fs "type" = some (.str "thinking"))
    (hsg : objGet fs "signature" = some (.str sg)) (hne : sg ≠ "")
    (hmem : sg ∈ st.items) : SB st (.obj fs) := by
  intro fuel st' hf hm
  rcases fuel with _ | f
  · have := jsizeV_pos (.obj fs)
    omega
  · simp only [sanitizeContentBlockF, if_pos ht, hsg]
    simp only [if_pos hne]
    have hfst : (st'.has sg).1 = true := by
      rw [has_fst]
      simp [hne, (hm sg).1 hmem]
    rcases hh : st'.has sg with ⟨hit, st2⟩
    rw [hh] at hfst
    simp only [] at hfst
    subst hfst
    exact ⟨st2, rfl⟩

theorem rest_keep_inv {fs : JFields} {x : JValue}
    (h : sanitizeThinkingRest fs = (x, false)) :
    x = .obj fs ∧ ∃ sg, objGet fs "signature" = some (.str sg) ∧ sg ≠ "" := by
  simp only [sanitizeThinkingRest] at h
  rcases hth : (objGet fs "thinking").isSome with _ | _
  · rw [hth] at h
    simp only [Bool.false_eq_true, if_false] at h
    rcases hsg : objGet fs "signature" with _ | sv
    · rw [hsg] at h
      simp [convertThinkingToText] at h
    · rw [hsg] at h
      rcases sv with _ | bv | nl | sg | es | gs
      · simp only [] at h
        simp [convertThinkingToText] at h
      · simp only [] at h
        simp [convertThinkingToText] at h
      · simp only [] at h
        simp [convertThinkingToText] at h
      · simp only [] at h
        by_cases hne : sg ≠ ""
        · rw [if_pos hne] at h
          exact ⟨(congrArg Prod.fst h).symm, sg, rfl, hne⟩
        · rw [if_neg hne] at h
          simp [convertThinkingToText] at h
      · simp only [] at h
        simp [convertThinkingToText] at h
      · simp only [] at h
        simp [convertThinkingToText] at h
  · rw [hth] at h
    simp only [if_true] at h
    simp [convertThinkingToText] at h

theorem SB_thinking_miss (st : SignatureStore) (fs : JFields) (sg : String)
    (ht : objGet fs "type" = some (.str "thinking"))
    (hsg : objGet fs "signature" = some (.str sg)) (hne : sg ≠ "")
    (hnot : sg ∉ st.items)
    (hrest : sanitizeThinkingRest fs = (.obj fs, false)) : SB st (.obj fs) := by
  intro fuel st' hf hm
  rcases fuel with _ | f
  · have := jsizeV_pos (.obj fs)
    omega
  · simp only [sanitizeContentBlockF, if_pos ht, hsg]
    simp only [if_pos hne]
    have hfst : (st'.has sg).1 = false := by
      rw [has_fst]
      have : sg ∉ st'.items := fun hx => hnot ((hm sg).2 hx)
      simp [this]
    rcases hh : st'.has sg with ⟨hit, st2⟩
    rw [hh] at hfst
    simp only [] at hfst
    subst hfst
    refine ⟨st2, ?_⟩
    simp only [hrest]

theorem convertThinking_textBlock (fs : JFields) :
    ∃ s, convertThinkingToText fs = textBlock s := ⟨_, rfl⟩

theorem SBL_of_elems (st : SignatureStore) : ∀ (cs : JList),
    (∀ b ∈ cs.toList, SB st b) →
    ∀ (fuel : Nat) (st' : SignatureStore), jsizeL cs + 1 ≤ fuel →
    memEq st st' →
    ∃ st2, mapSanitizeBlocksF fuel cs st' = (.ok (cs, false), st2)
  | .nil, _, fuel, st', hf, hm => by
    rcases fuel with _ | f
    · omega
    · exact ⟨st', rfl⟩
  | .cons b tl, hSB, fuel, st', hf, hm => by
    rcases fuel with _ | f
    · omega
    · simp only [jsizeL] at hf
      have hbp := jsizeV_pos b
      obtain ⟨st2, hb⟩ := hSB b (by simp [JList.toList]) f st' (by omega) hm
      have hm2 : memEq st st2 := by
        have := blockF_store_memEq f b st'
        rw [hb] at this
        exact memEq_trans hm (memEq_symm this)
      obtain ⟨st3, htl⟩ := SBL_of_elems st tl
        (fun x hx => hSB x (by simp [JList.toList] ; exact Or.inr hx))
        f st2 (by omega) hm2
      refine ⟨st3, ?_⟩
      simp only [mapSanitizeBlocksF, hb, htl]
      rfl

theorem SB_obj_toolresult (st : SignatureStore) (fs : JFields) (cs : JList)
    (hnt : ¬ objGet fs "type" = some (.str "thinking"))
    (hc : objGet fs "content" = some (.arr cs))
    (hSB : ∀ b ∈ cs.toList, SB st b) : SB st (.obj fs) := by
  intro fuel st' hf hm
  rcases fuel with _ | f
  · have := jsizeV_pos (.obj fs)
    omega
  · simp only [sanitizeContentBlockF, if_neg hnt]
    by_cases htr : objGet fs "type" = some (.str "tool_result")
    · rw [if_pos htr, hc]
      simp only []
      have hsz : jsizeL cs + 1 ≤ f := by
        have h1 := objGet_jsize fs "content" _ hc
        simp only [jsizeV] at hf h1 ⊢
        omega
      obtain ⟨st2, hmap⟩ := SBL_of_elems st cs hSB f st' hsz hm
      rw [hmap]
      exact ⟨st2, rfl⟩
    · rw [if_neg htr]
      exact ⟨st', rfl⟩

mutual
/-- Everything the block sanitizer outputs is a fixed point of the block
sanitizer, for any store with the same membership. -/
theorem sanitizeBlockF_SB : ∀ (fuel : Nat) (b : JValue) (st : SignatureStore)
    (b2 : JValue) (ch : Bool) (st2 : SignatureStore),
    sanitizeContentBlockF fuel b st = (.ok (b2, ch), st2) → SB st b2
  | 0, b, st, b2, ch, st2, h => by simp [sanitizeContentBlockF] at h
  | fuel + 1, .null, st, b2, ch, st2, h => by simp [sanitizeContentBlockF] at h
  | fuel + 1, .bool v, st, b2, ch, st2, h => by
    simp only [sanitizeContentBlockF] at h
    rw [okFst h]
    exact SB_bool st v
  | fuel + 1, .num l, st, b2, ch, st2, h => by
    simp only [sanitizeContentBlockF] at h
    rw [okFst h]
    exact SB_num st l
  | fuel + 1, .str s0, st, b2, ch, st2, h => by
    simp only [sanitizeContentBlockF] at h
    rw [okFst h]
    exact SB_str st s0
  | fuel + 1, .arr es, st, b2, ch, st2, h => by
    simp only [sanitizeContentBlockF] at h
    rw [okFst h]
    exact SB_arr st es
  | fuel + 1, .obj fs, st, b2, ch, st2, h => by
    simp only [sanitizeContentBlockF] at h
    by_cases ht : objGet fs "type" = some (.str "thinking")
    · rw [if_pos ht] at h
      rcases hsg : objGet fs "signature" with _ | sv
      all_goals rw [hsg] at h
      · -- no signature field: the rest rule runs
        rcases hsh : sanitizeThinkingRest fs with ⟨x, flag⟩
        rw [hsh] at h
        have hx := okFst h
        subst hx
        rcases flag with _ | _
        · obtain ⟨hxo, sg2, hsg2, hne2⟩ := rest_keep_inv hsh
          rw [hsg2] at hsg
          cases hsg
        · rcases sanitizeThinkingRest_shape fs with hsh2 | hsh2
          · rw [hsh] at hsh2
            have := congrArg Prod.snd hsh2
            simp at this
          · rw [hsh] at hsh2
            have := congrArg Prod.fst hsh2
            simp only [] at this
            rw [this]
            obtain ⟨s2, hs2⟩ := convertThinking_textBlock fs
            rw [hs2]
            exact SB_textBlock st s2
      · rcases sv with _ | bv | nl | sg | es2 | gs
        all_goals simp only [] at h
        · rcases hsh : sanitizeThinkingRest fs with ⟨x, flag⟩
          rw [hsh] at h
          have hx := okFst h
          subst hx
          rcases flag with _ | _
          · obtain ⟨hxo, sg2, hsg2, hne2⟩ := rest_keep_inv hsh
            rw [hsg2] at hsg
            cases hsg
          · rcases sanitizeThinkingRest_shape fs with hsh2 | hsh2
            · rw [hsh] at hsh2
              have := congrArg Prod.snd hsh2
              simp at this
            · rw [hsh] at hsh2
              have := congrArg Prod.fst hsh2
              simp only [] at this
              rw [this]
              obtain ⟨s2, hs2⟩ := convertThinking_textBlock fs
              rw [hs2]
              exact SB_textBlock st s2
        · rcases hsh : sanitizeThinkingRest fs with ⟨x, flag⟩
          rw [hsh] at h
          have hx := okFst h
          subst hx
          rcases flag with _ | _
          · obtain ⟨hxo, sg2, hsg2, hne2⟩ := rest_keep_inv hsh
            rw [hsg2] at hsg
            cases hsg
          · rcases sanitizeThinkingRest_shape fs with hsh2 | hsh2
            · rw [hsh] at hsh2
              have := congrArg Prod.snd hsh2
              simp at this
            · rw [hsh] at hsh2
              have := congrArg Prod.fst hsh2
              simp only [] at this
              rw [this]
              obtain ⟨s2, hs2⟩ := convertThinking_textBlock fs
              rw [hs2]
              exact SB_textBlock st s2
        · rcases hsh : sanitizeThinkingRest fs with ⟨x, flag⟩
          rw [hsh] at h
          have hx := okFst h
          subst hx
          rcases flag with _ | _
          · obtain ⟨hxo, sg2, hsg2, hne2⟩ := rest_keep_inv hsh
            rw [hsg2] at hsg
            cases hsg
          · rcases sanitizeThinkingRest_shape fs with hsh2 | hsh2
            · rw [hsh] at hsh2
              have := congrArg Prod.snd hsh2
              simp at this
            · rw [hsh] at hsh2
              have := congrArg Prod.fst hsh2
              simp only [] at this
              rw [this]
              obtain ⟨s2, hs2⟩ := convertThinking_textBlock fs
              rw [hs2]
              exact SB_textBlock st s2
        · -- string signature
          by_cases hne : sg ≠ ""
          · rw [if_pos hne] at h
            rcases hh : st.has sg with ⟨hit, st1⟩
            rw [hh] at h
            rcases hit with _ | _
            · simp only [] at h
              rcases hsh : sanitizeThinkingRest fs with ⟨x, flag⟩
              rw [hsh] at h
              have hx := okFst h
              subst hx
              rcases flag with _ | _
              · obtain ⟨hxo, sg2, hsg2, hne2⟩ := rest_keep_inv hsh
                subst hxo
                have hnotmem : sg ∉ st.items := by
                  intro hmem
                  have := has_fst st sg
                  rw [hh] at this
                  simp [hne, hmem] at this
                exact SB_thinking_miss st fs sg ht hsg hne hnotmem hsh
              · rcases sanitizeThinkingRest_shape fs with hsh2 | hsh2
                · rw [hsh] at hsh2
                  have := congrArg Prod.snd hsh2
                  simp at this
                · rw [hsh] at hsh2
                  have := congrArg Prod.fst hsh2
                  simp only [] at this
                  rw [this]
                  obtain ⟨s2, hs2⟩ := convertThinking_textBlock fs
                  rw [hs2]
                  exact SB_textBlock st s2
            · simp only [] at h
              rw [okFst h]
              have hmem : sg ∈ st.items := by
                have := has_fst st sg
                rw [hh] at this
                simp only [] at this
                by_contra hno
                simp [hno] at this
              exact SB_thinking_found st fs sg ht hsg hne hmem
          · rw [if_neg hne] at h
            rcases hsh : sanitizeThinkingRest fs with ⟨x, flag⟩
            rw [hsh] at h
            have hx := okFst h
            subst hx
            rcases flag with _ | _
            · obtain ⟨hxo, sg2, hsg2, hne2⟩ := rest_keep_inv hsh
              rw [hsg2] at hsg
              cases hsg
              exact absurd hne2 (by simpa using hne)
            · rcases sanitizeThinkingRest_shape fs with hsh2 | hsh2
              · rw [hsh] at hsh2
                have := congrArg Prod.snd hsh2
                simp at this
              · rw [hsh] at hsh2
                have := congrArg Prod.fst hsh2
                simp only [] at this
                rw [this]
                obtain ⟨s2, hs2⟩ := convertThinking_textBlock fs
                rw [hs2]
                exact SB_textBlock st s2
        · rcases hsh : sanitizeThinkingRest fs with ⟨x, flag⟩
          rw [hsh] at h
          have hx := okFst h
          subst hx
          rcases flag with _ | _
          · obtain ⟨hxo, sg2, hsg2, hne2⟩ := rest_keep_inv hsh
            rw [hsg2] at hsg
            cases hsg
          · rcases sanitizeThinkingRest_shape fs with hsh2 | hsh2
            · rw [hsh] at hsh2
              have := congrArg Prod.snd hsh2
              simp at this
            · rw [hsh] at hsh2
              have := congrArg Prod.fst hsh2
              simp only [] at this
              rw [this]
              obtain ⟨s2, hs2⟩ := convertThinking_textBlock fs
              rw [hs2]
              exact SB_textBlock st s2
        · rcases hsh : sanitizeThinkingRest fs with ⟨x, flag⟩
          rw [hsh] at h
          have hx := okFst h
          subst hx
          rcases flag with _ | _
          · obtain ⟨hxo, sg2, hsg2, hne2⟩ := rest_keep_inv hsh
            rw [hsg2] at hsg
            cases hsg
          · rcases sanitizeThinkingRest_shape fs with hsh2 | hsh2
            · rw [hsh] at hsh2
              have := congrArg Prod.snd hsh2
              simp at this
            · rw [hsh] at hsh2
              have := congrArg Prod.fst hsh2
              simp only [] at this
              rw [this]
              obtain ⟨s2, hs2⟩ := convertThinking_textBlock fs
              rw [hs2]
              exact SB_textBlock st s2
    · rw [if_neg ht] at h
      by_cases htr : objGet fs "type" = some (.str "tool_result")
      · rw [if_pos htr] at h
        rcases hc : objGet fs "content" with _ | cv
        all_goals rw [hc] at h
        · rw [okFst h]
          exact SB_obj_inert st fs ht (fun _ cs hcs => by rw [hc] at hcs ; cases hcs)
        · rcases cv with _ | bv | nl | s0 | cs | gs
          all_goals simp only [] at h
          · rw [okFst h]
            exact SB_obj_inert st fs ht (fun _ cs hcs => by rw [hc] at hcs ; cases hcs)
          · rw [okFst h]
            exact SB_obj_inert st fs ht (fun _ cs hcs => by rw [hc] at hcs ; cases hcs)
          · rw [okFst h]
            exact SB_obj_inert st fs ht (fun _ cs hcs => by rw [hc] at hcs ; cases hcs)
          · rw [okFst h]
            exact SB_obj_inert st fs ht (fun _ cs hcs => by rw [hc] at hcs ; cases hcs)
          · rcases hm : mapSanitizeBlocksF fuel cs st with ⟨r1, st1⟩
            rw [hm] at h
            rcases r1 with e | ⟨cs2, ch2⟩
            · simp only [] at h
              cases h
            · simp only [] at h
              have hSBL : ∀ x ∈ cs2.toList, SB st x :=
                mapSanitizeF_SB fuel cs st cs2 ch2 st1 (by rw [hm])
              rcases ch2 with _ | _
              · simp only [Bool.false_eq_true, if_false] at h
                rw [okFst h]
                have hcs2 : cs2 = cs := mapSanitizeF_false_eq fuel cs st cs2 st1 (by rw [hm])
                subst hcs2
                exact SB_obj_toolresult st fs cs2 ht hc hSBL
              · simp only [if_true] at h
                rw [okFst h]
                refine SB_obj_toolresult st (objSet fs "content" (.arr cs2)) cs2 ?_
                  (objGet_objSet_self fs "content" _) hSBL
                rw [objGet_objSet_other fs "content" "type" _ (by decide)]
                exact ht
          · rw [okFst h]
            exact SB_obj_inert st fs ht (fun _ cs hcs => by rw [hc] at hcs ; cases hcs)
      · rw [if_neg htr] at h
        rw [okFst h]
        exact SB_obj_inert st fs ht (fun hx _ _ => absurd hx htr)

theorem mapSanitizeF_SB : ∀ (fuel : Nat) (cs : JList) (st : SignatureStore)
    (cs2 : JList) (ch : Bool) (st2 : SignatureStore),
    mapSanitizeBlocksF fuel cs st = (.ok (cs2, ch), st2) →
    ∀ b2 ∈ cs2.toList, SB st b2
  | 0, cs, st, cs2, ch, st2, h => by simp [mapSanitizeBlocksF] at h
  | fuel + 1, .nil, st, cs2, ch, st2, h => by
    simp only [mapSanitizeBlocksF] at h
    rw [okFst h]
    intro b2 hb2
    cases hb2
  | fuel + 1, .cons b tl, st, cs2, ch, st2, h => by
    simp only [mapSanitizeBlocksF] at h
    rcases hb : sanitizeContentBlockF fuel b st with ⟨r1, st1⟩
    rw [hb] at h
    rcases r1 with e | ⟨b2, ch1⟩
    · simp only [] at h
      cases h
    · simp only [] at h
      rcases hm : mapSanitizeBlocksF fuel tl st1 with ⟨r2, st3⟩
      rw [hm] at h
      rcases r2 with e | ⟨tl2, ch2⟩
      · simp only [] at h
        cases h
      · simp only [] at h
        rw [okFst h]
        intro x hx
        rw [show (JList.cons b2 tl2).toList = b2 :: tl2.toList from rfl] at hx
        rcases List.mem_cons.1 hx with hx | hx
        · subst hx
          exact sanitizeBlockF_SB fuel b st x ch1 st1 (by rw [hb])
        · have hSB1 : SB st1 x := by
            have := mapSanitizeF_SB fuel tl st1 tl2 ch2 st3 (by rw [hm])
            exact this x hx
          intro f2 st' hf2 hm2
          refine hSB1 f2 st' hf2 ?_
          have he1 : memEq st1 st := by
            have := blockF_store_memEq fuel b st
            rw [hb] at this
            exact this
          exact memEq_trans he1 hm2
end

theorem SB_memEq {st st1 : SignatureStore} {b : JValue}
    (hm : memEq st st1) (h : SB st1 b) : SB st b :=
  fun fuel st' hf hm2 => h fuel st' hf (memEq_trans (memEq_symm hm) hm2)

theorem P7_memEq {st st1 : SignatureStore} {m : JValue}
    (hm : memEq st st1) (h : P7 st1 m) : P7 st m :=
  ⟨h.1, fun fs hfs cs hcs b hb => SB_memEq hm (h.2 fs hfs cs hcs b hb)⟩

theorem P7_SM {st : SignatureStore} {m : JValue} (h : P7 st m) : SM st m := by
  intro st' hm
  obtain ⟨hne, hb⟩ := h
  match m with
  | .null => exact absurd rfl hne
  | .bool v => exact ⟨st', rfl⟩
  | .num l => exact ⟨st', rfl⟩
  | .str s0 => exact ⟨st', rfl⟩
  | .arr es => exact ⟨st', rfl⟩
  | .obj fs =>
    simp only [sanitizeMessageWithStore]
    rcases hc : objGet fs "content" with _ | cv
    · exact ⟨st', rfl⟩
    · rcases cv with _ | bv | nl | s0 | cs | gs
      · exact ⟨st', rfl⟩
      · exact ⟨st', rfl⟩
      · exact ⟨st', rfl⟩
      · exact ⟨st', rfl⟩
      · simp only []
        obtain ⟨st2, hmap⟩ := SBL_of_elems st cs (hb fs rfl cs hc)
          (jsizeL cs + 1) st' (le_refl _) hm
        rw [hmap]
        exact ⟨st2, rfl⟩
      · exact ⟨st', rfl⟩

theorem sanitizeMessage_P7 {m : JValue} {st : SignatureStore} {m2 : JValue}
    {ch : Bool} {st2 : SignatureStore}
    (h : sanitizeMessageWithStore m st = (.ok (m2, ch), st2)) : P7 st m2 := by
  match m with
  | .null => simp [sanitizeMessageWithStore] at h
  | .bool v =>
    simp only [sanitizeMessageWithStore] at h
    rw [okFst h]
    exact ⟨(by intro he ; cases he), fun fs hfs => by cases hfs⟩
  | .num l =>
    simp only [sanitizeMessageWithStore] at h
    rw [okFst h]
    exact ⟨(by intro he ; cases he), fun fs hfs => by cases hfs⟩
  | .str s0 =>
    simp only [sanitizeMessageWithStore] at h
    rw [okFst h]
    exact ⟨(by intro he ; cases he), fun fs hfs => by cases hfs⟩
  | .arr es =>
    simp only [sanitizeMessageWithStore] at h
    rw [okFst h]
    exact ⟨(by intro he ; cases he), fun fs hfs => by cases hfs⟩
  | .obj fs =>
    simp only [sanitizeMessageWithStore] at h
    rcases hc : objGet fs "content" with _ | cv
    all_goals rw [hc] at h
    · rw [okFst h]
      refine ⟨(by intro he ; cases he), ?_⟩
      intro fs2 hfs cs hcs
      cases hfs
      rw [hc] at hcs
      cases hcs
    · rcases cv with _ | bv | nl | s0 | cs | gs
      all_goals simp only [] at h
      · rw [okFst h]
        refine ⟨(by intro he ; cases he), ?_⟩
        intro fs2 hfs cs hcs
        cases hfs
        rw [hc] at hcs
        cases hcs
      · rw [okFst h]
        refine ⟨(by intro he ; cases he), ?_⟩
        intro fs2 hfs cs hcs
        cases hfs
        rw [hc] at hcs
        cases hcs
      · rw [okFst h]
        refine ⟨(by intro he ; cases he), ?_⟩
        intro fs2 hfs cs hcs
        cases hfs
        rw [hc] at hcs
        cases hcs
      · rw [okFst h]
        refine ⟨(by intro he ; cases he), ?_⟩
        intro fs2 hfs cs hcs
        cases hfs
        rw [hc] at hcs
        cases hcs
      · rcases hmp : mapSanitizeBlocksF (jsizeL cs + 1) cs st with ⟨r1, st1⟩
        rw [hmp] at h
        rcases r1 with e | ⟨cs2, ch2⟩
        · simp only [] at h
          cases h
        · simp only [] at h
          have hSBall : ∀ b ∈ cs2.toList, SB st b :=
            mapSanitizeF_SB (jsizeL cs + 1) cs st cs2 ch2 st1 (by rw [hmp])
          rcases ch2 with _ | _
          · simp only [Bool.false_eq_true, if_false] at h
            rw [okFst h]
            have hcs2 : cs2 = cs :=
              mapSanitizeF_false_eq (jsizeL cs + 1) cs st cs2 st1 (by rw [hmp])
            subst hcs2
            refine ⟨(by intro he ; cases he), ?_⟩
            intro fs2 hfs cs3 hcs
            cases hfs
            rw [hc] at hcs
            cases hcs
            exact hSBall
          · simp only [if_true] at h
            rw [okFst h]
            refine ⟨(by intro he ; cases he), ?_⟩
            intro fs2 hfs cs3 hcs
            cases hfs
            rw [objGet_objSet_self] at hcs
            cases hcs
            exact hSBall
      · rw [okFst h]
        refine ⟨(by intro he ; cases he), ?_⟩
        intro fs2 hfs cs hcs
        cases hfs
        rw [hc] at hcs
        cases hcs

theorem message_store_memEq (m : JValue) (st : SignatureStore) :
    memEq (sanitizeMessageWithStore m st).2 st :=
  fun s => (sanitizeMessageWithStore_store m st).1.mem_iff

theorem phase0_P7 : ∀ (ms : List JValue) (st : SignatureStore)
    (ms2 : List JValue) (ch : Bool) (st2 : SignatureStore),
    sanitizeMessagesPhase0 ms st = (.ok (ms2, ch), st2) →
    ∀ m2 ∈ ms2, P7 st m2
  | [], st, ms2, ch, st2, h => by
    simp only [sanitizeMessagesPhase0] at h
    rw [okFst h]
    intro m2 hm2
    cases hm2
  | m :: rest, st, ms2, ch, st2, h => by
    simp only [sanitizeMessagesPhase0] at h
    rcases hm : sanitizeMessageWithStore m st with ⟨r1, st1⟩
    rw [hm] at h
    rcases r1 with e | ⟨m2, c1⟩
    · simp only [] at h
      cases h
    · simp only [] at h
      rcases hph : sanitizeMessagesPhase0 rest st1 with ⟨r2, st3⟩
      rw [hph] at h
      rcases r2 with e | ⟨r2l, c2⟩
      · simp only [] at h
        cases h
      · simp only [] at h
        rw [okFst h]
        intro x hx
        rcases List.mem_cons.1 hx with hx | hx
        · subst hx
          exact sanitizeMessage_P7 (by rw [hm])
        · have hst1 : memEq st st1 := by
            have := message_store_memEq m st
            rw [hm] at this
            exact memEq_symm this
          exact P7_memEq hst1 (phase0_P7 rest st1 r2l c2 st3 (by rw [hph]) x hx)

theorem phase0_of_SM : ∀ (ms : List JValue) (st : SignatureStore),
    (∀ m ∈ ms, SM st m) →
    ∀ st', memEq st st' →
    ∃ st2, sanitizeMessagesPhase0 ms st' = (.ok (ms, false), st2)
  | [], st, _, st', _ => ⟨st', rfl⟩
  | m :: rest, st, hSM, st', hm => by
    obtain ⟨st1, hm1⟩ := hSM m (List.mem_cons_self m rest) st' hm
    have hst1 : memEq st st1 := by
      have := message_store_memEq m st'
      rw [hm1] at this
      exact memEq_trans hm (memEq_symm this)
    obtain ⟨st2, hrest⟩ := phase0_of_SM rest st
      (fun x hx => hSM x (List.mem_cons_of_mem m hx)) st1 hst1
    refine ⟨st2, ?_⟩
    simp only [sanitizeMessagesPhase0, hm1, hrest]
    rfl

theorem sanitizeMessage_false_eq : ∀ (m : JValue) (st : SignatureStore)
    (m2 : JValue) (st2 : SignatureStore),
    sanitizeMessageWithStore m st = (.ok (m2, false), st2) → m2 = m := by
  intro m st m2 st2 h
  match m with
  | .null => simp [sanitizeMessageWithStore] at h
  | .bool v => exact okFst h
  | .num l => exact okFst h
  | .str s0 => exact okFst h
  | .arr es => exact okFst h
  | .obj fs =>
    simp only [sanitizeMessageWithStore] at h
    rcases hc : objGet fs "content" with _ | cv
    all_goals rw [hc] at h
    · exact okFst h
    · rcases cv with _ | bv | nl | s0 | cs | gs
      all_goals simp only [] at h
      · exact okFst h
      · exact okFst h
      · exact okFst h
      · exact okFst h
      · rcases hmp : mapSanitizeBlocksF (jsizeL cs + 1) cs st with ⟨r1, st1⟩
        rw [hmp] at h
        rcases r1 with e | ⟨cs2, ch2⟩
        · simp only [] at h
          cases h
        · simp only [] at h
          rcases ch2 with _ | _
          · simp only [Bool.false_eq_true, if_false] at h
            exact okFst h
          · simp only [if_true] at h
            have := congrArg Prod.snd (Except.ok.inj (congrArg Prod.fst h))
            simp at this
      · exact okFst h

theorem phase0_false_eq : ∀ (ms : List JValue) (st : SignatureStore)
    (ms2 : List JValue) (st2 : SignatureStore),
    sanitizeMessagesPhase0 ms st = (.ok (ms2, false), st2) → ms2 = ms
  | [], st, ms2, st2, h => by
    simp only [sanitizeMessagesPhase0] at h
    exact okFst h
  | m :: rest, st, ms2, st2, h => by
    simp only [sanitizeMessagesPhase0] at h
    rcases hm : sanitizeMessageWithStore m st with ⟨r1, st1⟩
    rw [hm] at h
    rcases r1 with e | ⟨m2, c1⟩
    · simp only [] at h
      cases h
    · simp only [] at h
      rcases hph : sanitizeMessagesPhase0 rest st1 with ⟨r2, st3⟩
      rw [hph] at h
      rcases r2 with e | ⟨r2l, c2⟩
      · simp only [] at h
        cases h
      · simp only [] at h
        have hfst := congrArg Prod.fst h
        have hflag := congrArg Prod.snd (Except.ok.inj hfst)
        have hlist := congrArg Prod.fst (Except.ok.inj hfst)
        simp only [] at hflag hlist
        rcases Bool.or_eq_false_iff.1 (by rw [← hflag]) with ⟨h1, h2⟩
        subst h1
        subst h2
        have hm2 : m2 = m := by
          have hP := sanitizeMessage_false_eq m st m2 st1 (by rw [hm])
          exact hP
        have hr2 : r2l = rest := phase0_false_eq rest st1 r2l st3 (by rw [hph])
        rw [← hlist, hm2, hr2]

theorem orphanMapBlocks_ok_nonnull : ∀ (bs : List JValue) (prevOk : Bool)
    (ids : List String) (bs2 : List JValue) (ch : Bool),
    orphanMapBlocks prevOk ids bs = .ok (bs2, ch) →
    ∀ b ∈ bs, b ≠ JValue.null
  | [], _, _, _, _, _, b, hb => absurd hb (by simp)
  | .null :: rest, prevOk, ids, bs2, ch, h, b, hb => by
    simp [orphanMapBlocks] at h
  | .obj bf :: rest, prevOk, ids, bs2, ch, h, b, hb => by
    simp only [orphanMapBlocks] at h
    rcases List.mem_cons.1 hb with hb | hb
    · subst hb
      intro he
      cases he
    · by_cases ht : objGet bf "type" = some (.str "tool_result")
      · rw [if_pos ht] at h
        by_cases hchk : (prevOk && (match objGet bf "tool_use_id" with
            | some (.str s) => decide (s ≠ "") && ids.contains s
            | _ => false) : Bool) = true
        · rw [if_pos hchk] at h
          rcases hrec : orphanMapBlocks prevOk ids rest with e | ⟨r2, ch2⟩
          · rw [hrec, bindErr] at h
            cases h
          · exact orphanMapBlocks_ok_nonnull rest prevOk ids r2 ch2 hrec b hb
        · rw [if_neg hchk] at h
          rcases hcv : convertToolResultToText bf with e | conv
          · rw [hcv, bindErr] at h
            cases h
          · rw [hcv, bindOk] at h
            rcases hrec : orphanMapBlocks prevOk ids rest with e | ⟨r2, ch2⟩
            · rw [hrec, bindErr] at h
              cases h
            · exact orphanMapBlocks_ok_nonnull rest prevOk ids r2 ch2 hrec b hb
      · rw [if_neg ht] at h
        rcases hrec : orphanMapBlocks prevOk ids rest with e | ⟨r2, ch2⟩
        · rw [hrec, bindErr] at h
          cases h
        · exact orphanMapBlocks_ok_nonnull rest prevOk ids r2 ch2 hrec b hb
  | .bool v :: rest, prevOk, ids, bs2, ch, h, b, hb => by
    simp only [orphanMapBlocks] at h
    rcases List.mem_cons.1 hb with hb | hb
    · subst hb
      intro he
      cases he
    · rcases hrec : orphanMapBlocks prevOk ids rest with e | ⟨r2, ch2⟩
      · rw [hrec, bindErr] at h
        cases h
      · exact orphanMapBlocks_ok_nonnull rest prevOk ids r2 ch2 hrec b hb
  | .num l :: rest, prevOk, ids, bs2, ch, h, b, hb => by
    simp only [orphanMapBlocks] at h
    rcases List.mem_cons.1 hb with hb | hb
    · subst hb
      intro he
      cases he
    · rcases hrec : orphanMapBlocks prevOk ids rest with e | ⟨r2, ch2⟩
      · rw [hrec, bindErr] at h
        cases h
      · exact orphanMapBlocks_ok_nonnull rest prevOk ids r2 ch2 hrec b hb
  | .str s0 :: rest, prevOk, ids, bs2, ch, h, b, hb => by
    simp only [orphanMapBlocks] at h
    rcases List.mem_cons.1 hb with hb | hb
    · subst hb
      intro he
      cases he
    · rcases hrec : orphanMapBlocks prevOk ids rest with e | ⟨r2, ch2⟩
      · rw [hrec, bindErr] at h
        cases h
      · exact orphanMapBlocks_ok_nonnull rest prevOk ids r2 ch2 hrec b hb
  | .arr es :: rest, prevOk, ids, bs2, ch, h, b, hb => by
    simp only [orphanMapBlocks] at h
    rcases List.mem_cons.1 hb with hb | hb
    · subst hb
      intro he
      cases he
    · rcases hrec : orphanMapBlocks prevOk ids rest with e | ⟨r2, ch2⟩
      · rw [hrec, bindErr] at h
        cases h
      · exact orphanMapBlocks_ok_nonnull rest prevOk ids r2 ch2 hrec b hb

/-- A block list whose tool results all pass the match test maps to itself
with no flag. -/
theorem orphanMapBlocks_idem : ∀ (bs : List JValue) (prevOk : Bool)
    (ids : List String),
    (∀ b ∈ bs, b ≠ JValue.null) →
    (∀ bf, JValue.obj bf ∈ bs →
      objGet bf "type" = some (.str "tool_result") →
      prevOk = true ∧ ∃ s, objGet bf "tool_use_id" = some (.str s) ∧
        s ≠ "" ∧ ids.contains s = true) →
    orphanMapBlocks prevOk ids bs = .ok (bs, false)
  | [], _, _, _, _ => rfl
  | .null :: rest, prevOk, ids, hnn, _ =>
    absurd rfl (hnn JValue.null (List.mem_cons_self _ _))
  | .obj bf :: rest, prevOk, ids, hnn, htrs => by
    have hrec := orphanMapBlocks_idem rest prevOk ids
      (fun b hb => hnn b (List.mem_cons_of_mem _ hb))
      (fun bf2 hb2 ht2 => htrs bf2 (List.mem_cons_of_mem _ hb2) ht2)
    simp only [orphanMapBlocks]
    by_cases ht : objGet bf "type" = some (.str "tool_result")
    · rw [if_pos ht]
      obtain ⟨hpok, sid, hsid, hne, hcont⟩ :=
        htrs bf (List.mem_cons_self _ _) ht
      rw [if_pos (by
        rw [hsid, hpok]
        simp only []
        simp only [Bool.true_and, hcont, Bool.and_true, decide_eq_true_eq]
        exact hne)]
      rw [hrec, bindOk]
      rfl
    · rw [if_neg ht, hrec, bindOk]
      rfl
  | .bool v :: rest, prevOk, ids, hnn, htrs => by
    have hrec := orphanMapBlocks_idem rest prevOk ids
      (fun b hb => hnn b (List.mem_cons_of_mem _ hb))
      (fun bf2 hb2 ht2 => htrs bf2 (List.mem_cons_of_mem _ hb2) ht2)
    simp only [orphanMapBlocks]
    rw [hrec, bindOk]
    rfl
  | .num l :: rest, prevOk, ids, hnn, htrs => by
    have hrec := orphanMapBlocks_idem rest prevOk ids
      (fun b hb => hnn b (List.mem_cons_of_mem _ hb))
      (fun bf2 hb2 ht2 => htrs bf2 (List.mem_cons_of_mem _ hb2) ht2)
    simp only [orphanMapBlocks]
    rw [hrec, bindOk]
    rfl
  | .str s0 :: rest, prevOk, ids, hnn, htrs => by
    have hrec := orphanMapBlocks_idem rest prevOk ids
      (fun b hb => hnn b (List.mem_cons_of_mem _ hb))
      (fun bf2 hb2 ht2 => htrs bf2 (List.mem_cons_of_mem _ hb2) ht2)
    simp only [orphanMapBlocks]
    rw [hrec, bindOk]
    rfl
  | .arr es :: rest, prevOk, ids, hnn, htrs => by
    have hrec := orphanMapBlocks_idem rest prevOk ids
      (fun b hb => hnn b (List.mem_cons_of_mem _ hb))
      (fun bf2 hb2 ht2 => htrs bf2 (List.mem_cons_of_mem _ hb2) ht2)
    simp only [orphanMapBlocks]
    rw [hrec, bindOk]
    rfl

theorem prevIsAssistant_eq_roleD (x : JValue) :
    prevIsAssistant (some x) = decide (roleD x = some (.str "assistant")) := by
  match x with
  | .obj fs => rfl
  | .null => rfl
  | .bool v => rfl
  | .num l => rfl
  | .str s0 => rfl
  | .arr es => rfl

theorem toolUseIds_nonassistant {x : JValue}
    (h : ¬ roleD x = some (.str "assistant")) :
    toolUseIds (some x) = .ok [] := by
  match x with
  | .null => rfl
  | .bool v => rfl
  | .num l => rfl
  | .str s0 => rfl
  | .arr es => rfl
  | .obj fs =>
    simp only [toolUseIds]
    rw [if_neg (show ¬ objGet fs "role" = some (JValue.str "assistant") from h)]

theorem orphanOne_prev_compat {prev : Option JValue} {m m2 : JValue}
    {ch : Bool} (h : orphanOne prev m = .ok (m2, ch)) :
    prevIsAssistant (some m2) = prevIsAssistant (some m) ∧
      toolUseIds (some m2) = toolUseIds (some m) := by
  obtain ⟨hrel, _, _⟩ := orphanOne_ok h
  have hrole : roleD m2 = roleD m := hrel.2.1
  refine ⟨by rw [prevIsAssistant_eq_roleD, prevIsAssistant_eq_roleD, hrole], ?_⟩
  by_cases hass : roleD m = some (.str "assistant")
  · rw [hrel.2.2.2.2.2.2 hass]
  · rw [toolUseIds_nonassistant hass, toolUseIds_nonassistant (by rw [hrole] ; exact hass)]

theorem okFstE {α : Type} {x b2 : α} {c ch : Bool}
    (h : (Except.ok (x, c) : Except Unit (α × Bool)) = .ok (b2, ch)) :
    b2 = x := (congrArg Prod.fst (Except.ok.inj h)).symm

/-- The orphan pass is idempotent per message: its output maps to itself
with no flag, for any previous message with the same assistant status and
tool-use ids. -/
theorem orphanOne_idem {prev : Option JValue} {m m2 : JValue} {ch : Bool}
    (h : orphanOne prev m = .ok (m2, ch)) :
    ∀ prev2 : Option JValue,
    prevIsAssistant prev2 = prevIsAssistant prev →
    toolUseIds prev2 = toolUseIds prev →
    orphanOne prev2 m2 = .ok (m2, false) := by
  intro prev2 hpa hti
  match m with
  | .null => simp [orphanOne] at h
  | .bool v =>
    rw [okFstE h]
    rfl
  | .num l =>
    rw [okFstE h]
    rfl
  | .str s0 =>
    rw [okFstE h]
    rfl
  | .arr es =>
    rw [okFstE h]
    rfl
  | .obj fs =>
    simp only [orphanOne] at h
    by_cases hu : objGet fs "role" = some (.str "user")
    · rw [if_pos hu] at h
      rcases hc : objGet fs "content" with _ | cv
      all_goals rw [hc] at h
      · rw [okFstE h]
        simp only [orphanOne, if_pos hu, hc]
        rfl
      · rcases cv with _ | bv | nl | s1 | cs | gs
        all_goals simp only [] at h
        · rw [okFstE h]
          simp only [orphanOne, if_pos hu, hc]
          rfl
        · rw [okFstE h]
          simp only [orphanOne, if_pos hu, hc]
          rfl
        · rw [okFstE h]
          simp only [orphanOne, if_pos hu, hc]
          rfl
        · rw [okFstE h]
          simp only [orphanOne, if_pos hu, hc]
          rfl
        · rcases htr : hasToolResultE cs.toList with e | hasTR
          · rw [htr, bindErr] at h
            cases h
          · rw [htr, bindOk] at h
            rcases hasTR with _ | _
            · simp only [Bool.false_eq_true, if_false, pureE] at h
              rw [okFstE h]
              simp only [orphanOne, if_pos hu, hc]
              rw [htr, bindOk]
              rfl
            · simp only [if_true] at h
              rcases hti1 : toolUseIds prev with e | ids
              · rw [hti1, bindErr] at h
                cases h
              · rw [hti1, bindOk] at h
                rcases hmp : orphanMapBlocks (prevIsAssistant prev) ids cs.toList
                  with e | ⟨cs2, ch2⟩
                · rw [hmp, bindErr] at h
                  cases h
                · rw [hmp, bindOk] at h
                  simp only [] at h
                  obtain ⟨hlen, hmem, htrs, hfl⟩ := orphanMapBlocks_spec
                    cs.toList (prevIsAssistant prev) ids cs2 ch2 hmp
                  have hnnin : ∀ b ∈ cs.toList, b ≠ JValue.null :=
                    orphanMapBlocks_ok_nonnull cs.toList _ ids cs2 ch2 hmp
                  rcases ch2 with _ | _
                  · simp only [Bool.false_eq_true, if_false, pureE] at h
                    rw [okFstE h]
                    have hcs2 : cs2 = cs.toList := hfl rfl
                    subst hcs2
                    simp only [orphanOne, if_pos hu, hc]
                    rw [htr, bindOk]
                    simp only [if_true]
                    rw [hti, hti1, bindOk, hpa]
                    rw [orphanMapBlocks_idem cs.toList (prevIsAssistant prev)
                      ids hnnin htrs, bindOk]
                    rfl
                  · simp only [if_true, pureE] at h
                    rw [okFstE h]
                    have hnn2 : ∀ b ∈ cs2, b ≠ JValue.null := by
                      intro b hb
                      rcases hmem b hb with hm | ⟨s2, hs2⟩
                      · exact hnnin b hm
                      · rw [hs2]
                        intro he
                        cases he
                    simp only [orphanOne,
                      objGet_objSet_other fs "content" "role" _ (by decide),
                      if_pos hu, objGet_objSet_self]
                    simp only [JList.toList_ofList]
                    rcases htr2 : hasToolResultE cs2 with e | hasTR2
                    · obtain ⟨r0, hr0⟩ := hasToolResultE_total cs2 hnn2
                      rw [htr2] at hr0
                      cases hr0
                    · rw [bindOk]
                      rcases hasTR2 with _ | _
                      · rfl
                      · simp only [if_true]
                        rw [hti, hti1, bindOk, hpa]
                        rw [orphanMapBlocks_idem cs2 (prevIsAssistant prev)
                          ids hnn2 htrs, bindOk]
                        rfl
        · rw [okFstE h]
          simp only [orphanOne, if_pos hu, hc]
          rfl
    · rw [if_neg hu] at h
      rw [okFstE h]
      simp only [orphanOne, if_neg hu]
      rfl

theorem orphanGo_idem : ∀ (ms : List JValue) (prev : Option JValue)
    (out : List JValue) (ch : Bool),
    orphanGo prev ms = .ok (out, ch) →
    ∀ prev2 : Option JValue,
    prevIsAssistant prev2 = prevIsAssistant prev →
    toolUseIds prev2 = toolUseIds prev →
    orphanGo prev2 out = .ok (out, false)
  | [], prev, out, ch, h, prev2, _, _ => by
    simp only [orphanGo] at h
    rw [okFstE h]
    rfl
  | m :: rest, prev, out, ch, h, prev2, hpa, hti => by
    simp only [orphanGo] at h
    rcases ho : orphanOne prev m with e | ⟨m2, c1⟩
    · rw [ho, bindErr] at h
      cases h
    · rw [ho, bindOk] at h
      simp only [] at h
      rcases hg : orphanGo (some m) rest with e | ⟨r2, c2⟩
      · rw [hg, bindErr] at h
        cases h
      · rw [hg, bindOk] at h
        simp only [pureE] at h
        rw [okFstE h]
        obtain ⟨hca, hct⟩ := orphanOne_prev_compat ho
        have h1 := orphanOne_idem ho prev2 hpa hti
        have h2 := orphanGo_idem rest (some m) r2 c2 hg (some m2) hca hct
        simp only [orphanGo, h1, bindOk, h2, bindOk]
        rfl

theorem P7_merge {st : SignatureStore} {a b mg : JValue}
    (h : mergeMessages a b = .ok mg) (ha : P7 st a) (hb : P7 st b) :
    P7 st mg := by
  obtain ⟨_, ⟨fg, hfg⟩, _, _, _, _, hblocks⟩ := mergeMessages_shape h
  refine ⟨(by rw [hfg] ; intro he ; cases he), ?_⟩
  intro fs hfs cs hcs x hx
  have hcd : contentD mg = some (.arr cs) := by
    rw [hfs]
    exact hcs
  rcases hblocks cs hcd x hx with ⟨s2, hs2⟩ | ⟨ca, hca, hxa⟩ | ⟨cb, hcb, hxb⟩
  · rw [hs2]
    exact SB_textBlock st s2
  · obtain ⟨fa, hfa⟩ : ∃ fa, a = JValue.obj fa := by
      match a, hca with
      | .obj fa, _ => exact ⟨fa, rfl⟩
      | .null, hca => simp [contentD] at hca
      | .bool v, hca => simp [contentD] at hca
      | .num l, hca => simp [contentD] at hca
      | .str s1, hca => simp [contentD] at hca
      | .arr es, hca => simp [contentD] at hca
    exact ha.2 fa hfa ca (by rw [hfa] at hca ; exact hca) x hxa
  · obtain ⟨fb, hfb⟩ : ∃ fb, b = JValue.obj fb := by
      match b, hcb with
      | .obj fb, _ => exact ⟨fb, rfl⟩
      | .null, hcb => simp [contentD] at hcb
      | .bool v, hcb => simp [contentD] at hcb
      | .num l, hcb => simp [contentD] at hcb
      | .str s1, hcb => simp [contentD] at hcb
      | .arr es, hcb => simp [contentD] at hcb
    exact hb.2 fb hfb cb (by rw [hfb] at hcb ; exact hcb) x hxb

theorem P7_orphanRel {st : SignatureStore} {m m2 : JValue}
    (hrel : orphanRel m m2) (hm : P7 st m) : P7 st m2 := by
  refine ⟨hrel.1, ?_⟩
  intro fs2 hfs2 cs2 hcs2 b hb
  refine hrel.2.2.2.2.2.1 (fun b => SB st b) (fun s2 => SB_textBlock st s2)
    ?_ cs2 (by rw [hfs2] ; exact hcs2) b hb
  intro cs hcs x hx
  obtain ⟨fs, hfs⟩ : ∃ fs, m = JValue.obj fs := by
    match m, hcs with
    | .obj fs, _ => exact ⟨fs, rfl⟩
    | .null, hcs => simp [contentD] at hcs
    | .bool v, hcs => simp [contentD] at hcs
    | .num l, hcs => simp [contentD] at hcs
    | .str s1, hcs => simp [contentD] at hcs
    | .arr es, hcs => simp [contentD] at hcs
  exact hm.2 fs hfs cs (by rw [hfs] at hcs ; exact hcs) x hx

theorem sanitizeMessage_wf {m : JValue} {st : SignatureStore} {m2 : JValue}
    {ch : Bool} {st2 : SignatureStore}
    (h : sanitizeMessageWithStore m st = (.ok (m2, ch), st2))
    (hw : JWF m = true) : JWF m2 = true := by
  match m with
  | .null => simp [sanitizeMessageWithStore] at h
  | .bool v =>
    rw [okFst h]
    exact hw
  | .num l =>
    rw [okFst h]
    exact hw
  | .str s0 =>
    rw [okFst h]
    exact hw
  | .arr es =>
    rw [okFst h]
    exact hw
  | .obj fs =>
    simp only [sanitizeMessageWithStore] at h
    rcases hc : objGet fs "content" with _ | cv
    all_goals rw [hc] at h
    · rw [okFst h]
      exact hw
    · rcases cv with _ | bv | nl | s0 | cs | gs
      all_goals simp only [] at h
      · rw [okFst h]
        exact hw
      · rw [okFst h]
        exact hw
      · rw [okFst h]
        exact hw
      · rw [okFst h]
        exact hw
      · rcases hmp : mapSanitizeBlocksF (jsizeL cs + 1) cs st with ⟨r1, st1⟩
        rw [hmp] at h
        rcases r1 with e | ⟨cs2, ch2⟩
        · simp only [] at h
          cases h
        · simp only [] at h
          have hcsw : JWFL cs = true := by
            simp only [JWF, Bool.and_eq_true] at hw
            exact JWFF_objGet fs "content" _ hw.2 hc
          have hcs2w : JWFL cs2 = true :=
            mapSanitizeF_wf (jsizeL cs + 1) cs st cs2 ch2 st1 (by rw [hmp]) hcsw
          rcases ch2 with _ | _
          · simp only [Bool.false_eq_true, if_false] at h
            rw [okFst h]
            exact hw
          · simp only [if_true] at h
            rw [okFst h]
            exact JWF_objSet fs "content" _ hw hcs2w
      · rw [okFst h]
        exact hw

theorem phase0_wf : ∀ (ms : List JValue) (st : SignatureStore)
    (ms2 : List JValue) (ch : Bool) (st2 : SignatureStore),
    sanitizeMessagesPhase0 ms st = (.ok (ms2, ch), st2) →
    (∀ m ∈ ms, JWF m = true) → ∀ m2 ∈ ms2, JWF m2 = true
  | [], st, ms2, ch, st2, h, _ => by
    simp only [sanitizeMessagesPhase0] at h
    rw [okFst h]
    intro m2 hm2
    cases hm2
  | m :: rest, st, ms2, ch, st2, h, hw => by
    simp only [sanitizeMessagesPhase0] at h
    rcases hm : sanitizeMessageWithStore m st with ⟨r1, st1⟩
    rw [hm] at h
    rcases r1 with e | ⟨m2, c1⟩
    · simp only [] at h
      cases h
    · simp only [] at h
      rcases hph : sanitizeMessagesPhase0 rest st1 with ⟨r2, st3⟩
      rw [hph] at h
      rcases r2 with e | ⟨r2l, c2⟩
      · simp only [] at h
        cases h
      · simp only [] at h
        rw [okFst h]
        intro x hx
        rcases List.mem_cons.1 hx with hx | hx
        · subst hx
          exact sanitizeMessage_wf (by rw [hm]) (hw m (List.mem_cons_self m rest))
        · exact phase0_wf rest st1 r2l c2 st3 (by rw [hph])
            (fun y hy => hw y (List.mem_cons_of_mem m hy)) x hx

theorem message_memdep (m : JValue) (st st' : SignatureStore)
    (h : memEq st st') :
    (sanitizeMessageWithStore m st).1 = (sanitizeMessageWithStore m st').1 := by
  match m with
  | .null => rfl
  | .bool v => rfl
  | .num l => rfl
  | .str s0 => rfl
  | .arr es => rfl
  | .obj fs =>
    simp only [sanitizeMessageWithStore]
    rcases hc : objGet fs "content" with _ | cv
    · rfl
    · rcases cv with _ | bv | nl | s0 | cs | gs
      · rfl
      · rfl
      · rfl
      · rfl
      · simp only []
        have hm := mapSanitizeF_memdep (jsizeL cs + 1) cs st st' h
        rcases h1 : mapSanitizeBlocksF (jsizeL cs + 1) cs st with ⟨r1, st1⟩
        rcases h2 : mapSanitizeBlocksF (jsizeL cs + 1) cs st' with ⟨r2, st2⟩
        have : r1 = r2 := by
          rw [h1, h2] at hm
          exact hm
        subst this
        rcases r1 with e | ⟨cs2, ch⟩
        · rfl
        · cases ch <;> rfl
      · rfl

theorem phase0_memdep : ∀ (ms : List JValue) (st st' : SignatureStore),
    memEq st st' →
    (sanitizeMessagesPhase0 ms st).1 = (sanitizeMessagesPhase0 ms st').1
  | [], st, st', _ => rfl
  | m :: rest, st, st', h => by
    simp only [sanitizeMessagesPhase0]
    have hm := message_memdep m st st' h
    rcases h1 : sanitizeMessageWithStore m st with ⟨r1, st1⟩
    rcases h2 : sanitizeMessageWithStore m st' with ⟨r2, st2⟩
    have : r1 = r2 := by
      rw [h1, h2] at hm
      exact hm
    subst this
    rcases r1 with e | ⟨m2, c1⟩
    · rfl
    · simp only []
      have hst12 : memEq st1 st2 := by
        have e1 : memEq st1 st := by
          have := message_store_memEq m st
          rw [h1] at this
          exact this
        have e2 : memEq st2 st' := by
          have := message_store_memEq m st'
          rw [h2] at this
          exact this
        exact memEq_trans e1 (memEq_trans h (memEq_symm e2))
      have htl := phase0_memdep rest st1 st2 hst12
      rcases h3 : sanitizeMessagesPhase0 rest st1 with ⟨r3, st3⟩
      rcases h4 : sanitizeMessagesPhase0 rest st2 with ⟨r4, st4⟩
      have : r3 = r4 := by
        rw [h3, h4] at htl
        exact htl
      subst this
      rcases r3 with e | ⟨r3l, c2⟩
      · rfl
      · rfl

theorem sanitize_second_run (x : String) (s s2 : SignatureStore)
    (hm2 : memEq s s2) :
    (sanitizeContentBlocksWithStore
      (sanitizeContentBlocksWithStore x s).1 s2).1
      = (sanitizeContentBlocksWithStore x s).1 := by
  rcases hp : parseJSON x with _ | v
  · have hrun1 : sanitizeContentBlocksWithStore x s = (x, s) := by
      rw [sanitizeContentBlocksWithStore, hp]
    have hrun2 : sanitizeContentBlocksWithStore x s2 = (x, s2) := by
      rw [sanitizeContentBlocksWithStore, hp]
    rw [hrun1]
    simp only []
    rw [hrun2]
  · rcases v with _ | bv | nl | s0 | es | fs
    · have hrun1 : sanitizeContentBlocksWithStore x s = (x, s) := by
        rw [sanitizeContentBlocksWithStore, hp]
      have hrun2 : sanitizeContentBlocksWithStore x s2 = (x, s2) := by
        rw [sanitizeContentBlocksWithStore, hp]
      rw [hrun1]
      simp only []
      rw [hrun2]
    · have hrun1 : sanitizeContentBlocksWithStore x s = (x, s) := by
        rw [sanitizeContentBlocksWithStore, hp]
      have hrun2 : sanitizeContentBlocksWithStore x s2 = (x, s2) := by
        rw [sanitizeContentBlocksWithStore, hp]
      rw [hrun1]
      simp only []
      rw [hrun2]
    · have hrun1 : sanitizeContentBlocksWithStore x s = (x, s) := by
        rw [sanitizeContentBlocksWithStore, hp]
      have hrun2 : sanitizeContentBlocksWithStore x s2 = (x, s2) := by
        rw [sanitizeContentBlocksWithStore, hp]
      rw [hrun1]
      simp only []
      rw [hrun2]
    · have hrun1 : sanitizeContentBlocksWithStore x s = (x, s) := by
        rw [sanitizeContentBlocksWithStore, hp]
      have hrun2 : sanitizeContentBlocksWithStore x s2 = (x, s2) := by
        rw [sanitizeContentBlocksWithStore, hp]
      rw [hrun1]
      simp only []
      rw [hrun2]
    · have hrun1 : sanitizeContentBlocksWithStore x s = (x, s) := by
        rw [sanitizeContentBlocksWithStore, hp]
      have hrun2 : sanitizeContentBlocksWithStore x s2 = (x, s2) := by
        rw [sanitizeContentBlocksWithStore, hp]
      rw [hrun1]
      simp only []
      rw [hrun2]
    · rcases hmsg : objGet fs "messages" with _ | mv
      · have hrun1 : sanitizeContentBlocksWithStore x s = (x, s) := by
          rw [sanitizeContentBlocksWithStore, hp]
          simp only [hmsg]
        have hrun2 : sanitizeContentBlocksWithStore x s2 = (x, s2) := by
          rw [sanitizeContentBlocksWithStore, hp]
          simp only [hmsg]
        rw [hrun1]
        simp only []
        rw [hrun2]
      · rcases mv with _ | bv | nl | s0 | msL | gs
        · have hrun1 : sanitizeContentBlocksWithStore x s = (x, s) := by
            rw [sanitizeContentBlocksWithStore, hp]
            simp only [hmsg]
          have hrun2 : sanitizeContentBlocksWithStore x s2 = (x, s2) := by
            rw [sanitizeContentBlocksWithStore, hp]
            simp only [hmsg]
          rw [hrun1]
          simp only []
          rw [hrun2]
        · have hrun1 : sanitizeContentBlocksWithStore x s = (x, s) := by
            rw [sanitizeContentBlocksWithStore, hp]
            simp only [hmsg]
          have hrun2 : sanitizeContentBlocksWithStore x s2 = (x, s2) := by
            rw [sanitizeContentBlocksWithStore, hp]
            simp only [hmsg]
          rw [hrun1]
          simp only []
          rw [hrun2]
        · have hrun1 : sanitizeContentBlocksWithStore x s = (x, s) := by
            rw [sanitizeContentBlocksWithStore, hp]
            simp only [hmsg]
          have hrun2 : sanitizeContentBlocksWithStore x s2 = (x, s2) := by
            rw [sanitizeContentBlocksWithStore, hp]
            simp only [hmsg]
          rw [hrun1]
          simp only []
          rw [hrun2]
        · have hrun1 : sanitizeContentBlocksWithStore x s = (x, s) := by
            rw [sanitizeContentBlocksWithStore, hp]
            simp only [hmsg]
          have hrun2 : sanitizeContentBlocksWithStore x s2 = (x, s2) := by
            rw [sanitizeContentBlocksWithStore, hp]
            simp only [hmsg]
          rw [hrun1]
          simp only []
          rw [hrun2]
        · -- the real pipeline: a messages array
          rcases hph : sanitizeMessagesPhase0 msL.toList s with ⟨ph1, st1⟩
          have hphf := phase0_memdep msL.toList s s2 hm2
          rcases hph2 : sanitizeMessagesPhase0 msL.toList s2 with ⟨ph2, st1b⟩
          have hpheq : ph1 = ph2 := by
            rw [hph, hph2] at hphf
            exact hphf
          subst hpheq
          rcases ph1 with e | ⟨nm, sanitized⟩
          · have hrun1 : sanitizeContentBlocksWithStore x s = (x, st1) := by
              rw [sanitizeContentBlocksWithStore, hp]
              simp only [hmsg, hph]
            have hrun2 : sanitizeContentBlocksWithStore x s2 = (x, st1b) := by
              rw [sanitizeContentBlocksWithStore, hp]
              simp only [hmsg, hph2]
            rw [hrun1]
            simp only []
            rw [hrun2]
          · have hL1eq : (if sanitized = true then nm else msL.toList) = nm := by
              rcases sanitized with _ | _
              · simp only [Bool.false_eq_true, if_false]
                exact (phase0_false_eq msL.toList s nm st1 (by rw [hph])).symm
              · simp
            have hnmP7 : ∀ m ∈ nm, P7 s m :=
              phase0_P7 msL.toList s nm sanitized st1 (by rw [hph])
            have hmsLJ : ∀ m ∈ msL.toList, JWF m = true := by
              have hJfs := parseJSON_wf x _ hp
              have hJarr : JWF (.arr msL) = true := by
                simp only [JWF, Bool.and_eq_true] at hJfs
                exact JWFF_objGet fs "messages" _ hJfs.2 hmsg
              exact (JWFL_toList msL).1 hJarr
            have hnmJ : ∀ m ∈ nm, JWF m = true :=
              phase0_wf msL.toList s nm sanitized st1 (by rw [hph]) hmsLJ
            rcases hst : sanitizeMessageStructure nm with e | ⟨ms2, schanged⟩
            · have hrun1 : sanitizeContentBlocksWithStore x s = (x, st1) := by
                rw [sanitizeContentBlocksWithStore, hp]
                simp only [hmsg, hph, hL1eq, hst]
              have hrun2 : sanitizeContentBlocksWithStore x s2 = (x, st1b) := by
                rw [sanitizeContentBlocksWithStore, hp]
                simp only [hmsg, hph2, hL1eq, hst]
              rw [hrun1]
              simp only []
              rw [hrun2]
            · have hms2P7 : ∀ m ∈ ms2, P7 s m := by
                rw [sanitizeMessageStructure] at hst
                exact structLoop_mem (P7 s)
                  (fun a b mg hm ha hb => P7_merge hm ha hb)
                  10 nm false ms2 schanged hst hnmP7
              have hms2J : ∀ m ∈ ms2, JWF m = true := by
                rw [sanitizeMessageStructure] at hst
                exact structLoop_mem (fun m => JWF m = true)
                  (fun a b mg hm ha hb => JWF_merge hm ha hb)
                  10 nm false ms2 schanged hst hnmJ
              have hM2eq : (if schanged = true then ms2 else nm) = ms2 := by
                rcases schanged with _ | _
                · simp only [Bool.false_eq_true, if_false]
                  rw [sanitizeMessageStructure] at hst
                  exact (structLoop_noflag 10 nm ms2 hst).1.symm
                · simp
              have hms2stable : structStable ms2 := by
                rw [sanitizeMessageStructure] at hst
                rcases schanged with _ | _
                · obtain ⟨he, hstb⟩ := structLoop_noflag 10 nm ms2 hst
                  subst he
                  exact hstb (by omega)
                · exact structLoop_stable_out 10 nm false ms2 true (by omega) hst
              rcases hor : removeOrphanedToolResults ms2 with e | ⟨ms3o, ochanged⟩
              · have hrun1 : sanitizeContentBlocksWithStore x s = (x, st1) := by
                  rw [sanitizeContentBlocksWithStore, hp]
                  simp only [hmsg, hph, hL1eq, hst, hM2eq, hor]
                have hrun2 : sanitizeContentBlocksWithStore x s2 = (x, st1b) := by
                  rw [sanitizeContentBlocksWithStore, hp]
                  simp only [hmsg, hph2, hL1eq, hst, hM2eq, hor]
                rw [hrun1]
                simp only []
                rw [hrun2]
              · obtain ⟨hno, hfa, horf⟩ :=
                  orphanGo_spec ms2 none ms3o ochanged hor
                have hM3eq : (if ochanged = true then ms3o else ms2) = ms3o := by
                  rcases ochanged with _ | _
                  · simp only [Bool.false_eq_true, if_false]
                    exact (horf rfl).symm
                  · simp
                have hms3P7 : ∀ m ∈ ms3o, P7 s m := by
                  intro m3 hm3
                  obtain ⟨a, ha, hPa⟩ := forall2_orphan_mem hfa
                    (fun a b => P7 s a → P7 s b)
                    (fun a b hr hp7 => P7_orphanRel hr hp7) m3 hm3
                  exact hPa (hms2P7 a ha)
                have hms3J : ∀ m ∈ ms3o, JWF m = true := by
                  intro m3 hm3
                  obtain ⟨a, ha, hJa⟩ := forall2_orphan_mem hfa
                    (fun a b => JWF a = true → JWF b = true)
                    (fun a b hr => hr.2.2.2.1) m3 hm3
                  exact hJa (hms2J a ha)
                have hms3stable : structStable ms3o := by
                  obtain ⟨hh, hc, hm⟩ := hms2stable
                  refine ⟨forall2_orphan_head hfa hh,
                    forall2_orphan_chain hfa hc, ?_⟩
                  intro m3 hm3
                  obtain ⟨a, ha, h1, h2⟩ := forall2_orphan_mem hfa
                    (fun a b => b ≠ JValue.null ∧ keepD b = keepD a)
                    (fun a b hr => ⟨hr.1, hr.2.2.1⟩) m3 hm3
                  exact ⟨h1, by rw [h2] ; exact (hm a ha).2⟩
                have horidem : orphanGo none ms3o = .ok (ms3o, false) :=
                  orphanGo_idem ms2 none ms3o ochanged hor none rfl rfl
                by_cases hflags : (sanitized || schanged || ochanged) = true
                · -- re-serialized output: run it again
                  have hrun1 : sanitizeContentBlocksWithStore x s =
                      (printJ (.obj (objSet fs "messages"
                        (.arr (JList.ofList ms3o)))), st1) := by
                    rw [sanitizeContentBlocksWithStore, hp]
                    simp only [hmsg, hph, hL1eq, hst, hM2eq, hor, hM3eq, hflags,
                      if_true]
                  rw [hrun1]
                  simp only []
                  have hwfobj : JWF (.obj (objSet fs "messages"
                      (.arr (JList.ofList ms3o)))) = true := by
                    refine JWF_objSet fs "messages" _ (parseJSON_wf x _ hp) ?_
                    rw [show (JWF (.arr (JList.ofList ms3o)) : Bool)
                        = JWFL (JList.ofList ms3o) from rfl, JWFL_ofList]
                    exact hms3J
                  have hp2 := parseJSON_print _ hwfobj
                  obtain ⟨st2x, hph3⟩ := phase0_of_SM ms3o s
                    (fun m hm => P7_SM (hms3P7 m hm)) s2 hm2
                  have hst2 : sanitizeMessageStructure ms3o = .ok (ms3o, false) := by
                    rw [sanitizeMessageStructure]
                    exact structLoop_stable_id hms3stable 9 false
                  rw [sanitizeContentBlocksWithStore, hp2]
                  simp only [objGet_objSet_self, JList.toList_ofList, hph3,
                    Bool.false_eq_true, if_false, hst2, removeOrphanedToolResults,
                    horidem, Bool.false_or, Bool.or_self]
                · -- nothing changed: the original body comes back in both runs
                  have hfl : sanitized = false ∧ schanged = false ∧
                      ochanged = false := by
                    rcases sanitized with _ | _
                    · rcases schanged with _ | _
                      · rcases ochanged with _ | _
                        · exact ⟨rfl, rfl, rfl⟩
                        · simp at hflags
                      · simp at hflags
                    · simp at hflags
                  obtain ⟨hf1, hf2, hf3⟩ := hfl
                  subst hf1
                  subst hf2
                  subst hf3
                  have hnm2 : nm = msL.toList :=
                    phase0_false_eq msL.toList s nm st1 (by rw [hph])
                  subst hnm2
                  have hms2e : ms2 = msL.toList := by
                    rw [sanitizeMessageStructure] at hst
                    exact (structLoop_noflag 10 msL.toList ms2 hst).1
                  subst hms2e
                  have hrun1 : sanitizeContentBlocksWithStore x s = (x, st1) := by
                    rw [sanitizeContentBlocksWithStore, hp]
                    simp only [hmsg, hph, hL1eq, hst, hM2eq, hor, hM3eq,
                      Bool.or_self, Bool.false_eq_true, if_false]
                  have hrun2 : sanitizeContentBlocksWithStore x s2 = (x, st1b) := by
                    rw [sanitizeContentBlocksWithStore, hp]
                    simp only [hmsg, hph2, hL1eq, hst, hM2eq, hor, hM3eq,
                      Bool.or_self, Bool.false_eq_true, if_false]
                  rw [hrun1]
                  simp only []
                  rw [hrun2]
        · have hrun1 : sanitizeContentBlocksWithStore x s = (x, s) := by
            rw [sanitizeContentBlocksWithStore, hp]
            simp only [hmsg]
          have hrun2 : sanitizeContentBlocksWithStore x s2 = (x, s2) := by
            rw [sanitizeContentBlocksWithStore, hp]
            simp only [hmsg]
          rw [hrun1]
          simp only []
          rw [hrun2]

/-- C7 (confirmed): running the request sanitizer on its own output returns
that output byte-for-byte, whether the second call reuses the original
store or the store as the first call left it. -/
theorem sanitize_idempotent (x : String) (s : SignatureStore) :
    (sanitizeContentBlocksWithStore
      (sanitizeContentBlocksWithStore x s).1 s).1
      = (sanitizeContentBlocksWithStore x s).1 ∧
    (sanitizeContentBlocksWithStore
      (sanitizeContentBlocksWithStore x s).1
      (sanitizeContentBlocksWithStore x s).2).1
      = (sanitizeContentBlocksWithStore x s).1 := by
  refine ⟨sanitize_second_run x s s (memEq_refl s), ?_⟩
  refine sanitize_second_run x s _ ?_
  intro sg
  exact ((sanitize_store_perm x s).1.mem_iff).symm

end CcGlm
